import Mathlib

set_option linter.all false
set_option maxRecDepth 100000

/-!
# Segregated-list allocator (`malloclab/mm-2013-11826.c`)

A shallow embedding of the allocator and a verification development about it.

Memory is a total map from byte addresses to the 32-bit word stored there
(`GET`/`PUT` of the source read and write whole words); addresses and
`size_t` values are natural numbers, and every `size_t` computation that can
wrap is reduced modulo `2^32` (the program is a 32-bit program: it stores
pointers in `unsigned int` words).  The static variables `seg_listp` and
`heap_listp` are explicit: the helpers take `seg_listp` as an argument and
the public functions carry both in the state.  Loops that follow links stored
in memory take a fuel argument and return `none` when it runs out.
-/

namespace MM

/-! ## Constants and macros -/

/-- Memory: the word stored at each byte address. -/
abbrev Mem := Nat → Nat

/-- Word size (bytes). -/
def WSIZE : Nat := 4
/-- Double word size (bytes). -/
def DSIZE : Nat := 8
/-- Extend heap by this amount (bytes): `1<<6`. -/
def CHUNKSIZE : Nat := 64
/-- Maximum count of segregated lists. -/
def MAX_SEGLIST : Nat := 20
/-- Number of values of a 32-bit `size_t`. -/
def U32 : Nat := 4294967296
/-- The mask `~0x7` as a 32-bit unsigned value. -/
def MASK7 : Nat := 4294967288
/-- The pointer `(void *)-1`. -/
def FAIL_PTR : Nat := 4294967295

/-- Unsigned 32-bit addition. -/
def add32 (a b : Nat) : Nat := (a + b) % U32
/-- Unsigned 32-bit subtraction. -/
def sub32 (a b : Nat) : Nat := (a + U32 - b % U32) % U32
/-- Unsigned 32-bit multiplication. -/
def mul32 (a b : Nat) : Nat := (a * b) % U32

/-- `ALIGN(size) = ((size) + (ALIGNMENT-1)) & ~0x7`. -/
def ALIGN (size : Nat) : Nat := add32 size 7 &&& MASK7

/-- `MAX(x, y) = ((x) > (y) ? (x) : (y))`. -/
def MAX (x y : Nat) : Nat := if x > y then x else y

/-- `PACK(size, alloc) = ((size) | (alloc))`. -/
def PACK (size alloc : Nat) : Nat := size ||| alloc

/-- `GET(p)`: read the word at address `p`. -/
def GET (m : Mem) (p : Nat) : Nat := m p

/-- `PUT(p, val)`: write the word at address `p`. -/
def PUT (m : Mem) (p val : Nat) : Mem := fun a => if a = p then val else m a

/-- `GET_SIZE(p) = GET(p) & ~0x7`. -/
def GET_SIZE (m : Mem) (p : Nat) : Nat := GET m p &&& MASK7

/-- `GET_ALLOC(p) = GET(p) & 0x1`. -/
def GET_ALLOC (m : Mem) (p : Nat) : Nat := GET m p &&& 1

/-- `HDRP(bp) = (char *)(bp) - WSIZE`. -/
def HDRP (bp : Nat) : Nat := bp - WSIZE

/-- `FTRP(bp) = (char *)(bp) + GET_SIZE(HDRP(bp)) - DSIZE`. -/
def FTRP (m : Mem) (bp : Nat) : Nat := bp + GET_SIZE m (HDRP bp) - DSIZE

/-- `NEXT_BLKP(bp) = (char *)(bp) + GET_SIZE((char *)(bp) - WSIZE)`. -/
def NEXT_BLKP (m : Mem) (bp : Nat) : Nat := bp + GET_SIZE m (bp - WSIZE)

/-- `PREV_BLKP(bp) = (char *)(bp) - GET_SIZE((char *)(bp) - DSIZE)`. -/
def PREV_BLKP (m : Mem) (bp : Nat) : Nat := bp - GET_SIZE m (bp - DSIZE)

/-- `PUT_SEG(p, ptr)`: store a pointer as a word. -/
def PUT_SEG (m : Mem) (p ptr : Nat) : Mem := PUT m p ptr

/-- `PREV_BLKP_SEG(bp) = (char *)(bp)`: address of the prev-link field. -/
def PREV_BLKP_SEG (bp : Nat) : Nat := bp

/-- `NEXT_BLKP_SEG(bp) = (char *)(bp) + WSIZE`: address of the next-link field. -/
def NEXT_BLKP_SEG (bp : Nat) : Nat := bp + WSIZE

/-- `PREV_BLK_SEG(bp) = *(char **)(bp)`. -/
def PREV_BLK_SEG (m : Mem) (bp : Nat) : Nat := GET m bp

/-- `NEXT_BLK_SEG(bp) = *(char **)(NEXT_BLKP_SEG(bp))`. -/
def NEXT_BLK_SEG (m : Mem) (bp : Nat) : Nat := GET m (NEXT_BLKP_SEG bp)

/-- Address of the list head `GET_LIST(ptr, index) = *((char **)ptr + index)`. -/
def LISTP (ptr index : Nat) : Nat := ptr + WSIZE * index

/-- `GET_LIST(ptr, index)` read as a value. -/
def GET_LIST (m : Mem) (ptr index : Nat) : Nat := GET m (LISTP ptr index)

/-- `GET_LIST(ptr, index) = v` as an assignment. -/
def SET_LIST (m : Mem) (ptr index v : Nat) : Mem := PUT m (LISTP ptr index) v

/-! ## Free-list manipulation -/

/-- The class loop of `free_insert` and `free_remove`:
`while((list < (MAX_SEGLIST - 1)) && (size > 1)) { size = size >> 1; list++; }`,
returning the final `(list, size)`.  The first argument bounds the number of
iterations; `list` grows by one per iteration and stops at 19, so 19
iterations from `list = 0` always reach the exit of the loop. -/
def class_loop : Nat → Nat → Nat → Nat × Nat
  | 0, list, size => (list, size)
  | k + 1, list, size =>
    if list < MAX_SEGLIST - 1 ∧ size > 1 then class_loop k (list + 1) (size >>> 1)
    else (list, size)

/-- The ordering walk of `free_insert`:
`while((list_p != NULL) && (size > GET_SIZE(HDRP(list_p))))
   { insert_p = list_p; list_p = PREV_BLK_SEG(list_p); }`,
returning the final `(list_p, insert_p)`. -/
def insert_walk (m : Mem) (size : Nat) : Nat → Nat → Nat → Option (Nat × Nat)
  | 0, _, _ => none
  | f + 1, list_p, insert_p =>
    if list_p ≠ 0 ∧ size > GET_SIZE m (HDRP list_p) then
      insert_walk m size f (PREV_BLK_SEG m list_p) list_p
    else some (list_p, insert_p)

/-- `free_insert(bp, size)`: insert a free block into its segregated list. -/
def free_insert (fuel : Nat) (m : Mem) (seg bp size0 : Nat) : Option Mem :=
  let ls := class_loop (MAX_SEGLIST - 1) 0 size0
  let list := ls.1
  let size := ls.2
  match insert_walk m size fuel (GET_LIST m seg list) 0 with
  | none => none
  | some (list_p, insert_p) =>
    if list_p ≠ 0 then
      if insert_p ≠ 0 then
        let m1 := PUT_SEG m (PREV_BLKP_SEG insert_p) bp
        let m2 := PUT_SEG m1 (PREV_BLKP_SEG bp) list_p
        let m3 := PUT_SEG m2 (NEXT_BLKP_SEG list_p) bp
        some (PUT_SEG m3 (NEXT_BLKP_SEG bp) insert_p)
      else
        let m1 := PUT_SEG m (PREV_BLKP_SEG bp) list_p
        let m2 := PUT_SEG m1 (NEXT_BLKP_SEG list_p) bp
        let m3 := PUT_SEG m2 (NEXT_BLKP_SEG bp) 0
        some (SET_LIST m3 seg list bp)
    else
      if insert_p ≠ 0 then
        let m1 := PUT_SEG m (PREV_BLKP_SEG insert_p) bp
        let m2 := PUT_SEG m1 (PREV_BLKP_SEG bp) 0
        some (PUT_SEG m2 (NEXT_BLKP_SEG bp) insert_p)
      else
        let m1 := PUT_SEG m (PREV_BLKP_SEG bp) 0
        let m2 := PUT_SEG m1 (NEXT_BLKP_SEG bp) 0
        some (SET_LIST m2 seg list bp)

/-- `free_remove(bp)`: remove a free block from its segregated list. -/
def free_remove (m : Mem) (seg bp : Nat) : Mem :=
  let size := GET_SIZE m (HDRP bp)
  if NEXT_BLK_SEG m bp = 0 then
    let list := (class_loop (MAX_SEGLIST - 1) 0 size).1
    let m1 := SET_LIST m seg list (PREV_BLK_SEG m bp)
    if GET_LIST m1 seg list ≠ 0 then PUT_SEG m1 (NEXT_BLKP_SEG (GET_LIST m1 seg list)) 0
    else m1
  else
    let m1 := PUT_SEG m (PREV_BLKP_SEG (NEXT_BLK_SEG m bp)) (PREV_BLK_SEG m bp)
    if PREV_BLK_SEG m1 bp ≠ 0 then
      PUT_SEG m1 (NEXT_BLKP_SEG (PREV_BLK_SEG m1 bp)) (NEXT_BLK_SEG m1 bp)
    else m1

/-- The scan of one list in `free_find`:
`while((list_p != NULL) && (size > GET_SIZE(HDRP(list_p)))) list_p = PREV_BLK_SEG(list_p);`. -/
def find_walk (m : Mem) (size : Nat) : Nat → Nat → Option Nat
  | 0, _ => none
  | f + 1, list_p =>
    if list_p ≠ 0 ∧ size > GET_SIZE m (HDRP list_p) then
      find_walk m size f (PREV_BLK_SEG m list_p)
    else some list_p

/-- The outer loop `while(list < MAX_SEGLIST)` of `free_find`, with the loop
variables `list`, `s` and `list_p`; the first argument bounds the number of
iterations (20 from `list = 0` reach the exit). -/
def find_loop (fuel : Nat) (m : Mem) (seg size : Nat) : Nat → Nat → Nat → Nat → Option Nat
  | 0, _, _, list_p => some list_p
  | k + 1, list, s, list_p =>
    if list < MAX_SEGLIST then
      if list = MAX_SEGLIST - 1 ∨ (s ≤ 1 ∧ GET_LIST m seg list ≠ 0) then
        match find_walk m size fuel (GET_LIST m seg list) with
        | none => none
        | some lp =>
          if lp ≠ 0 then some lp
          else find_loop fuel m seg size k (list + 1) (s >>> 1) lp
      else find_loop fuel m seg size k (list + 1) (s >>> 1) list_p
    else some list_p

/-- `free_find(size)`: find a location in the free lists for a new block. -/
def free_find (fuel : Nat) (m : Mem) (seg size : Nat) : Option Nat :=
  find_loop fuel m seg size MAX_SEGLIST 0 size 0

/-! ## Coalescing and carving -/

/-- `coalesce(bp)`: join the freed block with its free neighbours (cases 1 to 4). -/
def coalesce (fuel : Nat) (m : Mem) (seg bp : Nat) : Option (Nat × Mem) :=
  let prev := GET_ALLOC m (HDRP (PREV_BLKP m bp))
  let next := GET_ALLOC m (HDRP (NEXT_BLKP m bp))
  let size := GET_SIZE m (HDRP bp)
  if prev ≠ 0 ∧ next ≠ 0 then some (bp, m)
  else if prev ≠ 0 ∧ ¬ (next ≠ 0) then
    let size := add32 size (GET_SIZE m (HDRP (NEXT_BLKP m bp)))
    let m1 := free_remove m seg bp
    let m2 := free_remove m1 seg (NEXT_BLKP m1 bp)
    let m3 := PUT m2 (HDRP bp) (PACK size 0)
    let m4 := PUT m3 (FTRP m3 bp) (PACK size 0)
    (free_insert fuel m4 seg bp size).map (fun m5 => (bp, m5))
  else if ¬ (prev ≠ 0) ∧ next ≠ 0 then
    let size := add32 size (GET_SIZE m (HDRP (PREV_BLKP m bp)))
    let m1 := free_remove m seg bp
    let m2 := free_remove m1 seg (PREV_BLKP m1 bp)
    let m3 := PUT m2 (HDRP (PREV_BLKP m2 bp)) (PACK size 0)
    let m4 := PUT m3 (FTRP m3 bp) (PACK size 0)
    let bp1 := PREV_BLKP m4 bp
    (free_insert fuel m4 seg bp1 size).map (fun m5 => (bp1, m5))
  else
    let size := add32 size
      (add32 (GET_SIZE m (HDRP (PREV_BLKP m bp))) (GET_SIZE m (FTRP m (NEXT_BLKP m bp))))
    let m1 := free_remove m seg (PREV_BLKP m bp)
    let m2 := free_remove m1 seg bp
    let m3 := free_remove m2 seg (NEXT_BLKP m2 bp)
    let m4 := PUT m3 (HDRP (PREV_BLKP m3 bp)) (PACK size 0)
    let m5 := PUT m4 (FTRP m4 (NEXT_BLKP m4 bp)) (PACK size 0)
    let bp1 := PREV_BLKP m5 bp
    (free_insert fuel m5 seg bp1 size).map (fun m6 => (bp1, m6))

/-- `addblock(bp, size)`: carve an allocated block of `size` bytes out of the
free block `bp`. -/
def addblock (fuel : Nat) (m : Mem) (seg bp size : Nat) : Option (Nat × Mem) :=
  let size_freed := GET_SIZE m (HDRP bp)
  let m1 := free_remove m seg bp
  if sub32 size_freed size ≥ 2 * DSIZE then
    if sub32 size_freed size ≥ 200 then
      let m2 := PUT m1 (HDRP bp) (PACK (sub32 size_freed size) 0)
      let m3 := PUT m2 (FTRP m2 bp) (PACK (sub32 size_freed size) 0)
      let np := NEXT_BLKP m3 bp
      let m4 := PUT m3 (HDRP np) (PACK size 1)
      let m5 := PUT m4 (FTRP m4 np) (PACK size 1)
      (free_insert fuel m5 seg bp (sub32 size_freed size)).map (fun m6 => (np, m6))
    else
      let m2 := PUT m1 (HDRP bp) (PACK size 1)
      let m3 := PUT m2 (FTRP m2 bp) (PACK size 1)
      let np := NEXT_BLKP m3 bp
      let m4 := PUT m3 (HDRP np) (PACK (sub32 size_freed size) 0)
      let m5 := PUT m4 (FTRP m4 np) (PACK (sub32 size_freed size) 0)
      (free_insert fuel m5 seg np (sub32 size_freed size)).map (fun m6 => (bp, m6))
  else
    let m2 := PUT m1 (HDRP bp) (PACK size_freed 1)
    let m3 := PUT m2 (FTRP m2 bp) (PACK size_freed 1)
    some (bp, m3)

/-! ## The heap extender and the public functions -/

/-- State of the allocator: the memory, the break and the limit of the heap
extender, and the two static variables of the source. -/
structure State where
  /-- The words of the memory. -/
  mem : Mem
  /-- First address past the heap (`mem_brk`). -/
  mem_brk : Nat
  /-- First address the heap may never reach past (`mem_max_addr`). -/
  mem_max_addr : Nat
  /-- Start point of the segregated lists. -/
  seg_listp : Nat
  /-- Start point of the heap. -/
  heap_listp : Nat

/-- Modelled from the spec: the heap extender `mem_sbrk` (its file
`memlib.c` is not among the sources).  It grows the heap by `incr` bytes at
its high end and returns the old break, so that the new memory is contiguous
with the previous top of the heap; it fails, returning `(void *)-1` and
leaving everything as it was, when the heap would pass its limit. -/
def mem_sbrk (s : State) (incr : Nat) : Nat × State :=
  if s.mem_brk + incr ≤ s.mem_max_addr then
    (s.mem_brk, { s with mem_brk := s.mem_brk + incr })
  else (FAIL_PTR, s)

/-- The byte count `size = (((words + 1) >> 1) << 1) * WSIZE` of `extend_heap`. -/
def extend_size (words : Nat) : Nat := mul32 (((add32 words 1) >>> 1) <<< 1 % U32) WSIZE

/-- `extend_heap(words)`: extend the heap by `words` words; the result pointer
is `0` for `NULL`. -/
def extend_heap (fuel : Nat) (s : State) (words : Nat) : Option (Nat × State) :=
  let size := extend_size words
  let r := mem_sbrk s size
  let bp := r.1
  let s1 := r.2
  if bp = FAIL_PTR then some (0, s1)
  else
    let m1 := PUT s1.mem (HDRP bp) (PACK size 0)
    let m2 := PUT m1 (FTRP m1 bp) (PACK size 0)
    let m3 := PUT m2 (HDRP (NEXT_BLKP m2 bp)) (PACK 0 1)
    match free_insert fuel m3 s1.seg_listp bp size with
    | none => none
    | some m4 =>
      (coalesce fuel m4 s1.seg_listp bp).map (fun r => (r.1, { s1 with mem := r.2 }))

/-- The loop `for(list = 0; list < MAX_SEGLIST; list++) GET_LIST(seg_listp, list) = NULL;`
of `mm_init`, as the iterations from `list` with `k` of them left. -/
def init_lists (m : Mem) (seg : Nat) : Nat → Nat → Mem
  | 0, _ => m
  | k + 1, list => init_lists (SET_LIST m seg list 0) seg k (list + 1)

/-- `mm_init()`: initialise the segregated lists and the heap; the result is
`0` on success and `-1` (as an integer) on error. -/
def mm_init (fuel : Nat) (s : State) : Option (Int × State) :=
  let r := mem_sbrk s (MAX_SEGLIST * WSIZE)
  let seg := r.1
  let s1 := { r.2 with seg_listp := seg }
  let s2 := { s1 with mem := init_lists s1.mem seg MAX_SEGLIST 0 }
  let r2 := mem_sbrk s2 (4 * WSIZE)
  let hp := r2.1
  let s3 := { r2.2 with heap_listp := hp }
  if hp = FAIL_PTR then some (-1, s3)
  else
    let m1 := PUT s3.mem hp 0
    let m2 := PUT m1 (hp + 1 * WSIZE) (PACK DSIZE 1)
    let m3 := PUT m2 (hp + 2 * WSIZE) (PACK DSIZE 1)
    let m4 := PUT m3 (hp + 3 * WSIZE) (PACK 0 1)
    let s4 := { s3 with mem := m4, heap_listp := hp + 2 * WSIZE }
    match extend_heap fuel s4 (CHUNKSIZE / WSIZE) with
    | none => none
    | some (p, s5) => if p = 0 then some (-1, s5) else some (0, s5)

/-- The block size `mm_malloc` computes for a request of `size` bytes:
`if(size <= DSIZE) new_size = 2 * DSIZE;
 else new_size = DSIZE * ((size + (DSIZE) + (DSIZE - 1)) / DSIZE);`. -/
def malloc_size (size : Nat) : Nat :=
  if size ≤ DSIZE then 2 * DSIZE
  else mul32 DSIZE (add32 (add32 size DSIZE) (DSIZE - 1) / DSIZE)

/-- `mm_malloc(size)`: find a location in the free lists, extend the heap if
there is none; the result pointer is `0` for `NULL`. -/
def mm_malloc (fuel : Nat) (s : State) (size : Nat) : Option (Nat × State) :=
  if size = 0 then some (0, s)
  else
    let new_size := malloc_size size
    match free_find fuel s.mem s.seg_listp new_size with
    | none => none
    | some bp =>
      if bp ≠ 0 then
        (addblock fuel s.mem s.seg_listp bp new_size).map
          (fun r => (r.1, { s with mem := r.2 }))
      else
        let add_heap_size := MAX new_size CHUNKSIZE
        match extend_heap fuel s (add_heap_size / WSIZE) with
        | none => none
        | some (bp, s1) =>
          if bp = 0 then some (0, s1)
          else
            (addblock fuel s1.mem s1.seg_listp bp new_size).map
              (fun r => (r.1, { s1 with mem := r.2 }))

/-- `mm_free(ptr)`: mark the block free, insert it into the free list and coalesce. -/
def mm_free (fuel : Nat) (s : State) (ptr : Nat) : Option State :=
  let size := GET_SIZE s.mem (HDRP ptr)
  let m1 := PUT s.mem (HDRP ptr) (PACK size 0)
  let m2 := PUT m1 (FTRP m1 ptr) (PACK size 0)
  match free_insert fuel m2 s.seg_listp ptr size with
  | none => none
  | some m3 => (coalesce fuel m3 s.seg_listp ptr).map (fun r => { s with mem := r.2 })

/-- `memcpy(dst, src, n)` on regions that do not overlap. -/
def memcpy (m : Mem) (dst src n : Nat) : Mem :=
  fun a => if dst ≤ a ∧ a < dst + n then m (src + (a - dst)) else m a

/-- `mm_realloc(ptr, size)`; the result pointer is `0` for `NULL`. -/
def mm_realloc (fuel : Nat) (s : State) (ptr size : Nat) : Option (Nat × State) :=
  if ptr = 0 then mm_malloc fuel s size
  else if size = 0 then (mm_free fuel s ptr).map (fun s1 => (0, s1))
  else
    let seg := s.seg_listp
    let m := s.mem
    let oldptr := ptr
    let newSize := ALIGN size
    let copySize := sub32 (GET_SIZE m (HDRP oldptr)) DSIZE
    if newSize = copySize then some (ptr, s)
    else if newSize < copySize then
      if sub32 (sub32 copySize newSize) DSIZE ≤ DSIZE then some (oldptr, s)
      else
        let m1 := PUT m (HDRP oldptr) (PACK (add32 newSize DSIZE) 1)
        let m2 := PUT m1 (FTRP m1 oldptr) (PACK (add32 newSize DSIZE) 1)
        let newptr := oldptr
        let oldptr := NEXT_BLKP m2 newptr
        let m3 := PUT m2 (HDRP oldptr) (PACK (sub32 copySize newSize) 0)
        let m4 := PUT m3 (FTRP m3 oldptr) (PACK (sub32 copySize newSize) 0)
        match free_insert fuel m4 seg oldptr (GET_SIZE m4 (HDRP oldptr)) with
        | none => none
        | some m5 =>
          (coalesce fuel m5 seg oldptr).map (fun r => (newptr, { s with mem := r.2 }))
    else
      let nextptr := NEXT_BLKP m oldptr
      let nextSize := GET_SIZE m (HDRP nextptr)
      if (nextptr ≠ 0 ∧ ¬ (GET_ALLOC m (HDRP nextptr) ≠ 0))
          ∧ add32 nextSize copySize ≥ newSize then
        let m1 := free_remove m seg nextptr
        if sub32 (add32 nextSize copySize) newSize ≤ DSIZE then
          let m2 := PUT m1 (HDRP oldptr) (PACK (add32 (add32 copySize nextSize) DSIZE) 1)
          let m3 := PUT m2 (FTRP m2 oldptr) (PACK (add32 (add32 copySize nextSize) DSIZE) 1)
          some (oldptr, { s with mem := m3 })
        else
          let m2 := PUT m1 (HDRP oldptr) (PACK (add32 newSize DSIZE) 1)
          let m3 := PUT m2 (FTRP m2 oldptr) (PACK (add32 newSize DSIZE) 1)
          let newptr := oldptr
          let oldptr := NEXT_BLKP m3 newptr
          let m4 := PUT m3 (HDRP oldptr) (PACK (sub32 (add32 copySize nextSize) newSize) 0)
          let m5 := PUT m4 (FTRP m4 oldptr) (PACK (sub32 (add32 copySize nextSize) newSize) 0)
          match free_insert fuel m5 seg oldptr (GET_SIZE m5 (HDRP oldptr)) with
          | none => none
          | some m6 =>
            (coalesce fuel m6 seg oldptr).map (fun r => (newptr, { s with mem := r.2 }))
      else
        match mm_malloc fuel s size with
        | none => none
        | some (newptr, s1) =>
          if newptr = 0 then some (0, s1)
          else
            let s2 := { s1 with mem := memcpy s1.mem newptr oldptr copySize }
            (mm_free fuel s2 oldptr).map (fun s3 => (newptr, s3))

/-! ## Sequences of calls -/

/-- Usable size of the block at `p`: the size in its header minus the 8 bytes
of header and footer. -/
def usable (m : Mem) (p : Nat) : Nat := GET_SIZE m (HDRP p) - DSIZE

/-- One step of a caller: a call of `mm_malloc`, `mm_free` or `mm_realloc`, or
a store of one word into a region the caller holds. -/
inductive Op where
  | malloc (size : Nat)
  | free (ptr : Nat)
  | realloc (ptr size : Nat)
  | store (ptr off val : Nat)
  deriving DecidableEq, Repr

/-- The allocator state together with the regions the caller holds: the
pointers returned by `mm_malloc`/`mm_realloc` and not yet freed or moved. -/
structure Config where
  /-- State of the allocator. -/
  st : State
  /-- The live pointers. -/
  live : List Nat

/-- The caller contract for one step: sizes and stored words are 32-bit values,
only live pointers are freed or resized, and the caller stores only inside
the usable region of a live pointer. -/
def Op.ok (c : Config) : Op → Bool
  | .malloc n => decide (n < U32)
  | .free p => decide (p ∈ c.live)
  | .realloc p n => decide (n < U32) && (decide (p = 0) || decide (p ∈ c.live))
  | .store p off v =>
    decide (p ∈ c.live) && decide (off % 4 = 0) && decide (off + 4 ≤ usable c.st.mem p)
      && decide (v < U32)

/-- The live pointers after a call that returned `q`, for `mm_malloc` (and for
`mm_realloc` of `NULL`). -/
def live_add (live : List Nat) (q : Nat) : List Nat := if q = 0 then live else q :: live

/-- Run one step; the result is the pointer the call returned (`0` for `NULL`
and for the steps that return nothing). -/
def step (fuel : Nat) (c : Config) : Op → Option (Nat × Config)
  | .malloc n =>
    (mm_malloc fuel c.st n).map (fun r => (r.1, ⟨r.2, live_add c.live r.1⟩))
  | .free p => (mm_free fuel c.st p).map (fun s => (0, ⟨s, c.live.erase p⟩))
  | .realloc p n =>
    (mm_realloc fuel c.st p n).map (fun r =>
      (r.1, ⟨r.2,
        if p = 0 then live_add c.live r.1
        else if n = 0 then c.live.erase p
        else if r.1 = 0 then c.live
        else r.1 :: c.live.erase p⟩))
  | .store p off v => some (0, ⟨{ c.st with mem := PUT c.st.mem (p + off) v }, c.live⟩)

/-- Run a sequence of steps, collecting the returned pointers. -/
def run (fuel : Nat) : Config → List Op → Option (List Nat × Config)
  | c, [] => some ([], c)
  | c, op :: ops =>
    match step fuel c op with
    | none => none
    | some (r, c1) => (run fuel c1 ops).map (fun x => (r :: x.1, x.2))

/-- The sequence respects the caller contract: every step is allowed in the
configuration it is run in. -/
def respects (fuel : Nat) : Config → List Op → Bool
  | _, [] => true
  | c, op :: ops =>
    op.ok c &&
      match step fuel c op with
      | none => true
      | some (_, c1) => respects fuel c1 ops

/-- Call `mm_init` on a heap that was never used and start with no live pointer. -/
def boot (fuel : Nat) (s : State) : Option Config :=
  (mm_init fuel s).map (fun r => ⟨r.2, []⟩)

/-- A heap that was never used, with base address `base` and `cap` bytes of
room, all words zero. -/
def blank (base cap : Nat) : State :=
  { mem := fun _ => 0, mem_brk := base, mem_max_addr := base + cap,
    seg_listp := 0, heap_listp := 0 }

/-- Run `mm_init` on the state `s` of a heap that was never used, and then a
sequence of steps. -/
def trace (fuel : Nat) (s : State) (ops : List Op) : Option (List Nat × Config) :=
  (boot fuel s).bind (fun c => run fuel c ops)

/-- The sequence respects the caller contract when run after `mm_init` on `s`. -/
def trace_ok (fuel : Nat) (s : State) (ops : List Op) : Bool :=
  match boot fuel s with
  | none => false
  | some c => respects fuel c ops

/-- The blocks of a free list read from `p` along the links that `free_find`
follows (`PREV_BLK_SEG`), at most `fuel` of them. -/
def list_nodes (m : Mem) : Nat → Nat → List Nat
  | 0, _ => []
  | f + 1, p => if p = 0 then [] else p :: list_nodes m f (PREV_BLK_SEG m p)

/-- The sizes of the blocks of list `k`, read from its head. -/
def list_sizes (m : Mem) (fuel seg k : Nat) : List Nat :=
  (list_nodes m fuel (GET_LIST m seg k)).map (fun p => GET_SIZE m (HDRP p))

/-- The blocks of the heap read from the block `bp` by `NEXT_BLKP` up to the
first header of size zero (the epilogue), with their sizes and allocation
bits; at most `fuel` of them. -/
def heap_blocks (m : Mem) : Nat → Nat → List (Nat × Nat × Nat)
  | 0, _ => []
  | f + 1, bp =>
    if GET_SIZE m (HDRP bp) = 0 then []
    else (bp, GET_SIZE m (HDRP bp), GET_ALLOC m (HDRP bp)) :: heap_blocks m f (NEXT_BLKP m bp)

/-! ## The heap as a sequence of blocks and as twenty lists

The definitions below describe a memory from the outside: which blocks tile
the heap, which blocks each list links, and what it means for the memory to
agree with such a description. -/

/-- A block of the heap: the address of its payload, its size (header and
footer included) and whether it is allocated. -/
structure Blk where
  /-- Address of the payload (the block pointer `bp`). -/
  addr : Nat
  /-- Size of the block in bytes. -/
  size : Nat
  /-- Allocation bit. -/
  alloc : Bool
  deriving DecidableEq, Repr

/-- The word a header or footer of the block holds. -/
def Blk.tag (b : Blk) : Nat := b.size + (if b.alloc then 1 else 0)

/-- The blocks `bl` tile the addresses from `a` to `e` without gaps, each with
a size that is a multiple of 8 and at least 16. -/
def Chained : Nat → List Blk → Nat → Prop
  | a, [], e => a = e
  | a, b :: bs, e => b.addr = a ∧ 16 ≤ b.size ∧ b.size % 8 = 0 ∧ Chained (a + b.size) bs e

/-- Header and footer of every block of `bl` hold its tag. -/
def Tagged (m : Mem) (bl : List Blk) : Prop :=
  ∀ b ∈ bl, m (b.addr - 4) = b.tag ∧ m (b.addr + b.size - 8) = b.tag

/-- The nodes `l` form a doubly linked chain in memory: the next-link of the
first is `nxt`, the prev-link of each is the node that follows it in `l`, and
the prev-link of the last is `t`. -/
def Links (m : Mem) : Nat → List Nat → Nat → Prop
  | _, [], _ => True
  | nxt, p :: rest, t => m (p + 4) = nxt ∧ m p = rest.headD t ∧ Links m p rest t

/-- The class index the class loop computes for a size. -/
def cls (size : Nat) : Nat := (class_loop (MAX_SEGLIST - 1) 0 size).1

/-- The memory `m` agrees with the description: the blocks `bl` tile the heap
between the prologue and the epilogue, which ends at `brk`, and list `k` links
exactly the nodes `fl k`, each a free block of `bl` of class `k`. -/
structure Inv (m : Mem) (seg brk : Nat) (bl : List Blk) (fl : Nat → List Nat) : Prop where
  seg_pos : 0 < seg
  seg_al : seg % 8 = 0
  brk_lt : brk < FAIL_PTR
  chained : Chained (seg + 96) bl brk
  pro_h : m (seg + 84) = 9
  pro_f : m (seg + 88) = 9
  epi : m (brk - 4) = 1
  tagged : Tagged m bl
  heads : ∀ k < 20, m (seg + 4 * k) = (fl k).headD 0
  links : ∀ k, Links m 0 (fl k) 0
  nodes : ∀ k, ∀ p ∈ fl k, ∃ b ∈ bl, b.addr = p ∧ b.alloc = false ∧ cls b.size = k
  nodup : ∀ k, (fl k).Nodup

/-- Every free block is linked in the list of its class. -/
def Covered (bl : List Blk) (fl : Nat → List Nat) : Prop :=
  ∀ b ∈ bl, b.alloc = false → b.addr ∈ fl (cls b.size)

/-- No two neighbouring blocks are both free. -/
def NoAdj (bl : List Blk) : Prop :=
  List.Chain' (fun b c : Blk => b.alloc = true ∨ c.alloc = true) bl

/-- The state is well formed: its memory agrees with the description
`bl`, `fl`, every free block is linked, and no two neighbours are free. -/
structure WF (s : State) (bl : List Blk) (fl : Nat → List Nat) : Prop where
  inv : Inv s.mem s.seg_listp s.mem_brk bl fl
  hp : s.heap_listp = s.seg_listp + 88
  brk_le : s.mem_brk ≤ s.mem_max_addr
  max_lt : s.mem_max_addr ≤ FAIL_PTR
  cov : Covered bl fl
  noadj : NoAdj bl

/-- Only list heads and link fields of free blocks differ between `m` and `m1`. -/
def LinkFrame (seg : Nat) (bl : List Blk) (m m1 : Mem) : Prop :=
  ∀ a, (a < seg ∨ seg + 80 ≤ a) →
    (∀ c ∈ bl, c.alloc = false → a ≠ c.addr ∧ a ≠ c.addr + 4) → m1 a = m a

/-- Only list heads and words inside free blocks differ between `m` and `m1`. -/
def FreeFrame (seg : Nat) (bl : List Blk) (m m1 : Mem) : Prop :=
  ∀ a, (a < seg ∨ seg + 80 ≤ a) →
    (∀ c ∈ bl, c.alloc = false → a + 4 < c.addr ∨ c.addr + c.size ≤ a + 4) → m1 a = m a

/-- The two descriptions have the same allocated blocks. -/
def AllocEq (bl bl1 : List Blk) : Prop :=
  ∀ c : Blk, c.alloc = true → (c ∈ bl1 ↔ c ∈ bl)

/-- The payloads of the allocated blocks of `bl`, the block at `skip` apart,
hold the same words in `m1` as in `m`. -/
def PayloadKept (bl : List Blk) (skip : Nat) (m m1 : Mem) : Prop :=
  ∀ c ∈ bl, c.alloc = true → c.addr ≠ skip →
    ∀ a, c.addr ≤ a → a + 8 < c.addr + c.size → m1 a = m a

/-- The live pointers are exactly the addresses of the allocated blocks. -/
def LiveOK (live : List Nat) (bl : List Blk) : Prop :=
  live.Nodup ∧ ∀ p, p ∈ live ↔ ∃ b ∈ bl, b.addr = p ∧ b.alloc = true

/-- The state after an `mm_init` that could not get its 16 bytes: every list
is empty and the heap has less than 16 bytes of room left. -/
structure Dead (s : State) : Prop where
  heads : ∀ k < 20, s.mem (s.seg_listp + 4 * k) = 0
  full : s.mem_max_addr < s.mem_brk + 16

/-- A heap that `mm_init` can start on: the break is 8-aligned and not null,
the first 80 bytes are available, and addresses are 32-bit values. -/
structure Fresh (s : State) : Prop where
  pos : 0 < s.mem_brk
  al : s.mem_brk % 8 = 0
  room : s.mem_brk + 80 ≤ s.mem_max_addr
  max_le : s.mem_max_addr ≤ FAIL_PTR

/-- The request size is small enough that rounding it up does not wrap. -/
def Op.small : Op → Prop
  | .malloc n => n + 16 ≤ U32
  | .free _ => True
  | .realloc _ n => n + 16 ≤ U32
  | .store _ _ _ => True

/-- What holds between calls: the state is well formed and the live pointers
are its allocated blocks, or `mm_init` failed early and nothing is live. -/
def Good (c : Config) : Prop :=
  (∃ bl fl, WF c.st bl fl ∧ LiveOK c.live bl) ∨ (Dead c.st ∧ c.live = [])

end MM

namespace MM

/-- What a call `mm_realloc(b.addr, n)` on an allocated block `b` of a well-formed
state leaves: it returned `NULL` and changed nothing, or it returned the
address `q` of an allocated block of at least `n + 8` bytes that replaces `b`
among the allocated blocks, holds the first bytes of `b`, and the payloads of
the other allocated blocks are kept. -/
def ReallocOK (s : State) (bl : List Blk) (b : Blk) (n q : Nat) (s1 : State) : Prop :=
  s1.mem_max_addr = s.mem_max_addr ∧ s1.seg_listp = s.seg_listp ∧
  ((q = 0 ∧ s1 = s) ∨
   (q ≠ 0 ∧ ∃ bl1 fl1 a, WF s1 bl1 fl1 ∧ a ∈ bl1 ∧ a.addr = q ∧ a.alloc = true ∧
      n + 8 ≤ a.size ∧
      (∀ c ∈ bl, c.alloc = true → c ≠ b → c.addr ≠ q) ∧
      (∀ c : Blk, c.alloc = true → (c ∈ bl1 ↔ (c ∈ bl ∧ c ≠ b) ∨ c = a)) ∧
      (∀ i, i < b.size - 8 → i < n → s1.mem (q + i) = s.mem (b.addr + i)) ∧
      PayloadKept bl b.addr s.mem s1.mem))

/-- The memory `mm_init` leaves before it extends the heap: the twenty list
heads are null, and the padding word, the prologue and the epilogue are written
behind them. -/
def init_mem (m : Mem) (seg : Nat) : Mem :=
  PUT (PUT (PUT (PUT (init_lists m seg MAX_SEGLIST 0) (seg + 80) 0) (seg + 84) 9) (seg + 88) 9)
    (seg + 92) 1

/-- The state `mm_init` leaves before it extends the heap. -/
def init_state (s : State) : State :=
  { mem := init_mem s.mem s.mem_brk, mem_brk := s.mem_brk + 96, mem_max_addr := s.mem_max_addr,
    seg_listp := s.mem_brk, heap_listp := s.mem_brk + 88 }

instance (op : Op) : Decidable op.small := by
  cases op <;> unfold Op.small <;> infer_instance

/-- The state is well formed and the live pointers are its allocated blocks. -/
def Alive (c : Config) : Prop := ∃ bl fl, WF c.st bl fl ∧ LiveOK c.live bl

/-- No two neighbours in a list of blocks read from the heap, each with its
address, size and allocation bit, both have allocation bit 0. -/
def no_adjacent_free : List (Nat × Nat × Nat) → Bool
  | x :: y :: rest => !(decide (x.2.2 = 0) && decide (y.2.2 = 0)) && no_adjacent_free (y :: rest)
  | _ => true

/-- What one step of a caller guarantees about the pointer `q` it returned:
a pointer that is not null is live afterwards, its block is marked allocated
and has at least the requested usable size, and after a resize of `p` it
holds the first bytes of the region at `p`. -/
def StepOK (c : Config) (q : Nat) (c1 : Config) : Op → Prop
  | .malloc n =>
    q ≠ 0 → q ∈ c1.live ∧ GET_ALLOC c1.st.mem (HDRP q) = 1 ∧ n ≤ usable c1.st.mem q
  | .free _ => q = 0
  | .realloc p n =>
    q ≠ 0 → q ∈ c1.live ∧ GET_ALLOC c1.st.mem (HDRP q) = 1 ∧ n ≤ usable c1.st.mem q ∧
      (p ≠ 0 → ∀ i, i < usable c.st.mem p → i < n → c1.st.mem (q + i) = c.st.mem (p + i))
  | .store _ _ _ => q = 0

end MM

namespace MM

/-! ## Concrete heaps and call sequences -/

/-- A blank heap at address 1000 with 4096 bytes of room. -/
def heap0 : State := blank 1000 4096

/-- Fuel for the link-following loops on `heap0`: its last address. -/
def fuel0 : Nat := 5096

/-- A request whose rounding wraps to a block size of zero. -/
def ops_wrap_once : List Op := [.malloc 4294967288]

/-- A request whose rounding wraps, after a word the caller stored in its block. -/
def ops_wrap_align : List Op :=
  [.malloc 8, .store 1096 0 1124, .realloc 1096 4294967288, .store 1112 8 32, .malloc 24]

/-- A request whose rounding wraps to a block size of zero, and a second request. -/
def ops_wrap_twice : List Op := [.malloc 4294967288, .malloc 8]

/-- A request whose rounding wraps, made through `mm_realloc` next to a free block. -/
def ops_wrap_adjacent : List Op :=
  [.malloc 24, .malloc 8, .malloc 8, .malloc 8, .free 1144, .store 1096 8 32,
    .store 1096 12 17, .realloc 1096 4294967288, .free 1160]

/-- An allocation of 24 bytes and a word stored at its start. -/
def ops_stored : List Op := [.malloc 24, .store 1096 0 7]

/-- A resize of that allocation to a size that `ALIGN` rounds to zero. -/
def ops_wrap_resize : List Op := ops_stored ++ [.realloc 1096 4294967295]

/-- An allocation of 32 bytes. -/
def ops_one32 : List Op := [.malloc 32]

/-- A shrinking resize of that allocation that leaves 16 bytes. -/
def ops_shrink16 : List Op := ops_one32 ++ [.realloc 1096 16]

/-- A shrinking resize that leaves 24 bytes. -/
def ops_shrink24 : List Op := [.malloc 40, .realloc 1096 16]

/-- An allocation of 16 bytes followed by a free block of 1048 bytes. -/
def ops_before_grow : List Op := [.malloc 16, .malloc 1000, .free 1120]

/-- A growing resize into the large free block that follows. -/
def ops_grow : List Op := ops_before_grow ++ [.realloc 1096 24]

/-- Five allocations, two of them released: the block of 16 bytes first, the
block of 24 bytes last. -/
def ops_two_free : List Op :=
  [.malloc 16, .malloc 8, .malloc 8, .malloc 8, .malloc 8, .free 1160, .free 1096]

/-- A memory with the tags of a free block of 16 bytes at 1096 and of a free
block of 24 bytes at 1128, both between allocated blocks, and every list empty
(the list heads are at 1000). -/
def two_free : Mem :=
  PUT (PUT (PUT (PUT (PUT (PUT (fun _ => 0) 1092 16) 1104 16) 1108 17) 1120 17) 1124 24) 1144 24

/-- A sequence of ordinary calls. -/
def ops_plain : List Op :=
  [.malloc 16, .malloc 100, .store 1096 4 77, .free 1096, .realloc 1120 300, .malloc 0]

/-- A heap with room for the lists, the prologue and one extension only. -/
def heap_small : State := blank 1000 160

/-- The state of that heap after `mm_init` and `mm_malloc(8)`: one allocated
block at 1096, one free block of 48 bytes, and no room to extend. -/
def heap_full : State :=
  match (boot 200 heap_small).bind (fun c => step 200 c (.malloc 8)) with
  | some x => x.2.st
  | none => heap_small

end MM

namespace MM

/-! ## The consistency checker -/

/-- The inner loop of the first phase of `mm_check`:
`while(bp != NULL) { if(GET_ALLOC(bp)) e = 0; bp = PREV_BLK_SEG(bp); }`,
returning the final `e`. -/
def check_marks (m : Mem) : Nat → Nat → Nat → Option Nat
  | 0, _, _ => none
  | f + 1, bp, e =>
    if bp ≠ 0 then check_marks m f (PREV_BLK_SEG m bp) (if GET_ALLOC m bp ≠ 0 then 0 else e)
    else some e

/-- The first phase of `mm_check`, `while(list < MAX_SEGLIST) { bp = GET_LIST(seg_listp, list);
... list++; }`; the first argument bounds the number of iterations. -/
def check_lists (fuel : Nat) (m : Mem) (seg : Nat) : Nat → Nat → Nat → Option Nat
  | 0, _, e => some e
  | k + 1, list, e =>
    if list < MAX_SEGLIST then
      match check_marks m fuel (GET_LIST m seg list) e with
      | none => none
      | some e1 => check_lists fuel m seg k (list + 1) e1
    else some e

/-- The scan of one list in the search of `mm_check` for the block `bp`:
`while(tmp != NULL) { if(tmp == bp) break; tmp = PREV_BLK_SEG(tmp); }`,
returning the final `tmp`. -/
def seek_walk (m : Mem) (bp : Nat) : Nat → Nat → Option Nat
  | 0, _ => none
  | f + 1, tmp =>
    if tmp ≠ 0 then
      if tmp = bp then some tmp else seek_walk m bp f (PREV_BLK_SEG m tmp)
    else some tmp

/-- The search of `mm_check` for the block `bp` in the lists,
`while(list < MAX_SEGLIST) { tmp = GET_LIST(seg_listp, list); ...; if(tmp == bp) break; list++; }`,
returning the final `tmp`. -/
def seek_lists (fuel : Nat) (m : Mem) (seg bp : Nat) : Nat → Nat → Nat → Option Nat
  | 0, _, tmp => some tmp
  | k + 1, list, tmp =>
    if list < MAX_SEGLIST then
      match seek_walk m bp fuel (GET_LIST m seg list) with
      | none => none
      | some t => if t = bp then some t else seek_lists fuel m seg bp k (list + 1) t
    else some tmp

/-- The second phase of `mm_check`, the walk over the heap
`while(!(GET_ALLOC(HDRP(bp)) == 1) && !GET_SIZE(HDRP(bp))) { ...; bp = NEXT_BLKP(bp); }`,
returning the final `e`. -/
def check_heap (fuel : Nat) (m : Mem) (seg : Nat) : Nat → Nat → Nat → Option Nat
  | 0, _, _ => none
  | f + 1, bp, e =>
    if ¬ (GET_ALLOC m (HDRP bp) = 1) ∧ GET_SIZE m (HDRP bp) = 0 then
      let np := NEXT_BLKP m bp
      let e1 := if GET_ALLOC m (HDRP bp) = 0 ∧ GET_ALLOC m (HDRP np) = 0 then 0 else e
      let found :=
        if GET_ALLOC m (HDRP bp) = 0 then
          (seek_lists fuel m seg bp MAX_SEGLIST 0 0).map (fun tmp => if tmp ≠ bp then 0 else e1)
        else some e1
      match found with
      | none => none
      | some e2 =>
        let e3 := if GET_SIZE m (HDRP bp) ≠ GET_SIZE m (FTRP m bp) then 0 else e2
        let e4 := if GET_ALLOC m (HDRP bp) ≠ GET_ALLOC m (FTRP m bp) then 0 else e3
        let e5 := if bp % DSIZE ≠ 0 then 0 else e4
        check_heap fuel m seg f (NEXT_BLKP m bp) e5
    else some e

/-- `mm_check()`: the heap consistency checker; the result is `1` for OK and `0`
for an error. -/
def mm_check (fuel : Nat) (s : State) : Option Nat :=
  match check_lists fuel s.mem s.seg_listp MAX_SEGLIST 0 1 with
  | none => none
  | some e => check_heap fuel s.mem s.seg_listp fuel s.heap_listp e

/-! ## Reading the heap -/

/-- The blocks read from the heap, each with its address and size, lie one
behind the other from `a` to `e` without gaps. -/
def tiles : Nat → List (Nat × Nat × Nat) → Nat → Prop
  | a, [], e => a = e
  | a, f :: fs, e => f.1 = a ∧ tiles (a + f.2.1) fs e

/-- List `k` of the state read from its head along the links `free_find` follows. -/
def list_of (fuel : Nat) (s : State) (k : Nat) : List Nat :=
  list_nodes s.mem fuel (GET_LIST s.mem s.seg_listp k)

/-- The blocks of the heap of the state read from the first block to the epilogue. -/
def blocks_of (fuel : Nat) (s : State) : List (Nat × Nat × Nat) :=
  heap_blocks s.mem fuel (s.heap_listp + 8)

/-- The state a sequence of calls leaves after `mm_init` on `s` (`s` itself when a
call does not return). -/
def state_after (fuel : Nat) (s : State) (ops : List Op) : State :=
  match trace fuel s ops with
  | some x => x.2.st
  | none => s

/-- The size of the block at `bp` plus the sizes of those of its two physical
neighbours whose allocation bit is 0. -/
def merged_size (m : Mem) (bp : Nat) : Nat :=
  GET_SIZE m (HDRP bp)
    + (if GET_ALLOC m (HDRP (PREV_BLKP m bp)) = 0 then GET_SIZE m (HDRP (PREV_BLKP m bp)) else 0)
    + (if GET_ALLOC m (HDRP (NEXT_BLKP m bp)) = 0 then GET_SIZE m (HDRP (NEXT_BLKP m bp)) else 0)

/-- The memory `mm_free(ptr)` passes to `coalesce`: the block is marked free and
inserted into its list. -/
def marked_free (fuel : Nat) (s : State) (ptr : Nat) : Mem :=
  let size := GET_SIZE s.mem (HDRP ptr)
  let m1 := PUT s.mem (HDRP ptr) (PACK size 0)
  let m2 := PUT m1 (FTRP m1 ptr) (PACK size 0)
  match free_insert fuel m2 s.seg_listp ptr size with
  | none => s.mem
  | some m3 => m3

/-! ## More call sequences -/

/-- Scenario B: a block of 1000 bytes, a block of 16 bytes, the first released. -/
def ops_released_big : List Op := [.malloc 1000, .malloc 16, .free 1096]

/-- Scenario B with the allocation that follows. -/
def ops_scenario_b : List Op := ops_released_big ++ [.malloc 16]

/-- A small allocation and a request whose rounding wraps to a block size of zero. -/
def ops_wrap_footer : List Op := [.malloc 8, .malloc 4294967288]

/-- A request whose rounding wraps to a block size of zero, released again. -/
def ops_wrap_release : List Op := [.malloc 4294967288, .free 1096]

/-- Three allocations with the middle one released: a free block between two
allocated blocks, and a free block at the end of the heap. -/
def ops_hole : List Op := [.malloc 16, .malloc 16, .malloc 100, .free 1120]

/-- Seven allocations of 16 bytes, then the first, the third and the fifth
released: three free blocks in one list and one free block alone in another. -/
def ops_three_free : List Op :=
  [.malloc 16, .malloc 16, .malloc 16, .malloc 16, .malloc 16, .malloc 16, .malloc 16,
    .free 1096, .free 1144, .free 1192]

/-- The heap the calls `ops_hole` leave. -/
def heap_hole : State := state_after fuel0 heap0 ops_hole

/-- The heap the calls `ops_released_big` leave. -/
def heap_released : State := state_after fuel0 heap0 ops_released_big

/-- The heap the calls `ops_three_free` leave. -/
def heap_three : State := state_after fuel0 heap0 ops_three_free

end MM

namespace MM

/-! ## Words: masks, tags and 32-bit arithmetic -/

theorem testBit_MASK7 (i : Nat) : MASK7.testBit i = (decide (3 ≤ i) && decide (i < 32)) := by
  have h : MASK7 = (2 ^ 29 - 1) <<< 3 := by decide
  rw [h, Nat.testBit_shiftLeft, Nat.testBit_two_pow_sub_one]
  by_cases h3 : 3 ≤ i
  · by_cases h32 : i < 32
    · have : i - 3 < 29 := by omega
      simp [h3, h32, this]
    · have : ¬ (i - 3 < 29) := by omega
      simp [h3, h32, this]
  · simp [h3]

theorem and_MASK7 (v : Nat) (hv : v < U32) : v &&& MASK7 = v - v % 8 := by
  apply Nat.eq_of_testBit_eq
  intro i
  rw [Nat.testBit_and, testBit_MASK7]
  have hv8 : v - v % 8 = 2 ^ 3 * (v / 8) := by omega
  rw [hv8, Nat.testBit_mul_pow_two]
  by_cases h3 : 3 ≤ i
  · by_cases h32 : i < 32
    · have e : v / 8 = v >>> 3 := by rw [Nat.shiftRight_eq_div_pow]
      rw [e, Nat.testBit_shiftRight]
      have : 3 + (i - 3) = i := by omega
      simp [h3, h32, this]
    · have hlt : v < 2 ^ i := by
        have : (2:Nat) ^ 32 ≤ 2 ^ i := Nat.pow_le_pow_right (by norm_num) (by omega)
        have h2 : U32 = 2 ^ 32 := by decide
        omega
      have hlt2 : v / 8 < 2 ^ (i - 3) := by
        have : (2:Nat) ^ 29 ≤ 2 ^ (i - 3) := Nat.pow_le_pow_right (by norm_num) (by omega)
        have h2 : U32 = 2 ^ 32 := by decide
        have : v / 8 < 2 ^ 29 := by omega
        omega
      simp [h3, h32, Nat.testBit_lt_two_pow hlt, Nat.testBit_lt_two_pow hlt2]
  · simp [h3]

theorem PACK_eq (size a : Nat) (hs : size % 8 = 0) (ha : a ≤ 1) : PACK size a = size + a := by
  unfold PACK
  have h8 : size = 2 ^ 3 * (size / 8) := by omega
  have hlt : a < 2 ^ 3 := by omega
  rw [h8, ← Nat.mul_add_lt_is_or hlt]

theorem PACK_zero (size : Nat) : PACK size 0 = size := by
  simp [PACK]

theorem Blk.tag_lt (b : Blk) (h : b.size % 8 = 0) : b.tag % 8 ≤ 1 ∧ b.tag - b.tag % 8 = b.size := by
  unfold Blk.tag
  split <;> omega

theorem tag_size (b : Blk) (h : b.size % 8 = 0) (hlt : b.size < FAIL_PTR) :
    b.tag &&& MASK7 = b.size := by
  have hU : b.tag < U32 := by
    unfold Blk.tag U32; unfold FAIL_PTR at hlt; split <;> omega
  rw [and_MASK7 _ hU]
  exact (b.tag_lt h).2

theorem tag_alloc (b : Blk) (h : b.size % 8 = 0) :
    b.tag &&& 1 = if b.alloc then 1 else 0 := by
  rw [Nat.and_one_is_mod]
  unfold Blk.tag
  split <;> omega

theorem tag_free (sz : Nat) : (Blk.mk a sz false).tag = sz := by
  simp [Blk.tag]

theorem tag_used (sz : Nat) : (Blk.mk a sz true).tag = sz + 1 := by
  simp [Blk.tag]

/-! ## Reading and writing memory -/

@[simp] theorem PUT_same (m : Mem) (p v : Nat) : PUT m p v p = v := by
  simp [PUT]

theorem PUT_other (m : Mem) (p v a : Nat) (h : a ≠ p) : PUT m p v a = m a := by
  simp [PUT, h]

/-! ## The class loop -/

theorem shiftRight_one_add (size j : Nat) : size >>> 1 >>> j = size >>> (j + 1) := by
  rw [← Nat.shiftRight_add, Nat.add_comm]

theorem class_loop_spec (k : Nat) : ∀ list size, list + k = 19 →
    ∃ j, j ≤ k ∧ class_loop k list size = (list + j, size >>> j) ∧
      (j < k → size >>> j ≤ 1) ∧ (∀ i < j, 1 < size >>> i) := by
  induction k with
  | zero =>
    intro list size _
    exact ⟨0, le_refl _, by simp [class_loop], by omega, by omega⟩
  | succ k ih =>
    intro list size hl
    unfold class_loop
    by_cases hc : list < MAX_SEGLIST - 1 ∧ size > 1
    · rw [if_pos hc]
      obtain ⟨j, hj, he, h1, h2⟩ := ih (list + 1) (size >>> 1) (by omega)
      refine ⟨j + 1, by omega, ?_, ?_, ?_⟩
      · rw [he, shiftRight_one_add]
        congr 1
        omega
      · intro hlt
        have := h1 (by omega)
        rwa [shiftRight_one_add] at this
      · intro i hi
        cases i with
        | zero => simpa using hc.2
        | succ i =>
          have := h2 i (by omega)
          rwa [shiftRight_one_add] at this
    · rw [if_neg hc]
      refine ⟨0, by omega, by simp, ?_, by omega⟩
      intro _
      have : ¬ (list < MAX_SEGLIST - 1) ∨ ¬ (size > 1) := by
        by_cases h : list < MAX_SEGLIST - 1
        · right; intro h2; exact hc ⟨h, h2⟩
        · left; exact h
      rcases this with h | h
      · simp [MAX_SEGLIST] at h; omega
      · simp at h ⊢; omega

theorem cls_le (size : Nat) : cls size ≤ 19 := by
  obtain ⟨j, hj, he, _, _⟩ := class_loop_spec 19 0 size (by omega)
  simp only [cls, MAX_SEGLIST]
  rw [he]; simp; omega

/-- The size the class loop leaves for the ordering walk is at most the size
of any block of the same class that is at least 1 byte. -/
theorem class_loop_snd_le (size sz : Nat) (hs : size < U32) (h16 : 1 ≤ sz)
    (hc : cls sz = cls size) : (class_loop (MAX_SEGLIST - 1) 0 size).2 ≤ sz := by
  obtain ⟨j, hj, he, h1, _⟩ := class_loop_spec 19 0 size (by omega)
  obtain ⟨j', hj', he', _, h2'⟩ := class_loop_spec 19 0 sz (by omega)
  simp only [cls, MAX_SEGLIST] at hc ⊢
  rw [he] at hc ⊢
  rw [he'] at hc
  simp only [Nat.zero_add] at hc ⊢
  subst hc
  by_cases hlt : j' < 19
  · have := h1 hlt; omega
  · have hj19 : j' = 19 := by omega
    subst hj19
    have hb := h2' 18 (by omega)
    rw [Nat.shiftRight_eq_div_pow] at hb ⊢
    have hU : U32 = 2 ^ 32 := by decide
    have e18 : (2:Nat) ^ 18 = 262144 := by norm_num
    have e19 : (2:Nat) ^ 19 = 524288 := by norm_num
    rw [e18] at hb
    rw [e19]
    rw [hU] at hs
    have : size / 524288 < 8192 := by omega
    omega

end MM

namespace MM

/-! ## Geometry of a tiling -/

theorem Chained.le {a e : Nat} {l : List Blk} (h : Chained a l e) :
    a + 16 * l.length ≤ e ∧ e % 8 = a % 8 := by
  induction l generalizing a with
  | nil => simp only [Chained] at h; subst h; simp
  | cons b bs ih =>
    obtain ⟨_, h16, h8, hr⟩ := h
    have := ih hr
    simp only [List.length_cons]
    omega

theorem Chained.mem {a e : Nat} {l : List Blk} (h : Chained a l e) {b : Blk} (hb : b ∈ l) :
    a ≤ b.addr ∧ b.addr + b.size ≤ e ∧ 16 ≤ b.size ∧ b.size % 8 = 0 ∧ b.addr % 8 = a % 8 := by
  induction l generalizing a with
  | nil => cases hb
  | cons c cs ih =>
    obtain ⟨ha, h16, h8, hr⟩ := h
    rcases List.mem_cons.1 hb with rfl | hb
    · have := hr.le
      omega
    · have := ih hr hb
      omega

theorem Chained.append {a e : Nat} {l1 l2 : List Blk} :
    Chained a (l1 ++ l2) e ↔ ∃ c, Chained a l1 c ∧ Chained c l2 e := by
  induction l1 generalizing a with
  | nil =>
    constructor
    · intro h; exact ⟨a, rfl, h⟩
    · rintro ⟨c, hc, h⟩
      simp only [Chained] at hc
      subst hc; exact h
  | cons b bs ih =>
    simp only [List.cons_append, Chained]
    constructor
    · rintro ⟨h1, h2, h3, h4⟩
      obtain ⟨c, hc1, hc2⟩ := ih.1 h4
      exact ⟨c, ⟨h1, h2, h3, hc1⟩, hc2⟩
    · rintro ⟨c, ⟨h1, h2, h3, h4⟩, h5⟩
      exact ⟨h1, h2, h3, ih.2 ⟨c, h4, h5⟩⟩

theorem Chained.end_unique {a e e1 : Nat} {l : List Blk} (h : Chained a l e)
    (h1 : Chained a l e1) : e = e1 := by
  induction l generalizing a with
  | nil => simp only [Chained] at h h1; omega
  | cons b bs ih => exact ih h.2.2.2 h1.2.2.2

theorem Chained.split {a e : Nat} {L R : List Blk} {b : Blk}
    (h : Chained a (L ++ b :: R) e) :
    Chained a L b.addr ∧ 16 ≤ b.size ∧ b.size % 8 = 0 ∧ Chained (b.addr + b.size) R e := by
  obtain ⟨c, h1, h2⟩ := Chained.append.1 h
  obtain ⟨hc, h16, h8, hr⟩ := h2
  subst hc
  exact ⟨h1, h16, h8, hr⟩

theorem Chained.join {a e : Nat} {pre post : List Blk} {b : Blk}
    (h1 : Chained a pre b.addr) (h16 : 16 ≤ b.size) (h8 : b.size % 8 = 0)
    (h2 : Chained (b.addr + b.size) post e) : Chained a (pre ++ b :: post) e :=
  Chained.append.2 ⟨b.addr, h1, rfl, h16, h8, h2⟩

theorem Chained.split3 {a e : Nat} {pre mid post : List Blk}
    (h : Chained a (pre ++ mid ++ post) e) :
    ∃ A E, Chained a pre A ∧ Chained A mid E ∧ Chained E post e := by
  obtain ⟨E, h1, h2⟩ := Chained.append.1 h
  obtain ⟨A, h3, h4⟩ := Chained.append.1 h1
  exact ⟨A, E, h3, h4, h2⟩

theorem Chained.join3 {a e A E : Nat} {pre mid post : List Blk}
    (h1 : Chained a pre A) (h2 : Chained A mid E) (h3 : Chained E post e) :
    Chained a (pre ++ mid ++ post) e :=
  Chained.append.2 ⟨E, Chained.append.2 ⟨A, h1, h2⟩, h3⟩

/-- Two blocks of a tiling are equal or lie apart. -/
theorem Chained.apart {a e : Nat} {l : List Blk} (h : Chained a l e) {b c : Blk}
    (hb : b ∈ l) (hc : c ∈ l) :
    b = c ∨ b.addr + b.size ≤ c.addr ∨ c.addr + c.size ≤ b.addr := by
  induction l generalizing a with
  | nil => cases hb
  | cons d ds ih =>
    obtain ⟨ha, h16, h8, hr⟩ := h
    rcases List.mem_cons.1 hb with hb1 | hb1 <;> rcases List.mem_cons.1 hc with hc1 | hc1
    · left; rw [hb1, hc1]
    · have := hr.mem hc1
      subst hb1
      right; left; omega
    · have := hr.mem hb1
      subst hc1
      right; right; omega
    · exact ih hr hb1 hc1

theorem Chained.addr_inj {a e : Nat} {l : List Blk} (h : Chained a l e) {b c : Blk}
    (hb : b ∈ l) (hc : c ∈ l) (he : b.addr = c.addr) : b = c := by
  rcases h.apart hb hc with h1 | h1 | h1
  · exact h1
  · have := h.mem hb; omega
  · have := h.mem hc; omega

/-! ## Frames: what a predicate on the memory depends on -/

theorem Tagged.frame {m m1 : Mem} {bl : List Blk} (h : Tagged m bl)
    (hf : ∀ b ∈ bl, m1 (b.addr - 4) = m (b.addr - 4) ∧
      m1 (b.addr + b.size - 8) = m (b.addr + b.size - 8)) : Tagged m1 bl := by
  intro b hb
  rw [(hf b hb).1, (hf b hb).2]
  exact h b hb

theorem Tagged.tagged_append {m : Mem} {l1 l2 : List Blk} :
    Tagged m (l1 ++ l2) ↔ Tagged m l1 ∧ Tagged m l2 := by
  unfold Tagged
  constructor
  · intro h
    exact ⟨fun b hb => h b (List.mem_append_left _ hb), fun b hb => h b (List.mem_append_right _ hb)⟩
  · rintro ⟨h1, h2⟩ b hb
    rcases List.mem_append.1 hb with hb | hb
    · exact h1 b hb
    · exact h2 b hb

theorem Links.links_frame {m m1 : Mem} {l : List Nat} {nxt t : Nat} (h : Links m nxt l t)
    (hf : ∀ p ∈ l, m1 p = m p ∧ m1 (p + 4) = m (p + 4)) : Links m1 nxt l t := by
  induction l generalizing nxt with
  | nil => trivial
  | cons p rest ih =>
    obtain ⟨h1, h2, h3⟩ := h
    refine ⟨?_, ?_, ih h3 (fun q hq => hf q (List.mem_cons_of_mem _ hq))⟩
    · rw [(hf p (List.mem_cons_self _ _)).2]; exact h1
    · rw [(hf p (List.mem_cons_self _ _)).1]; exact h2

theorem Links.links_append {m : Mem} {l1 l2 : List Nat} {nxt t : Nat} :
    Links m nxt (l1 ++ l2) t ↔
      Links m nxt l1 (l2.headD t) ∧ Links m (l1.getLastD nxt) l2 t := by
  induction l1 generalizing nxt with
  | nil => simp [Links]
  | cons p rest ih =>
    have e1 : (rest ++ l2).headD t = rest.headD (l2.headD t) := by
      cases rest <;> simp
    have e2 : (p :: rest).getLastD nxt = rest.getLastD p := by
      cases rest <;> simp [List.getLastD]
    show (m (p + 4) = nxt ∧ m p = (rest ++ l2).headD t ∧ Links m p (rest ++ l2) t) ↔
      (m (p + 4) = nxt ∧ m p = rest.headD (l2.headD t) ∧ Links m p rest (l2.headD t)) ∧
        Links m ((p :: rest).getLastD nxt) l2 t
    rw [ih, e1, e2]
    tauto

end MM

namespace MM

/-! ## Consequences of the invariant -/

theorem Inv.blk {m : Mem} {seg brk : Nat} {bl : List Blk} {fl : Nat → List Nat}
    (hI : Inv m seg brk bl fl) {b : Blk} (hb : b ∈ bl) :
    seg + 96 ≤ b.addr ∧ b.addr + b.size ≤ brk ∧ 16 ≤ b.size ∧ b.size % 8 = 0 ∧
      b.addr % 8 = 0 ∧ b.size < FAIL_PTR := by
  have h := hI.chained.mem hb
  have h1 := hI.seg_al
  have h2 := hI.brk_lt
  omega

theorem Inv.hdr {m : Mem} {seg brk : Nat} {bl : List Blk} {fl : Nat → List Nat}
    (hI : Inv m seg brk bl fl) {b : Blk} (hb : b ∈ bl) :
    GET_SIZE m (HDRP b.addr) = b.size ∧
      GET_ALLOC m (HDRP b.addr) = (if b.alloc then 1 else 0) := by
  have h := hI.blk hb
  have ht := (hI.tagged b hb).1
  simp only [GET_SIZE, GET_ALLOC, GET, HDRP, WSIZE, ht]
  exact ⟨tag_size b h.2.2.2.1 h.2.2.2.2.2, tag_alloc b h.2.2.2.1⟩

theorem Inv.ftr {m : Mem} {seg brk : Nat} {bl : List Blk} {fl : Nat → List Nat}
    (hI : Inv m seg brk bl fl) {b : Blk} (hb : b ∈ bl) :
    GET_SIZE m (b.addr + b.size - 8) = b.size ∧
      GET_ALLOC m (b.addr + b.size - 8) = (if b.alloc then 1 else 0) := by
  have h := hI.blk hb
  have ht := (hI.tagged b hb).2
  simp only [GET_SIZE, GET_ALLOC, GET, ht]
  exact ⟨tag_size b h.2.2.2.1 h.2.2.2.2.2, tag_alloc b h.2.2.2.1⟩

theorem Inv.node {m : Mem} {seg brk : Nat} {bl : List Blk} {fl : Nat → List Nat}
    (hI : Inv m seg brk bl fl) {k p : Nat} (hp : p ∈ fl k) :
    seg + 96 ≤ p ∧ p + 16 ≤ brk ∧ p % 8 = 0 := by
  obtain ⟨b, hb, rfl, _, _⟩ := hI.nodes k p hp
  have := hI.blk hb
  omega

theorem Inv.node_sep {m : Mem} {seg brk : Nat} {bl : List Blk} {fl : Nat → List Nat}
    (hI : Inv m seg brk bl fl) {k j p : Nat} (hp : p ∈ fl k) (hq : p ∈ fl j) : k = j := by
  obtain ⟨b, hb, hba, _, hbc⟩ := hI.nodes k p hp
  obtain ⟨c, hc, hca, _, hcc⟩ := hI.nodes j p hq
  have : b = c := hI.chained.addr_inj hb hc (by rw [hba, hca])
  subst this
  rw [← hbc, ← hcc]

theorem Inv.node_blk {m : Mem} {seg brk : Nat} {bl : List Blk} {fl : Nat → List Nat}
    (hI : Inv m seg brk bl fl) {k : Nat} {b : Blk} (hb : b ∈ bl) (hp : b.addr ∈ fl k) :
    b.alloc = false ∧ cls b.size = k := by
  obtain ⟨c, hc, hca, hcf, hcc⟩ := hI.nodes k b.addr hp
  have : c = b := hI.chained.addr_inj hc hb hca
  subst this
  exact ⟨hcf, hcc⟩

/-- A write that changes only list heads and link fields of free blocks leaves
the tags, the prologue and the epilogue as they are. -/
theorem Inv.relink {m m1 : Mem} {seg brk : Nat} {bl : List Blk} {fl fl1 : Nat → List Nat}
    (hI : Inv m seg brk bl fl) (hF : LinkFrame seg bl m m1)
    (hheads : ∀ k < 20, m1 (seg + 4 * k) = (fl1 k).headD 0)
    (hlinks : ∀ k, Links m1 0 (fl1 k) 0)
    (hnodes : ∀ k, ∀ p ∈ fl1 k, ∃ b ∈ bl, b.addr = p ∧ b.alloc = false ∧ cls b.size = k)
    (hnodup : ∀ k, (fl1 k).Nodup) : Inv m1 seg brk bl fl1 := by
  have hle := hI.chained.le
  refine ⟨hI.seg_pos, hI.seg_al, hI.brk_lt, hI.chained, ?_, ?_, ?_, ?_, hheads, hlinks,
    hnodes, hnodup⟩
  · rw [hF _ (by omega)]
    · exact hI.pro_h
    · intro c hc _
      have := hI.blk hc
      omega
  · rw [hF _ (by omega)]
    · exact hI.pro_f
    · intro c hc _
      have := hI.blk hc
      omega
  · rw [hF _ (by omega)]
    · exact hI.epi
    · intro c hc _
      have := hI.blk hc
      omega
  · apply hI.tagged.frame
    intro b hb
    have hbb := hI.blk hb
    constructor
    · apply hF _ (by omega)
      intro c hc _
      have hcc := hI.blk hc
      rcases hI.chained.apart hb hc with h | h | h
      · subst h; omega
      · omega
      · omega
    · apply hF _ (by omega)
      intro c hc _
      have hcc := hI.blk hc
      rcases hI.chained.apart hb hc with h | h | h
      · subst h; omega
      · omega
      · omega

/-- Rewriting the tags inside a range of blocks that no list links, so that
the range is tiled by `mid1` instead of `mid`, keeps the invariant. -/
theorem Inv.replace {m u : Mem} {seg brk A E : Nat} {pre M W post : List Blk}
    {fl : Nat → List Nat}
    (hI : Inv m seg brk (pre ++ M ++ post) fl)
    (hpre : Chained (seg + 96) pre A) (hmid1 : Chained A W E) (hpost : Chained E post brk)
    (hm : ∀ a, a + 4 < A ∨ E ≤ a + 4 → u a = m a)
    (ht : Tagged u W)
    (hun : ∀ k, ∀ p ∈ fl k, ∀ b ∈ M, b.addr ≠ p) :
    Inv u seg brk (pre ++ W ++ post) fl := by
  have h1 := hpre.le
  have h2 := hmid1.le
  have h3 := hpost.le
  have hkeep : ∀ k, ∀ p ∈ fl k, ∃ b, (b ∈ pre ∨ b ∈ post) ∧ b.addr = p ∧ b.alloc = false ∧
      cls b.size = k := by
    intro k p hp
    obtain ⟨b, hb, hba, hbf, hbc⟩ := hI.nodes k p hp
    refine ⟨b, ?_, hba, hbf, hbc⟩
    rcases List.mem_append.1 hb with hb | hb
    · rcases List.mem_append.1 hb with hb | hb
      · exact Or.inl hb
      · exact absurd hba (hun k p hp b hb)
    · exact Or.inr hb
  refine ⟨hI.seg_pos, hI.seg_al, hI.brk_lt, Chained.join3 hpre hmid1 hpost, ?_, ?_, ?_, ?_, ?_,
    ?_, ?_, hI.nodup⟩
  · rw [hm _ (by omega)]; exact hI.pro_h
  · rw [hm _ (by omega)]; exact hI.pro_f
  · rw [hm _ (by omega)]; exact hI.epi
  · rw [Tagged.tagged_append, Tagged.tagged_append]
    have hT := hI.tagged
    rw [Tagged.tagged_append, Tagged.tagged_append] at hT
    refine ⟨⟨?_, ht⟩, ?_⟩
    · apply hT.1.1.frame
      intro b hb
      have := hpre.mem hb
      exact ⟨hm _ (by omega), hm _ (by omega)⟩
    · apply hT.2.frame
      intro b hb
      have := hpost.mem hb
      exact ⟨hm _ (by omega), hm _ (by omega)⟩
  · intro k hk
    rw [hm _ (by omega)]; exact hI.heads k hk
  · intro k
    apply (hI.links k).links_frame
    intro p hp
    obtain ⟨b, hb, hba, _, _⟩ := hkeep k p hp
    subst hba
    rcases hb with hb | hb
    · have := hpre.mem hb
      exact ⟨hm _ (by omega), hm _ (by omega)⟩
    · have := hpost.mem hb
      exact ⟨hm _ (by omega), hm _ (by omega)⟩
  · intro k p hp
    obtain ⟨b, hb, hba, hbf, hbc⟩ := hkeep k p hp
    refine ⟨b, ?_, hba, hbf, hbc⟩
    rcases hb with hb | hb
    · exact List.mem_append_left _ (List.mem_append_left _ hb)
    · exact List.mem_append_right _ hb

end MM

namespace MM

/-! ## `free_remove` -/

theorem getLastD_snoc (l : List Nat) (n d : Nat) : (l ++ [n]).getLastD d = n := by
  induction l generalizing d with
  | nil => rfl
  | cons a l ih =>
    cases l with
    | nil => rfl
    | cons c l => exact ih a

theorem nodup_apart {l1 l2 : List Nat} (h : (l1 ++ l2).Nodup) {x y : Nat} (hx : x ∈ l1)
    (hy : y ∈ l2) : x ≠ y := by
  intro he
  subst he
  exact (List.nodup_append.1 h).2.2 hx hy

theorem erase_mid (l1 l2 : List Nat) (p : Nat) (h : p ∉ l1) :
    (l1 ++ p :: l2).erase p = l1 ++ l2 := by
  rw [List.erase_append_right _ h, List.erase_cons_head]

theorem free_remove_head_nil (m : Mem) (seg p k : Nat)
    (hk : cls (GET_SIZE m (HDRP p)) = k) (hn : m (p + 4) = 0) (hp : m p = 0) :
    free_remove m seg p = PUT m (seg + 4 * k) 0 := by
  unfold free_remove
  simp only [NEXT_BLK_SEG, NEXT_BLKP_SEG, GET, WSIZE, hn, if_true, PREV_BLK_SEG, hp, SET_LIST,
    GET_LIST, LISTP, PUT_same, PUT_SEG]
  simp only [cls] at hk
  simp [hk]

theorem free_remove_head_cons (m : Mem) (seg p k q : Nat)
    (hk : cls (GET_SIZE m (HDRP p)) = k) (hn : m (p + 4) = 0) (hp : m p = q) (hq : q ≠ 0) :
    free_remove m seg p = PUT (PUT m (seg + 4 * k) q) (q + 4) 0 := by
  unfold free_remove
  simp only [NEXT_BLK_SEG, NEXT_BLKP_SEG, GET, WSIZE, hn, if_true, PREV_BLK_SEG, hp, SET_LIST,
    GET_LIST, LISTP, PUT_same, PUT_SEG]
  simp only [cls] at hk
  simp [hk, hq]

theorem free_remove_mid_nil (m : Mem) (seg p n : Nat)
    (hn : m (p + 4) = n) (hn0 : n ≠ 0) (hp : m p = 0) (hne : p ≠ n) :
    free_remove m seg p = PUT m n 0 := by
  unfold free_remove
  simp only [NEXT_BLK_SEG, NEXT_BLKP_SEG, GET, WSIZE, hn, PREV_BLK_SEG, hp, PUT_SEG,
    PREV_BLKP_SEG]
  rw [if_neg hn0, PUT_other _ _ _ _ hne, hp]
  simp

theorem free_remove_mid_cons (m : Mem) (seg p n q : Nat)
    (hn : m (p + 4) = n) (hn0 : n ≠ 0) (hp : m p = q) (hq : q ≠ 0) (hne : p ≠ n)
    (hne2 : p + 4 ≠ n) :
    free_remove m seg p = PUT (PUT m n q) (q + 4) n := by
  unfold free_remove
  simp only [NEXT_BLK_SEG, NEXT_BLKP_SEG, GET, WSIZE, hn, PREV_BLK_SEG, hp, PUT_SEG,
    PREV_BLKP_SEG]
  rw [if_neg hn0, PUT_other _ _ _ _ hne, hp, if_pos hq, PUT_other _ _ _ _ hne2, hn]

/-- `free_remove` on a linked block unlinks it from the list of its class and
touches nothing but list heads and link fields of free blocks. -/
theorem free_remove_spec {m : Mem} {seg brk : Nat} {bl : List Blk} {fl : Nat → List Nat}
    (hI : Inv m seg brk bl fl) {b : Blk} (hb : b ∈ bl) (hin : b.addr ∈ fl (cls b.size)) :
    Inv (free_remove m seg b.addr) seg brk bl
        (Function.update fl (cls b.size) ((fl (cls b.size)).erase b.addr)) ∧
      LinkFrame seg bl m (free_remove m seg b.addr) := by
  obtain ⟨pre, post, hsplit⟩ := List.append_of_mem hin
  have hk19 := cls_le b.size
  have hsz := (hI.hdr hb).1
  have hbf := (hI.node_blk hb hin).1
  -- facts about the nodes of the list
  have hnode : ∀ x ∈ fl (cls b.size), seg + 96 ≤ x ∧ x + 16 ≤ brk ∧ x % 8 = 0 :=
    fun x hx => hI.node hx
  have hfree : ∀ x ∈ fl (cls b.size), ∃ c ∈ bl, c.addr = x ∧ c.alloc = false := by
    intro x hx
    obtain ⟨c, hc, h1, h2, _⟩ := hI.nodes _ x hx
    exact ⟨c, hc, h1, h2⟩
  have hnd := hI.nodup (cls b.size)
  have hL := hI.links (cls b.size)
  have hH := hI.heads (cls b.size) (by omega)
  rw [hsplit] at hnd hL hH hnode hfree
  have hpre : b.addr ∉ pre := by
    intro h
    exact nodup_apart hnd h (List.mem_cons_self _ _) rfl
  have herase : (fl (cls b.size)).erase b.addr = pre ++ post := by
    rw [hsplit]; exact erase_mid _ _ _ hpre
  rw [herase]
  -- the cells the call writes, and what the list reads as afterwards
  have core : ∃ m1, free_remove m seg b.addr = m1 ∧
      (∀ a, a ≠ seg + 4 * cls b.size →
        (∀ x ∈ pre ++ b.addr :: post, a ≠ x ∧ a ≠ x + 4) → m1 a = m a) ∧
      m1 (seg + 4 * cls b.size) = (pre ++ post).headD 0 ∧
      Links m1 0 (pre ++ post) 0 := by
    rw [Links.links_append] at hL
    obtain ⟨hL1, hnext, hprev, hL2⟩ := hL
    rcases List.eq_nil_or_concat pre with hpn | ⟨l0, n, hpn⟩
    · -- the block is the head of its list
      subst hpn
      simp only [List.getLastD, List.nil_append] at hnext hnd hnode hH ⊢
      cases post with
      | nil =>
        refine ⟨_, free_remove_head_nil m seg b.addr _ (by rw [hsz]) hnext hprev, ?_, ?_, ?_⟩
        · intro a ha _
          exact PUT_other _ _ _ _ ha
        · simp
        · trivial
      | cons q r =>
        have hq := hnode q (by simp)
        have hq0 : q ≠ 0 := by omega
        simp only [List.headD_cons] at hprev
        refine ⟨_, free_remove_head_cons m seg b.addr _ q (by rw [hsz]) hnext hprev hq0,
          ?_, ?_, ?_⟩
        · intro a ha hx
          have := hx q (by simp)
          rw [PUT_other _ _ _ _ this.2, PUT_other _ _ _ _ ha]
        · rw [PUT_other _ _ _ _ (by omega)]; simp
        · obtain ⟨_, h2, h3⟩ := hL2
          have hqr : q ∉ r := by
            have := List.nodup_cons.1 (List.nodup_cons.1 hnd).2
            exact this.1
          refine ⟨by simp, ?_, ?_⟩
          · rw [PUT_other _ _ _ _ (by omega), PUT_other _ _ _ _ (by omega)]; exact h2
          · apply h3.links_frame
            intro x hx
            have hxn := hnode x (by simp [hx])
            have hxq : x ≠ q := fun h => hqr (h ▸ hx)
            constructor
            · rw [PUT_other _ _ _ _ (by omega), PUT_other _ _ _ _ (by omega)]
            · rw [PUT_other _ _ _ _ (by omega), PUT_other _ _ _ _ (by omega)]
    · -- the block has a successor `n` towards the head
      rw [List.concat_eq_append] at hpn
      subst hpn
      have hn := hnode n (by simp)
      have hp := hnode b.addr (by simp)
      have hn0 : n ≠ 0 := by omega
      have hnp : b.addr ≠ n := by
        intro h; apply hpre; rw [h]; simp
      have hgl : (l0 ++ [n]).getLastD 0 = n := getLastD_snoc _ _ _
      rw [hgl] at hnext
      rw [Links.links_append] at hL1
      obtain ⟨hL0, hn4, hnv, _⟩ := hL1
      simp only [List.headD_cons] at hnv hL0
      have hnl0 : n ∉ l0 := by
        have h1 := (List.nodup_append.1 hnd).1
        intro h
        exact nodup_apart h1 h (List.mem_singleton_self n) rfl
      cases post with
      | nil =>
        simp only [List.headD_nil] at hprev
        refine ⟨_, free_remove_mid_nil m seg b.addr n hnext hn0 hprev hnp, ?_, ?_, ?_⟩
        · intro a _ hx
          have := hx n (by simp)
          exact PUT_other _ _ _ _ this.1
        · rw [PUT_other _ _ _ _ (by omega), hH]
          simp only [List.append_nil]
          cases l0 <;> simp
        · simp only [List.append_nil]
          rw [Links.links_append]
          refine ⟨?_, ?_, ?_, trivial⟩
          · apply hL0.links_frame
            intro x hx
            have hxn := hnode x (by simp [hx])
            have hxq : x ≠ n := fun h => hnl0 (h ▸ hx)
            exact ⟨PUT_other _ _ _ _ hxq, PUT_other _ _ _ _ (by omega)⟩
          · rw [PUT_other _ _ _ _ (by omega)]; exact hn4
          · simp
      | cons q r =>
        have hq := hnode q (by simp)
        have hq0 : q ≠ 0 := by omega
        simp only [List.headD_cons] at hprev
        have hqn : q ≠ n := fun h =>
          nodup_apart hnd (by simp : n ∈ l0 ++ [n]) (by simp : q ∈ b.addr :: q :: r) h.symm
        refine ⟨_, free_remove_mid_cons m seg b.addr n q hnext hn0 hprev hq0 hnp (by omega),
          ?_, ?_, ?_⟩
        · intro a _ hx
          have h1 := hx n (by simp)
          have h2 := hx q (by simp)
          rw [PUT_other _ _ _ _ h2.2, PUT_other _ _ _ _ h1.1]
        · rw [PUT_other _ _ _ _ (by omega), PUT_other _ _ _ _ (by omega), hH]
          cases l0 <;> simp
        · rw [Links.links_append]
          rw [hgl]
          obtain ⟨_, h2, h3⟩ := hL2
          have hnd2 := (List.nodup_append.1 hnd).2.1
          have hqr : q ∉ r := (List.nodup_cons.1 (List.nodup_cons.1 hnd2).2).1
          constructor
          · rw [Links.links_append]
            refine ⟨?_, ?_, ?_, trivial⟩
            · apply hL0.links_frame
              intro x hx
              have hxn := hnode x (by simp [hx])
              have hxq : x ≠ n := fun h => hnl0 (h ▸ hx)
              constructor
              · rw [PUT_other _ _ _ _ (by omega), PUT_other _ _ _ _ hxq]
              · rw [PUT_other _ _ _ _ ?_, PUT_other _ _ _ _ (by omega)]
                intro h
                have : x = q := by omega
                exact nodup_apart hnd (by simp [hx] : x ∈ l0 ++ [n])
                  (by simp : q ∈ b.addr :: q :: r) this
            · rw [PUT_other _ _ _ _ (by omega), PUT_other _ _ _ _ (by omega)]; exact hn4
            · rw [PUT_other _ _ _ _ (by omega)]; simp
          · refine ⟨by simp, ?_, ?_⟩
            · rw [PUT_other _ _ _ _ (by omega), PUT_other _ _ _ _ hqn]; exact h2
            · apply h3.links_frame
              intro x hx
              have hxn := hnode x (by simp [hx])
              have hxq : x ≠ q := fun h => hqr (h ▸ hx)
              have hxn2 : x ≠ n := fun h =>
                nodup_apart hnd (by simp : n ∈ l0 ++ [n])
                  (by simp [hx] : x ∈ b.addr :: q :: r) h.symm
              constructor
              · rw [PUT_other _ _ _ _ (by omega), PUT_other _ _ _ _ hxn2]
              · rw [PUT_other _ _ _ _ (by omega), PUT_other _ _ _ _ (by omega)]
  obtain ⟨m1, hm1, hcells, hhead, hlinks⟩ := core
  rw [hm1]
  have hsub : ∀ x, x ∈ pre ++ post → x ∈ fl (cls b.size) := by
    intro x hx
    rw [hsplit]
    rcases List.mem_append.1 hx with h | h
    · exact List.mem_append_left _ h
    · exact List.mem_append_right _ (List.mem_cons_of_mem _ h)
  have hF : LinkFrame seg bl m m1 := by
    intro a ha hc
    apply hcells a (by omega)
    intro x hx
    obtain ⟨c, hcb, hca, hcf⟩ := hfree x hx
    have := hc c hcb hcf
    rw [hca] at this
    exact this
  refine ⟨hI.relink hF ?_ ?_ ?_ ?_, hF⟩
  · intro k hk
    by_cases hkk : k = cls b.size
    · subst hkk; simp [hhead]
    · rw [Function.update_noteq hkk]
      rw [hcells _ (by omega)]
      · exact hI.heads k hk
      · intro x hx
        have := hnode x hx
        omega
  · intro k
    by_cases hkk : k = cls b.size
    · subst hkk; simpa using hlinks
    · rw [Function.update_noteq hkk]
      apply (hI.links k).links_frame
      intro y hy
      have hyn := hI.node hy
      have hdiff : ∀ x ∈ pre ++ b.addr :: post, y ≠ x := by
        intro x hx h
        subst h
        rw [← hsplit] at hx
        exact hkk (hI.node_sep hy hx)
      constructor
      · apply hcells _ (by omega)
        intro x hx
        have := hnode x hx
        have := hdiff x hx
        omega
      · apply hcells _ (by omega)
        intro x hx
        have := hnode x hx
        have := hdiff x hx
        omega
  · intro k p hp
    by_cases hkk : k = cls b.size
    · subst hkk
      simp only [Function.update_same] at hp
      exact hI.nodes _ p (hsub p hp)
    · rw [Function.update_noteq hkk] at hp
      exact hI.nodes k p hp
  · intro k
    by_cases hkk : k = cls b.size
    · subst hkk
      simp only [Function.update_same]
      have : (pre ++ post).Sublist (pre ++ b.addr :: post) :=
        List.Sublist.append (List.Sublist.refl _) (List.sublist_cons_self _ _)
      exact hnd.sublist this
    · rw [Function.update_noteq hkk]
      exact hI.nodup k

/-! ## `free_insert` -/

theorem insert_walk_stop (m : Mem) (size fuel head : Nat) (hf : 0 < fuel)
    (h : head ≠ 0 → size ≤ GET_SIZE m (HDRP head)) :
    insert_walk m size fuel head 0 = some (head, 0) := by
  cases fuel with
  | zero => omega
  | succ f =>
    unfold insert_walk
    rw [if_neg]
    rintro ⟨h1, h2⟩
    have := h h1
    omega

theorem free_insert_empty (fuel : Nat) (m : Mem) (seg bp size k : Nat) (hf : 0 < fuel)
    (hk : cls size = k) (hh : m (seg + 4 * k) = 0) :
    free_insert fuel m seg bp size = some (PUT (PUT (PUT m bp 0) (bp + 4) 0) (seg + 4 * k) bp) := by
  unfold free_insert
  simp only [cls] at hk
  simp only [hk, GET_LIST, GET, LISTP, WSIZE, hh]
  rw [insert_walk_stop _ _ _ _ hf (by simp)]
  simp [PUT_SEG, PREV_BLKP_SEG, NEXT_BLKP_SEG, SET_LIST, LISTP, WSIZE]

theorem free_insert_front (fuel : Nat) (m : Mem) (seg bp size k h : Nat) (hf : 0 < fuel)
    (hk : cls size = k) (hh : m (seg + 4 * k) = h) (h0 : h ≠ 0)
    (hs : (class_loop (MAX_SEGLIST - 1) 0 size).2 ≤ GET_SIZE m (HDRP h)) :
    free_insert fuel m seg bp size
      = some (PUT (PUT (PUT (PUT m bp h) (h + 4) bp) (bp + 4) 0) (seg + 4 * k) bp) := by
  unfold free_insert
  simp only [cls] at hk
  simp only [hk, GET_LIST, GET, LISTP, WSIZE, hh]
  rw [insert_walk_stop _ _ _ _ hf (fun _ => hs)]
  simp [PUT_SEG, PREV_BLKP_SEG, NEXT_BLKP_SEG, SET_LIST, LISTP, WSIZE, h0]

/-- `free_insert` of a free block that no list links puts it at the head of
the list of its class and touches nothing but list heads and link fields of
free blocks. -/
theorem free_insert_spec {m : Mem} {seg brk : Nat} {bl : List Blk} {fl : Nat → List Nat}
    (hI : Inv m seg brk bl fl) {b : Blk} (hb : b ∈ bl) (hfree : b.alloc = false)
    (hnot : b.addr ∉ fl (cls b.size)) (fuel : Nat) (hf : 0 < fuel) :
    ∃ m1, free_insert fuel m seg b.addr b.size = some m1 ∧
      Inv m1 seg brk bl (Function.update fl (cls b.size) (b.addr :: fl (cls b.size))) ∧
      LinkFrame seg bl m m1 := by
  have hk19 := cls_le b.size
  have hbb := hI.blk hb
  have hnode : ∀ x ∈ fl (cls b.size), seg + 96 ≤ x ∧ x + 16 ≤ brk ∧ x % 8 = 0 :=
    fun x hx => hI.node hx
  have hH := hI.heads (cls b.size) (by omega)
  have hL := hI.links (cls b.size)
  have core : ∃ m1, free_insert fuel m seg b.addr b.size = some m1 ∧
      (∀ a, a ≠ seg + 4 * cls b.size → a ≠ b.addr → a ≠ b.addr + 4 →
        (∀ x ∈ fl (cls b.size), a ≠ x + 4) → m1 a = m a) ∧
      m1 (seg + 4 * cls b.size) = b.addr ∧
      Links m1 0 (b.addr :: fl (cls b.size)) 0 := by
    cases hl : fl (cls b.size) with
    | nil =>
      rw [hl] at hH
      refine ⟨_, free_insert_empty fuel m seg b.addr b.size _ hf rfl hH, ?_, ?_, ?_⟩
      · intro a h1 h2 h3 _
        rw [PUT_other _ _ _ _ h1, PUT_other _ _ _ _ h3, PUT_other _ _ _ _ h2]
      · simp
      · refine ⟨?_, ?_, trivial⟩
        · rw [PUT_other _ _ _ _ (by omega)]; simp
        · rw [PUT_other _ _ _ _ (by omega), PUT_other _ _ _ _ (by omega)]; simp
    | cons h r =>
      rw [hl] at hH hL hnode hnot
      simp only [List.headD_cons] at hH
      have hh := hnode h (by simp)
      have h0 : h ≠ 0 := by omega
      have hhb : h ≠ b.addr := fun e => hnot (by simp [e])
      obtain ⟨c, hc, hca, hcf, hcc⟩ := hI.nodes (cls b.size) h (by rw [hl]; simp)
      have hcb := hI.blk hc
      have hsz : (class_loop (MAX_SEGLIST - 1) 0 b.size).2 ≤ GET_SIZE m (HDRP h) := by
        rw [← hca, (hI.hdr hc).1]
        apply class_loop_snd_le _ _ _ (by omega) hcc
        unfold U32; unfold FAIL_PTR at hbb; omega
      refine ⟨_, free_insert_front fuel m seg b.addr b.size _ h hf rfl hH h0 hsz, ?_, ?_, ?_⟩
      · intro a h1 h2 h3 hx
        have := hx h (by simp)
        rw [PUT_other _ _ _ _ h1, PUT_other _ _ _ _ h3, PUT_other _ _ _ _ this,
          PUT_other _ _ _ _ h2]
      · simp
      · obtain ⟨_, h2, h3⟩ := hL
        have hnd := hI.nodup (cls b.size)
        rw [hl] at hnd
        have hhr : h ∉ r := (List.nodup_cons.1 hnd).1
        refine ⟨?_, ?_, ?_, ?_, ?_⟩
        · rw [PUT_other _ _ _ _ (by omega)]; simp
        · rw [PUT_other _ _ _ _ (by omega), PUT_other _ _ _ _ (by omega),
            PUT_other _ _ _ _ (by omega)]
          simp
        · rw [PUT_other _ _ _ _ (by omega), PUT_other _ _ _ _ (by omega)]; simp
        · rw [PUT_other _ _ _ _ (by omega), PUT_other _ _ _ _ (by omega),
            PUT_other _ _ _ _ (by omega), PUT_other _ _ _ _ hhb]
          exact h2
        · apply h3.links_frame
          intro x hx
          have hxn := hnode x (by simp [hx])
          have hxh : x ≠ h := fun e => hhr (e ▸ hx)
          have hxb : x ≠ b.addr := fun e => hnot (by simp [← e, hx])
          constructor
          · rw [PUT_other _ _ _ _ (by omega), PUT_other _ _ _ _ (by omega),
              PUT_other _ _ _ _ (by omega), PUT_other _ _ _ _ hxb]
          · rw [PUT_other _ _ _ _ (by omega), PUT_other _ _ _ _ (by omega),
              PUT_other _ _ _ _ (by omega), PUT_other _ _ _ _ (by omega)]
  obtain ⟨m1, hm1, hcells, hhead, hlinks⟩ := core
  have hF : LinkFrame seg bl m m1 := by
    intro a ha hc
    have hb1 := hc b hb hfree
    apply hcells a (by omega) hb1.1 hb1.2
    intro x hx
    obtain ⟨c, hcb, hca, hcf, _⟩ := hI.nodes _ x hx
    have := hc c hcb hcf
    rw [hca] at this
    exact this.2
  refine ⟨m1, hm1, hI.relink hF ?_ ?_ ?_ ?_, hF⟩
  · intro k hk
    by_cases hkk : k = cls b.size
    · subst hkk; simp [hhead]
    · rw [Function.update_noteq hkk]
      rw [hcells _ (by omega) (by omega) (by omega)]
      · exact hI.heads k hk
      · intro x hx
        have := hnode x hx
        omega
  · intro k
    by_cases hkk : k = cls b.size
    · subst hkk; simpa using hlinks
    · rw [Function.update_noteq hkk]
      apply (hI.links k).links_frame
      intro y hy
      have hyn := hI.node hy
      have hyb : y ≠ b.addr := by
        intro e
        subst e
        exact hkk (hI.node_blk hb hy).2.symm
      have hdiff : ∀ x ∈ fl (cls b.size), y ≠ x := by
        intro x hx h
        subst h
        exact hkk (hI.node_sep hy hx)
      constructor
      · apply hcells _ (by omega) hyb (by omega)
        intro x hx
        have := hnode x hx
        omega
      · apply hcells _ (by omega) (by omega) (by omega)
        intro x hx
        have := hnode x hx
        have := hdiff x hx
        omega
  · intro k p hp
    by_cases hkk : k = cls b.size
    · subst hkk
      simp only [Function.update_same, List.mem_cons] at hp
      rcases hp with hp | hp
      · exact ⟨b, hb, hp.symm, hfree, rfl⟩
      · exact hI.nodes _ p hp
    · rw [Function.update_noteq hkk] at hp
      exact hI.nodes k p hp
  · intro k
    by_cases hkk : k = cls b.size
    · subst hkk
      simp only [Function.update_same]
      exact List.nodup_cons.2 ⟨hnot, hI.nodup _⟩
    · rw [Function.update_noteq hkk]
      exact hI.nodup k

end MM

namespace MM

/-! ## `free_find` -/

/-- The scan of one list returns the first node that is large enough, or
`NULL` when no node of the list is. -/
theorem find_walk_spec (m : Mem) (size : Nat) : ∀ (l : List Nat) (nxt fuel : Nat),
    Links m nxt l 0 → (∀ x ∈ l, x ≠ 0) → l.length < fuel →
    ∃ r, find_walk m size fuel (l.headD 0) = some r ∧
      ((r = 0 ∧ ∀ x ∈ l, GET_SIZE m (HDRP x) < size) ∨
       (∃ l1 l2, l = l1 ++ r :: l2 ∧ (∀ x ∈ l1, GET_SIZE m (HDRP x) < size) ∧
          size ≤ GET_SIZE m (HDRP r))) := by
  intro l
  induction l with
  | nil =>
    intro nxt fuel _ _ hf
    cases fuel with
    | zero => simp at hf
    | succ f =>
      refine ⟨0, ?_, Or.inl ⟨rfl, by simp⟩⟩
      simp [find_walk]
  | cons p rest ih =>
    intro nxt fuel hL hnz hf
    cases fuel with
    | zero => simp at hf
    | succ f =>
      obtain ⟨_, hp, hrest⟩ := hL
      have hp0 : p ≠ 0 := hnz p (by simp)
      simp only [List.headD_cons]
      unfold find_walk
      by_cases hc : size > GET_SIZE m (HDRP p)
      · rw [if_pos ⟨hp0, hc⟩]
        simp only [PREV_BLK_SEG, GET, hp]
        obtain ⟨r, hr, hcase⟩ := ih p f hrest (fun x hx => hnz x (List.mem_cons_of_mem _ hx))
          (by simp at hf; omega)
        refine ⟨r, hr, ?_⟩
        rcases hcase with ⟨h0, hall⟩ | ⟨l1, l2, hl, hall, hge⟩
        · left
          refine ⟨h0, ?_⟩
          intro x hx
          rcases List.mem_cons.1 hx with rfl | hx
          · exact hc
          · exact hall x hx
        · right
          refine ⟨p :: l1, l2, by simp [hl], ?_, hge⟩
          intro x hx
          rcases List.mem_cons.1 hx with rfl | hx
          · exact hc
          · exact hall x hx
      · rw [if_neg (fun h => hc h.2)]
        exact ⟨p, rfl, Or.inr ⟨[], rest, rfl, by simp, by omega⟩⟩

theorem nodup_length_le (l : List Nat) (N : Nat) (hnd : l.Nodup) (h : ∀ x ∈ l, x < N) :
    l.length ≤ N := by
  have h1 : l.toFinset ⊆ Finset.range N := by
    intro x hx
    rw [List.mem_toFinset] at hx
    exact Finset.mem_range.2 (h x hx)
  have h2 := Finset.card_le_card h1
  rw [List.toFinset_card_of_nodup hnd, Finset.card_range] at h2
  exact h2

theorem Inv.length_lt {m : Mem} {seg brk : Nat} {bl : List Blk} {fl : Nat → List Nat}
    (hI : Inv m seg brk bl fl) (k : Nat) : (fl k).length < brk := by
  have h := nodup_length_le (fl k) (brk - 15) (hI.nodup k) (by
    intro x hx
    have := hI.node hx
    omega)
  have := hI.chained.le
  omega

/-- In a memory that agrees with a description, `free_find` returns `NULL` or
a linked block that is large enough. -/
theorem find_loop_spec {m : Mem} {seg brk : Nat} {bl : List Blk} {fl : Nat → List Nat}
    (hI : Inv m seg brk bl fl) (size fuel : Nat) (hf : brk ≤ fuel) :
    ∀ n list s, ∃ r, find_loop fuel m seg size n list s 0 = some r ∧
      (r = 0 ∨ ∃ k, r ∈ fl k ∧ size ≤ GET_SIZE m (HDRP r)) := by
  intro n
  induction n with
  | zero =>
    intro list s
    exact ⟨0, rfl, Or.inl rfl⟩
  | succ n ih =>
    intro list s
    unfold find_loop
    by_cases hl : list < MAX_SEGLIST
    · rw [if_pos hl]
      by_cases hc : list = MAX_SEGLIST - 1 ∨ (s ≤ 1 ∧ GET_LIST m seg list ≠ 0)
      · rw [if_pos hc]
        have hk : list < 20 := hl
        have hhead : GET_LIST m seg list = (fl list).headD 0 := by
          simp only [GET_LIST, GET, LISTP, WSIZE]
          exact hI.heads list hk
        rw [hhead]
        obtain ⟨r, hr, hcase⟩ := find_walk_spec m size (fl list) 0 fuel (hI.links list)
          (fun x hx => by have := hI.node hx; omega)
          (by have := hI.length_lt list; omega)
        rw [hr]
        simp only
        by_cases hr0 : r = 0
        · rw [if_neg (by simpa using hr0)]
          subst hr0
          exact ih (list + 1) (s >>> 1)
        · rw [if_pos hr0]
          refine ⟨r, rfl, Or.inr ⟨list, ?_⟩⟩
          rcases hcase with ⟨h0, _⟩ | ⟨l1, l2, hl, _, hge⟩
          · exact absurd h0 hr0
          · exact ⟨by rw [hl]; simp, hge⟩
      · rw [if_neg hc]
        exact ih (list + 1) (s >>> 1)
    · rw [if_neg hl]
      exact ⟨0, rfl, Or.inl rfl⟩

theorem free_find_spec {m : Mem} {seg brk : Nat} {bl : List Blk} {fl : Nat → List Nat}
    (hI : Inv m seg brk bl fl) (size fuel : Nat) (hf : brk ≤ fuel) :
    ∃ r, free_find fuel m seg size = some r ∧
      (r = 0 ∨ ∃ b ∈ bl, b.addr = r ∧ b.alloc = false ∧ b.addr ∈ fl (cls b.size) ∧
        size ≤ b.size) := by
  obtain ⟨r, hr, hcase⟩ := find_loop_spec hI size fuel hf MAX_SEGLIST 0 size
  refine ⟨r, hr, ?_⟩
  rcases hcase with h | ⟨k, hk, hge⟩
  · exact Or.inl h
  · right
    obtain ⟨b, hb, hba, hbf, hbc⟩ := hI.nodes k r hk
    refine ⟨b, hb, hba, hbf, ?_, ?_⟩
    · rw [hbc, hba]; exact hk
    · rw [← hba, (hI.hdr hb).1] at hge
      exact hge

end MM

namespace MM

/-! ## Reading the neighbours of a block -/

theorem mask_size (s : Nat) (h8 : s % 8 = 0) (hlt : s < U32) : s &&& MASK7 = s := by
  rw [and_MASK7 _ hlt]; omega

theorem NoAdj.mid {pre post : List Blk} {b : Blk} :
    NoAdj (pre ++ b :: post) ↔ NoAdj pre ∧ NoAdj post ∧
      (∀ P ∈ pre.getLast?, P.alloc = true ∨ b.alloc = true) ∧
      (∀ N ∈ post.head?, b.alloc = true ∨ N.alloc = true) := by
  unfold NoAdj
  rw [List.chain'_append, List.chain'_cons']
  simp only [List.head?_cons, Option.mem_def, Option.some.injEq, forall_eq']
  tauto

theorem LinkFrame.free {m m1 : Mem} {seg brk : Nat} {bl : List Blk} {fl : Nat → List Nat}
    (hI : Inv m seg brk bl fl) (h : LinkFrame seg bl m m1) : FreeFrame seg bl m m1 := by
  intro a ha hc
  apply h a ha
  intro c hcb hcf
  have := hc c hcb hcf
  have := hI.blk hcb
  omega

theorem FreeFrame.trans {m m1 m2 : Mem} {seg : Nat} {bl : List Blk}
    (h1 : FreeFrame seg bl m m1) (h2 : FreeFrame seg bl m1 m2) : FreeFrame seg bl m m2 := by
  intro a ha hc
  rw [h2 a ha hc, h1 a ha hc]

theorem read_prev_nil {m : Mem} {seg brk : Nat} {post : List Blk} {fl : Nat → List Nat}
    {b : Blk} (hI : Inv m seg brk (b :: post) fl) :
    GET_ALLOC m (HDRP (PREV_BLKP m b.addr)) = 1 := by
  have ha : b.addr = seg + 96 := hI.chained.1
  have h1 : GET_SIZE m (b.addr - DSIZE) = 8 := by
    have : b.addr - DSIZE = seg + 88 := by simp only [DSIZE]; omega
    rw [this]
    simp only [GET_SIZE, GET, hI.pro_f]
    decide
  have h2 : HDRP (PREV_BLKP m b.addr) = seg + 84 := by
    simp only [HDRP, PREV_BLKP, h1, WSIZE]; omega
  rw [h2]
  simp only [GET_ALLOC, GET, hI.pro_h]
  decide

theorem read_prev_cons {m : Mem} {seg brk : Nat} {L R : List Blk} {fl : Nat → List Nat}
    {P b : Blk} (hI : Inv m seg brk (L ++ P :: b :: R) fl) :
    PREV_BLKP m b.addr = P.addr ∧
      GET_ALLOC m (HDRP (PREV_BLKP m b.addr)) = (if P.alloc then 1 else 0) ∧
      GET_SIZE m (HDRP (PREV_BLKP m b.addr)) = P.size ∧ b.addr = P.addr + P.size := by
  have hP : P ∈ L ++ P :: b :: R := by simp
  have hPb := hI.blk hP
  have hs := hI.chained.split
  have hba : b.addr = P.addr + P.size := hs.2.2.2.1
  have h1 : GET_SIZE m (b.addr - DSIZE) = P.size := by
    have : b.addr - DSIZE = P.addr + P.size - 8 := by simp only [DSIZE]; omega
    rw [this]
    exact (hI.ftr hP).1
  have h2 : PREV_BLKP m b.addr = P.addr := by
    simp only [PREV_BLKP, h1]; omega
  rw [h2]
  exact ⟨rfl, (hI.hdr hP).2, (hI.hdr hP).1, hba⟩

theorem read_next_nil {m : Mem} {seg brk : Nat} {pre : List Blk} {fl : Nat → List Nat}
    {b : Blk} (hI : Inv m seg brk (pre ++ [b]) fl) :
    GET_ALLOC m (HDRP (NEXT_BLKP m b.addr)) = 1 ∧ b.addr + b.size = brk := by
  have hb : b ∈ pre ++ [b] := by simp
  have hs := hI.chained.split
  have he : b.addr + b.size = brk := hs.2.2.2
  have h1 : NEXT_BLKP m b.addr = brk := by
    have := (hI.hdr hb).1
    simp only [HDRP] at this
    simp only [NEXT_BLKP, this, he]
  rw [h1]
  simp only [GET_ALLOC, GET, HDRP, WSIZE, hI.epi]
  exact ⟨by decide, he⟩

theorem read_next_cons {m : Mem} {seg brk : Nat} {L post : List Blk} {fl : Nat → List Nat}
    {b N : Blk} (hI : Inv m seg brk (L ++ b :: N :: post) fl) :
    NEXT_BLKP m b.addr = N.addr ∧
      GET_ALLOC m (HDRP (NEXT_BLKP m b.addr)) = (if N.alloc then 1 else 0) ∧
      GET_SIZE m (HDRP (NEXT_BLKP m b.addr)) = N.size ∧ N.addr = b.addr + b.size := by
  have hb : b ∈ L ++ b :: N :: post := by simp
  have hN : N ∈ L ++ b :: N :: post := by simp
  have hs := hI.chained.split
  have he : N.addr = b.addr + b.size := hs.2.2.2.1
  have h1 : NEXT_BLKP m b.addr = N.addr := by
    have := (hI.hdr hb).1
    simp only [HDRP] at this
    simp only [NEXT_BLKP, this, he]
  rw [h1]
  exact ⟨rfl, (hI.hdr hN).2, (hI.hdr hN).1, he⟩

/-! ## Merging a range of free blocks into one -/

/-- After the blocks of `mid`, which no list links, got one header and one
footer for the whole range, `free_insert` links the merged block. -/
theorem merge_step {m2 m4 : Mem} {seg brk A E : Nat} {pre mid post : List Blk}
    {fl2 : Nat → List Nat}
    (hI : Inv m2 seg brk (pre ++ mid ++ post) fl2)
    (hpre : Chained (seg + 96) pre A) (hmid : Chained A mid E) (hpost : Chained E post brk)
    (hne : mid ≠ [])
    (hun : ∀ k, ∀ p ∈ fl2 k, ∀ c ∈ mid, c.addr ≠ p)
    (hm4 : m4 = PUT (PUT m2 (A - 4) (E - A)) (E - 8) (E - A))
    (fuel : Nat) (hf : 0 < fuel) :
    ∃ m5, free_insert fuel m4 seg A (E - A) = some m5 ∧
      Inv m5 seg brk (pre ++ [⟨A, E - A, false⟩] ++ post)
        (Function.update fl2 (cls (E - A)) (A :: fl2 (cls (E - A)))) ∧
      (∀ a, (a < seg ∨ seg + 80 ≤ a) → (a + 4 < A ∨ E ≤ a + 4) →
        (∀ c ∈ pre ++ post, c.alloc = false → a ≠ c.addr ∧ a ≠ c.addr + 4) → m5 a = m2 a) := by
  have h1 := hpre.le
  have h2 := hmid.le
  have h3 := hpost.le
  have hlen : 1 ≤ mid.length := by
    cases mid with
    | nil => exact absurd rfl hne
    | cons c cs => simp
  have hE : A + 16 ≤ E := by omega
  have hfirst : ∃ c ∈ mid, c.addr = A := by
    cases mid with
    | nil => exact absurd rfl hne
    | cons c cs => exact ⟨c, by simp, hmid.1⟩
  have hch : Chained A [⟨A, E - A, false⟩] E := by
    refine ⟨rfl, by simp only; omega, by simp only; omega, ?_⟩
    show A + (E - A) = E
    omega
  have hI4 : Inv m4 seg brk (pre ++ [⟨A, E - A, false⟩] ++ post) fl2 := by
    apply hI.replace hpre hch hpost
    · intro a ha
      rw [hm4, PUT_other _ _ _ _ (by omega), PUT_other _ _ _ _ (by omega)]
    · intro c hc
      simp only [List.mem_singleton] at hc
      subst hc
      simp only [tag_free]
      rw [hm4]
      constructor
      · rw [PUT_other _ _ _ _ (by omega)]; simp
      · have : A + (E - A) - 8 = E - 8 := by omega
        rw [this]; simp
    · exact hun
  have hmem : (⟨A, E - A, false⟩ : Blk) ∈ pre ++ [⟨A, E - A, false⟩] ++ post := by simp
  have hnot : A ∉ fl2 (cls (E - A)) := by
    intro h
    obtain ⟨c, hc, hca⟩ := hfirst
    exact hun _ A h c hc hca
  obtain ⟨m5, hm5, hI5, hF5⟩ := free_insert_spec hI4 hmem rfl hnot fuel hf
  refine ⟨m5, hm5, hI5, ?_⟩
  intro a ha hout hc
  rw [hF5 a ha]
  · rw [hm4, PUT_other _ _ _ _ (by omega), PUT_other _ _ _ _ (by omega)]
  · intro c hcm hcf
    simp only [List.mem_append, List.mem_singleton] at hcm
    rcases hcm with (hcm | hcm) | hcm
    · exact hc c (List.mem_append_left _ hcm) hcf
    · subst hcm
      simp only
      omega
    · exact hc c (List.mem_append_right _ hcm) hcf

theorem prev_val {m : Mem} {seg brk : Nat} {pre post : List Blk} {fl : Nat → List Nat}
    {b : Blk} (hI : Inv m seg brk (pre ++ b :: post) fl) :
    (GET_ALLOC m (HDRP (PREV_BLKP m b.addr)) = 0 ∧ ∃ pre1 P, pre = pre1 ++ [P] ∧ P.alloc = false) ∨
    (GET_ALLOC m (HDRP (PREV_BLKP m b.addr)) = 1 ∧ ∀ P ∈ pre.getLast?, P.alloc = true) := by
  rcases List.eq_nil_or_concat pre with hp | ⟨pre1, P, hp⟩
  · subst hp
    right
    exact ⟨read_prev_nil hI, by simp⟩
  · rw [List.concat_eq_append] at hp
    subst hp
    have hI1 : Inv m seg brk (pre1 ++ P :: b :: post) fl := by
      simpa using hI
    have h := read_prev_cons hI1
    cases hPa : P.alloc with
    | false =>
      left
      refine ⟨?_, pre1, P, rfl, hPa⟩
      rw [h.2.1, hPa]; simp
    | true =>
      right
      refine ⟨?_, ?_⟩
      · rw [h.2.1, hPa]; simp
      · intro Q hQ
        simp at hQ
        subst hQ
        exact hPa

theorem next_val {m : Mem} {seg brk : Nat} {pre post : List Blk} {fl : Nat → List Nat}
    {b : Blk} (hI : Inv m seg brk (pre ++ b :: post) fl) :
    (GET_ALLOC m (HDRP (NEXT_BLKP m b.addr)) = 0 ∧ ∃ N post1, post = N :: post1 ∧ N.alloc = false) ∨
    (GET_ALLOC m (HDRP (NEXT_BLKP m b.addr)) = 1 ∧ ∀ N ∈ post.head?, N.alloc = true) := by
  cases post with
  | nil =>
    right
    exact ⟨(read_next_nil hI).1, by simp⟩
  | cons N post1 =>
    have h := read_next_cons hI
    cases hNa : N.alloc with
    | false =>
      left
      refine ⟨?_, N, post1, rfl, hNa⟩
      rw [h.2.1, hNa]; simp
    | true =>
      right
      refine ⟨?_, ?_⟩
      · rw [h.2.1, hNa]; simp
      · intro Q hQ
        simp at hQ
        subst hQ
        exact hNa

theorem coalesce_case1 (fuel : Nat) (m : Mem) (seg bp : Nat)
    (h1 : GET_ALLOC m (HDRP (PREV_BLKP m bp)) = 1) (h2 : GET_ALLOC m (HDRP (NEXT_BLKP m bp)) = 1) :
    coalesce fuel m seg bp = some (bp, m) := by
  unfold coalesce
  simp [h1, h2]

theorem coalesce_case2 (fuel : Nat) (m : Mem) (seg bp : Nat)
    (h1 : GET_ALLOC m (HDRP (PREV_BLKP m bp)) = 1) (h2 : GET_ALLOC m (HDRP (NEXT_BLKP m bp)) = 0) :
    coalesce fuel m seg bp = 
      (let size := add32 (GET_SIZE m (HDRP bp)) (GET_SIZE m (HDRP (NEXT_BLKP m bp)))
       let m1 := free_remove m seg bp
       let m2 := free_remove m1 seg (NEXT_BLKP m1 bp)
       let m3 := PUT m2 (HDRP bp) (PACK size 0)
       let m4 := PUT m3 (FTRP m3 bp) (PACK size 0)
       (free_insert fuel m4 seg bp size).map (fun m5 => (bp, m5))) := by
  unfold coalesce
  simp [h1, h2]

theorem coalesce_case3 (fuel : Nat) (m : Mem) (seg bp : Nat)
    (h1 : GET_ALLOC m (HDRP (PREV_BLKP m bp)) = 0) (h2 : GET_ALLOC m (HDRP (NEXT_BLKP m bp)) = 1) :
    coalesce fuel m seg bp = 
      (let size := add32 (GET_SIZE m (HDRP bp)) (GET_SIZE m (HDRP (PREV_BLKP m bp)))
       let m1 := free_remove m seg bp
       let m2 := free_remove m1 seg (PREV_BLKP m1 bp)
       let m3 := PUT m2 (HDRP (PREV_BLKP m2 bp)) (PACK size 0)
       let m4 := PUT m3 (FTRP m3 bp) (PACK size 0)
       let bp1 := PREV_BLKP m4 bp
       (free_insert fuel m4 seg bp1 size).map (fun m5 => (bp1, m5))) := by
  unfold coalesce
  simp [h1, h2]

theorem coalesce_case4 (fuel : Nat) (m : Mem) (seg bp : Nat)
    (h1 : GET_ALLOC m (HDRP (PREV_BLKP m bp)) = 0) (h2 : GET_ALLOC m (HDRP (NEXT_BLKP m bp)) = 0) :
    coalesce fuel m seg bp = 
      (let size := add32 (GET_SIZE m (HDRP bp))
         (add32 (GET_SIZE m (HDRP (PREV_BLKP m bp))) (GET_SIZE m (FTRP m (NEXT_BLKP m bp))))
       let m1 := free_remove m seg (PREV_BLKP m bp)
       let m2 := free_remove m1 seg bp
       let m3 := free_remove m2 seg (NEXT_BLKP m2 bp)
       let m4 := PUT m3 (HDRP (PREV_BLKP m3 bp)) (PACK size 0)
       let m5 := PUT m4 (FTRP m4 (NEXT_BLKP m4 bp)) (PACK size 0)
       let bp1 := PREV_BLKP m5 bp
       (free_insert fuel m5 seg bp1 size).map (fun m6 => (bp1, m6))) := by
  unfold coalesce
  simp [h1, h2]


/-! ## The lists after an unlink or an insertion, by membership -/

theorem free_remove_mem {m : Mem} {seg brk : Nat} {bl : List Blk} {fl : Nat → List Nat}
    (hI : Inv m seg brk bl fl) {b : Blk} (hb : b ∈ bl) (hin : b.addr ∈ fl (cls b.size)) :
    ∃ fl1, Inv (free_remove m seg b.addr) seg brk bl fl1 ∧
      (∀ k x, x ∈ fl1 k ↔ x ∈ fl k ∧ x ≠ b.addr) ∧
      LinkFrame seg bl m (free_remove m seg b.addr) := by
  obtain ⟨h1, h2⟩ := free_remove_spec hI hb hin
  refine ⟨_, h1, ?_, h2⟩
  intro k x
  by_cases hk : k = cls b.size
  · subst hk
    simp only [Function.update_same]
    rw [(hI.nodup _).mem_erase_iff]
    tauto
  · rw [Function.update_noteq hk]
    constructor
    · intro hx
      refine ⟨hx, ?_⟩
      intro he
      subst he
      exact hk (hI.node_sep hx hin)
    · exact fun h => h.1

theorem free_insert_mem {m : Mem} {seg brk : Nat} {bl : List Blk} {fl : Nat → List Nat}
    (hI : Inv m seg brk bl fl) {b : Blk} (hb : b ∈ bl) (hfree : b.alloc = false)
    (hnot : ∀ k, b.addr ∉ fl k) (fuel : Nat) (hf : 0 < fuel) :
    ∃ m1 fl1, free_insert fuel m seg b.addr b.size = some m1 ∧ Inv m1 seg brk bl fl1 ∧
      (∀ k x, x ∈ fl1 k ↔ x ∈ fl k ∨ (k = cls b.size ∧ x = b.addr)) ∧
      LinkFrame seg bl m m1 := by
  obtain ⟨m1, h0, h1, h2⟩ := free_insert_spec hI hb hfree (hnot _) fuel hf
  refine ⟨m1, _, h0, h1, ?_, h2⟩
  intro k x
  by_cases hk : k = cls b.size
  · subst hk
    simp only [Function.update_same, List.mem_cons]
    tauto
  · rw [Function.update_noteq hk]
    tauto

theorem GET_SIZE_PUT_other (m : Mem) (a v x : Nat) (h : x ≠ a) :
    GET_SIZE (PUT m a v) x = GET_SIZE m x := by
  simp only [GET_SIZE, GET, PUT_other _ _ _ _ h]

theorem GET_SIZE_PUT_same (m : Mem) (a v : Nat) (h8 : v % 8 = 0) (hlt : v < U32) :
    GET_SIZE (PUT m a v) a = v := by
  simp only [GET_SIZE, GET, PUT_same]
  exact mask_size v h8 hlt

theorem add32_small (a b : Nat) (h : a + b < U32) : add32 a b = a + b := by
  unfold add32
  exact Nat.mod_eq_of_lt h

theorem sub32_small (a b : Nat) (h : b ≤ a) (ha : a < U32) : sub32 a b = a - b := by
  unfold sub32
  have hb : b % U32 = b := Nat.mod_eq_of_lt (by omega)
  rw [hb]
  have : a + U32 - b = (a - b) + U32 := by omega
  rw [this, Nat.add_mod_right]
  exact Nat.mod_eq_of_lt (by omega)

/-- The frame of `merge_step` as a frame over free blocks of the description
before the merge. -/
theorem merge_step_mem {m2 m4 : Mem} {seg brk A E : Nat} {pre mid post : List Blk}
    {fl2 : Nat → List Nat}
    (hI : Inv m2 seg brk (pre ++ mid ++ post) fl2)
    (hpre : Chained (seg + 96) pre A) (hmid : Chained A mid E) (hpost : Chained E post brk)
    (hne : mid ≠ []) (hmf : ∀ c ∈ mid, c.alloc = false)
    (hun : ∀ k, ∀ p ∈ fl2 k, ∀ c ∈ mid, c.addr ≠ p)
    (hm4 : m4 = PUT (PUT m2 (A - 4) (E - A)) (E - 8) (E - A))
    (fuel : Nat) (hf : 0 < fuel) :
    ∃ m5 fl3, free_insert fuel m4 seg A (E - A) = some m5 ∧
      Inv m5 seg brk (pre ++ [⟨A, E - A, false⟩] ++ post) fl3 ∧
      (∀ k x, x ∈ fl3 k ↔ x ∈ fl2 k ∨ (k = cls (E - A) ∧ x = A)) ∧
      FreeFrame seg (pre ++ mid ++ post) m2 m5 := by
  obtain ⟨m5, h0, h1, h2⟩ := merge_step hI hpre hmid hpost hne hun hm4 fuel hf
  refine ⟨m5, _, h0, h1, ?_, ?_⟩
  · intro k x
    by_cases hk : k = cls (E - A)
    · subst hk
      simp only [Function.update_same, List.mem_cons]
      tauto
    · rw [Function.update_noteq hk]
      tauto
  · intro a ha hc
    have hA := hpre.le
    apply h2 a ha
    · -- `a` lies outside the merged range, because it lies outside each block of it
      have key : ∀ (l : List Blk) (x y : Nat), Chained x l y →
          (∀ c ∈ l, a + 4 < c.addr ∨ c.addr + c.size ≤ a + 4) → a + 4 < x ∨ y ≤ a + 4 ∨ x = y := by
        intro l
        induction l with
        | nil => intro x y h _; right; right; exact h
        | cons c cs ih =>
          intro x y h hall
          obtain ⟨hx, h16, _, hr⟩ := h
          have h1 := hall c (by simp)
          have h2 := ih _ _ hr (fun d hd => hall d (List.mem_cons_of_mem _ hd))
          have := hr.le
          omega
      have := key mid A E hmid (fun c hc1 => hc c (by simp [hc1]) (hmf c hc1))
      have hlen : 1 ≤ mid.length := by
        cases mid with
        | nil => exact absurd rfl hne
        | cons c cs => simp
      have := hmid.le
      omega
    · intro c hc1 hcf
      have hcm : c ∈ pre ++ mid ++ post := by
        simp only [List.mem_append] at hc1 ⊢
        tauto
      have := hc c hcm hcf
      have := hI.blk hcm
      omega

end MM

namespace MM

/-! ## `coalesce` -/

/-- Everything that follows the unlinking in the merging cases of `coalesce`:
once the blocks of `mid` are unlinked and carry one header and one footer, the
insertion gives a well-formed heap again. -/
theorem merge_finish {v w : Mem} {seg brk A E : Nat} {L M R : List Blk}
    {fl2 : Nat → List Nat}
    (hI : Inv v seg brk (L ++ M ++ R) fl2)
    (hpre : Chained (seg + 96) L A) (hmid : Chained A M E) (hpost : Chained E R brk)
    (hne : M ≠ []) (hmf : ∀ c ∈ M, c.alloc = false)
    (hun : ∀ k, ∀ p ∈ fl2 k, ∀ c ∈ M, c.addr ≠ p)
    (hcov : ∀ c ∈ L ++ R, c.alloc = false → c.addr ∈ fl2 (cls c.size))
    (hnpre : NoAdj L) (hnpost : NoAdj R)
    (hbpre : ∀ P ∈ L.getLast?, P.alloc = true) (hbpost : ∀ N ∈ R.head?, N.alloc = true)
    (hm4 : w = PUT (PUT v (A - 4) (E - A)) (E - 8) (E - A))
    (fuel : Nat) (hf : 0 < fuel) :
    ∃ m5 fl3, free_insert fuel w seg A (E - A) = some m5 ∧
      Inv m5 seg brk (L ++ [⟨A, E - A, false⟩] ++ R) fl3 ∧
      Covered (L ++ [⟨A, E - A, false⟩] ++ R) fl3 ∧
      NoAdj (L ++ [⟨A, E - A, false⟩] ++ R) ∧
      FreeFrame seg (L ++ M ++ R) v m5 ∧
      AllocEq (L ++ M ++ R) (L ++ [⟨A, E - A, false⟩] ++ R) := by
  obtain ⟨m5, fl3, h0, h1, h2, h3⟩ :=
    merge_step_mem hI hpre hmid hpost hne hmf hun hm4 fuel hf
  refine ⟨m5, fl3, h0, h1, ?_, ?_, h3, ?_⟩
  · intro c hc hcf
    rw [h2]
    simp only [List.mem_append, List.mem_singleton] at hc
    rcases hc with (hc | hc) | hc
    · left; exact hcov c (List.mem_append_left _ hc) hcf
    · right; subst hc; exact ⟨rfl, rfl⟩
    · left; exact hcov c (List.mem_append_right _ hc) hcf
  · rw [List.append_assoc, List.singleton_append, NoAdj.mid]
    refine ⟨hnpre, hnpost, ?_, ?_⟩
    · intro P hP; left; exact hbpre P hP
    · intro N hN; right; exact hbpost N hN
  · intro c hc
    simp only [List.mem_append, List.mem_singleton]
    constructor
    · rintro ((h | h) | h)
      · exact Or.inl (Or.inl h)
      · subst h; simp at hc
      · exact Or.inr h
    · rintro ((h | h) | h)
      · exact Or.inl (Or.inl h)
      · have := hmf c h
        rw [hc] at this
        cases this
      · exact Or.inr h

theorem Chained.one {b : Blk} (h16 : 16 ≤ b.size) (h8 : b.size % 8 = 0) :
    Chained b.addr [b] (b.addr + b.size) :=
  ⟨rfl, h16, h8, rfl⟩

theorem Chained.two {b c : Blk} (h16 : 16 ≤ b.size) (h8 : b.size % 8 = 0)
    (hc16 : 16 ≤ c.size) (hc8 : c.size % 8 = 0) (hc : c.addr = b.addr + b.size) :
    Chained b.addr [b, c] (c.addr + c.size) := by
  refine ⟨rfl, h16, h8, ?_⟩
  rw [← hc]
  exact Chained.one hc16 hc8

theorem Chained.three {b c d : Blk} (h16 : 16 ≤ b.size) (h8 : b.size % 8 = 0)
    (hc16 : 16 ≤ c.size) (hc8 : c.size % 8 = 0) (hd16 : 16 ≤ d.size) (hd8 : d.size % 8 = 0)
    (hc : c.addr = b.addr + b.size) (hd : d.addr = c.addr + c.size) :
    Chained b.addr [b, c, d] (d.addr + d.size) := by
  refine ⟨rfl, h16, h8, ?_⟩
  rw [← hc]
  exact Chained.two hc16 hc8 hd16 hd8 hd

theorem NoAdj.tail {b : Blk} {l : List Blk} (h : NoAdj (b :: l)) : NoAdj l := by
  unfold NoAdj at h ⊢
  exact (List.chain'_cons'.1 h).2

theorem NoAdj.head_alloc {b : Blk} {l : List Blk} (h : NoAdj (b :: l)) (hb : b.alloc = false) :
    ∀ N ∈ l.head?, N.alloc = true := by
  unfold NoAdj at h
  intro N hN
  have := (List.chain'_cons'.1 h).1 N hN
  rcases this with h1 | h1
  · rw [hb] at h1; cases h1
  · exact h1

theorem NoAdj.init {b : Blk} {l : List Blk} (h : NoAdj (l ++ [b])) : NoAdj l := by
  unfold NoAdj at h ⊢
  exact h.left_of_append

theorem NoAdj.last_alloc {b : Blk} {l : List Blk} (h : NoAdj (l ++ [b])) (hb : b.alloc = false) :
    ∀ P ∈ l.getLast?, P.alloc = true := by
  unfold NoAdj at h
  intro P hP
  have := (List.chain'_append.1 h).2.2 P hP b (by simp)
  rcases this with h1 | h1
  · exact h1
  · rw [hb] at h1; cases h1

/-- `coalesce` on a free, linked block whose neighbours are the only possible
free neighbours gives a well-formed heap in which the block is merged with the
neighbours that were free: the merged block starts at the predecessor when the
predecessor was free, its size is the sum of the sizes of the block and of its
free neighbours, and nothing changes when both neighbours are allocated.  The
allocation bits and sizes read from the neighbours are `pa`, `ps`, `na`, `ns`,
and `pp` is the address of the predecessor. -/
theorem coalesce_exact {m : Mem} {seg brk : Nat} {pre R : List Blk} {fl : Nat → List Nat}
    {b : Blk} (hI : Inv m seg brk (pre ++ b :: R) fl) (hcov : Covered (pre ++ b :: R) fl)
    (hfree : b.alloc = false) (hnpre : NoAdj pre) (hnpost : NoAdj R)
    (fuel : Nat) (hf : 0 < fuel) {pa ps pp na ns : Nat}
    (epa : GET_ALLOC m (HDRP (PREV_BLKP m b.addr)) = pa)
    (eps : GET_SIZE m (HDRP (PREV_BLKP m b.addr)) = ps)
    (epp : PREV_BLKP m b.addr = pp)
    (ena : GET_ALLOC m (HDRP (NEXT_BLKP m b.addr)) = na)
    (ens : GET_SIZE m (HDRP (NEXT_BLKP m b.addr)) = ns) :
    ∃ r m1 bl1 fl1, coalesce fuel m seg b.addr = some (r, m1) ∧
      Inv m1 seg brk bl1 fl1 ∧ Covered bl1 fl1 ∧ NoAdj bl1 ∧
      FreeFrame seg (pre ++ b :: R) m m1 ∧ AllocEq (pre ++ b :: R) bl1 ∧
      (∃ c ∈ bl1, c.addr = r ∧ c.alloc = false ∧ r ≤ b.addr ∧ b.addr + b.size ≤ r + c.size ∧
        (pa = 0 ∨ pa = 1) ∧ (na = 0 ∨ na = 1) ∧
        r = (if pa = 0 then pp else b.addr) ∧
        c.size = b.size + (if pa = 0 then ps else 0) + (if na = 0 then ns else 0) ∧
        (pa = 0 → pp + ps = b.addr) ∧ (pa = 0 → 16 ≤ ps) ∧ (na = 0 → 16 ≤ ns) ∧
        (pa = 1 → na = 1 → m1 = m ∧ bl1 = pre ++ b :: R ∧ fl1 = fl)) := by
  have hb : b ∈ pre ++ b :: R := by simp
  have hbb := hI.blk hb
  have hbin : b.addr ∈ fl (cls b.size) := hcov b hb hfree
  have hbrk := hI.brk_lt
  have hU : FAIL_PTR < U32 := by decide
  rcases prev_val hI with ⟨hpv, pre1, P, hpe, hPf⟩ | ⟨hpv, hpa⟩ <;>
    rcases next_val hI with ⟨hnv, N, post1, hne, hNf⟩ | ⟨hnv, hna⟩
  · -- case 4: both neighbours are free
    subst hpe hne
    have hI0 : Inv m seg brk (pre1 ++ P :: b :: N :: post1) fl := by simpa using hI
    have hcov0 : Covered (pre1 ++ P :: b :: N :: post1) fl := by simpa using hcov
    have hP : P ∈ pre1 ++ P :: b :: N :: post1 := by simp
    have hb0 : b ∈ pre1 ++ P :: b :: N :: post1 := by simp
    have hN : N ∈ pre1 ++ P :: b :: N :: post1 := by simp
    have hPb := hI0.blk hP
    have hNb := hI0.blk hN
    have hc1 := hI0.chained.split
    have hc3 := Chained.split (L := pre1 ++ [P, b]) (b := N) (R := post1)
      (by simpa using hI0.chained)
    have hrp := read_prev_cons hI0
    have hrn := read_next_cons (L := pre1 ++ [P]) (by simpa using hI0)
    have hbP : b.addr = P.addr + P.size := hrp.2.2.2
    have hNa : N.addr = b.addr + b.size := hrn.2.2.2
    -- unlink the three blocks
    obtain ⟨fl1, hI1, hm1, hF1⟩ := free_remove_mem hI0 hP (hcov0 P hP hPf)
    have hbin1 : b.addr ∈ fl1 (cls b.size) := (hm1 _ _).2 ⟨hbin, by omega⟩
    obtain ⟨fl2, hI2, hm2, hF2⟩ := free_remove_mem hI1 hb0 hbin1
    have hNin2 : N.addr ∈ fl2 (cls N.size) :=
      (hm2 _ _).2 ⟨(hm1 _ _).2 ⟨hcov0 N hN hNf, by omega⟩, by omega⟩
    obtain ⟨fl3, hI3, hm3, hF3⟩ := free_remove_mem hI2 hN hNin2
    have hrn2 := read_next_cons (L := pre1 ++ [P]) (m := free_remove (free_remove m seg P.addr) seg b.addr)
      (by simpa using hI2)
    have hrp3 := read_prev_cons hI3
    have q1 : pa = 0 := by rw [← epa, hpv]
    have q2 : na = 0 := by rw [← ena, hnv]
    have q3 : ps = P.size := by rw [← eps, hrp.2.2.1]
    have q4 : pp = P.addr := by rw [← epp, hrp.1]
    have q5 : ns = N.size := by rw [← ens, hrn.2.2.1]
    clear epa ena eps epp ens
    subst q1 q2 q3 q4 q5
    rw [coalesce_case4 fuel m seg b.addr hpv hnv]
    simp only
    have hsz : add32 (GET_SIZE m (HDRP b.addr))
        (add32 (GET_SIZE m (HDRP (PREV_BLKP m b.addr))) (GET_SIZE m (FTRP m (NEXT_BLKP m b.addr))))
        = (N.addr + N.size) - P.addr := by
      have e1 : FTRP m (NEXT_BLKP m b.addr) = N.addr + N.size - 8 := by
        rw [hrn.1]
        simp only [FTRP, (hI0.hdr hN).1, DSIZE]
      rw [(hI0.hdr hb0).1, hrp.2.2.1, e1, (hI0.ftr hN).1]
      rw [add32_small P.size N.size (by omega), add32_small _ _ (by omega)]
      omega
    rw [hsz, hrp.1, hrn2.1, hrp3.1, PACK_zero]
    set m3 := free_remove (free_remove (free_remove m seg P.addr) seg b.addr) seg N.addr with hm3d
    set S := N.addr + N.size - P.addr with hS
    have hS8 : S % 8 = 0 := by omega
    have hSlt : S < U32 := by omega
    have e2 : NEXT_BLKP (PUT m3 (HDRP P.addr) S) b.addr = N.addr := by
      simp only [NEXT_BLKP, HDRP, WSIZE]
      rw [GET_SIZE_PUT_other _ _ _ _ (by omega)]
      have := (hI3.hdr hb0).1
      simp only [HDRP, WSIZE] at this
      rw [this]; omega
    have e3 : FTRP (PUT m3 (HDRP P.addr) S) N.addr = N.addr + N.size - 8 := by
      simp only [FTRP, HDRP, WSIZE, DSIZE]
      rw [GET_SIZE_PUT_other _ _ _ _ (by omega)]
      have := (hI3.hdr hN).1
      simp only [HDRP, WSIZE] at this
      rw [this]
    rw [e2, e3]
    have e4 : PREV_BLKP (PUT (PUT m3 (HDRP P.addr) S) (N.addr + N.size - 8) S) b.addr = P.addr := by
      simp only [PREV_BLKP, HDRP, WSIZE, DSIZE]
      rw [GET_SIZE_PUT_other _ _ _ _ (by omega), GET_SIZE_PUT_other _ _ _ _ (by omega)]
      have := (hI3.ftr hP).1
      have e : b.addr - 8 = P.addr + P.size - 8 := by omega
      rw [e, this]; omega
    rw [e4]
    have hfin := merge_finish (v := m3) (w := PUT (PUT m3 (HDRP P.addr) S) (N.addr + N.size - 8) S)
      (L := pre1) (M := [P, b, N]) (R := post1) (A := P.addr) (E := N.addr + N.size)
      (by simpa using hI3) hc1.1
      (Chained.three hPb.2.2.1 hPb.2.2.2.1 hbb.2.2.1 hbb.2.2.2.1 hNb.2.2.1 hNb.2.2.2.1 hbP hNa)
      hc3.2.2.2
      (by simp)
      (by intro c hc; simp at hc; rcases hc with rfl | rfl | rfl <;> assumption)
      (by
        intro k p hp c hc
        have h3 := (hm3 k p).1 hp
        have h2 := (hm2 k p).1 h3.1
        have h1 := (hm1 k p).1 h2.1
        simp at hc
        rcases hc with rfl | rfl | rfl
        · exact fun e => h1.2 e.symm
        · exact fun e => h2.2 e.symm
        · exact fun e => h3.2 e.symm)
      (by
        intro c hc hcf
        have hcm : c ∈ pre1 ++ P :: b :: N :: post1 := by
          simp only [List.mem_append, List.mem_cons] at hc ⊢
          tauto
        have hin := hcov0 c hcm hcf
        have hne : c.addr ≠ P.addr ∧ c.addr ≠ b.addr ∧ c.addr ≠ N.addr := by
          rcases List.mem_append.1 hc with h | h
          · have := hc1.1.mem h
            have := hI0.blk hcm
            omega
          · have := hc3.2.2.2.mem h
            have := hI0.blk hcm
            omega
        exact (hm3 _ _).2 ⟨(hm2 _ _).2 ⟨(hm1 _ _).2 ⟨hin, hne.1⟩, hne.2.1⟩, hne.2.2⟩)
      (NoAdj.init hnpre) (NoAdj.tail hnpost)
      (NoAdj.last_alloc hnpre hPf) (NoAdj.head_alloc hnpost hNf)
      (by simp only [HDRP, WSIZE, hS]) fuel hf
    obtain ⟨m5, fl5, h0, h1, h2, h3, h4, h5⟩ := hfin
    rw [← hS] at h0 h1 h2 h3 h5
    rw [h0]
    refine ⟨P.addr, m5, _, fl5, rfl, h1, h2, h3, ?_, ?_, ⟨⟨P.addr, S, false⟩, by simp, rfl, rfl,
      by omega, by simp only; omega, by simp, by simp, by simp, by simp; omega,
      by intros; omega, by first | (intros; omega) | simp, by first | (intros; omega) | simp,
      by simp⟩⟩
    · have hbl : pre1 ++ [P] ++ b :: N :: post1 = pre1 ++ [P, b, N] ++ post1 := by simp
      rw [hbl]
      have hbl0 : pre1 ++ P :: b :: N :: post1 = pre1 ++ [P, b, N] ++ post1 := by simp
      rw [hbl0] at hI0 hI1 hI2 hF1 hF2 hF3
      exact ((hF1.free hI0).trans ((hF2.free hI1).trans (hF3.free hI2))).trans h4
    · have hbl : pre1 ++ [P] ++ b :: N :: post1 = pre1 ++ [P, b, N] ++ post1 := by simp
      rw [hbl]
      exact h5
  · -- case 3: only the predecessor is free
    subst hpe
    have hI0 : Inv m seg brk (pre1 ++ P :: b :: R) fl := by simpa using hI
    have hcov0 : Covered (pre1 ++ P :: b :: R) fl := by simpa using hcov
    have hP : P ∈ pre1 ++ P :: b :: R := by simp
    have hb0 : b ∈ pre1 ++ P :: b :: R := by simp
    have hPb := hI0.blk hP
    have hc1 := hI0.chained.split
    have hc3 := Chained.split (L := pre1 ++ [P]) (b := b) (R := R)
      (by simpa using hI0.chained)
    have hrp := read_prev_cons hI0
    have hbP : b.addr = P.addr + P.size := hrp.2.2.2
    -- unlink the two blocks
    obtain ⟨fl1, hI1, hm1, hF1⟩ := free_remove_mem hI0 hb0 hbin
    have hPin1 : P.addr ∈ fl1 (cls P.size) := (hm1 _ _).2 ⟨hcov0 P hP hPf, by omega⟩
    have hrp1 := read_prev_cons hI1
    obtain ⟨fl2, hI2, hm2, hF2⟩ := free_remove_mem hI1 hP hPin1
    have hrp2 := read_prev_cons hI2
    have q1 : pa = 0 := by rw [← epa, hpv]
    have q2 : na = 1 := by rw [← ena, hnv]
    have q3 : ps = P.size := by rw [← eps, hrp.2.2.1]
    have q4 : pp = P.addr := by rw [← epp, hrp.1]
    clear epa ena eps epp ens
    subst q1 q2 q3 q4
    rw [coalesce_case3 fuel m seg b.addr hpv hnv]
    simp only
    have hsz : add32 (GET_SIZE m (HDRP b.addr)) (GET_SIZE m (HDRP (PREV_BLKP m b.addr)))
        = (b.addr + b.size) - P.addr := by
      rw [(hI0.hdr hb0).1, hrp.2.2.1, add32_small _ _ (by omega)]
      omega
    rw [hsz, hrp1.1, hrp2.1, PACK_zero]
    set m2 := free_remove (free_remove m seg b.addr) seg P.addr with hm2d
    set S := b.addr + b.size - P.addr with hS
    have hS8 : S % 8 = 0 := by omega
    have hSlt : S < U32 := by omega
    have e3 : FTRP (PUT m2 (HDRP P.addr) S) b.addr = b.addr + b.size - 8 := by
      simp only [FTRP, HDRP, WSIZE, DSIZE]
      rw [GET_SIZE_PUT_other _ _ _ _ (by omega)]
      have := (hI2.hdr hb0).1
      simp only [HDRP, WSIZE] at this
      rw [this]
    rw [e3]
    have e4 : PREV_BLKP (PUT (PUT m2 (HDRP P.addr) S) (b.addr + b.size - 8) S) b.addr = P.addr := by
      simp only [PREV_BLKP, HDRP, WSIZE, DSIZE]
      rw [GET_SIZE_PUT_other _ _ _ _ (by omega), GET_SIZE_PUT_other _ _ _ _ (by omega)]
      have := (hI2.ftr hP).1
      have e : b.addr - 8 = P.addr + P.size - 8 := by omega
      rw [e, this]; omega
    rw [e4]
    have hfin := merge_finish (v := m2) (w := PUT (PUT m2 (HDRP P.addr) S) (b.addr + b.size - 8) S)
      (L := pre1) (M := [P, b]) (R := R) (A := P.addr) (E := b.addr + b.size)
      (by simpa using hI2) hc1.1
      (Chained.two hPb.2.2.1 hPb.2.2.2.1 hbb.2.2.1 hbb.2.2.2.1 hbP)
      hc3.2.2.2
      (by simp)
      (by intro c hc; simp at hc; rcases hc with rfl | rfl <;> assumption)
      (by
        intro k p hp c hc
        have h2 := (hm2 k p).1 hp
        have h1 := (hm1 k p).1 h2.1
        simp at hc
        rcases hc with rfl | rfl
        · exact fun e => h2.2 e.symm
        · exact fun e => h1.2 e.symm)
      (by
        intro c hc hcf
        have hcm : c ∈ pre1 ++ P :: b :: R := by
          simp only [List.mem_append, List.mem_cons] at hc ⊢
          tauto
        have hin := hcov0 c hcm hcf
        have hne : c.addr ≠ P.addr ∧ c.addr ≠ b.addr := by
          rcases List.mem_append.1 hc with h | h
          · have := hc1.1.mem h
            have := hI0.blk hcm
            omega
          · have := hc3.2.2.2.mem h
            have := hI0.blk hcm
            omega
        exact (hm2 _ _).2 ⟨(hm1 _ _).2 ⟨hin, hne.2⟩, hne.1⟩)
      (NoAdj.init hnpre) hnpost
      (NoAdj.last_alloc hnpre hPf) hna
      (by simp only [HDRP, WSIZE, hS]) fuel hf
    obtain ⟨m5, fl5, h0, h1, h2, h3, h4, h5⟩ := hfin
    rw [← hS] at h0 h1 h2 h3 h5
    rw [h0]
    refine ⟨P.addr, m5, _, fl5, rfl, h1, h2, h3, ?_, ?_, ⟨⟨P.addr, S, false⟩, by simp, rfl, rfl,
      by omega, by simp only; omega, by simp, by simp, by simp, by simp; omega,
      by intros; omega, by first | (intros; omega) | simp, by first | (intros; omega) | simp,
      by simp⟩⟩
    · have hbl : pre1 ++ [P] ++ b :: R = pre1 ++ [P, b] ++ R := by simp
      rw [hbl]
      have hbl0 : pre1 ++ P :: b :: R = pre1 ++ [P, b] ++ R := by simp
      rw [hbl0] at hI0 hI1 hF1 hF2
      exact ((hF1.free hI0).trans (hF2.free hI1)).trans h4
    · have hbl : pre1 ++ [P] ++ b :: R = pre1 ++ [P, b] ++ R := by simp
      rw [hbl]
      exact h5
  · -- case 2: only the successor is free
    subst hne
    have hb0 : b ∈ pre ++ b :: N :: post1 := by simp
    have hN : N ∈ pre ++ b :: N :: post1 := by simp
    have hNb := hI.blk hN
    have hc1 := hI.chained.split
    have hc3 := Chained.split (L := pre ++ [b]) (b := N) (R := post1)
      (by simpa using hI.chained)
    have hrn := read_next_cons hI
    have hNa : N.addr = b.addr + b.size := hrn.2.2.2
    -- unlink the two blocks
    obtain ⟨fl1, hI1, hm1, hF1⟩ := free_remove_mem hI hb0 hbin
    have hNin1 : N.addr ∈ fl1 (cls N.size) := (hm1 _ _).2 ⟨hcov N hN hNf, by omega⟩
    have hrn1 := read_next_cons hI1
    obtain ⟨fl2, hI2, hm2, hF2⟩ := free_remove_mem hI1 hN hNin1
    have q1 : pa = 1 := by rw [← epa, hpv]
    have q2 : na = 0 := by rw [← ena, hnv]
    have q5 : ns = N.size := by rw [← ens, hrn.2.2.1]
    clear epa ena eps epp ens
    subst q1 q2 q5
    rw [coalesce_case2 fuel m seg b.addr hpv hnv]
    simp only
    have hsz : add32 (GET_SIZE m (HDRP b.addr)) (GET_SIZE m (HDRP (NEXT_BLKP m b.addr)))
        = (N.addr + N.size) - b.addr := by
      rw [(hI.hdr hb0).1, hrn.2.2.1, add32_small _ _ (by omega)]
      omega
    rw [hsz, hrn1.1, PACK_zero]
    set m2 := free_remove (free_remove m seg b.addr) seg N.addr with hm2d
    set S := N.addr + N.size - b.addr with hS
    have hS8 : S % 8 = 0 := by omega
    have hSlt : S < U32 := by omega
    have e3 : FTRP (PUT m2 (HDRP b.addr) S) b.addr = N.addr + N.size - 8 := by
      simp only [FTRP, DSIZE]
      rw [GET_SIZE_PUT_same _ _ _ hS8 hSlt]
      omega
    rw [e3]
    have hfin := merge_finish (v := m2) (w := PUT (PUT m2 (HDRP b.addr) S) (N.addr + N.size - 8) S)
      (L := pre) (M := [b, N]) (R := post1) (A := b.addr) (E := N.addr + N.size)
      (by simpa using hI2) hc1.1
      (Chained.two hbb.2.2.1 hbb.2.2.2.1 hNb.2.2.1 hNb.2.2.2.1 hNa)
      hc3.2.2.2
      (by simp)
      (by intro c hc; simp at hc; rcases hc with rfl | rfl <;> assumption)
      (by
        intro k p hp c hc
        have h2 := (hm2 k p).1 hp
        have h1 := (hm1 k p).1 h2.1
        simp at hc
        rcases hc with rfl | rfl
        · exact fun e => h1.2 e.symm
        · exact fun e => h2.2 e.symm)
      (by
        intro c hc hcf
        have hcm : c ∈ pre ++ b :: N :: post1 := by
          simp only [List.mem_append, List.mem_cons] at hc ⊢
          tauto
        have hin := hcov c hcm hcf
        have hne : c.addr ≠ b.addr ∧ c.addr ≠ N.addr := by
          rcases List.mem_append.1 hc with h | h
          · have := hc1.1.mem h
            have := hI.blk hcm
            omega
          · have := hc3.2.2.2.mem h
            have := hI.blk hcm
            omega
        exact (hm2 _ _).2 ⟨(hm1 _ _).2 ⟨hin, hne.1⟩, hne.2⟩)
      hnpre (NoAdj.tail hnpost)
      hpa (NoAdj.head_alloc hnpost hNf)
      (by simp only [HDRP, WSIZE, hS]) fuel hf
    obtain ⟨m5, fl5, h0, h1, h2, h3, h4, h5⟩ := hfin
    rw [← hS] at h0 h1 h2 h3 h5
    rw [h0]
    refine ⟨b.addr, m5, _, fl5, rfl, h1, h2, h3, ?_, ?_, ⟨⟨b.addr, S, false⟩, by simp, rfl, rfl,
      by omega, by simp only; omega, by simp, by simp, by simp, by simp; omega,
      by simp, by first | (intros; omega) | simp, by first | (intros; omega) | simp,
      by simp⟩⟩
    · have hbl0 : pre ++ b :: N :: post1 = pre ++ [b, N] ++ post1 := by simp
      rw [hbl0] at hI hI1 hF1 hF2 ⊢
      exact ((hF1.free hI).trans (hF2.free hI1)).trans h4
    · have hbl0 : pre ++ b :: N :: post1 = pre ++ [b, N] ++ post1 := by simp
      rw [hbl0]
      exact h5
  · -- case 1: no neighbour is free
    have q1 : pa = 1 := by rw [← epa, hpv]
    have q2 : na = 1 := by rw [← ena, hnv]
    clear epa ena eps epp ens
    subst q1 q2
    rw [coalesce_case1 fuel m seg b.addr hpv hnv]
    refine ⟨b.addr, m, _, fl, rfl, hI, hcov, ?_, fun a _ _ => rfl, fun c _ => Iff.rfl,
      ⟨b, hb, rfl, hfree, le_refl _, le_refl _, by simp, by simp, by simp, by simp,
        by simp, by simp, by simp, by simp⟩⟩
    rw [NoAdj.mid]
    exact ⟨hnpre, hnpost, fun P hP => Or.inl (hpa P hP), fun N hN => Or.inr (hna N hN)⟩

/-- `coalesce` on a free, linked block whose neighbours are the only possible
free neighbours gives a well-formed heap in which the block is merged with the
neighbours that were free. -/
theorem coalesce_spec {m : Mem} {seg brk : Nat} {pre R : List Blk} {fl : Nat → List Nat}
    {b : Blk} (hI : Inv m seg brk (pre ++ b :: R) fl) (hcov : Covered (pre ++ b :: R) fl)
    (hfree : b.alloc = false) (hnpre : NoAdj pre) (hnpost : NoAdj R)
    (fuel : Nat) (hf : 0 < fuel) :
    ∃ r m1 bl1 fl1, coalesce fuel m seg b.addr = some (r, m1) ∧
      Inv m1 seg brk bl1 fl1 ∧ Covered bl1 fl1 ∧ NoAdj bl1 ∧
      FreeFrame seg (pre ++ b :: R) m m1 ∧ AllocEq (pre ++ b :: R) bl1 ∧
      (∃ c ∈ bl1, c.addr = r ∧ c.alloc = false ∧ r ≤ b.addr ∧ b.addr + b.size ≤ r + c.size) := by
  obtain ⟨r, m1, bl1, fl1, h0, h1, h2, h3, h4, h5, c, hc, h6, h7, h8, h9, _⟩ :=
    coalesce_exact hI hcov hfree hnpre hnpost fuel hf rfl rfl rfl rfl rfl
  exact ⟨r, m1, bl1, fl1, h0, h1, h2, h3, h4, h5, c, hc, h6, h7, h8, h9⟩

end MM

namespace MM

/-! ## `addblock` -/

theorem mask_size1 (s : Nat) (h8 : s % 8 = 0) (hlt : s + 1 < U32) : (s + 1) &&& MASK7 = s := by
  rw [and_MASK7 _ hlt]; omega

theorem GET_SIZE_PUT_same1 (m : Mem) (a v : Nat) (h8 : v % 8 = 0) (hlt : v + 1 < U32) :
    GET_SIZE (PUT m a (v + 1)) a = v := by
  simp only [GET_SIZE, GET, PUT_same]
  exact mask_size1 v h8 hlt

theorem PACK_one (s : Nat) (h8 : s % 8 = 0) : PACK s 1 = s + 1 :=
  PACK_eq s 1 h8 (le_refl _)

/-- The nodes of the lists lie outside a block that no list links. -/
theorem Inv.nodes_outside {m : Mem} {seg brk : Nat} {pre post : List Blk} {fl : Nat → List Nat}
    {b : Blk} (hI : Inv m seg brk (pre ++ b :: post) fl) (hun : ∀ k, b.addr ∉ fl k) :
    ∀ k, ∀ p ∈ fl k, p + 16 ≤ b.addr ∨ b.addr + b.size ≤ p := by
  intro k p hp
  obtain ⟨c, hc, hca, _, _⟩ := hI.nodes k p hp
  have hb : b ∈ pre ++ b :: post := by simp
  have hcb := hI.blk hc
  rcases hI.chained.apart hc hb with h | h | h
  · subst h
    rw [hca] at hun
    exact absurd hp (hun k)
  · omega
  · omega

theorem addblock_whole (fuel : Nat) (m : Mem) (seg bp size : Nat)
    (h : ¬ sub32 (GET_SIZE m (HDRP bp)) size ≥ 2 * DSIZE) :
    addblock fuel m seg bp size =
      (let size_freed := GET_SIZE m (HDRP bp)
       let m1 := free_remove m seg bp
       let m2 := PUT m1 (HDRP bp) (PACK size_freed 1)
       let m3 := PUT m2 (FTRP m2 bp) (PACK size_freed 1)
       some (bp, m3)) := by
  unfold addblock
  simp only [if_neg h]

theorem addblock_tail (fuel : Nat) (m : Mem) (seg bp size : Nat)
    (h : sub32 (GET_SIZE m (HDRP bp)) size ≥ 200) :
    addblock fuel m seg bp size =
      (let d := sub32 (GET_SIZE m (HDRP bp)) size
       let m1 := free_remove m seg bp
       let m2 := PUT m1 (HDRP bp) (PACK d 0)
       let m3 := PUT m2 (FTRP m2 bp) (PACK d 0)
       let np := NEXT_BLKP m3 bp
       let m4 := PUT m3 (HDRP np) (PACK size 1)
       let m5 := PUT m4 (FTRP m4 np) (PACK size 1)
       (free_insert fuel m5 seg bp d).map (fun m6 => (np, m6))) := by
  unfold addblock
  have h2 : sub32 (GET_SIZE m (HDRP bp)) size ≥ 2 * DSIZE := by
    simp only [DSIZE]; omega
  simp only [if_pos h2, if_pos h]

theorem addblock_front (fuel : Nat) (m : Mem) (seg bp size : Nat)
    (h2 : sub32 (GET_SIZE m (HDRP bp)) size ≥ 2 * DSIZE)
    (h : ¬ sub32 (GET_SIZE m (HDRP bp)) size ≥ 200) :
    addblock fuel m seg bp size =
      (let d := sub32 (GET_SIZE m (HDRP bp)) size
       let m1 := free_remove m seg bp
       let m2 := PUT m1 (HDRP bp) (PACK size 1)
       let m3 := PUT m2 (FTRP m2 bp) (PACK size 1)
       let np := NEXT_BLKP m3 bp
       let m4 := PUT m3 (HDRP np) (PACK d 0)
       let m5 := PUT m4 (FTRP m4 np) (PACK d 0)
       (free_insert fuel m5 seg np d).map (fun m6 => (bp, m6))) := by
  unfold addblock
  simp only [if_pos h2, if_neg h]

/-- Linking the free part after a block was split: everything that follows the
rewriting of the tags in the splitting cases of `addblock` (and of `mm_realloc`). -/
theorem split_finish {m1 w : Mem} {seg brk : Nat} {pre W post : List Blk}
    {fl1 : Nat → List Nat} {b f : Blk}
    (hI : Inv m1 seg brk (pre ++ b :: post) fl1) (hun : ∀ k, b.addr ∉ fl1 k)
    (hmid1 : Chained b.addr W (b.addr + b.size))
    (hm5 : ∀ a, a + 4 < b.addr ∨ b.addr + b.size ≤ a + 4 → w a = m1 a)
    (ht : Tagged w W) (hf1 : f ∈ W) (hff : f.alloc = false)
    (hcov : ∀ c ∈ pre ++ post, c.alloc = false → c.addr ∈ fl1 (cls c.size))
    (hone : ∀ c ∈ W, c.alloc = false → c = f)
    (fuel : Nat) (hf : 0 < fuel) :
    ∃ m6 fl2, free_insert fuel w seg f.addr f.size = some m6 ∧
      Inv m6 seg brk (pre ++ W ++ post) fl2 ∧ Covered (pre ++ W ++ post) fl2 ∧
      (∀ a, (a < seg ∨ seg + 80 ≤ a) → (a + 4 < b.addr ∨ b.addr + b.size ≤ a + 4) →
        (∀ c ∈ pre ++ post, c.alloc = false → a ≠ c.addr ∧ a ≠ c.addr + 4) → m6 a = m1 a) := by
  have hs := hI.chained.split
  have hI5 : Inv w seg brk (pre ++ W ++ post) fl1 := by
    apply Inv.replace (M := [b]) (by simpa using hI) hs.1 hmid1 hs.2.2.2 hm5 ht
    intro k p hp c hc
    simp only [List.mem_singleton] at hc
    subst hc
    intro e
    exact hun k (e ▸ hp)
  have hout := hI.nodes_outside hun
  have hfm : f ∈ pre ++ W ++ post := by simp [hf1]
  have hfg := hmid1.mem hf1
  have hnot : ∀ k, f.addr ∉ fl1 k := by
    intro k h
    have := hout k _ h
    omega
  obtain ⟨m6, fl2, h0, h1, h2, h3⟩ := free_insert_mem hI5 hfm hff hnot fuel hf
  refine ⟨m6, fl2, h0, h1, ?_, ?_⟩
  · intro c hc hcf
    rw [h2]
    simp only [List.mem_append] at hc
    rcases hc with (hc | hc) | hc
    · left; exact hcov c (List.mem_append_left _ hc) hcf
    · right
      have := hone c hc hcf
      subst this
      exact ⟨rfl, rfl⟩
    · left; exact hcov c (List.mem_append_right _ hc) hcf
  · intro a ha hrange hc
    rw [h3 a ha]
    · exact hm5 a hrange
    · intro c hcm hcf
      simp only [List.mem_append] at hcm
      rcases hcm with (hcm | hcm) | hcm
      · exact hc c (List.mem_append_left _ hcm) hcf
      · have := hmid1.mem hcm
        omega
      · exact hc c (List.mem_append_right _ hcm) hcf

theorem NoAdj.cons_alloc {a : Blk} {l : List Blk} (h : NoAdj l) (ha : a.alloc = true) :
    NoAdj (a :: l) := by
  unfold NoAdj at h ⊢
  rw [List.chain'_cons']
  exact ⟨fun y _ => Or.inl ha, h⟩

theorem NoAdj.cons_free {f : Blk} {l : List Blk} (h : NoAdj l)
    (hl : ∀ N ∈ l.head?, N.alloc = true) : NoAdj (f :: l) := by
  unfold NoAdj at h ⊢
  rw [List.chain'_cons']
  exact ⟨fun y hy => Or.inr (hl y hy), h⟩

theorem NoAdj.fa {pre post : List Blk} {f a : Blk} (hpre : NoAdj pre) (hpost : NoAdj post)
    (hb : ∀ P ∈ pre.getLast?, P.alloc = true) (ha : a.alloc = true) :
    NoAdj (pre ++ [f, a] ++ post) := by
  have e : pre ++ [f, a] ++ post = pre ++ f :: (a :: post) := by simp
  rw [e, NoAdj.mid]
  refine ⟨hpre, hpost.cons_alloc ha, fun P hP => Or.inl (hb P hP), ?_⟩
  intro N hN
  simp only [List.head?_cons, Option.mem_def, Option.some.injEq] at hN
  subst hN
  exact Or.inr ha

theorem NoAdj.af {pre post : List Blk} {f a : Blk} (hpre : NoAdj pre) (hpost : NoAdj post)
    (hb : ∀ N ∈ post.head?, N.alloc = true) (ha : a.alloc = true) :
    NoAdj (pre ++ [a, f] ++ post) := by
  have e : pre ++ [a, f] ++ post = pre ++ a :: (f :: post) := by simp
  rw [e, NoAdj.mid]
  refine ⟨hpre, hpost.cons_free hb, fun P _ => Or.inr ha, fun N _ => Or.inl ha⟩

/-- `addblock` on a free, linked block of a described heap carves an
allocated block of the requested size, placed by the size of the remainder. -/
theorem addblock_core {m : Mem} {seg brk : Nat} {pre post : List Blk} {fl : Nat → List Nat}
    {b : Blk} (hI : Inv m seg brk (pre ++ b :: post) fl) (hcov : Covered (pre ++ b :: post) fl)
    (hfree : b.alloc = false)
    (r : Nat) (hr8 : r % 8 = 0) (hr16 : 16 ≤ r) (hrb : r ≤ b.size)
    (fuel : Nat) (hf : 0 < fuel) :
    ∃ q m1 mid1 fl1, addblock fuel m seg b.addr r = some (q, m1) ∧
      Inv m1 seg brk (pre ++ mid1 ++ post) fl1 ∧ Covered (pre ++ mid1 ++ post) fl1 ∧
      FreeFrame seg (pre ++ b :: post) m m1 ∧
      ((b.size - r < 16 ∧ q = b.addr ∧ mid1 = [⟨b.addr, b.size, true⟩]) ∨
       (200 ≤ b.size - r ∧ q = b.addr + (b.size - r) ∧
          mid1 = [⟨b.addr, b.size - r, false⟩, ⟨b.addr + (b.size - r), r, true⟩]) ∨
       (16 ≤ b.size - r ∧ b.size - r < 200 ∧ q = b.addr ∧
          mid1 = [⟨b.addr, r, true⟩, ⟨b.addr + r, b.size - r, false⟩])) := by
  have hb : b ∈ pre ++ b :: post := by simp
  have hbb := hI.blk hb
  have hbin : b.addr ∈ fl (cls b.size) := hcov b hb hfree
  have hbrk := hI.brk_lt
  have hU : FAIL_PTR < U32 := by decide
  have hs := hI.chained.split
  obtain ⟨fl1, hI1, hm1, hF1⟩ := free_remove_mem hI hb hbin
  have hun : ∀ k, b.addr ∉ fl1 k := fun k h => ((hm1 k _).1 h).2 rfl
  have hcov1 : ∀ c ∈ pre ++ post, c.alloc = false → c.addr ∈ fl1 (cls c.size) := by
    intro c hc hcf
    have hcm : c ∈ pre ++ b :: post := by
      simp only [List.mem_append, List.mem_cons] at hc ⊢
      tauto
    refine (hm1 _ _).2 ⟨hcov c hcm hcf, ?_⟩
    rcases List.mem_append.1 hc with h | h
    · have := hs.1.mem h
      have := hI.blk hcm
      omega
    · have := hs.2.2.2.mem h
      have := hI.blk hcm
      omega
  have hsz := (hI.hdr hb).1
  have hd : sub32 (GET_SIZE m (HDRP b.addr)) r = b.size - r := by
    rw [hsz]; exact sub32_small _ _ hrb (by omega)
  by_cases h16 : b.size - r < 16
  · -- the whole block is allocated
    rw [addblock_whole fuel m seg b.addr r (by rw [hd]; simp only [DSIZE]; omega)]
    simp only
    rw [hsz, PACK_one _ hbb.2.2.2.1]
    have e1 : FTRP (PUT (free_remove m seg b.addr) (HDRP b.addr) (b.size + 1)) b.addr
        = b.addr + b.size - 8 := by
      simp only [FTRP, DSIZE]
      rw [GET_SIZE_PUT_same1 _ _ _ hbb.2.2.2.1 (by omega)]
    rw [e1]
    refine ⟨b.addr, _, [⟨b.addr, b.size, true⟩], fl1, rfl, ?_, ?_, ?_, Or.inl ⟨h16, rfl, rfl⟩⟩
    · apply Inv.replace (M := [b]) (A := b.addr) (E := b.addr + b.size) (by simpa using hI1)
        hs.1 (Chained.one (b := ⟨b.addr, b.size, true⟩) hbb.2.2.1 hbb.2.2.2.1) hs.2.2.2
      · intro a ha
        simp only [HDRP, WSIZE]
        rw [PUT_other _ _ _ _ (by omega), PUT_other _ _ _ _ (by omega)]
      · intro c hc
        simp only [List.mem_singleton] at hc
        subst hc
        simp only [tag_used, HDRP, WSIZE]
        constructor
        · rw [PUT_other _ _ _ _ (by omega)]; simp
        · simp
      · intro k p hp c hc
        simp only [List.mem_singleton] at hc
        subst hc
        intro e
        exact hun k (e ▸ hp)
    · intro c hc hcf
      simp only [List.mem_append, List.mem_singleton] at hc
      rcases hc with (hc | hc) | hc
      · exact hcov1 c (List.mem_append_left _ hc) hcf
      · subst hc; simp at hcf
      · exact hcov1 c (List.mem_append_right _ hc) hcf
    · apply (hF1.free hI).trans
      intro a ha hc
      have := hc b hb hfree
      simp only [HDRP, WSIZE]
      rw [PUT_other _ _ _ _ (by omega), PUT_other _ _ _ _ (by omega)]
  · by_cases h200 : 200 ≤ b.size - r
    · -- the allocated block is the tail
      rw [addblock_tail fuel m seg b.addr r (by rw [hd]; exact h200)]
      simp only
      rw [hd, PACK_zero, PACK_one _ hr8]
      set d := b.size - r with hdd
      set m1 := free_remove m seg b.addr with hm1d
      have hd8 : d % 8 = 0 := by omega
      have e1 : FTRP (PUT m1 (HDRP b.addr) d) b.addr = b.addr + d - 8 := by
        simp only [FTRP, DSIZE]
        rw [GET_SIZE_PUT_same _ _ _ hd8 (by omega)]
      rw [e1]
      have e2 : NEXT_BLKP (PUT (PUT m1 (HDRP b.addr) d) (b.addr + d - 8) d) b.addr
          = b.addr + d := by
        simp only [NEXT_BLKP, HDRP, WSIZE]
        rw [GET_SIZE_PUT_other _ _ _ _ (by omega), GET_SIZE_PUT_same _ _ _ hd8 (by omega)]
      rw [e2]
      have e3 : FTRP (PUT (PUT (PUT m1 (HDRP b.addr) d) (b.addr + d - 8) d)
          (HDRP (b.addr + d)) (r + 1)) (b.addr + d) = b.addr + d + r - 8 := by
        simp only [FTRP, DSIZE]
        rw [GET_SIZE_PUT_same1 _ _ _ hr8 (by omega)]
      rw [e3]
      obtain ⟨m6, fl2, h0, h1, h2, h3⟩ := split_finish (f := ⟨b.addr, d, false⟩)
        (W := [⟨b.addr, d, false⟩, ⟨b.addr + d, r, true⟩])
        (w := PUT (PUT (PUT (PUT m1 (HDRP b.addr) d) (b.addr + d - 8) d)
          (HDRP (b.addr + d)) (r + 1)) (b.addr + d + r - 8) (r + 1))
        hI1 hun
        (by
          have := Chained.two (b := ⟨b.addr, d, false⟩) (c := ⟨b.addr + d, r, true⟩)
            (by simp only; omega) hd8 hr16 hr8 rfl
          have e : b.addr + d + r = b.addr + b.size := by omega
          simp only [e] at this
          exact this)
        (by
          intro a ha
          simp only [HDRP, WSIZE]
          rw [PUT_other _ _ _ _ (by omega), PUT_other _ _ _ _ (by omega),
            PUT_other _ _ _ _ (by omega), PUT_other _ _ _ _ (by omega)])
        (by
          intro c hc
          simp only [List.mem_cons, List.mem_singleton, List.not_mem_nil, or_false] at hc
          rcases hc with rfl | rfl
          · simp only [tag_free, HDRP, WSIZE]
            constructor
            · rw [PUT_other _ _ _ _ (by omega), PUT_other _ _ _ _ (by omega),
                PUT_other _ _ _ _ (by omega)]
              simp
            · rw [PUT_other _ _ _ _ (by omega), PUT_other _ _ _ _ (by omega)]
              simp
          · simp only [tag_used, HDRP, WSIZE]
            constructor
            · rw [PUT_other _ _ _ _ (by omega)]
              simp
            · simp)
        (by simp) rfl hcov1
        (by
          intro c hc hcf
          simp only [List.mem_cons, List.mem_singleton, List.not_mem_nil, or_false] at hc
          rcases hc with rfl | rfl
          · rfl
          · simp at hcf)
        fuel hf
      simp only at h0
      rw [h0]
      refine ⟨b.addr + d, m6, _, fl2, rfl, h1, h2, ?_,
        Or.inr (Or.inl ⟨h200, rfl, rfl⟩)⟩
      apply (hF1.free hI).trans
      intro a ha hc
      have hca := hc b hb hfree
      apply h3 a ha (by omega)
      intro c hcm hcf
      have hcm2 : c ∈ pre ++ b :: post := by
        simp only [List.mem_append, List.mem_cons] at hcm ⊢
        tauto
      have := hc c hcm2 hcf
      have := hI.blk hcm2
      omega
    · -- the allocated block is the head
      rw [addblock_front fuel m seg b.addr r (by rw [hd]; simp only [DSIZE]; omega)
        (by rw [hd]; omega)]
      simp only
      rw [hd, PACK_zero, PACK_one _ hr8]
      set d := b.size - r with hdd
      set m1 := free_remove m seg b.addr with hm1d
      have hd8 : d % 8 = 0 := by omega
      have e1 : FTRP (PUT m1 (HDRP b.addr) (r + 1)) b.addr = b.addr + r - 8 := by
        simp only [FTRP, DSIZE]
        rw [GET_SIZE_PUT_same1 _ _ _ hr8 (by omega)]
      rw [e1]
      have e2 : NEXT_BLKP (PUT (PUT m1 (HDRP b.addr) (r + 1)) (b.addr + r - 8) (r + 1)) b.addr
          = b.addr + r := by
        simp only [NEXT_BLKP, HDRP, WSIZE]
        rw [GET_SIZE_PUT_other _ _ _ _ (by omega), GET_SIZE_PUT_same1 _ _ _ hr8 (by omega)]
      rw [e2]
      have e3 : FTRP (PUT (PUT (PUT m1 (HDRP b.addr) (r + 1)) (b.addr + r - 8) (r + 1))
          (HDRP (b.addr + r)) d) (b.addr + r) = b.addr + r + d - 8 := by
        simp only [FTRP, DSIZE]
        rw [GET_SIZE_PUT_same _ _ _ hd8 (by omega)]
      rw [e3]
      obtain ⟨m6, fl2, h0, h1, h2, h3⟩ := split_finish (f := ⟨b.addr + r, d, false⟩)
        (W := [⟨b.addr, r, true⟩, ⟨b.addr + r, d, false⟩])
        (w := PUT (PUT (PUT (PUT m1 (HDRP b.addr) (r + 1)) (b.addr + r - 8) (r + 1))
          (HDRP (b.addr + r)) d) (b.addr + r + d - 8) d)
        hI1 hun
        (by
          have := Chained.two (b := ⟨b.addr, r, true⟩) (c := ⟨b.addr + r, d, false⟩)
            hr16 hr8 (by simp only; omega) hd8 rfl
          have e : b.addr + r + d = b.addr + b.size := by omega
          simp only [e] at this
          exact this)
        (by
          intro a ha
          simp only [HDRP, WSIZE]
          rw [PUT_other _ _ _ _ (by omega), PUT_other _ _ _ _ (by omega),
            PUT_other _ _ _ _ (by omega), PUT_other _ _ _ _ (by omega)])
        (by
          intro c hc
          simp only [List.mem_cons, List.mem_singleton, List.not_mem_nil, or_false] at hc
          rcases hc with rfl | rfl
          · simp only [tag_used, HDRP, WSIZE]
            constructor
            · rw [PUT_other _ _ _ _ (by omega), PUT_other _ _ _ _ (by omega),
                PUT_other _ _ _ _ (by omega)]
              simp
            · rw [PUT_other _ _ _ _ (by omega), PUT_other _ _ _ _ (by omega)]
              simp
          · simp only [tag_free, HDRP, WSIZE]
            constructor
            · rw [PUT_other _ _ _ _ (by omega)]
              simp
            · simp)
        (by simp) rfl hcov1
        (by
          intro c hc hcf
          simp only [List.mem_cons, List.mem_singleton, List.not_mem_nil, or_false] at hc
          rcases hc with rfl | rfl
          · simp at hcf
          · rfl)
        fuel hf
      simp only at h0
      rw [h0]
      refine ⟨b.addr, m6, _, fl2, rfl, h1, h2, ?_,
        Or.inr (Or.inr ⟨by omega, by omega, rfl, rfl⟩)⟩
      apply (hF1.free hI).trans
      intro a ha hc
      have hca := hc b hb hfree
      apply h3 a ha (by omega)
      intro c hcm hcf
      have hcm2 : c ∈ pre ++ b :: post := by
        simp only [List.mem_append, List.mem_cons] at hcm ⊢
        tauto
      have := hc c hcm2 hcf
      have := hI.blk hcm2
      omega

/-- `addblock` on a free, linked block of a well-formed heap carves an
allocated block of the requested size, placed by the size of the remainder,
and leaves the heap well formed. -/
theorem addblock_spec {m : Mem} {seg brk : Nat} {pre post : List Blk} {fl : Nat → List Nat}
    {b : Blk} (hI : Inv m seg brk (pre ++ b :: post) fl) (hcov : Covered (pre ++ b :: post) fl)
    (hna : NoAdj (pre ++ b :: post)) (hfree : b.alloc = false)
    (r : Nat) (hr8 : r % 8 = 0) (hr16 : 16 ≤ r) (hrb : r ≤ b.size)
    (fuel : Nat) (hf : 0 < fuel) :
    ∃ q m1 mid1 fl1, addblock fuel m seg b.addr r = some (q, m1) ∧
      Inv m1 seg brk (pre ++ mid1 ++ post) fl1 ∧ Covered (pre ++ mid1 ++ post) fl1 ∧
      NoAdj (pre ++ mid1 ++ post) ∧ FreeFrame seg (pre ++ b :: post) m m1 ∧
      ((b.size - r < 16 ∧ q = b.addr ∧ mid1 = [⟨b.addr, b.size, true⟩]) ∨
       (200 ≤ b.size - r ∧ q = b.addr + (b.size - r) ∧
          mid1 = [⟨b.addr, b.size - r, false⟩, ⟨b.addr + (b.size - r), r, true⟩]) ∨
       (16 ≤ b.size - r ∧ b.size - r < 200 ∧ q = b.addr ∧
          mid1 = [⟨b.addr, r, true⟩, ⟨b.addr + r, b.size - r, false⟩])) := by
  obtain ⟨hnpre, hnpost, hbpre, hbpost⟩ := NoAdj.mid.1 hna
  have hbpre1 : ∀ P ∈ pre.getLast?, P.alloc = true := by
    intro P hP
    rcases hbpre P hP with h | h
    · exact h
    · rw [hfree] at h; cases h
  have hbpost1 : ∀ N ∈ post.head?, N.alloc = true := by
    intro N hN
    rcases hbpost N hN with h | h
    · rw [hfree] at h; cases h
    · exact h
  obtain ⟨q, m1, mid1, fl1, h0, h1, h2, h4, hcase⟩ :=
    addblock_core hI hcov hfree r hr8 hr16 hrb fuel hf
  refine ⟨q, m1, mid1, fl1, h0, h1, h2, ?_, h4, hcase⟩
  rcases hcase with ⟨_, _, hm⟩ | ⟨_, _, hm⟩ | ⟨_, _, _, hm⟩
  · rw [hm, List.append_assoc, List.singleton_append, NoAdj.mid]
    exact ⟨hnpre, hnpost, fun P _ => Or.inr rfl, fun N _ => Or.inl rfl⟩
  · rw [hm]
    exact NoAdj.fa hnpre hnpost hbpre1 rfl
  · rw [hm]
    exact NoAdj.af hnpre hnpost hbpost1 rfl

end MM

namespace MM

/-! ## Sizes computed by `mm_malloc`, `mm_realloc` and `extend_heap` -/

theorem malloc_size_spec (n : Nat) (h1 : 1 ≤ n) (h2 : n + 16 ≤ U32) :
    malloc_size n % 8 = 0 ∧ 16 ≤ malloc_size n ∧ n + 8 ≤ malloc_size n ∧
      malloc_size n ≤ n + 15 := by
  unfold malloc_size
  simp only [DSIZE, U32] at *
  split
  · omega
  · rw [add32_small n 8 (by simp only [U32]; omega), add32_small (n + 8) _ (by simp only [U32]; omega)]
    unfold mul32
    simp only [U32]
    omega

theorem malloc_size_mod (n : Nat) : malloc_size n % 8 = 0 ∧ malloc_size n < U32 := by
  unfold malloc_size mul32
  simp only [DSIZE, U32]
  split <;> omega

theorem ALIGN_spec (n : Nat) (h2 : n + 8 ≤ U32) :
    ALIGN n % 8 = 0 ∧ n ≤ ALIGN n ∧ ALIGN n ≤ n + 7 := by
  unfold ALIGN
  rw [add32_small n 7 (by omega)]
  rw [and_MASK7 _ (by omega)]
  omega

theorem extend_size_eq (x : Nat) (h8 : x % 8 = 0) (hlt : x < U32) : extend_size (x / 4) = x := by
  unfold extend_size mul32
  rw [add32_small _ _ (by simp only [U32] at *; omega)]
  rw [Nat.shiftRight_eq_div_pow, Nat.shiftLeft_eq]
  simp only [WSIZE, U32] at *
  omega

theorem MAX_spec (x y : Nat) : x ≤ MAX x y ∧ y ≤ MAX x y ∧ (MAX x y = x ∨ MAX x y = y) := by
  unfold MAX
  split <;> omega

/-! ## Growing the heap -/

/-- The heap with a new free block in the bytes `mem_sbrk` returned. -/
theorem Inv.extend {m : Mem} {seg brk size : Nat} {bl : List Blk} {fl : Nat → List Nat}
    (hI : Inv m seg brk bl fl) (h8 : size % 8 = 0) (h16 : 16 ≤ size)
    (hlt : brk + size < FAIL_PTR) :
    Inv (PUT (PUT (PUT m (brk - 4) size) (brk + size - 8) size) (brk + size - 4) 1) seg
      (brk + size) (bl ++ [⟨brk, size, false⟩]) fl := by
  have hle := hI.chained.le
  have hkeep : ∀ a, a + 4 < brk →
      PUT (PUT (PUT m (brk - 4) size) (brk + size - 8) size) (brk + size - 4) 1 a = m a := by
    intro a ha
    rw [PUT_other _ _ _ _ (by omega), PUT_other _ _ _ _ (by omega), PUT_other _ _ _ _ (by omega)]
  refine ⟨hI.seg_pos, hI.seg_al, hlt, ?_, ?_, ?_, ?_, ?_, ?_, ?_, ?_, hI.nodup⟩
  · exact Chained.append.2 ⟨brk, hI.chained, rfl, h16, h8, rfl⟩
  · rw [hkeep _ (by omega)]; exact hI.pro_h
  · rw [hkeep _ (by omega)]; exact hI.pro_f
  · have : brk + size - 4 = brk + size - 4 := rfl
    simp
  · rw [Tagged.tagged_append]
    constructor
    · apply hI.tagged.frame
      intro b hb
      have := hI.blk hb
      exact ⟨hkeep _ (by omega), hkeep _ (by omega)⟩
    · intro c hc
      simp only [List.mem_singleton] at hc
      subst hc
      simp only [tag_free]
      constructor
      · rw [PUT_other _ _ _ _ (by omega), PUT_other _ _ _ _ (by omega)]; simp
      · rw [PUT_other _ _ _ _ (by omega)]; simp
  · intro k hk
    rw [hkeep _ (by omega)]; exact hI.heads k hk
  · intro k
    apply (hI.links k).links_frame
    intro p hp
    have := hI.node hp
    exact ⟨hkeep _ (by omega), hkeep _ (by omega)⟩
  · intro k p hp
    obtain ⟨b, hb, h⟩ := hI.nodes k p hp
    exact ⟨b, List.mem_append_left _ hb, h⟩

theorem PayloadKept.of_free {m m1 : Mem} {seg brk : Nat} {bl : List Blk} {fl : Nat → List Nat}
    (hI : Inv m seg brk bl fl) (h : FreeFrame seg bl m m1) (skip : Nat) :
    PayloadKept bl skip m m1 := by
  intro c hc hca _ a ha1 ha2
  have hcb := hI.blk hc
  apply h a (by omega)
  intro d hd hdf
  have hdb := hI.blk hd
  rcases hI.chained.apart hc hd with e | e | e
  · subst e; rw [hca] at hdf; cases hdf
  · omega
  · omega

theorem PayloadKept.kept_trans {bl : List Blk} {skip : Nat} {m m1 m2 : Mem}
    (h1 : PayloadKept bl skip m m1) (h2 : PayloadKept bl skip m1 m2) :
    PayloadKept bl skip m m2 := by
  intro c hc hca hs a ha1 ha2
  rw [h2 c hc hca hs a ha1 ha2, h1 c hc hca hs a ha1 ha2]

/-- `extend_heap` either fails and changes nothing, or appends a free block,
merged with a free last block, to a well-formed heap. -/
theorem extend_heap_spec {s : State} {bl : List Blk} {fl : Nat → List Nat} (hW : WF s bl fl)
    (words size : Nat) (hsz : extend_size words = size) (h8 : size % 8 = 0) (h16 : 16 ≤ size)
    (fuel : Nat) (hf : 0 < fuel) :
    (s.mem_max_addr < s.mem_brk + size ∧ extend_heap fuel s words = some (0, s)) ∨
    (s.mem_brk + size ≤ s.mem_max_addr ∧ ∃ r m1 bl1 fl1,
      extend_heap fuel s words = some (r, { s with mem := m1, mem_brk := s.mem_brk + size }) ∧
      WF { s with mem := m1, mem_brk := s.mem_brk + size } bl1 fl1 ∧
      AllocEq bl bl1 ∧ PayloadKept bl 0 s.mem m1 ∧
      ∃ c ∈ bl1, c.addr = r ∧ c.alloc = false ∧ size ≤ c.size) := by
  have hI := hW.inv
  have hle := hI.chained.le
  have hbrk := hI.brk_lt
  have hmax := hW.max_lt
  have hsa := hI.seg_al
  unfold extend_heap
  simp only [hsz, mem_sbrk]
  by_cases hroom : s.mem_brk + size ≤ s.mem_max_addr
  · right
    refine ⟨hroom, ?_⟩
    rw [if_pos hroom]
    simp only
    have hnf : s.mem_brk ≠ FAIL_PTR := by omega
    rw [if_neg hnf, PACK_zero]
    have e1 : FTRP (PUT s.mem (HDRP s.mem_brk) size) s.mem_brk = s.mem_brk + size - 8 := by
      simp only [FTRP, DSIZE]
      rw [GET_SIZE_PUT_same _ _ _ h8 (by simp only [U32, FAIL_PTR] at *; omega)]
    rw [e1]
    have e2 : HDRP (NEXT_BLKP (PUT (PUT s.mem (HDRP s.mem_brk) size) (s.mem_brk + size - 8) size)
        s.mem_brk) = s.mem_brk + size - 4 := by
      simp only [NEXT_BLKP, HDRP, WSIZE]
      rw [GET_SIZE_PUT_other _ _ _ _ (by omega),
        GET_SIZE_PUT_same _ _ _ h8 (by simp only [U32, FAIL_PTR] at *; omega)]
    rw [e2]
    have e3 : PACK 0 1 = 1 := by decide
    rw [e3]
    have hlt : s.mem_brk + size < FAIL_PTR := by
      simp only [FAIL_PTR] at *; omega
    have hI3 := hI.extend h8 h16 hlt
    simp only [HDRP, WSIZE]
    set m3 := PUT (PUT (PUT s.mem (s.mem_brk - 4) size) (s.mem_brk + size - 8) size)
      (s.mem_brk + size - 4) 1 with hm3
    have hnew : (⟨s.mem_brk, size, false⟩ : Blk) ∈ bl ++ [⟨s.mem_brk, size, false⟩] := by simp
    have hnot : ∀ k, s.mem_brk ∉ fl k := by
      intro k h
      have := hI.node h
      omega
    obtain ⟨m4, fl4, h0, hI4, hm4, hF4⟩ := free_insert_mem hI3 hnew rfl hnot fuel hf
    simp only at h0
    rw [h0]
    simp only
    have hcov4 : Covered (bl ++ [⟨s.mem_brk, size, false⟩]) fl4 := by
      intro c hc hcf
      rw [hm4]
      rcases List.mem_append.1 hc with h | h
      · left; exact hW.cov c h hcf
      · right
        simp only [List.mem_singleton] at h
        subst h
        exact ⟨rfl, rfl⟩
    obtain ⟨r, m5, bl5, fl5, h5, hI5, hcov5, hna5, hF5, hA5, c, hc, hcr, hcf, hc1, hc2⟩ :=
      coalesce_spec (b := ⟨s.mem_brk, size, false⟩) (R := []) hI4 hcov4 rfl hW.noadj
        List.chain'_nil fuel hf
    simp only at h5
    rw [h5]
    simp only [Option.map_some']
    refine ⟨r, m5, bl5, fl5, rfl, ⟨hI5, hW.hp, hroom, hW.max_lt, hcov5, hna5⟩, ?_, ?_,
      c, hc, hcr, hcf, ?_⟩
    · intro d hd
      rw [hA5 d hd]
      simp only [List.mem_append, List.mem_singleton]
      constructor
      · rintro (h | h)
        · exact h
        · subst h; simp at hd
      · exact fun h => Or.inl h
    · -- the payloads of the old allocated blocks lie below the old epilogue
      intro d hd hda _ a ha1 ha2
      have hdb := hI.blk hd
      have k5 := PayloadKept.of_free hI4 hF5 0 d (List.mem_append_left _ hd) hda
        (by omega) a ha1 ha2
      have k4 := PayloadKept.of_free hI3 (hF4.free hI3) 0 d (List.mem_append_left _ hd) hda
        (by omega) a ha1 ha2
      rw [k5, k4, hm3, PUT_other _ _ _ _ (by omega), PUT_other _ _ _ _ (by omega),
        PUT_other _ _ _ _ (by omega)]
    · simp only at hc1 hc2
      omega
  · left
    refine ⟨by omega, ?_⟩
    rw [if_neg hroom]
    simp

end MM

namespace MM

/-! ## `mm_malloc` and `mm_free` -/

/-- What `addblock` hands out: an allocated block of at least the requested
size inside the free block it was given; all other allocated blocks stay. -/
theorem addblock_alloc {m : Mem} {seg brk : Nat} {bl : List Blk} {fl : Nat → List Nat}
    {b : Blk} (hI : Inv m seg brk bl fl) (hcov : Covered bl fl) (hna : NoAdj bl)
    (hb : b ∈ bl) (hfree : b.alloc = false)
    (r : Nat) (hr8 : r % 8 = 0) (hr16 : 16 ≤ r) (hrb : r ≤ b.size)
    (fuel : Nat) (hf : 0 < fuel) :
    ∃ q m1 bl1 fl1, addblock fuel m seg b.addr r = some (q, m1) ∧
      Inv m1 seg brk bl1 fl1 ∧ Covered bl1 fl1 ∧ NoAdj bl1 ∧ FreeFrame seg bl m m1 ∧
      ∃ a ∈ bl1, a.addr = q ∧ a.alloc = true ∧ r ≤ a.size ∧
        (∀ c ∈ bl, c.alloc = true → c.addr ≠ q) ∧
        ∀ c : Blk, c.alloc = true → (c ∈ bl1 ↔ c ∈ bl ∨ c = a) := by
  obtain ⟨pre, post, hsplit⟩ := List.append_of_mem hb
  subst hsplit
  have hbb := hI.blk hb
  have hs := hI.chained.split
  obtain ⟨q, m1, mid1, fl1, h0, h1, h2, h3, h4, hcase⟩ :=
    addblock_spec hI hcov hna hfree r hr8 hr16 hrb fuel hf
  have hother : ∀ c ∈ pre ++ b :: post, c.alloc = true →
      c.addr + c.size ≤ b.addr ∨ b.addr + b.size ≤ c.addr := by
    intro c hc hca
    rcases hI.chained.apart hc hb with e | e | e
    · subst e; rw [hfree] at hca; cases hca
    · exact Or.inl e
    · exact Or.inr e
  refine ⟨q, m1, _, fl1, h0, h1, h2, h3, h4, ?_⟩
  rcases hcase with ⟨_, hq, hm⟩ | ⟨_, hq, hm⟩ | ⟨_, _, hq, hm⟩
  · subst hm hq
    refine ⟨⟨b.addr, b.size, true⟩, by simp, rfl, rfl, hrb, ?_, ?_⟩
    · intro c hc hca
      have := hother c hc hca
      have := hI.blk hc
      omega
    · intro c hca
      simp only [List.mem_append, List.mem_singleton, List.mem_cons, List.not_mem_nil, or_false]
      constructor
      · rintro ((h | h) | h)
        · exact Or.inl (Or.inl h)
        · exact Or.inr h
        · exact Or.inl (Or.inr (Or.inr h))
      · rintro ((h | h | h) | h)
        · exact Or.inl (Or.inl h)
        · subst h; rw [hfree] at hca; cases hca
        · exact Or.inr h
        · exact Or.inl (Or.inr h)
  · subst hm hq
    refine ⟨⟨b.addr + (b.size - r), r, true⟩, by simp, rfl, rfl, le_refl _, ?_, ?_⟩
    · intro c hc hca
      have := hother c hc hca
      have := hI.blk hc
      omega
    · intro c hca
      simp only [List.mem_append, List.mem_singleton, List.mem_cons, List.not_mem_nil, or_false]
      constructor
      · rintro ((h | h | h) | h)
        · exact Or.inl (Or.inl h)
        · subst h; simp at hca
        · exact Or.inr h
        · exact Or.inl (Or.inr (Or.inr h))
      · rintro ((h | h | h) | h)
        · exact Or.inl (Or.inl h)
        · subst h; rw [hfree] at hca; cases hca
        · exact Or.inr h
        · exact Or.inl (Or.inr (Or.inr h))
  · subst hm hq
    refine ⟨⟨b.addr, r, true⟩, by simp, rfl, rfl, le_refl _, ?_, ?_⟩
    · intro c hc hca
      have := hother c hc hca
      have := hI.blk hc
      omega
    · intro c hca
      simp only [List.mem_append, List.mem_singleton, List.mem_cons, List.not_mem_nil, or_false]
      constructor
      · rintro ((h | h | h) | h)
        · exact Or.inl (Or.inl h)
        · exact Or.inr h
        · subst h; simp at hca
        · exact Or.inl (Or.inr (Or.inr h))
      · rintro ((h | h | h) | h)
        · exact Or.inl (Or.inl h)
        · subst h; rw [hfree] at hca; cases hca
        · exact Or.inr h
        · exact Or.inl (Or.inr (Or.inl h))

theorem WF.fuel_pos {s : State} {bl : List Blk} {fl : Nat → List Nat} (hW : WF s bl fl)
    {fuel : Nat} (hf : s.mem_max_addr ≤ fuel) : 0 < fuel ∧ s.mem_brk ≤ fuel := by
  have := hW.inv.chained.le
  have := hW.brk_le
  omega

/-- `mm_malloc` on a well-formed state returns `NULL` and changes nothing, or
returns a new allocated block of at least the rounded size; the state stays
well formed and the payloads of the other allocated blocks are kept. -/
theorem mm_malloc_spec {s : State} {bl : List Blk} {fl : Nat → List Nat} (hW : WF s bl fl)
    (n : Nat) (h1 : 1 ≤ n) (h2 : n + 16 ≤ U32) (fuel : Nat) (hf : s.mem_max_addr ≤ fuel) :
    ∃ q s1 bl1 fl1, mm_malloc fuel s n = some (q, s1) ∧ WF s1 bl1 fl1 ∧
      s1.mem_max_addr = s.mem_max_addr ∧ s1.seg_listp = s.seg_listp ∧
      PayloadKept bl 0 s.mem s1.mem ∧
      ((q = 0 ∧ s1 = s ∧ bl1 = bl) ∨
       (q ≠ 0 ∧ ∃ a ∈ bl1, a.addr = q ∧ a.alloc = true ∧ malloc_size n ≤ a.size ∧
          (∀ c ∈ bl, c.alloc = true → c.addr ≠ q) ∧
          ∀ c : Blk, c.alloc = true → (c ∈ bl1 ↔ c ∈ bl ∨ c = a))) := by
  have hI := hW.inv
  obtain ⟨hf0, hfb⟩ := hW.fuel_pos hf
  obtain ⟨hr8, hr16, hrn, hrle⟩ := malloc_size_spec n h1 h2
  unfold mm_malloc
  rw [if_neg (by omega)]
  simp only
  obtain ⟨r, hr, hcase⟩ := free_find_spec hI (malloc_size n) fuel hfb
  rw [hr]
  simp only
  rcases hcase with h0 | ⟨b, hb, hba, hbf, _, hge⟩
  · -- no fit: extend the heap
    subst h0
    simp only [ne_eq, not_true_eq_false, if_false]
    have hadd := MAX_spec (malloc_size n) CHUNKSIZE
    have hadd8 : MAX (malloc_size n) CHUNKSIZE % 8 = 0 := by
      rcases hadd.2.2 with e | e <;> rw [e]
      · exact hr8
      · decide
    have haddlt : MAX (malloc_size n) CHUNKSIZE < U32 := by
      rcases hadd.2.2 with e | e <;> rw [e]
      · omega
      · decide
    have hes := extend_size_eq _ hadd8 haddlt
    have h64 : 64 ≤ MAX (malloc_size n) CHUNKSIZE := hadd.2.1
    simp only [WSIZE]
    rcases extend_heap_spec hW _ _ hes hadd8 (by omega) fuel hf0
      with ⟨_, he⟩ | ⟨_, r1, m1, bl1, fl1, he, hW1, hA1, hK1, c, hc, hcr, hcf, hcs⟩
    · rw [he]
      simp only [if_true]
      exact ⟨0, s, bl, fl, rfl, hW, rfl, rfl, fun _ _ _ _ _ _ _ => rfl, Or.inl ⟨rfl, rfl, rfl⟩⟩
    · rw [he]
      simp only
      have hcb := hW1.inv.blk hc
      have hr1 : r1 ≠ 0 := by omega
      rw [if_neg hr1]
      subst hcr
      obtain ⟨q, m2, bl2, fl2, h0, hI2, hcov2, hna2, hF2, a, ha, haq, haa, has, hno, hall⟩ :=
        addblock_alloc hW1.inv hW1.cov hW1.noadj hc hcf (malloc_size n) hr8 hr16 (by omega)
          fuel hf0
      simp only at h0
      rw [h0]
      simp only [Option.map_some']
      have hab := hI2.blk ha
      refine ⟨q, _, bl2, fl2, rfl, ⟨hI2, hW1.hp, hW1.brk_le, hW1.max_lt, hcov2, hna2⟩, rfl, rfl,
        ?_, Or.inr ⟨by omega, a, ha, haq, haa, has, ?_, ?_⟩⟩
      · intro d hd hda hds x hx1 hx2
        have k2 := PayloadKept.of_free hW1.inv hF2 0 d ((hA1 d hda).2 hd) hda hds x hx1 hx2
        simp only at k2 ⊢
        rw [k2]
        exact hK1 d hd hda hds x hx1 hx2
      · intro d hd hda
        exact hno d ((hA1 d hda).2 hd) hda
      · intro d hda
        rw [hall d hda, hA1 d hda]
  · -- a free block fits
    subst hba
    have hbb := hI.blk hb
    rw [if_pos (by omega)]
    obtain ⟨q, m2, bl2, fl2, h0, hI2, hcov2, hna2, hF2, a, ha, haq, haa, has, hno, hall⟩ :=
      addblock_alloc hI hW.cov hW.noadj hb hbf (malloc_size n) hr8 hr16 hge fuel hf0
    rw [h0]
    simp only [Option.map_some']
    have hab := hI2.blk ha
    exact ⟨q, _, bl2, fl2, rfl, ⟨hI2, hW.hp, hW.brk_le, hW.max_lt, hcov2, hna2⟩, rfl, rfl,
      PayloadKept.of_free hI hF2 0, Or.inr ⟨by omega, a, ha, haq, haa, has, hno, hall⟩⟩

theorem Inv.alloc_unlinked {m : Mem} {seg brk : Nat} {bl : List Blk} {fl : Nat → List Nat}
    (hI : Inv m seg brk bl fl) {b : Blk} (hb : b ∈ bl) (hba : b.alloc = true) :
    ∀ k, b.addr ∉ fl k := by
  intro k h
  have := (hI.node_blk hb h).1
  rw [hba] at this
  cases this

theorem Chained.not_mem_sides {a e : Nat} {pre post : List Blk} {b : Blk}
    (h : Chained a (pre ++ b :: post) e) : b ∉ pre ∧ b ∉ post := by
  have hs := h.split
  constructor
  · intro hb
    have := hs.1.mem hb
    omega
  · intro hb
    have := hs.2.2.2.mem hb
    omega

/-- Marking an allocated block free, the first step of `mm_free`. -/
theorem Inv.mark_free {m : Mem} {seg brk : Nat} {pre post : List Blk} {fl : Nat → List Nat}
    {b : Blk} (hI : Inv m seg brk (pre ++ b :: post) fl) (hba : b.alloc = true) :
    Inv (PUT (PUT m (b.addr - 4) b.size) (b.addr + b.size - 8) b.size) seg brk
      (pre ++ ⟨b.addr, b.size, false⟩ :: post) fl := by
  have hb : b ∈ pre ++ b :: post := by simp
  have hbb := hI.blk hb
  have hs := hI.chained.split
  have := Inv.replace (M := [b]) (W := [⟨b.addr, b.size, false⟩]) (A := b.addr)
    (E := b.addr + b.size)
    (u := PUT (PUT m (b.addr - 4) b.size) (b.addr + b.size - 8) b.size)
    (by simpa using hI) hs.1
    (Chained.one (b := ⟨b.addr, b.size, false⟩) hbb.2.2.1 hbb.2.2.2.1) hs.2.2.2
    (by
      intro a ha
      rw [PUT_other _ _ _ _ (by omega), PUT_other _ _ _ _ (by omega)])
    (by
      intro c hc
      simp only [List.mem_singleton] at hc
      subst hc
      simp only [tag_free]
      constructor
      · rw [PUT_other _ _ _ _ (by omega)]; simp
      · simp)
    (by
      intro k p hp c hc
      simp only [List.mem_singleton] at hc
      subst hc
      intro e
      exact hI.alloc_unlinked hb hba k (e ▸ hp))
  simpa using this

/-- `mm_free` of an allocated block of a well-formed state frees exactly that
block; the state stays well formed and the payloads of the other allocated
blocks are kept. -/
theorem mm_free_spec {s : State} {bl : List Blk} {fl : Nat → List Nat} (hW : WF s bl fl)
    {b : Blk} (hb : b ∈ bl) (hba : b.alloc = true) (fuel : Nat) (hf : 0 < fuel) :
    ∃ s1 bl1 fl1, mm_free fuel s b.addr = some s1 ∧ WF s1 bl1 fl1 ∧
      s1.mem_max_addr = s.mem_max_addr ∧ s1.seg_listp = s.seg_listp ∧
      PayloadKept bl b.addr s.mem s1.mem ∧
      ∀ c : Blk, c.alloc = true → (c ∈ bl1 ↔ c ∈ bl ∧ c ≠ b) := by
  obtain ⟨pre, post, hsplit⟩ := List.append_of_mem hb
  subst hsplit
  have hI := hW.inv
  have hbb := hI.blk hb
  have hs := hI.chained.split
  have hbrk := hI.brk_lt
  have hsides := hI.chained.not_mem_sides
  obtain ⟨hnpre, hnpost, _, _⟩ := NoAdj.mid.1 hW.noadj
  unfold mm_free
  simp only
  rw [(hI.hdr hb).1, PACK_zero]
  have e1 : FTRP (PUT s.mem (HDRP b.addr) b.size) b.addr = b.addr + b.size - 8 := by
    simp only [FTRP, DSIZE]
    rw [GET_SIZE_PUT_same _ _ _ hbb.2.2.2.1 (by simp only [U32, FAIL_PTR] at *; omega)]
  rw [e1]
  simp only [HDRP, WSIZE]
  have hI2 := hI.mark_free hba
  set m2 := PUT (PUT s.mem (b.addr - 4) b.size) (b.addr + b.size - 8) b.size with hm2
  set bf : Blk := ⟨b.addr, b.size, false⟩ with hbf
  have hbfm : bf ∈ pre ++ bf :: post := by simp
  have hnot : ∀ k, bf.addr ∉ fl k := fun k => hI.alloc_unlinked (b := b) hb hba k
  obtain ⟨m3, fl3, h0, hI3, hm3, hF3⟩ := free_insert_mem hI2 hbfm rfl hnot fuel hf
  simp only [hbf] at h0
  rw [h0]
  simp only
  have hcov3 : Covered (pre ++ bf :: post) fl3 := by
    intro c hc hcf
    rw [hm3]
    simp only [List.mem_append, List.mem_cons] at hc
    rcases hc with hc | hc | hc
    · left; exact hW.cov c (by simp [hc]) hcf
    · right; subst hc; exact ⟨rfl, rfl⟩
    · left; exact hW.cov c (by simp [hc]) hcf
  obtain ⟨r, m5, bl5, fl5, h5, hI5, hcov5, hna5, hF5, hA5, _⟩ :=
    coalesce_spec hI3 hcov3 rfl hnpre hnpost fuel hf
  simp only [hbf] at h5
  rw [h5]
  simp only [Option.map_some']
  refine ⟨_, bl5, fl5, rfl, ⟨hI5, hW.hp, hW.brk_le, hW.max_lt, hcov5, hna5⟩, rfl, rfl, ?_, ?_⟩
  · intro c hc hca hne a ha1 ha2
    have hcb := hI.blk hc
    have hc2 : c ∈ pre ++ bf :: post := by
      simp only [List.mem_append, List.mem_cons] at hc ⊢
      rcases hc with hc | hc | hc
      · exact Or.inl hc
      · subst hc; exact absurd rfl hne
      · exact Or.inr (Or.inr hc)
    have k5 := PayloadKept.of_free hI3 hF5 0 c hc2 hca (by omega) a ha1 ha2
    have k3 := PayloadKept.of_free hI2 (hF3.free hI2) 0 c hc2 hca (by omega) a ha1 ha2
    simp only at k5 k3 ⊢
    rw [k5, k3, hm2]
    rcases hI.chained.apart hc hb with e | e | e
    · subst e; exact absurd rfl hne
    · rw [PUT_other _ _ _ _ (by omega), PUT_other _ _ _ _ (by omega)]
    · rw [PUT_other _ _ _ _ (by omega), PUT_other _ _ _ _ (by omega)]
  · intro c hca
    rw [hA5 c hca]
    simp only [List.mem_append, List.mem_cons]
    constructor
    · rintro (h | h | h)
      · exact ⟨Or.inl h, fun e => hsides.1 (e ▸ h)⟩
      · subst h; simp [hbf] at hca
      · exact ⟨Or.inr (Or.inr h), fun e => hsides.2 (e ▸ h)⟩
    · rintro ⟨h | h | h, hne⟩
      · exact Or.inl h
      · exact absurd h hne
      · exact Or.inr (Or.inr h)

end MM

namespace MM

/-! ## `mm_realloc` -/

theorem ALIGN_mod (n : Nat) : ALIGN n % 8 = 0 ∧ ALIGN n < U32 := by
  unfold ALIGN add32
  have h : (n + 7) % U32 < U32 := Nat.mod_lt _ (by decide)
  rw [and_MASK7 _ h]
  omega

theorem malloc_size_ALIGN (n : Nat) (h1 : 1 ≤ n) (h2 : n + 16 ≤ U32) :
    ALIGN n + 8 ≤ malloc_size n := by
  have ha := ALIGN_spec n (by omega)
  unfold malloc_size
  simp only [DSIZE, U32] at *
  split
  · omega
  · rw [add32_small n 8 (by simp only [U32]; omega),
      add32_small (n + 8) _ (by simp only [U32]; omega)]
    unfold mul32
    simp only [U32]
    omega

theorem NoAdj.snoc_alloc {a : Blk} {l : List Blk} (h : NoAdj l) (ha : a.alloc = true) :
    NoAdj (l ++ [a]) := by
  rw [NoAdj.mid]
  exact ⟨h, List.chain'_nil, fun _ _ => Or.inr ha, by simp⟩

/-- The paths of `mm_realloc` for a pointer and a size that are not null. -/
theorem realloc_same (fuel : Nat) (s : State) (p n : Nat) (hp : p ≠ 0) (hn : n ≠ 0)
    (h : ALIGN n = sub32 (GET_SIZE s.mem (HDRP p)) DSIZE) :
    mm_realloc fuel s p n = some (p, s) := by
  unfold mm_realloc
  rw [if_neg hp, if_neg hn]
  simp only [h, if_true]

theorem realloc_keep (fuel : Nat) (s : State) (p n : Nat) (hp : p ≠ 0) (hn : n ≠ 0)
    (h : ALIGN n < sub32 (GET_SIZE s.mem (HDRP p)) DSIZE)
    (h2 : sub32 (sub32 (sub32 (GET_SIZE s.mem (HDRP p)) DSIZE) (ALIGN n)) DSIZE ≤ DSIZE) :
    mm_realloc fuel s p n = some (p, s) := by
  unfold mm_realloc
  rw [if_neg hp, if_neg hn]
  simp only [if_neg (Nat.ne_of_lt h), if_pos h, if_pos h2]

theorem realloc_shrink (fuel : Nat) (s : State) (p n : Nat) {Z copySize R d : Nat}
    {m1 m2 m3 m4 : Mem} (hp : p ≠ 0) (hn : n ≠ 0) (hZ : ALIGN n = Z)
    (hcopy : sub32 (GET_SIZE s.mem (HDRP p)) DSIZE = copySize)
    (h : Z < copySize) (h2 : ¬ sub32 (sub32 copySize Z) DSIZE ≤ DSIZE)
    (hm1 : PUT s.mem (HDRP p) (PACK (add32 Z DSIZE) 1) = m1)
    (hm2 : PUT m1 (FTRP m1 p) (PACK (add32 Z DSIZE) 1) = m2)
    (hR : NEXT_BLKP m2 p = R)
    (hm3 : PUT m2 (HDRP R) (PACK (sub32 copySize Z) 0) = m3)
    (hm4 : PUT m3 (FTRP m3 R) (PACK (sub32 copySize Z) 0) = m4)
    (hd : GET_SIZE m4 (HDRP R) = d) :
    mm_realloc fuel s p n =
      (match free_insert fuel m4 s.seg_listp R d with
       | none => none
       | some m5 =>
         (coalesce fuel m5 s.seg_listp R).map (fun r => (p, { s with mem := r.2 }))) := by
  subst hZ hcopy hm1 hm2 hR hm3 hm4 hd
  unfold mm_realloc
  rw [if_neg hp, if_neg hn]
  simp only [if_neg (Nat.ne_of_lt h), if_pos h, if_neg h2] <;> rfl

theorem realloc_grow_whole (fuel : Nat) (s : State) (p n : Nat) {Z copySize nextptr nextSize : Nat}
    {m1 m2 m3 : Mem} (hp : p ≠ 0) (hn : n ≠ 0) (hZ : ALIGN n = Z)
    (hcopy : sub32 (GET_SIZE s.mem (HDRP p)) DSIZE = copySize)
    (hnp : NEXT_BLKP s.mem p = nextptr) (hns : GET_SIZE s.mem (HDRP nextptr) = nextSize)
    (h : copySize < Z) (hnext : nextptr ≠ 0 ∧ GET_ALLOC s.mem (HDRP nextptr) = 0)
    (hfit : add32 nextSize copySize ≥ Z) (h2 : sub32 (add32 nextSize copySize) Z ≤ DSIZE)
    (hm1 : free_remove s.mem s.seg_listp nextptr = m1)
    (hm2 : PUT m1 (HDRP p) (PACK (add32 (add32 copySize nextSize) DSIZE) 1) = m2)
    (hm3 : PUT m2 (FTRP m2 p) (PACK (add32 (add32 copySize nextSize) DSIZE) 1) = m3) :
    mm_realloc fuel s p n = some (p, { s with mem := m3 }) := by
  subst hZ hcopy hnp hns hm1 hm2 hm3
  unfold mm_realloc
  rw [if_neg hp, if_neg hn]
  have hc : (NEXT_BLKP s.mem p ≠ 0 ∧ ¬ (GET_ALLOC s.mem (HDRP (NEXT_BLKP s.mem p)) ≠ 0))
      ∧ add32 (GET_SIZE s.mem (HDRP (NEXT_BLKP s.mem p)))
          (sub32 (GET_SIZE s.mem (HDRP p)) DSIZE) ≥ ALIGN n :=
    ⟨⟨hnext.1, by rw [hnext.2]; simp⟩, hfit⟩
  simp only [if_neg (Nat.ne_of_gt h), if_neg (Nat.lt_asymm h), if_pos hc, if_pos h2]

theorem realloc_grow_split (fuel : Nat) (s : State) (p n : Nat)
    {Z copySize nextptr nextSize R d : Nat} {m1 m2 m3 m4 m5 : Mem}
    (hp : p ≠ 0) (hn : n ≠ 0) (hZ : ALIGN n = Z)
    (hcopy : sub32 (GET_SIZE s.mem (HDRP p)) DSIZE = copySize)
    (hnp : NEXT_BLKP s.mem p = nextptr) (hns : GET_SIZE s.mem (HDRP nextptr) = nextSize)
    (h : copySize < Z) (hnext : nextptr ≠ 0 ∧ GET_ALLOC s.mem (HDRP nextptr) = 0)
    (hfit : add32 nextSize copySize ≥ Z) (h2 : ¬ sub32 (add32 nextSize copySize) Z ≤ DSIZE)
    (hm1 : free_remove s.mem s.seg_listp nextptr = m1)
    (hm2 : PUT m1 (HDRP p) (PACK (add32 Z DSIZE) 1) = m2)
    (hm3 : PUT m2 (FTRP m2 p) (PACK (add32 Z DSIZE) 1) = m3)
    (hR : NEXT_BLKP m3 p = R)
    (hm4 : PUT m3 (HDRP R) (PACK (sub32 (add32 copySize nextSize) Z) 0) = m4)
    (hm5 : PUT m4 (FTRP m4 R) (PACK (sub32 (add32 copySize nextSize) Z) 0) = m5)
    (hd : GET_SIZE m5 (HDRP R) = d) :
    mm_realloc fuel s p n =
      (match free_insert fuel m5 s.seg_listp R d with
       | none => none
       | some m6 =>
         (coalesce fuel m6 s.seg_listp R).map (fun r => (p, { s with mem := r.2 }))) := by
  subst hZ hcopy hnp hns hm1 hm2 hm3 hR hm4 hm5 hd
  unfold mm_realloc
  rw [if_neg hp, if_neg hn]
  have hc : (NEXT_BLKP s.mem p ≠ 0 ∧ ¬ (GET_ALLOC s.mem (HDRP (NEXT_BLKP s.mem p)) ≠ 0))
      ∧ add32 (GET_SIZE s.mem (HDRP (NEXT_BLKP s.mem p)))
          (sub32 (GET_SIZE s.mem (HDRP p)) DSIZE) ≥ ALIGN n :=
    ⟨⟨hnext.1, by rw [hnext.2]; simp⟩, hfit⟩
  simp only [if_neg (Nat.ne_of_gt h), if_neg (Nat.lt_asymm h), if_pos hc, if_neg h2] <;> rfl

theorem realloc_move (fuel : Nat) (s : State) (p n : Nat) {Z copySize nextptr nextSize : Nat}
    (hp : p ≠ 0) (hn : n ≠ 0) (hZ : ALIGN n = Z)
    (hcopy : sub32 (GET_SIZE s.mem (HDRP p)) DSIZE = copySize)
    (hnp : NEXT_BLKP s.mem p = nextptr) (hns : GET_SIZE s.mem (HDRP nextptr) = nextSize)
    (h : copySize < Z)
    (hnext : GET_ALLOC s.mem (HDRP nextptr) ≠ 0 ∨ add32 nextSize copySize < Z) :
    mm_realloc fuel s p n =
      (match mm_malloc fuel s n with
       | none => none
       | some (newptr, s1) =>
         if newptr = 0 then some (0, s1)
         else
           (mm_free fuel { s1 with mem := memcpy s1.mem newptr p copySize } p).map
             (fun s3 => (newptr, s3))) := by
  subst hZ hcopy hnp hns
  unfold mm_realloc
  rw [if_neg hp, if_neg hn]
  have hc : ¬ ((NEXT_BLKP s.mem p ≠ 0 ∧ ¬ (GET_ALLOC s.mem (HDRP (NEXT_BLKP s.mem p)) ≠ 0))
      ∧ add32 (GET_SIZE s.mem (HDRP (NEXT_BLKP s.mem p)))
          (sub32 (GET_SIZE s.mem (HDRP p)) DSIZE) ≥ ALIGN n) := by
    rintro ⟨⟨_, h1⟩, h2⟩
    rcases hnext with h3 | h3
    · exact h1 h3
    · omega
  simp only [if_neg (Nat.ne_of_gt h), if_neg (Nat.lt_asymm h), if_neg hc] <;> rfl

/-- Linking the free part after a range of blocks that no list links was
retagged, with the frame of the insertion. -/
theorem split_link {m1 w : Mem} {seg brk A E : Nat} {pre M W post : List Blk}
    {fl1 : Nat → List Nat} {f : Blk}
    (hI : Inv m1 seg brk (pre ++ M ++ post) fl1)
    (hpre : Chained (seg + 96) pre A) (hmid1 : Chained A W E) (hpost : Chained E post brk)
    (hun : ∀ k, ∀ p ∈ fl1 k, ∀ c ∈ M, c.addr ≠ p)
    (hm5 : ∀ a, a + 4 < A ∨ E ≤ a + 4 → w a = m1 a)
    (ht : Tagged w W) (hf1 : f ∈ W) (hff : f.alloc = false)
    (hcov : ∀ c ∈ pre ++ post, c.alloc = false → c.addr ∈ fl1 (cls c.size))
    (hone : ∀ c ∈ W, c.alloc = false → c = f)
    (fuel : Nat) (hf : 0 < fuel) :
    ∃ m6 fl2, free_insert fuel w seg f.addr f.size = some m6 ∧
      Inv w seg brk (pre ++ W ++ post) fl1 ∧
      Inv m6 seg brk (pre ++ W ++ post) fl2 ∧ Covered (pre ++ W ++ post) fl2 ∧
      LinkFrame seg (pre ++ W ++ post) w m6 := by
  have hI5 : Inv w seg brk (pre ++ W ++ post) fl1 :=
    Inv.replace hI hpre hmid1 hpost hm5 ht hun
  have hfm : f ∈ pre ++ W ++ post := by simp [hf1]
  have hfg := hmid1.mem hf1
  have hnot : ∀ k, f.addr ∉ fl1 k := by
    intro k h
    obtain ⟨c, hc, hca, _, _⟩ := hI.nodes k _ h
    simp only [List.mem_append] at hc
    rcases hc with (hc | hc) | hc
    · have := hpre.mem hc
      omega
    · exact hun k _ h c hc hca
    · have := hpost.mem hc
      omega
  obtain ⟨m6, fl2, h0, h1, h2, h3⟩ := free_insert_mem hI5 hfm hff hnot fuel hf
  refine ⟨m6, fl2, h0, hI5, h1, ?_, h3⟩
  intro c hc hcf
  rw [h2]
  simp only [List.mem_append] at hc
  rcases hc with (hc | hc) | hc
  · left; exact hcov c (List.mem_append_left _ hc) hcf
  · right
    have := hone c hc hcf
    subst this
    exact ⟨rfl, rfl⟩
  · left; exact hcov c (List.mem_append_right _ hc) hcf

end MM


namespace MM

/-- The four tag writes that split a range into an allocated block of
`Z + 8` bytes at `p` and a free block of `d` bytes behind it, as `mm_realloc`
performs them, with what they leave in memory. -/
theorem retag_two (m : Mem) (p Z d : Nat) (hp : 4 ≤ p) (hZ8 : Z % 8 = 0) (hd8 : d % 8 = 0)
    (hd16 : 16 ≤ d) (hlt : p + Z + 8 + d < U32) :
    ∃ m1 m2 m3 m4 : Mem,
      PUT m (HDRP p) (PACK (add32 Z DSIZE) 1) = m1 ∧
      PUT m1 (FTRP m1 p) (PACK (add32 Z DSIZE) 1) = m2 ∧
      NEXT_BLKP m2 p = p + (Z + 8) ∧
      PUT m2 (HDRP (p + (Z + 8))) (PACK d 0) = m3 ∧
      PUT m3 (FTRP m3 (p + (Z + 8))) (PACK d 0) = m4 ∧
      GET_SIZE m4 (HDRP (p + (Z + 8))) = d ∧
      (∀ a, a ≠ p - 4 → a ≠ p + Z → a ≠ p + Z + 4 → a ≠ p + (Z + 8) + d - 8 → m4 a = m a) ∧
      Tagged m4 [⟨p, Z + 8, true⟩, ⟨p + (Z + 8), d, false⟩] := by
  have hv : PACK (add32 Z DSIZE) 1 = Z + 8 + 1 := by
    rw [add32_small _ _ (by simp only [DSIZE]; omega), PACK_one _ (by simp only [DSIZE]; omega)]
    rfl
  have e1 : FTRP (PUT m (HDRP p) (Z + 8 + 1)) p = p + Z := by
    simp only [FTRP, DSIZE]
    rw [GET_SIZE_PUT_same1 _ _ _ (by omega) (by omega)]
    omega
  have e2 : NEXT_BLKP (PUT (PUT m (HDRP p) (Z + 8 + 1)) (p + Z) (Z + 8 + 1)) p = p + (Z + 8) := by
    simp only [NEXT_BLKP, HDRP, WSIZE]
    rw [GET_SIZE_PUT_other _ _ _ _ (by omega), GET_SIZE_PUT_same1 _ _ _ (by omega) (by omega)]
  have e3 : FTRP (PUT (PUT (PUT m (HDRP p) (Z + 8 + 1)) (p + Z) (Z + 8 + 1))
      (HDRP (p + (Z + 8))) d) (p + (Z + 8)) = p + (Z + 8) + d - 8 := by
    simp only [FTRP, DSIZE]
    rw [GET_SIZE_PUT_same _ _ _ hd8 (by omega)]
  refine ⟨PUT m (HDRP p) (Z + 8 + 1), PUT (PUT m (HDRP p) (Z + 8 + 1)) (p + Z) (Z + 8 + 1),
    PUT (PUT (PUT m (HDRP p) (Z + 8 + 1)) (p + Z) (Z + 8 + 1)) (HDRP (p + (Z + 8))) d,
    PUT (PUT (PUT (PUT m (HDRP p) (Z + 8 + 1)) (p + Z) (Z + 8 + 1)) (HDRP (p + (Z + 8))) d)
      (p + (Z + 8) + d - 8) d, ?_, ?_, e2, ?_, ?_, ?_, ?_, ?_⟩
  · rw [hv]
  · rw [hv, e1]
  · rw [PACK_zero]
  · rw [PACK_zero, e3]
  · simp only [HDRP, WSIZE]
    rw [GET_SIZE_PUT_other _ _ _ _ (by omega), GET_SIZE_PUT_same _ _ _ hd8 (by omega)]
  · intro a h1 h2 h3 h4
    simp only [HDRP, WSIZE]
    rw [PUT_other _ _ _ _ h4, PUT_other _ _ _ _ (by omega), PUT_other _ _ _ _ h2,
      PUT_other _ _ _ _ h1]
  · intro c hc
    simp only [List.mem_cons, List.mem_singleton, List.not_mem_nil, or_false] at hc
    rcases hc with rfl | rfl
    · simp only [tag_used, HDRP, WSIZE]
      constructor
      · rw [PUT_other _ _ _ _ (by omega), PUT_other _ _ _ _ (by omega),
          PUT_other _ _ _ _ (by omega)]
        simp
      · rw [PUT_other _ _ _ _ (by omega), PUT_other _ _ _ _ (by omega)]
        have : p + (Z + 8) - 8 = p + Z := by omega
        rw [this]; simp
    · simp only [tag_free, HDRP, WSIZE]
      constructor
      · rw [PUT_other _ _ _ _ (by omega)]
        simp
      · simp

/-- The shrinking path of `mm_realloc` with a remainder of at least 24 bytes:
the block is split in place and the remainder is freed and coalesced. -/
theorem realloc_shrink_spec {s : State} {pre post : List Blk} {fl : Nat → List Nat} {b : Blk}
    (hW : WF s (pre ++ b :: post) fl) (hba : b.alloc = true) (n : Nat) (hn : n ≠ 0)
    (hlo : 8 ≤ ALIGN n) (hsh : ALIGN n + 32 ≤ b.size) (fuel : Nat) (hf : 0 < fuel) :
    ∃ m1 bl1 fl1, mm_realloc fuel s b.addr n = some (b.addr, { s with mem := m1 }) ∧
      WF { s with mem := m1 } bl1 fl1 ∧
      AllocEq (pre ++ ⟨b.addr, ALIGN n + 8, true⟩ :: post) bl1 ∧
      (∃ c ∈ bl1, c.addr = b.addr + (ALIGN n + 8) ∧ c.alloc = false ∧
        b.addr + b.size ≤ c.addr + c.size) ∧
      PayloadKept (pre ++ b :: post) b.addr s.mem m1 ∧
      (∀ a, b.addr ≤ a → a < b.addr + ALIGN n → m1 a = s.mem a) := by
  have hI := hW.inv
  have hb : b ∈ pre ++ b :: post := by simp
  have hbb := hI.blk hb
  have hs := hI.chained.split
  have hbrk := hI.brk_lt
  have hU : FAIL_PTR < U32 := by decide
  obtain ⟨hZ8, _⟩ := ALIGN_mod n
  obtain ⟨hnpre, hnpost, _, _⟩ := NoAdj.mid.1 hW.noadj
  have hsz := (hI.hdr hb).1
  have hcopy : sub32 (GET_SIZE s.mem (HDRP b.addr)) DSIZE = b.size - 8 := by
    rw [hsz]; exact sub32_small _ _ (by simp only [DSIZE]; omega) (by omega)
  obtain ⟨Z, hZ⟩ : ∃ Z, ALIGN n = Z := ⟨_, rfl⟩
  rw [hZ] at hZ8 hlo hsh ⊢
  obtain ⟨d, hd⟩ : ∃ d, d = b.size - 8 - Z := ⟨_, rfl⟩
  have hd8 : d % 8 = 0 := by omega
  have hsub : sub32 (b.size - 8) Z = d := by
    rw [sub32_small _ _ (by omega) (by omega)]; exact hd.symm
  obtain ⟨m1, m2, m3, m4, q1, q2, qR, q3, q4, qd, hkeep4, htag⟩ :=
    retag_two s.mem b.addr Z d (by omega) hZ8 hd8 (by omega) (by omega)
  have q3' : PUT m2 (HDRP (b.addr + (Z + 8))) (PACK (sub32 (b.size - 8) Z) 0) = m3 := by
    rw [hsub]; exact q3
  have q4' : PUT m3 (FTRP m3 (b.addr + (Z + 8))) (PACK (sub32 (b.size - 8) Z) 0) = m4 := by
    rw [hsub]; exact q4
  have hpath := realloc_shrink fuel s b.addr n (by omega) hn hZ hcopy (by omega)
    (by
      rw [hsub]
      simp only [DSIZE]
      rw [sub32_small _ 8 (by omega) (by omega)]
      omega)
    q1 q2 qR q3' q4' qd
  have hun : ∀ k, ∀ p ∈ fl k, ∀ c ∈ [b], c.addr ≠ p := by
    intro k p hp c hc
    simp only [List.mem_singleton] at hc
    subst hc
    intro e
    exact hI.alloc_unlinked hb hba k (e ▸ hp)
  obtain ⟨m6, fl2, h0, hI5, hI6, hcov6, hF6⟩ := split_link (f := ⟨b.addr + (Z + 8), d, false⟩)
    (M := [b]) (W := [⟨b.addr, Z + 8, true⟩, ⟨b.addr + (Z + 8), d, false⟩])
    (w := m4) (A := b.addr) (E := b.addr + b.size)
    (by simpa using hI) hs.1
    (by
      have := Chained.two (b := ⟨b.addr, Z + 8, true⟩) (c := ⟨b.addr + (Z + 8), d, false⟩)
        (by simp only; omega) (by simp only; omega) (by simp only; omega) hd8 rfl
      have e : b.addr + (Z + 8) + d = b.addr + b.size := by omega
      simp only [e] at this
      exact this)
    hs.2.2.2 hun
    (fun a ha => hkeep4 a (by omega) (by omega) (by omega) (by omega))
    htag (by simp) rfl
    (by
      intro c hc hcf
      exact hW.cov c (by
        simp only [List.mem_append, List.mem_cons] at hc ⊢
        rcases hc with h | h
        · exact Or.inl h
        · exact Or.inr (Or.inr h)) hcf)
    (by
      intro c hc hcf
      simp only [List.mem_cons, List.mem_singleton, List.not_mem_nil, or_false] at hc
      rcases hc with rfl | rfl
      · simp at hcf
      · rfl)
    fuel hf
  have hshape : pre ++ [⟨b.addr, Z + 8, true⟩, ⟨b.addr + (Z + 8), d, false⟩] ++ post
      = (pre ++ [⟨b.addr, Z + 8, true⟩]) ++ ⟨b.addr + (Z + 8), d, false⟩ :: post := by simp
  rw [hshape] at hI5 hI6 hcov6 hF6
  obtain ⟨r, m7, bl7, fl7, h7, hI7, hcov7, hna7, hF7, hA7, c, hc, hcr, hcf, hc1, hc2⟩ :=
    coalesce_spec hI6 hcov6 rfl (hnpre.snoc_alloc rfl) hnpost fuel hf
  have hres : mm_realloc fuel s b.addr n = some (b.addr, { s with mem := m7 }) := by
    rw [hpath]
    simp only at h0 h7
    rw [h0]
    simp only
    rw [h7]
    rfl
  have hkept : PayloadKept ((pre ++ [⟨b.addr, Z + 8, true⟩]) ++ ⟨b.addr + (Z + 8), d, false⟩ :: post)
      0 m4 m7 :=
    (PayloadKept.of_free hI5 (hF6.free hI5) 0).kept_trans (PayloadKept.of_free hI6 hF7 0)
  refine ⟨m7, bl7, fl7, hres, ⟨hI7, hW.hp, hW.brk_le, hW.max_lt, hcov7, hna7⟩, ?_, ?_, ?_, ?_⟩
  · intro x hx
    rw [hA7 x hx]
    simp only [List.mem_append, List.mem_cons, List.mem_singleton, List.not_mem_nil, or_false]
    constructor
    · rintro ((h | h) | h | h)
      · exact Or.inl h
      · exact Or.inr (Or.inl h)
      · subst h; simp at hx
      · exact Or.inr (Or.inr h)
    · rintro (h | h | h)
      · exact Or.inl (Or.inl h)
      · exact Or.inl (Or.inr h)
      · exact Or.inr (Or.inr h)
  · have hcb := hI7.blk hc
    have ha' : (⟨b.addr, Z + 8, true⟩ : Blk) ∈ bl7 := by
      rw [hA7 _ rfl]; simp
    refine ⟨c, hc, ?_, hcf, ?_⟩
    · rcases hI7.chained.apart hc ha' with e | e | e
      · subst e; simp at hcf
      · simp only at e hc1 hc2; omega
      · simp only at e hc1 hc2; omega
    · simp only at hc1 hc2
      omega
  · intro x hx hxa hxne a ha1 ha2
    have hxb := hI.blk hx
    have hx2 : x ∈ (pre ++ [⟨b.addr, Z + 8, true⟩]) ++ ⟨b.addr + (Z + 8), d, false⟩ :: post := by
      simp only [List.mem_append, List.mem_cons, List.mem_singleton, List.not_mem_nil, or_false]
        at hx ⊢
      rcases hx with h | h | h
      · exact Or.inl (Or.inl h)
      · subst h; exact absurd rfl hxne
      · exact Or.inr (Or.inr h)
    rw [hkept x hx2 hxa (by omega) a ha1 ha2]
    rcases hI.chained.apart hx hb with e | e | e
    · subst e; exact absurd rfl hxne
    · exact hkeep4 a (by omega) (by omega) (by omega) (by omega)
    · exact hkeep4 a (by omega) (by omega) (by omega) (by omega)
  · intro a ha1 ha2
    rw [hkept ⟨b.addr, Z + 8, true⟩ (by simp) rfl (by simp only; omega) a ha1
      (by simp only; omega)]
    exact hkeep4 a (by omega) (by omega) (by omega) (by omega)

/-- What the in-place growing path of `mm_realloc` starts from: the facts
about the block, the free block behind it, and the heap once that block is
unlinked. -/
theorem grow_pre {s : State} {pre post1 : List Blk} {fl : Nat → List Nat} {b N : Blk}
    (hW : WF s (pre ++ b :: N :: post1) fl) (hba : b.alloc = true) (hNf : N.alloc = false) :
    ∃ fl1 m1, free_remove s.mem s.seg_listp N.addr = m1 ∧
      Inv m1 s.seg_listp s.mem_brk (pre ++ b :: N :: post1) fl1 ∧
      (∀ k, ∀ p ∈ fl1 k, ∀ c ∈ [b, N], c.addr ≠ p) ∧
      (∀ c ∈ pre ++ post1, c.alloc = false → c.addr ∈ fl1 (cls c.size)) ∧
      PayloadKept (pre ++ b :: N :: post1) 0 s.mem m1 ∧
      Chained (b.addr + (b.size + N.size)) post1 s.mem_brk ∧
      (∀ x ∈ pre ++ b :: N :: post1, x.alloc = true → ∀ a, x.addr ≤ a →
        a + 8 < x.addr + x.size →
        (a + 4 < b.addr ∨ b.addr + (b.size + N.size) ≤ a + 4) ∨
          (x = b ∧ b.addr ≤ a ∧ a + 8 < b.addr + b.size)) ∧
      sub32 (GET_SIZE s.mem (HDRP b.addr)) DSIZE = b.size - 8 ∧
      NEXT_BLKP s.mem b.addr = N.addr ∧ GET_SIZE s.mem (HDRP N.addr) = N.size ∧
      (N.addr ≠ 0 ∧ GET_ALLOC s.mem (HDRP N.addr) = 0) ∧
      b.addr + (b.size + N.size) < U32 := by
  have hI := hW.inv
  have hb : b ∈ pre ++ b :: N :: post1 := by simp
  have hN : N ∈ pre ++ b :: N :: post1 := by simp
  have hbb := hI.blk hb
  have hNb := hI.blk hN
  have hs := hI.chained.split
  have hs3 := Chained.split (L := pre ++ [b]) (b := N) (R := post1)
    (by simpa using hI.chained)
  have hbrk := hI.brk_lt
  have hU : FAIL_PTR < U32 := by decide
  have hsz := (hI.hdr hb).1
  have hrn := read_next_cons hI
  have hNa : N.addr = b.addr + b.size := hrn.2.2.2
  have hnp : NEXT_BLKP s.mem b.addr = N.addr := hrn.1
  have hNin : N.addr ∈ fl (cls N.size) := hW.cov N hN hNf
  obtain ⟨fl1, hI1, hm1, hF1⟩ := free_remove_mem hI hN hNin
  refine ⟨fl1, _, rfl, hI1, ?_, ?_, PayloadKept.of_free hI (hF1.free hI) 0, ?_, ?_, ?_, hnp, ?_,
    ?_, by omega⟩
  · intro k p hp c hc
    simp only [List.mem_cons, List.mem_singleton, List.not_mem_nil, or_false] at hc
    have h1 := (hm1 k p).1 hp
    rcases hc with rfl | rfl
    · intro e
      exact hI.alloc_unlinked hb hba k (e ▸ h1.1)
    · exact fun e => h1.2 e.symm
  · intro c hc hcf
    have hcm : c ∈ pre ++ b :: N :: post1 := by
      simp only [List.mem_append, List.mem_cons] at hc ⊢
      rcases hc with h | h
      · exact Or.inl h
      · exact Or.inr (Or.inr (Or.inr h))
    refine (hm1 _ _).2 ⟨hW.cov c hcm hcf, ?_⟩
    rcases List.mem_append.1 hc with h | h
    · have := hs.1.mem h
      have := hI.blk hcm
      omega
    · have := hs3.2.2.2.mem h
      have := hI.blk hcm
      omega
  · have := hs3.2.2.2
    rw [hNa] at this
    rw [← Nat.add_assoc]
    exact this
  · intro x hx hxa a ha1 ha2
    have hxb := hI.blk hx
    rcases hI.chained.apart hx hb with e | e | e
    · subst e; exact Or.inr ⟨rfl, ha1, ha2⟩
    · left; left; omega
    · rcases hI.chained.apart hx hN with e | e | e
      · subst e; rw [hNf] at hxa; cases hxa
      · omega
      · left; right; omega
  · rw [hsz]; exact sub32_small _ _ (by simp only [DSIZE]; omega) (by omega)
  · have := hrn.2.2.1
    rw [hnp] at this
    exact this
  · have := hrn.2.1
    rw [hnp, hNf] at this
    exact ⟨by omega, by simpa using this⟩

/-- The in-place growing path of `mm_realloc` when the remainder is at most 8
bytes: the block and the free block behind it become one allocated block. -/
theorem realloc_grow_whole_spec {s : State} {pre post1 : List Blk} {fl : Nat → List Nat}
    {b N : Blk} (hW : WF s (pre ++ b :: N :: post1) fl) (hba : b.alloc = true)
    (hNf : N.alloc = false) (n : Nat) (hn : n ≠ 0) (hgrow : b.size - 8 < ALIGN n)
    (hfit : ALIGN n ≤ N.size + (b.size - 8)) (hrem : N.size + (b.size - 8) - ALIGN n ≤ 8)
    (fuel : Nat) :
    ∃ m1 fl1, mm_realloc fuel s b.addr n = some (b.addr, { s with mem := m1 }) ∧
      WF { s with mem := m1 } (pre ++ ⟨b.addr, b.size + N.size, true⟩ :: post1) fl1 ∧
      PayloadKept (pre ++ b :: N :: post1) 0 s.mem m1 := by
  obtain ⟨fl1, m1, hm1d, hI1, hun, hcov1, hK1, hpostC, hout, hcopy, hnp, hns, hnx, hlt⟩ :=
    grow_pre hW hba hNf
  have hI := hW.inv
  have hbb := hI.blk (show b ∈ pre ++ b :: N :: post1 by simp)
  have hNb := hI.blk (show N ∈ pre ++ b :: N :: post1 by simp)
  have hs := hI.chained.split
  obtain ⟨hnpre, hnpost, _, _⟩ := NoAdj.mid.1 hW.noadj
  have hnpost1 := hnpost.tail
  obtain ⟨Z, hZ⟩ : ∃ Z, ALIGN n = Z := ⟨_, rfl⟩
  rw [hZ] at hgrow hfit hrem
  have hsum : add32 N.size (b.size - 8) = N.size + (b.size - 8) := add32_small _ _ (by omega)
  have hsum2 : add32 (b.size - 8) N.size = b.size - 8 + N.size := add32_small _ _ (by omega)
  obtain ⟨T, hT⟩ : ∃ T, T = b.size + N.size := ⟨_, rfl⟩
  rw [← hT] at hpostC hlt ⊢
  have hv : PACK (add32 (add32 (b.size - 8) N.size) DSIZE) 1 = T + 1 := by
    rw [hsum2, add32_small _ _ (by simp only [DSIZE]; omega)]
    have eT : b.size - 8 + N.size + DSIZE = T := by simp only [DSIZE]; omega
    rw [eT, PACK_one _ (by omega)]
  obtain ⟨m2, hm2⟩ : ∃ m2, PUT m1 (HDRP b.addr) (T + 1) = m2 := ⟨_, rfl⟩
  obtain ⟨m3, hm3⟩ : ∃ m3, PUT m2 (b.addr + T - 8) (T + 1) = m3 := ⟨_, rfl⟩
  have e1 : FTRP m2 b.addr = b.addr + T - 8 := by
    rw [← hm2]
    simp only [FTRP, DSIZE]
    rw [GET_SIZE_PUT_same1 _ _ _ (by omega) (by omega)]
  have q2 : PUT m1 (HDRP b.addr) (PACK (add32 (add32 (b.size - 8) N.size) DSIZE) 1) = m2 := by
    rw [hv]; exact hm2
  have q3 : PUT m2 (FTRP m2 b.addr) (PACK (add32 (add32 (b.size - 8) N.size) DSIZE) 1)
      = m3 := by
    rw [hv, e1]; exact hm3
  have hpath := realloc_grow_whole fuel s b.addr n (by omega) hn hZ hcopy hnp hns
    hgrow hnx (by rw [hsum]; exact hfit)
    (by rw [hsum, sub32_small _ _ (by omega) (by omega)]; simp only [DSIZE]; exact hrem)
    hm1d q2 q3
  have hkeep : ∀ a, a ≠ b.addr - 4 → a ≠ b.addr + T - 8 → m3 a = m1 a := by
    intro a h1 h2
    rw [← hm3, ← hm2]
    simp only [HDRP, WSIZE]
    rw [PUT_other _ _ _ _ h2, PUT_other _ _ _ _ h1]
  have hI3 := Inv.replace (M := [b, N]) (W := [⟨b.addr, T, true⟩]) (A := b.addr)
    (E := b.addr + T) (u := m3)
    (by simpa using hI1) hs.1
    (Chained.one (b := ⟨b.addr, T, true⟩) (by simp only; omega) (by simp only; omega))
    hpostC
    (fun a ha => hkeep a (by omega) (by omega))
    (by
      intro c hc
      simp only [List.mem_singleton] at hc
      subst hc
      rw [← hm3, ← hm2]
      simp only [tag_used, HDRP, WSIZE]
      constructor
      · rw [PUT_other _ _ _ _ (by omega)]; simp
      · simp)
    hun
  refine ⟨m3, fl1, hpath, ⟨by simpa using hI3, hW.hp, hW.brk_le, hW.max_lt, ?_, ?_⟩, ?_⟩
  · intro c hc hcf
    simp only [List.mem_append, List.mem_cons] at hc
    rcases hc with hc | hc | hc
    · exact hcov1 c (List.mem_append_left _ hc) hcf
    · subst hc; simp at hcf
    · exact hcov1 c (List.mem_append_right _ hc) hcf
  · rw [NoAdj.mid]
    exact ⟨hnpre, hnpost1, fun _ _ => Or.inr rfl, fun _ _ => Or.inl rfl⟩
  · intro x hx hxa hx0 a ha1 ha2
    rw [hkeep a ?_ ?_]
    · exact hK1 x hx hxa hx0 a ha1 ha2
    · rcases hout x hx hxa a ha1 ha2 with h | ⟨_, h, _⟩ <;> omega
    · rcases hout x hx hxa a ha1 ha2 with h | ⟨_, _, h⟩ <;> omega

/-- Payloads survive a retagging of the range of two blocks followed by a list
insertion that only touches heads and link fields of free blocks. -/
theorem kept_split {seg : Nat} {bl bl1 : List Blk} {m0 m1 m5 m6 : Mem} {A E Z d : Nat}
    (hK1 : PayloadKept bl 0 m0 m1)
    (hout : ∀ x ∈ bl, x.alloc = true → ∀ a, x.addr ≤ a → a + 8 < x.addr + x.size →
      (a + 4 < A ∨ E ≤ a + 4) ∨ (A ≤ a ∧ a < A + Z))
    (hE : A + (Z + 8) + d = E) (hA : 4 ≤ A) (hd : 16 ≤ d)
    (hkeep5 : ∀ a, a ≠ A - 4 → a ≠ A + Z → a ≠ A + Z + 4 → a ≠ A + (Z + 8) + d - 8 →
      m5 a = m1 a)
    (hF6 : LinkFrame seg bl1 m5 m6) (hseg : ∀ x ∈ bl, seg + 96 ≤ x.addr)
    (hfree : ∀ x ∈ bl, x.alloc = true → ∀ a, x.addr ≤ a → a + 8 < x.addr + x.size →
      ∀ c ∈ bl1, c.alloc = false → a ≠ c.addr ∧ a ≠ c.addr + 4) :
    PayloadKept bl 0 m0 m6 := by
  intro x hx hxa hx0 a ha1 ha2
  have k1 := hK1 x hx hxa hx0 a ha1 ha2
  have ho := hout x hx hxa a ha1 ha2
  have hsg := hseg x hx
  have hk5 : m5 a = m1 a := by
    apply hkeep5
    · rcases ho with h | h <;> omega
    · rcases ho with h | h <;> omega
    · rcases ho with h | h <;> omega
    · rcases ho with h | h <;> omega
  rw [← k1, ← hk5]
  exact hF6 a (by omega) (fun c hc hcf => hfree x hx hxa a ha1 ha2 c hc hcf)

/-- The in-place growing path of `mm_realloc` when the remainder is at least
16 bytes: it is split off behind the allocated part, whatever its size. -/
theorem realloc_grow_split_spec {s : State} {pre post1 : List Blk} {fl : Nat → List Nat}
    {b N : Blk} (hW : WF s (pre ++ b :: N :: post1) fl) (hba : b.alloc = true)
    (hNf : N.alloc = false) (n : Nat) (hn : n ≠ 0) (hgrow : b.size - 8 < ALIGN n)
    (hfit : ALIGN n ≤ N.size + (b.size - 8)) (hrem : ¬ N.size + (b.size - 8) - ALIGN n ≤ 8)
    (fuel : Nat) (hf : 0 < fuel) :
    ∃ m1 fl1, mm_realloc fuel s b.addr n = some (b.addr, { s with mem := m1 }) ∧
      WF { s with mem := m1 } (pre ++ ⟨b.addr, ALIGN n + 8, true⟩ ::
        ⟨b.addr + (ALIGN n + 8), N.size + (b.size - 8) - ALIGN n, false⟩ :: post1) fl1 ∧
      PayloadKept (pre ++ b :: N :: post1) 0 s.mem m1 := by
  obtain ⟨fl1, m1, hm1d, hI1, hun, hcov1, hK1, hpostC, hout, hcopy, hnp, hns, hnx, hlt⟩ :=
    grow_pre hW hba hNf
  have hI := hW.inv
  have hbb := hI.blk (show b ∈ pre ++ b :: N :: post1 by simp)
  have hNb := hI.blk (show N ∈ pre ++ b :: N :: post1 by simp)
  have hs := hI.chained.split
  obtain ⟨hZ8, _⟩ := ALIGN_mod n
  obtain ⟨hnpre, hnpost, _, _⟩ := NoAdj.mid.1 hW.noadj
  have hnpost1 := hnpost.tail
  have hpost1a := hnpost.head_alloc hNf
  obtain ⟨Z, hZ⟩ : ∃ Z, ALIGN n = Z := ⟨_, rfl⟩
  rw [hZ] at hgrow hfit hrem hZ8 ⊢
  have hsum : add32 N.size (b.size - 8) = N.size + (b.size - 8) := add32_small _ _ (by omega)
  have hsum2 : add32 (b.size - 8) N.size = b.size - 8 + N.size := add32_small _ _ (by omega)
  obtain ⟨d, hd⟩ : ∃ d, d = N.size + (b.size - 8) - Z := ⟨_, rfl⟩
  rw [← hd]
  have hd8 : d % 8 = 0 := by omega
  have hd16 : 16 ≤ d := by omega
  have hsub : sub32 (add32 (b.size - 8) N.size) Z = d := by
    rw [hsum2, sub32_small _ _ (by omega) (by omega)]; omega
  obtain ⟨m2, m3, m4, m5, q1, q2, qR, q3, q4, qd, hkeep5, htag⟩ :=
    retag_two m1 b.addr Z d (by omega) hZ8 hd8 hd16 (by omega)
  have q3' : PUT m3 (HDRP (b.addr + (Z + 8))) (PACK (sub32 (add32 (b.size - 8) N.size) Z) 0)
      = m4 := by
    rw [hsub]; exact q3
  have q4' : PUT m4 (FTRP m4 (b.addr + (Z + 8))) (PACK (sub32 (add32 (b.size - 8) N.size) Z) 0)
      = m5 := by
    rw [hsub]; exact q4
  have hpath := realloc_grow_split fuel s b.addr n (by omega) hn hZ hcopy hnp hns
    hgrow hnx (by rw [hsum]; exact hfit)
    (by rw [hsum, sub32_small _ _ (by omega) (by omega)]; simp only [DSIZE]; exact hrem)
    hm1d q1 q2 qR q3' q4' qd
  have hE : b.addr + (Z + 8) + d = b.addr + (b.size + N.size) := by omega
  obtain ⟨m6, fl2, h0, hI5, hI6, hcov6, hF6⟩ := split_link (f := ⟨b.addr + (Z + 8), d, false⟩)
    (M := [b, N]) (W := [⟨b.addr, Z + 8, true⟩, ⟨b.addr + (Z + 8), d, false⟩])
    (w := m5) (A := b.addr) (E := b.addr + (b.size + N.size))
    (by simpa using hI1) hs.1
    (by
      have := Chained.two (b := ⟨b.addr, Z + 8, true⟩) (c := ⟨b.addr + (Z + 8), d, false⟩)
        (by simp only; omega) (by simp only; omega) hd16 hd8 rfl
      simp only [hE] at this
      exact this)
    hpostC hun
    (fun a ha => hkeep5 a (by omega) (by omega) (by omega) (by omega))
    htag (by simp) rfl hcov1
    (by
      intro c hc hcf
      simp only [List.mem_cons, List.mem_singleton, List.not_mem_nil, or_false] at hc
      rcases hc with rfl | rfl
      · simp at hcf
      · rfl)
    fuel hf
  have hshape : pre ++ [⟨b.addr, Z + 8, true⟩, ⟨b.addr + (Z + 8), d, false⟩] ++ post1
      = (pre ++ [⟨b.addr, Z + 8, true⟩]) ++ ⟨b.addr + (Z + 8), d, false⟩ :: post1 := by simp
  have hI6' := hI6
  rw [hshape] at hI6'
  -- both neighbours of the remainder are allocated: `coalesce` leaves it alone
  have hpv : GET_ALLOC m6 (HDRP (PREV_BLKP m6 (b.addr + (Z + 8)))) = 1 := by
    have := read_prev_cons (P := ⟨b.addr, Z + 8, true⟩)
      (b := ⟨b.addr + (Z + 8), d, false⟩) (L := pre) (R := post1) (by simpa using hI6)
    simpa using this.2.1
  have hnv : GET_ALLOC m6 (HDRP (NEXT_BLKP m6 (b.addr + (Z + 8)))) = 1 := by
    rcases next_val (b := ⟨b.addr + (Z + 8), d, false⟩) hI6' with ⟨_, M, post2, hp2, hMf⟩ | h
    · have := hpost1a M (by rw [hp2]; simp)
      rw [hMf] at this; cases this
    · exact h.1
  have hres : mm_realloc fuel s b.addr n = some (b.addr, { s with mem := m6 }) := by
    rw [hpath]
    simp only at h0
    rw [h0]
    simp only
    rw [coalesce_case1 fuel m6 s.seg_listp _ hpv hnv]
    rfl
  have hW6 : WF { s with mem := m6 }
      (pre ++ [⟨b.addr, Z + 8, true⟩, ⟨b.addr + (Z + 8), d, false⟩] ++ post1) fl2 :=
    ⟨hI6, hW.hp, hW.brk_le, hW.max_lt, hcov6, NoAdj.af hnpre hnpost1 hpost1a rfl⟩
  have hshape2 : pre ++ [⟨b.addr, Z + 8, true⟩, ⟨b.addr + (Z + 8), d, false⟩] ++ post1
      = pre ++ ⟨b.addr, Z + 8, true⟩ :: ⟨b.addr + (Z + 8), d, false⟩ :: post1 := by simp
  rw [hshape2] at hW6
  refine ⟨m6, fl2, hres, hW6, ?_⟩
  refine kept_split hK1 ?_ hE (by omega) hd16 hkeep5 hF6 (fun x hx => (hI.blk hx).1) ?_
  · intro x hx hxa a ha1 ha2
    rcases hout x hx hxa a ha1 ha2 with h | ⟨_, h1, h2⟩
    · exact Or.inl h
    · exact Or.inr ⟨h1, by omega⟩
  · intro x hx hxa a ha1 ha2 c hc hcf
    have hxb := hI.blk hx
    simp only [List.mem_append, List.mem_cons, List.mem_singleton, List.not_mem_nil,
      or_false] at hc
    rcases hc with (hc | hc | hc) | hc
    · have hcm : c ∈ pre ++ b :: N :: post1 := by simp [hc]
      have := hI.blk hcm
      rcases hI.chained.apart hx hcm with e | e | e
      · subst e; rw [hcf] at hxa; cases hxa
      · omega
      · omega
    · subst hc; simp at hcf
    · subst hc
      simp only
      rcases hout x hx hxa a ha1 ha2 with h | ⟨_, _, h⟩ <;> omega
    · have hcm : c ∈ pre ++ b :: N :: post1 := by simp [hc]
      have := hI.blk hcm
      rcases hI.chained.apart hx hcm with e | e | e
      · subst e; rw [hcf] at hxa; cases hxa
      · omega
      · omega

end MM


namespace MM

/-- Writing only inside the payload of an allocated block keeps the state
well formed. -/
theorem WF.payload_write {s : State} {bl : List Blk} {fl : Nat → List Nat} (hW : WF s bl fl)
    {b : Blk} (hb : b ∈ bl) (hba : b.alloc = true) (m1 : Mem)
    (hm : ∀ a, a < b.addr ∨ b.addr + b.size ≤ a + 8 → m1 a = s.mem a) :
    WF { s with mem := m1 } bl fl := by
  obtain ⟨pre, post, rfl⟩ := List.append_of_mem hb
  have hI := hW.inv
  have hbb := hI.blk hb
  have hs := hI.chained.split
  have hI1 := Inv.replace (M := [b]) (W := [b]) (A := b.addr) (E := b.addr + b.size) (u := m1)
    (by simpa using hI) hs.1 (Chained.one hs.2.1 hs.2.2.1) hs.2.2.2
    (fun a ha => hm a (by omega))
    (by
      intro c hc
      simp only [List.mem_singleton] at hc
      subst hc
      have ht := hI.tagged c hb
      rw [hm _ (by omega), hm _ (by omega)]
      exact ht)
    (by
      intro k p hp c hc
      simp only [List.mem_singleton] at hc
      subst hc
      intro e
      exact hI.alloc_unlinked hb hba k (e ▸ hp))
  exact ⟨by simpa using hI1, hW.hp, hW.brk_le, hW.max_lt, hW.cov, hW.noadj⟩

/-- A `PayloadKept` that skips no block skips any block. -/
theorem PayloadKept.skip {bl : List Blk} {m m1 : Mem} {seg brk : Nat} {fl : Nat → List Nat}
    (hI : Inv m seg brk bl fl) (h : PayloadKept bl 0 m m1) (k : Nat) : PayloadKept bl k m m1 := by
  intro c hc hca _ a ha1 ha2
  have := hI.blk hc
  exact h c hc hca (by omega) a ha1 ha2

/-- The paths of `mm_realloc` that return the block as it is. -/
theorem realloc_stay_ok {s : State} {bl : List Blk} {fl : Nat → List Nat} (hW : WF s bl fl)
    {b : Blk} (hb : b ∈ bl) (hba : b.alloc = true) (n : Nat) (hfit : n + 8 ≤ b.size) :
    ReallocOK s bl b n b.addr s := by
  have hbb := hW.inv.blk hb
  refine ⟨rfl, rfl, Or.inr ⟨by omega, bl, fl, b, hW, hb, rfl, hba, hfit, ?_, ?_, ?_, ?_⟩⟩
  · intro c hc _ hne e
    exact hne (hW.inv.chained.addr_inj hc hb e)
  · intro c _
    by_cases e : c = b
    · subst e; simp [hb]
    · simp [e]
  · intro i _ _; rfl
  · intro c _ _ _ a _ _; rfl

/-- The shrinking path of `mm_realloc` meets the contract of a resize. -/
theorem realloc_shrink_ok {s : State} {pre post : List Blk} {fl : Nat → List Nat} {b : Blk}
    (hW : WF s (pre ++ b :: post) fl) (hba : b.alloc = true) (n : Nat) (h1 : 1 ≤ n)
    (h2 : n + 16 ≤ U32) (hsh : ALIGN n + 32 ≤ b.size) (fuel : Nat) (hf : 0 < fuel) :
    ∃ s1, mm_realloc fuel s b.addr n = some (b.addr, s1) ∧
      ReallocOK s (pre ++ b :: post) b n b.addr s1 := by
  obtain ⟨hZ8, hZn, _⟩ := ALIGN_spec n (by omega)
  obtain ⟨m1, bl1, fl1, hr, hW1, hA, _, hK, hC⟩ :=
    realloc_shrink_spec hW hba n (by omega) (by omega) hsh fuel hf
  have hb : b ∈ pre ++ b :: post := by simp
  have hbb := hW.inv.blk hb
  have hsides := hW.inv.chained.not_mem_sides
  refine ⟨_, hr, rfl, rfl, Or.inr ⟨by omega, bl1, fl1, ⟨b.addr, ALIGN n + 8, true⟩, hW1,
    (hA _ rfl).2 (by simp), rfl, rfl, by simp only; omega, ?_, ?_, ?_, hK⟩⟩
  · intro c hc _ hne e
    exact hne (hW.inv.chained.addr_inj hc hb e)
  · intro c hca
    rw [hA c hca]
    simp only [List.mem_append, List.mem_cons]
    constructor
    · rintro (h | h | h)
      · exact Or.inl ⟨Or.inl h, fun e => hsides.1 (e ▸ h)⟩
      · exact Or.inr h
      · exact Or.inl ⟨Or.inr (Or.inr h), fun e => hsides.2 (e ▸ h)⟩
    · rintro (⟨h | h | h, hne⟩ | h)
      · exact Or.inl h
      · exact absurd h hne
      · exact Or.inr (Or.inr h)
      · exact Or.inr (Or.inl h)
  · intro i _ hi
    exact hC (b.addr + i) (by omega) (by omega)

/-- The in-place growing path of `mm_realloc` meets the contract of a resize. -/
theorem realloc_grow_ok {s : State} {pre post1 : List Blk} {fl : Nat → List Nat} {b N : Blk}
    (hW : WF s (pre ++ b :: N :: post1) fl) (hba : b.alloc = true) (hNf : N.alloc = false)
    (n : Nat) (h1 : 1 ≤ n) (h2 : n + 16 ≤ U32) (hgrow : b.size - 8 < ALIGN n)
    (hfit : ALIGN n ≤ N.size + (b.size - 8)) (fuel : Nat) (hf : 0 < fuel) :
    ∃ s1, mm_realloc fuel s b.addr n = some (b.addr, s1) ∧
      ReallocOK s (pre ++ b :: N :: post1) b n b.addr s1 := by
  obtain ⟨hZ8, hZn, _⟩ := ALIGN_spec n (by omega)
  have hb : b ∈ pre ++ b :: N :: post1 := by simp
  have hbb := hW.inv.blk hb
  have hsides := hW.inv.chained.not_mem_sides
  have hNa : b ≠ N := by
    intro e; rw [e, hNf] at hba; cases hba
  -- the allocated blocks after either way of growing
  have hmem : ∀ (a : Blk) (mid : List Blk), (∀ c ∈ mid, c.alloc = true → c = a) → a ∈ mid →
      ∀ c : Blk, c.alloc = true →
        (c ∈ pre ++ mid ++ post1 ↔ (c ∈ pre ++ b :: N :: post1 ∧ c ≠ b) ∨ c = a) := by
    intro a mid hmid ha c hca
    simp only [List.mem_append, List.mem_cons]
    constructor
    · rintro ((h | h) | h)
      · exact Or.inl ⟨Or.inl h, fun e => hsides.1 (e ▸ h)⟩
      · exact Or.inr (hmid c h hca)
      · exact Or.inl ⟨Or.inr (Or.inr (Or.inr h)),
          fun e => hsides.2 (e ▸ List.mem_cons_of_mem _ h)⟩
    · rintro (⟨h | h | h | h, hne⟩ | h)
      · exact Or.inl (Or.inl h)
      · exact absurd h hne
      · subst h; rw [hNf] at hca; cases hca
      · exact Or.inr h
      · subst h; exact Or.inl (Or.inr ha)
  have hfresh : ∀ c ∈ pre ++ b :: N :: post1, c.alloc = true → c ≠ b → c.addr ≠ b.addr :=
    fun c hc _ hne e => hne (hW.inv.chained.addr_inj hc hb e)
  by_cases hrem : N.size + (b.size - 8) - ALIGN n ≤ 8
  · obtain ⟨m1, fl1, hr, hW1, hK⟩ :=
      realloc_grow_whole_spec hW hba hNf n (by omega) hgrow hfit hrem fuel
    have hiff := hmem ⟨b.addr, b.size + N.size, true⟩ [⟨b.addr, b.size + N.size, true⟩]
      (by simp) (by simp)
    simp only [List.append_assoc, List.singleton_append] at hiff
    refine ⟨_, hr, rfl, rfl, Or.inr ⟨by omega, _, fl1, ⟨b.addr, b.size + N.size, true⟩, hW1,
      by simp, rfl, rfl, by simp only; omega, hfresh, hiff, ?_, hK.skip hW.inv _⟩⟩
    intro i hi _
    exact hK b hb hba (by omega) (b.addr + i) (by omega) (by omega)
  · obtain ⟨m1, fl1, hr, hW1, hK⟩ :=
      realloc_grow_split_spec hW hba hNf n (by omega) hgrow hfit hrem fuel hf
    have hiff := hmem ⟨b.addr, ALIGN n + 8, true⟩
      [⟨b.addr, ALIGN n + 8, true⟩,
        ⟨b.addr + (ALIGN n + 8), N.size + (b.size - 8) - ALIGN n, false⟩]
      (by
        intro c hc hca
        simp only [List.mem_cons, List.mem_singleton, List.not_mem_nil, or_false] at hc
        rcases hc with rfl | rfl
        · rfl
        · simp at hca)
      (by simp)
    simp only [List.append_assoc, List.cons_append, List.nil_append] at hiff
    refine ⟨_, hr, rfl, rfl, Or.inr ⟨by omega, _, fl1, ⟨b.addr, ALIGN n + 8, true⟩, hW1,
      by simp, rfl, rfl, by simp only; omega, hfresh, hiff, ?_, hK.skip hW.inv _⟩⟩
    intro i hi _
    exact hK b hb hba (by omega) (b.addr + i) (by omega) (by omega)

/-- The fallback path of `mm_realloc` (allocate, copy, release) meets the
contract of a resize. -/
theorem realloc_move_ok {s : State} {bl : List Blk} {fl : Nat → List Nat} (hW : WF s bl fl)
    {b : Blk} (hb : b ∈ bl) (hba : b.alloc = true) (n : Nat) (h1 : 1 ≤ n) (h2 : n + 16 ≤ U32)
    (hgrow : b.size - 8 < ALIGN n) (fuel : Nat) (hf : s.mem_max_addr ≤ fuel)
    (hpath : mm_realloc fuel s b.addr n =
      (match mm_malloc fuel s n with
       | none => none
       | some (newptr, s1) =>
         if newptr = 0 then some (0, s1)
         else
           (mm_free fuel { s1 with mem := memcpy s1.mem newptr b.addr (b.size - 8) } b.addr).map
             (fun s3 => (newptr, s3)))) :
    ∃ q s1, mm_realloc fuel s b.addr n = some (q, s1) ∧ ReallocOK s bl b n q s1 := by
  obtain ⟨hf0, _⟩ := hW.fuel_pos hf
  have hbb := hW.inv.blk hb
  have hms := malloc_size_ALIGN n h1 h2
  obtain ⟨hr8, hr16, hrn, hrle⟩ := malloc_size_spec n h1 h2
  obtain ⟨q, s1, bl1, fl1, hm, hW1, hmax1, hseg1, hK1, hcase⟩ := mm_malloc_spec hW n h1 h2 fuel hf
  rw [hpath, hm]
  simp only
  rcases hcase with ⟨hq, hs1, _⟩ | ⟨hq, a, ha, haq, haa, hasz, hfresh, hiff⟩
  · subst hq
    rw [hs1]
    exact ⟨0, s, by simp, rfl, rfl, Or.inl ⟨rfl, rfl⟩⟩
  · rw [if_neg hq]
    have hb1 : b ∈ bl1 := (hiff b hba).2 (Or.inl hb)
    have hab : a ≠ b := fun e => hfresh b hb hba (e ▸ haq)
    have hne : a.addr ≠ b.addr := fun e => hfresh b hb hba (e ▸ haq)
    have hcpy : ∀ x, x < a.addr ∨ a.addr + (b.size - 8) ≤ x →
        memcpy s1.mem q b.addr (b.size - 8) x = s1.mem x := by
      intro x hx
      unfold memcpy
      rw [if_neg (by rw [← haq]; omega)]
    have hW2 : WF { s1 with mem := memcpy s1.mem q b.addr (b.size - 8) } bl1 fl1 :=
      hW1.payload_write ha haa _ (fun x hx => hcpy x (by omega))
    obtain ⟨s3, bl3, fl3, hfr, hW3, hmax3, hseg3, hK3, hiff3⟩ := mm_free_spec hW2 hb1 hba fuel hf0
    rw [hfr]
    refine ⟨q, s3, rfl, by rw [hmax3]; exact hmax1, by rw [hseg3]; exact hseg1,
      Or.inr ⟨hq, bl3, fl3, a, hW3, (hiff3 a haa).2 ⟨ha, hab⟩, haq, haa, by omega, ?_, ?_, ?_, ?_⟩⟩
    · intro c hc hca _
      exact hfresh c hc hca
    · intro c hca
      rw [hiff3 c hca, hiff c hca]
      constructor
      · rintro ⟨h | h, hne⟩
        · exact Or.inl ⟨h, hne⟩
        · exact Or.inr h
      · rintro (⟨h, hne⟩ | h)
        · exact ⟨Or.inl h, hne⟩
        · exact ⟨Or.inr h, h ▸ hab⟩
    · intro i hi _
      have e3 := hK3 a ha haa hne (q + i) (by omega) (by omega)
      simp only at e3
      rw [e3]
      unfold memcpy
      rw [if_pos ⟨by omega, by omega⟩]
      have : b.addr + (q + i - q) = b.addr + i := by omega
      rw [this]
      exact hK1 b hb hba (by omega) (b.addr + i) (by omega) (by omega)
    · intro c hc hca hcne x hx1 hx2
      have hc1 : c ∈ bl1 := (hiff c hca).2 (Or.inl hc)
      have e3 := hK3 c hc1 hca hcne x hx1 hx2
      simp only at e3
      rw [e3]
      have hcb := hW.inv.blk hc
      have hab1 := hW1.inv.blk ha
      rw [hcpy x ?_]
      · exact hK1 c hc hca (by omega) x hx1 hx2
      · rcases hW1.inv.chained.apart hc1 ha with e | e | e
        · exact absurd (e ▸ haq) (hfresh c hc hca)
        · left; omega
        · right; omega

/-- `mm_realloc` of an allocated block of a well-formed state, for a request
that is not zero and does not wrap when rounded, meets the contract of a
resize on each of its paths. -/
theorem mm_realloc_spec {s : State} {bl : List Blk} {fl : Nat → List Nat} (hW : WF s bl fl)
    {b : Blk} (hb : b ∈ bl) (hba : b.alloc = true) (n : Nat) (h1 : 1 ≤ n) (h2 : n + 16 ≤ U32)
    (fuel : Nat) (hf : s.mem_max_addr ≤ fuel) :
    ∃ q s1, mm_realloc fuel s b.addr n = some (q, s1) ∧ ReallocOK s bl b n q s1 := by
  obtain ⟨hf0, _⟩ := hW.fuel_pos hf
  have hI := hW.inv
  have hbb := hI.blk hb
  have hbrk := hI.brk_lt
  have hU : FAIL_PTR < U32 := by decide
  obtain ⟨hZ8, hZn, _⟩ := ALIGN_spec n (by omega)
  have hsz := (hI.hdr hb).1
  have hcopy : sub32 (GET_SIZE s.mem (HDRP b.addr)) DSIZE = b.size - 8 := by
    rw [hsz]; exact sub32_small _ _ (by simp only [DSIZE]; omega) (by omega)
  have hp : b.addr ≠ 0 := by omega
  have hn : n ≠ 0 := by omega
  rcases Nat.lt_trichotomy (ALIGN n) (b.size - 8) with hlt | heq | hgt
  · by_cases hsh : ALIGN n + 32 ≤ b.size
    · obtain ⟨pre, post, rfl⟩ := List.append_of_mem hb
      obtain ⟨s1, h, hok⟩ := realloc_shrink_ok hW hba n h1 h2 hsh fuel hf0
      exact ⟨_, _, h, hok⟩
    · refine ⟨b.addr, s, ?_, realloc_stay_ok hW hb hba n (by omega)⟩
      apply realloc_keep fuel s b.addr n hp hn (by rw [hcopy]; exact hlt)
      rw [hcopy, sub32_small (b.size - 8) (ALIGN n) (by omega) (by omega)]
      simp only [DSIZE]
      rw [sub32_small _ _ (by omega) (by omega)]
      omega
  · exact ⟨b.addr, s, realloc_same fuel s b.addr n hp hn (by rw [hcopy]; exact heq),
      realloc_stay_ok hW hb hba n (by omega)⟩
  · obtain ⟨pre, post, rfl⟩ := List.append_of_mem hb
    cases post with
    | nil =>
      have hrn := read_next_nil hI
      exact realloc_move_ok hW hb hba n h1 h2 hgt fuel hf
        (realloc_move fuel s b.addr n hp hn rfl hcopy rfl rfl hgt (Or.inl (by rw [hrn.1]; simp)))
    | cons N post1 =>
      have hrn := read_next_cons hI
      have hNb := hI.blk (show N ∈ pre ++ b :: N :: post1 by simp)
      cases hNa : N.alloc with
      | true =>
        exact realloc_move_ok hW hb hba n h1 h2 hgt fuel hf
          (realloc_move fuel s b.addr n hp hn rfl hcopy rfl rfl hgt
            (Or.inl (by rw [hrn.2.1, hNa]; simp)))
      | false =>
        by_cases hfit : ALIGN n ≤ N.size + (b.size - 8)
        · obtain ⟨s1, h, hok⟩ := realloc_grow_ok hW hba hNa n h1 h2 hgt hfit fuel hf0
          exact ⟨_, _, h, hok⟩
        · exact realloc_move_ok hW hb hba n h1 h2 hgt fuel hf
            (realloc_move fuel s b.addr n hp hn rfl hcopy rfl rfl hgt
              (Or.inr (by rw [hrn.2.2.1, add32_small _ _ (by omega)]; omega)))

end MM

namespace MM

/-! ## `mm_init` -/

theorem init_lists_other (seg : Nat) : ∀ (k : Nat) (m : Mem) (list a : Nat),
    (∀ j, list ≤ j → j < list + k → a ≠ seg + 4 * j) → init_lists m seg k list a = m a := by
  intro k
  induction k with
  | zero => intro m list a _; rfl
  | succ k ih =>
    intro m list a h
    unfold init_lists
    rw [ih _ _ _ (fun j h1 h2 => h j (by omega) (by omega))]
    simp only [SET_LIST, LISTP, WSIZE]
    exact PUT_other _ _ _ _ (h list (le_refl _) (by omega))

theorem init_lists_zero (seg : Nat) : ∀ (k : Nat) (m : Mem) (list j : Nat),
    list ≤ j → j < list + k → init_lists m seg k list (seg + 4 * j) = 0 := by
  intro k
  induction k with
  | zero => intro m list j h1 h2; omega
  | succ k ih =>
    intro m list j h1 h2
    unfold init_lists
    by_cases e : j = list
    · subst e
      rw [init_lists_other seg k _ _ _ (fun i h3 _ => by omega)]
      simp only [SET_LIST, LISTP, WSIZE, PUT_same]
    · exact ih _ _ _ (by omega) (by omega)

theorem mm_init_short (fuel : Nat) (s : State) (h1 : s.mem_brk + 80 ≤ s.mem_max_addr)
    (h2 : ¬ s.mem_brk + 96 ≤ s.mem_max_addr) :
    mm_init fuel s = some (-1, ⟨init_lists s.mem s.mem_brk MAX_SEGLIST 0, s.mem_brk + 80,
      s.mem_max_addr, s.mem_brk, FAIL_PTR⟩) := by
  unfold mm_init mem_sbrk
  simp [MAX_SEGLIST, WSIZE, h1, h2]

theorem mm_init_long (fuel : Nat) (s : State) (h1 : s.mem_brk + 80 ≤ s.mem_max_addr)
    (h2 : s.mem_brk + 96 ≤ s.mem_max_addr) (h3 : s.mem_max_addr ≤ FAIL_PTR) :
    mm_init fuel s =
      (match extend_heap fuel (init_state s) (CHUNKSIZE / WSIZE) with
       | none => none
       | some (p, s5) => if p = 0 then some (-1, s5) else some (0, s5)) := by
  unfold mm_init mem_sbrk
  have h4 : s.mem_brk + 80 ≠ FAIL_PTR := by simp only [FAIL_PTR] at *; omega
  simp [MAX_SEGLIST, WSIZE, h1, h2, h4, init_state, init_mem, PACK, DSIZE, Nat.add_assoc] <;> rfl

/-- The state `mm_init` leaves before it extends the heap is a well-formed heap
with no block. -/
theorem init_state_wf {s : State} (hF : Fresh s) (h2 : s.mem_brk + 96 ≤ s.mem_max_addr) :
    WF (init_state s) [] (fun _ => []) := by
  obtain ⟨hpos, hal, hroom, hmax⟩ := hF
  have hU : FAIL_PTR = 4294967295 := rfl
  have hother : ∀ a, a ≠ s.mem_brk + 80 → a ≠ s.mem_brk + 84 → a ≠ s.mem_brk + 88 →
      a ≠ s.mem_brk + 92 →
      init_mem s.mem s.mem_brk a = init_lists s.mem s.mem_brk MAX_SEGLIST 0 a := by
    intro a h1 h2 h3 h4
    unfold init_mem
    rw [PUT_other _ _ _ _ h4, PUT_other _ _ _ _ h3, PUT_other _ _ _ _ h2, PUT_other _ _ _ _ h1]
  refine ⟨⟨hpos, hal, ?_, rfl, ?_, ?_, ?_, ?_, ?_, ?_, ?_, ?_⟩, rfl, h2, hmax, ?_, ?_⟩
  · show s.mem_brk + 96 < FAIL_PTR
    omega
  · show init_mem s.mem s.mem_brk (s.mem_brk + 84) = 9
    unfold init_mem
    rw [PUT_other _ _ _ _ (by omega), PUT_other _ _ _ _ (by omega), PUT_same]
  · show init_mem s.mem s.mem_brk (s.mem_brk + 88) = 9
    unfold init_mem
    rw [PUT_other _ _ _ _ (by omega), PUT_same]
  · show init_mem s.mem s.mem_brk (s.mem_brk + 96 - 4) = 1
    unfold init_mem
    have : s.mem_brk + 96 - 4 = s.mem_brk + 92 := by omega
    rw [this, PUT_same]
  · intro b hb; cases hb
  · intro k hk
    show init_mem s.mem s.mem_brk (s.mem_brk + 4 * k) = 0
    rw [hother _ (by omega) (by omega) (by omega) (by omega)]
    exact init_lists_zero _ _ _ _ _ (Nat.zero_le _) (by simp only [MAX_SEGLIST]; omega)
  · intro k; trivial
  · intro k p hp; cases hp
  · intro k; exact List.nodup_nil
  · intro b hb; cases hb
  · exact List.chain'_nil

/-- With every list empty, `free_find` returns `NULL`. -/
theorem find_loop_empty (fuel : Nat) (m : Mem) (seg size : Nat) (hf : 0 < fuel)
    (h : ∀ k < 20, m (seg + 4 * k) = 0) :
    ∀ n list s, find_loop fuel m seg size n list s 0 = some 0 := by
  obtain ⟨f, rfl⟩ : ∃ f, fuel = f + 1 := ⟨fuel - 1, by omega⟩
  intro n
  induction n with
  | zero => intro list s; rfl
  | succ n ih =>
    intro list s
    unfold find_loop
    by_cases hl : list < MAX_SEGLIST
    · rw [if_pos hl]
      have hg : GET_LIST m seg list = 0 := by
        simp only [GET_LIST, GET, LISTP, WSIZE]
        exact h list hl
      by_cases hc : list = MAX_SEGLIST - 1 ∨ (s ≤ 1 ∧ GET_LIST m seg list ≠ 0)
      · rw [if_pos hc, hg]
        simp only [find_walk, ne_eq, not_true_eq_false, false_and, if_false]
        exact ih _ _
      · rw [if_neg hc]
        exact ih _ _
    · rw [if_neg hl]

/-- Without room for the extension `extend_heap` returns `NULL` and changes
nothing. -/
theorem extend_heap_full (fuel : Nat) (s : State) (words : Nat)
    (h : s.mem_max_addr < s.mem_brk + extend_size words) :
    extend_heap fuel s words = some (0, s) := by
  unfold extend_heap mem_sbrk
  have h1 : ¬ (s.mem_brk + extend_size words ≤ s.mem_max_addr) := by omega
  simp [h1]

/-- A call of `mm_malloc` on a state whose lists are empty and whose heap has
no room for the extension returns `NULL` and changes nothing. -/
theorem mm_malloc_full (fuel : Nat) (s : State) (n : Nat) (hf : 0 < fuel)
    (h : ∀ k < 20, s.mem (s.seg_listp + 4 * k) = 0)
    (hfull : s.mem_max_addr < s.mem_brk + extend_size (MAX (malloc_size n) CHUNKSIZE / WSIZE)) :
    mm_malloc fuel s n = some (0, s) := by
  unfold mm_malloc
  by_cases hn : n = 0
  · rw [if_pos hn]
  · rw [if_neg hn]
    simp only
    have := find_loop_empty fuel s.mem s.seg_listp (malloc_size n) hf h MAX_SEGLIST 0
      (malloc_size n)
    unfold free_find
    rw [this]
    simp only [ne_eq, not_true_eq_false, if_false]
    rw [extend_heap_full fuel s _ hfull]
    simp

/-- `mm_init` on a fresh heap returns, and leaves a well-formed heap without
allocated blocks, or, when not even the prologue fits, empty lists and a heap
that is full. -/
theorem mm_init_spec {s : State} (hF : Fresh s) (fuel : Nat) (hf : 0 < fuel) :
    ∃ r s1, mm_init fuel s = some (r, s1) ∧ s1.mem_max_addr = s.mem_max_addr ∧
      ((s.mem_max_addr < s.mem_brk + 96 ∧ Dead s1) ∨
        ∃ bl fl, WF s1 bl fl ∧ ∀ c ∈ bl, c.alloc = false) := by
  have hroom := hF.room
  by_cases h2 : s.mem_brk + 96 ≤ s.mem_max_addr
  · have hW := init_state_wf hF h2
    have hsz : extend_size (CHUNKSIZE / WSIZE) = 64 := extend_size_eq 64 (by decide) (by decide)
    rw [mm_init_long fuel s hroom h2 hF.max_le]
    rcases extend_heap_spec hW (CHUNKSIZE / WSIZE) 64 hsz (by decide) (by decide) fuel hf with
      ⟨_, he⟩ | ⟨_, r, m1, bl1, fl1, he, hW1, hA, _, c, hc, hcr, _, _⟩
    · rw [he]
      exact ⟨-1, init_state s, by simp, rfl, Or.inr ⟨[], _, hW, by simp⟩⟩
    · rw [he]
      have hcb := hW1.inv.blk hc
      have hr : r ≠ 0 := by omega
      refine ⟨0, { init_state s with mem := m1, mem_brk := (init_state s).mem_brk + 64 },
        by simp [hr], rfl, Or.inr ⟨bl1, fl1, hW1, ?_⟩⟩
      intro x hx
      cases hxa : x.alloc with
      | false => rfl
      | true =>
        have := (hA x hxa).1 hx
        cases this
  · rw [mm_init_short fuel s hroom h2]
    refine ⟨-1, _, rfl, rfl, Or.inl ⟨by omega, ?_, ?_⟩⟩
    · intro k hk
      exact init_lists_zero _ _ _ _ _ (Nat.zero_le _) (by simp only [MAX_SEGLIST]; omega)
    · show s.mem_max_addr < s.mem_brk + 80 + 16
      omega

end MM

namespace MM

/-! ## One step of a caller -/

/-- Header of an allocated block as the caller reads it. -/
theorem WF.alloc_read {s : State} {bl : List Blk} {fl : Nat → List Nat} (hW : WF s bl fl)
    {a : Blk} (ha : a ∈ bl) (haa : a.alloc = true) :
    GET_ALLOC s.mem (HDRP a.addr) = 1 ∧ usable s.mem a.addr = a.size - 8 := by
  obtain ⟨h1, h2⟩ := hW.inv.hdr ha
  rw [haa] at h2
  exact ⟨by simpa using h2, by simp only [usable, h1, DSIZE]⟩

/-- The block of a live pointer. -/
theorem LiveOK.block {live : List Nat} {bl : List Blk} (h : LiveOK live bl) {p : Nat}
    (hp : p ∈ live) : ∃ b ∈ bl, b.addr = p ∧ b.alloc = true :=
  (h.2 p).1 hp

/-- The live pointers after a block was replaced by another, as a resize that
returns a pointer does. -/
theorem LiveOK.swap {live : List Nat} {bl bl1 : List Blk} {a b : Blk} (h : LiveOK live bl)
    (hb : b ∈ bl) (hinj : ∀ c ∈ bl, c.addr = b.addr → c = b) (haa : a.alloc = true)
    (hfresh : ∀ c ∈ bl, c.alloc = true → c ≠ b → c.addr ≠ a.addr)
    (hiff : ∀ c : Blk, c.alloc = true → (c ∈ bl1 ↔ (c ∈ bl ∧ c ≠ b) ∨ c = a)) :
    LiveOK (a.addr :: live.erase b.addr) bl1 := by
  obtain ⟨hnd, hm⟩ := h
  constructor
  · rw [List.nodup_cons]
    refine ⟨?_, hnd.erase _⟩
    intro hq
    rw [hnd.mem_erase_iff] at hq
    obtain ⟨c, hc, hca, hcl⟩ := (hm _).1 hq.2
    exact hfresh c hc hcl (fun e => hq.1 (by rw [← hca, e])) hca
  · intro x
    rw [List.mem_cons, hnd.mem_erase_iff]
    constructor
    · rintro (hx | ⟨hne, hx⟩)
      · exact ⟨a, (hiff a haa).2 (Or.inr rfl), hx.symm, haa⟩
      · obtain ⟨c, hc, hca, hcl⟩ := (hm _).1 hx
        exact ⟨c, (hiff c hcl).2 (Or.inl ⟨hc, fun e => hne (by rw [← hca, e])⟩), hca, hcl⟩
    · rintro ⟨c, hc, hca, hcl⟩
      rcases (hiff c hcl).1 hc with ⟨hc0, hne⟩ | he
      · right
        refine ⟨fun e => hne (hinj c hc0 (by rw [hca, e])), (hm _).2 ⟨c, hc0, hca, hcl⟩⟩
      · left; rw [← hca, he]

/-- The live pointers after an allocation. -/
theorem LiveOK.add {live : List Nat} {bl bl1 : List Blk} {a : Blk} (h : LiveOK live bl)
    (haa : a.alloc = true) (hfresh : ∀ c ∈ bl, c.alloc = true → c.addr ≠ a.addr)
    (hiff : ∀ c : Blk, c.alloc = true → (c ∈ bl1 ↔ c ∈ bl ∨ c = a)) :
    LiveOK (a.addr :: live) bl1 := by
  obtain ⟨hnd, hm⟩ := h
  constructor
  · rw [List.nodup_cons]
    refine ⟨?_, hnd⟩
    intro hq
    obtain ⟨c, hc, hca, hcl⟩ := (hm _).1 hq
    exact hfresh c hc hcl hca
  · intro x
    rw [List.mem_cons]
    constructor
    · rintro (hx | hx)
      · exact ⟨a, (hiff a haa).2 (Or.inr rfl), hx.symm, haa⟩
      · obtain ⟨c, hc, hca, hcl⟩ := (hm _).1 hx
        exact ⟨c, (hiff c hcl).2 (Or.inl hc), hca, hcl⟩
    · rintro ⟨c, hc, hca, hcl⟩
      rcases (hiff c hcl).1 hc with hc0 | he
      · right; exact (hm _).2 ⟨c, hc0, hca, hcl⟩
      · left; rw [← hca, he]

/-- The live pointers after a release. -/
theorem LiveOK.remove {live : List Nat} {bl bl1 : List Blk} {b : Blk} (h : LiveOK live bl)
    (hinj : ∀ c ∈ bl, c.addr = b.addr → c = b)
    (hiff : ∀ c : Blk, c.alloc = true → (c ∈ bl1 ↔ c ∈ bl ∧ c ≠ b)) :
    LiveOK (live.erase b.addr) bl1 := by
  obtain ⟨hnd, hm⟩ := h
  constructor
  · exact hnd.erase _
  · intro x
    rw [hnd.mem_erase_iff]
    constructor
    · rintro ⟨hne, hx⟩
      obtain ⟨c, hc, hca, hcl⟩ := (hm _).1 hx
      exact ⟨c, (hiff c hcl).2 ⟨hc, fun e => hne (by rw [← hca, e])⟩, hca, hcl⟩
    · rintro ⟨c, hc, hca, hcl⟩
      obtain ⟨hc0, hne⟩ := (hiff c hcl).1 hc
      exact ⟨fun e => hne (hinj c hc0 (by rw [hca, e])), (hm _).2 ⟨c, hc0, hca, hcl⟩⟩

/-- `mm_malloc` between calls: it returns, what holds between calls holds
again, and a pointer that is not null is live, marked allocated and large
enough. -/
theorem malloc_good {s : State} {live : List Nat} {bl : List Blk} {fl : Nat → List Nat}
    (hW : WF s bl fl) (hL : LiveOK live bl) (n : Nat) (h2 : n + 16 ≤ U32) (fuel : Nat)
    (hf : s.mem_max_addr ≤ fuel) :
    ∃ q s1, mm_malloc fuel s n = some (q, s1) ∧ Alive ⟨s1, live_add live q⟩ ∧
      s1.mem_max_addr = s.mem_max_addr ∧
      (q ≠ 0 → q ∈ live_add live q ∧ GET_ALLOC s1.mem (HDRP q) = 1 ∧ n ≤ usable s1.mem q) := by
  by_cases hn : n = 0
  · refine ⟨0, s, by unfold mm_malloc; rw [if_pos hn], ⟨bl, fl, hW, hL⟩, rfl, ?_⟩
    intro h; exact absurd rfl h
  · obtain ⟨q, s1, bl1, fl1, hm, hW1, hmax, _, _, hcase⟩ :=
      mm_malloc_spec hW n (by omega) h2 fuel hf
    refine ⟨q, s1, hm, ?_, hmax, ?_⟩
    · rcases hcase with ⟨hq, hs, hb⟩ | ⟨hq, a, ha, haq, haa, _, hfresh, hiff⟩
      · subst hq
        rw [hb] at hW1
        exact ⟨bl, fl1, hW1, hL⟩
      · refine ⟨bl1, fl1, hW1, ?_⟩
        unfold live_add
        rw [if_neg hq, ← haq]
        exact hL.add haa (by rw [haq]; exact hfresh) hiff
    · intro hq
      rcases hcase with ⟨hq0, _, _⟩ | ⟨_, a, ha, haq, haa, hsz, _, _⟩
      · exact absurd hq0 hq
      · obtain ⟨hr1, hr2⟩ := hW1.alloc_read ha haa
        obtain ⟨_, _, hrn, _⟩ := malloc_size_spec n (by omega) h2
        rw [haq] at hr1 hr2
        refine ⟨?_, hr1, ?_⟩
        · unfold live_add; rw [if_neg hq]; exact List.mem_cons_self _ _
        · rw [hr2]; omega

/-- `mm_malloc` after an `mm_init` that failed early returns `NULL` and changes
nothing. -/
theorem malloc_dead {s : State} (hD : Dead s) (n : Nat) (h2 : n + 16 ≤ U32) (fuel : Nat)
    (hf : 0 < fuel) : mm_malloc fuel s n = some (0, s) := by
  by_cases hn : n = 0
  · unfold mm_malloc; rw [if_pos hn]
  · obtain ⟨hr8, hr16, hrn, hrle⟩ := malloc_size_spec n (by omega) h2
    have hM := MAX_spec (malloc_size n) CHUNKSIZE
    have hC : CHUNKSIZE = 64 := rfl
    have hU : U32 = 4294967296 := rfl
    have h64 : 64 ≤ MAX (malloc_size n) CHUNKSIZE := by omega
    have h8 : MAX (malloc_size n) CHUNKSIZE % 8 = 0 := by
      rcases hM.2.2 with h | h <;> omega
    have hlt : MAX (malloc_size n) CHUNKSIZE < U32 := by
      rcases hM.2.2 with h | h <;> omega
    apply mm_malloc_full fuel s n hf hD.heads
    have hfull := hD.full
    simp only [WSIZE]
    rw [extend_size_eq _ h8 hlt]
    omega

/-- `mm_free` of a live pointer between calls. -/
theorem free_good {s : State} {live : List Nat} {bl : List Blk} {fl : Nat → List Nat}
    (hW : WF s bl fl) (hL : LiveOK live bl) {p : Nat} (hp : p ∈ live) (fuel : Nat)
    (hf : s.mem_max_addr ≤ fuel) :
    ∃ s1, mm_free fuel s p = some s1 ∧ Alive ⟨s1, live.erase p⟩ ∧
      s1.mem_max_addr = s.mem_max_addr := by
  obtain ⟨b, hb, hbp, hba⟩ := hL.block hp
  subst hbp
  obtain ⟨s1, bl1, fl1, hfr, hW1, hmax, _, _, hiff⟩ :=
    mm_free_spec hW hb hba fuel (hW.fuel_pos hf).1
  exact ⟨s1, hfr, ⟨bl1, fl1, hW1,
    hL.remove (fun c hc e => hW.inv.chained.addr_inj hc hb e) hiff⟩, hmax⟩

/-- `mm_realloc` of a live pointer, for a size that is not zero, between calls. -/
theorem realloc_good {s : State} {live : List Nat} {bl : List Blk} {fl : Nat → List Nat}
    (hW : WF s bl fl) (hL : LiveOK live bl) {p : Nat} (hp : p ∈ live) (n : Nat) (h1 : 1 ≤ n)
    (h2 : n + 16 ≤ U32) (fuel : Nat) (hf : s.mem_max_addr ≤ fuel) :
    ∃ q s1, mm_realloc fuel s p n = some (q, s1) ∧
      Alive ⟨s1, if q = 0 then live else q :: live.erase p⟩ ∧
      s1.mem_max_addr = s.mem_max_addr ∧
      (q ≠ 0 → GET_ALLOC s1.mem (HDRP q) = 1 ∧ n ≤ usable s1.mem q ∧
        ∀ i, i < usable s.mem p → i < n → s1.mem (q + i) = s.mem (p + i)) := by
  obtain ⟨b, hb, hbp, hba⟩ := hL.block hp
  subst hbp
  obtain ⟨q, s1, hr, hmax, _, hcase⟩ := mm_realloc_spec hW hb hba n h1 h2 fuel hf
  refine ⟨q, s1, hr, ?_, hmax, ?_⟩
  · rcases hcase with ⟨hq, hs⟩ | ⟨hq, bl1, fl1, a, hW1, ha, haq, haa, _, hfresh, hiff, _, _⟩
    · rw [if_pos hq, hs]
      exact ⟨bl, fl, hW, hL⟩
    · rw [if_neg hq, ← haq]
      exact ⟨bl1, fl1, hW1,
        hL.swap hb (fun c hc e => hW.inv.chained.addr_inj hc hb e) haa
          (by rw [haq]; exact hfresh) hiff⟩
  · intro hq
    rcases hcase with ⟨hq0, _⟩ | ⟨_, bl1, fl1, a, hW1, ha, haq, haa, hsz, _, _, hcont, _⟩
    · exact absurd hq0 hq
    · obtain ⟨hr1, hr2⟩ := hW1.alloc_read ha haa
      rw [haq] at hr1 hr2
      refine ⟨hr1, by rw [hr2]; omega, ?_⟩
      intro i hi hin
      rw [(hW.alloc_read hb hba).2] at hi
      exact hcont i hi hin

/-- A store of one word inside the usable region of a live pointer, between calls. -/
theorem store_good {s : State} {live : List Nat} {bl : List Blk} {fl : Nat → List Nat}
    (hW : WF s bl fl) (hL : LiveOK live bl) {p : Nat} (hp : p ∈ live) (off v : Nat)
    (hoff : off + 4 ≤ usable s.mem p) :
    Alive ⟨{ s with mem := PUT s.mem (p + off) v }, live⟩ := by
  obtain ⟨b, hb, hbp, hba⟩ := hL.block hp
  subst hbp
  rw [(hW.alloc_read hb hba).2] at hoff
  have hbb := hW.inv.blk hb
  refine ⟨bl, fl, hW.payload_write hb hba _ ?_, hL⟩
  intro a ha
  exact PUT_other _ _ _ _ (by omega)

theorem mm_realloc_null (fuel : Nat) (s : State) (n : Nat) :
    mm_realloc fuel s 0 n = mm_malloc fuel s n := by
  unfold mm_realloc
  rw [if_pos rfl]

theorem mm_realloc_zero (fuel : Nat) (s : State) (p : Nat) (hp : p ≠ 0) :
    mm_realloc fuel s p 0 = (mm_free fuel s p).map (fun s1 => (0, s1)) := by
  unfold mm_realloc
  rw [if_neg hp, if_pos rfl]

theorem Good.no_live {c : Config} (hG : Good c) {p : Nat} (hp : p ∈ c.live) :
    Alive c := by
  rcases hG with h | ⟨_, h⟩
  · exact h
  · rw [h] at hp; cases hp

theorem LiveOK.pos {live : List Nat} {bl : List Blk} (h : LiveOK live bl) {s : State}
    {fl : Nat → List Nat} (hW : WF s bl fl) {p : Nat} (hp : p ∈ live) : p ≠ 0 := by
  obtain ⟨b, hb, hbp, _⟩ := h.block hp
  have := hW.inv.blk hb
  omega

/-- A step `mm_malloc(n)` between calls. -/
theorem step_malloc {c : Config} (hG : Good c) (fuel : Nat) (hf : c.st.mem_max_addr ≤ fuel)
    (hf0 : 0 < fuel) (n : Nat) (h2 : n + 16 ≤ U32) :
    ∃ q c1, step fuel c (.malloc n) = some (q, c1) ∧ Good c1 ∧ (Alive c → Alive c1) ∧
      c1.st.mem_max_addr = c.st.mem_max_addr ∧ StepOK c q c1 (.malloc n) := by
  rcases hG with ⟨bl, fl, hW, hL⟩ | ⟨hD, hl⟩
  · obtain ⟨q, s1, hm, hG1, hmax, hq⟩ := malloc_good hW hL n h2 fuel hf
    exact ⟨q, ⟨s1, live_add c.live q⟩, by simp only [step, hm, Option.map_some'], Or.inl hG1,
      fun _ => hG1, hmax, hq⟩
  · have hm := malloc_dead hD n h2 fuel hf0
    refine ⟨0, ⟨c.st, live_add c.live 0⟩, by simp only [step, hm, Option.map_some'],
      Or.inr ⟨hD, ?_⟩, fun h => h, rfl, fun h => absurd rfl h⟩
    simp only [live_add, if_true]
    exact hl

/-- A step `mm_free(p)` on a live pointer between calls. -/
theorem step_free {c : Config} (hG : Good c) (fuel : Nat) (hf : c.st.mem_max_addr ≤ fuel)
    (p : Nat) (hp : p ∈ c.live) :
    ∃ q c1, step fuel c (.free p) = some (q, c1) ∧ Good c1 ∧ (Alive c → Alive c1) ∧
      c1.st.mem_max_addr = c.st.mem_max_addr ∧ StepOK c q c1 (.free p) := by
  obtain ⟨bl, fl, hW, hL⟩ := hG.no_live hp
  obtain ⟨s1, hfr, hG1, hmax⟩ := free_good hW hL hp fuel hf
  exact ⟨0, ⟨s1, c.live.erase p⟩, by simp only [step, hfr, Option.map_some'], Or.inl hG1,
    fun _ => hG1, hmax, rfl⟩

/-- A step `mm_realloc(p, n)`, on `NULL` or a live pointer, between calls. -/
theorem step_realloc {c : Config} (hG : Good c) (fuel : Nat) (hf : c.st.mem_max_addr ≤ fuel)
    (hf0 : 0 < fuel) (p n : Nat) (hp : p = 0 ∨ p ∈ c.live) (h2 : n + 16 ≤ U32) :
    ∃ q c1, step fuel c (.realloc p n) = some (q, c1) ∧ Good c1 ∧ (Alive c → Alive c1) ∧
      c1.st.mem_max_addr = c.st.mem_max_addr ∧ StepOK c q c1 (.realloc p n) := by
  by_cases hp0 : p = 0
  · subst hp0
    obtain ⟨q, c1, hs, hG1, hA1, hmax, hq⟩ := step_malloc hG fuel hf hf0 n h2
    simp only [step, Option.map_eq_some'] at hs
    obtain ⟨r, hr, hrq⟩ := hs
    refine ⟨q, c1, ?_, hG1, hA1, hmax, ?_⟩
    · simp only [step, mm_realloc_null, hr, Option.map_some', if_true]
      exact congrArg some hrq
    · intro h
      obtain ⟨h1, h2, h3⟩ := hq h
      exact ⟨h1, h2, h3, fun h0 => absurd rfl h0⟩
  · have hpl : p ∈ c.live := by
      rcases hp with h | h
      · exact absurd h hp0
      · exact h
    obtain ⟨bl, fl, hW, hL⟩ := hG.no_live hpl
    by_cases hn : n = 0
    · subst hn
      obtain ⟨s1, hfr, hG1, hmax⟩ := free_good hW hL hpl fuel hf
      refine ⟨0, ⟨s1, c.live.erase p⟩, ?_, Or.inl hG1, fun _ => hG1, hmax, fun h => absurd rfl h⟩
      simp only [step, mm_realloc_zero fuel c.st p hp0, hfr, Option.map_some', if_neg hp0,
        if_true]
    · obtain ⟨q, s1, hr, hG1, hmax, hq⟩ := realloc_good hW hL hpl n (by omega) h2 fuel hf
      refine ⟨q, ⟨s1, if q = 0 then c.live else q :: c.live.erase p⟩, ?_, Or.inl hG1,
        fun _ => hG1, hmax, ?_⟩
      · simp only [step, hr, Option.map_some', if_neg hp0, if_neg hn]
      · intro h
        obtain ⟨h1, h2, h3⟩ := hq h
        refine ⟨?_, h1, h2, fun _ => h3⟩
        show q ∈ (if q = 0 then c.live else q :: c.live.erase p)
        rw [if_neg h]
        exact List.mem_cons_self _ _

/-- A store into the usable region of a live pointer, between calls. -/
theorem step_store {c : Config} (hG : Good c) (fuel : Nat) (p off v : Nat) (hp : p ∈ c.live)
    (hoff : off + 4 ≤ usable c.st.mem p) :
    ∃ q c1, step fuel c (.store p off v) = some (q, c1) ∧ Good c1 ∧ (Alive c → Alive c1) ∧
      c1.st.mem_max_addr = c.st.mem_max_addr ∧ StepOK c q c1 (.store p off v) := by
  obtain ⟨bl, fl, hW, hL⟩ := hG.no_live hp
  exact ⟨0, _, rfl, Or.inl (store_good hW hL hp off v hoff),
    fun _ => store_good hW hL hp off v hoff, rfl, rfl⟩

/-- Every step the caller contract allows, with a request size that does not
wrap when rounded, returns; what holds between calls holds again after it,
and the pointer it returned is as `StepOK` says. -/
theorem good_step {c : Config} (hG : Good c) (fuel : Nat) (hf : c.st.mem_max_addr ≤ fuel)
    (hf0 : 0 < fuel) (op : Op) (hok : op.ok c = true) (hsm : op.small) :
    ∃ q c1, step fuel c op = some (q, c1) ∧ Good c1 ∧ (Alive c → Alive c1) ∧
      c1.st.mem_max_addr = c.st.mem_max_addr ∧ StepOK c q c1 op := by
  cases op with
  | malloc n => exact step_malloc hG fuel hf hf0 n hsm
  | free p =>
    simp only [Op.ok, decide_eq_true_eq] at hok
    exact step_free hG fuel hf p hok
  | realloc p n =>
    simp only [Op.ok, Bool.and_eq_true, Bool.or_eq_true, decide_eq_true_eq] at hok
    exact step_realloc hG fuel hf hf0 p n hok.2 hsm
  | store p off v =>
    simp only [Op.ok, Bool.and_eq_true, decide_eq_true_eq] at hok
    exact step_store hG fuel p off v hok.1.1.1 hok.1.2

end MM

namespace MM

/-! ## Sequences of calls -/

theorem Chained.length {a e : Nat} {l : List Blk} (h : Chained a l e) :
    a + 16 * l.length ≤ e := by
  induction l generalizing a with
  | nil => simp only [Chained] at h; simp [h]
  | cons b bs ih =>
    obtain ⟨_, h16, _, hr⟩ := h
    have := ih hr
    simp only [List.length_cons]
    omega

/-- Reading the heap block by block from the first block, as `mm_check` does,
yields the blocks of the description. -/
theorem heap_walk {m : Mem} {brk : Nat} (hbrk : brk < FAIL_PTR) (hepi : m (brk - 4) = 1) :
    ∀ (l : List Blk) (a fuel : Nat), Chained a l brk → Tagged m l → l.length < fuel →
      heap_blocks m fuel a = l.map (fun b => (b.addr, b.size, if b.alloc then 1 else 0)) := by
  intro l
  induction l with
  | nil =>
    intro a fuel hc _ hf
    obtain ⟨f, rfl⟩ : ∃ f, fuel = f + 1 := ⟨fuel - 1, by simp only [List.length_nil] at hf; omega⟩
    simp only [Chained] at hc
    subst hc
    have : GET_SIZE m (HDRP a) = 0 := by
      simp only [GET_SIZE, GET, HDRP, WSIZE, hepi]
      decide
    simp only [heap_blocks, this, if_true, List.map_nil]
  | cons b bs ih =>
    intro a fuel hc ht hf
    obtain ⟨f, rfl⟩ : ∃ f, fuel = f + 1 := ⟨fuel - 1, by omega⟩
    have hmem := hc.mem (List.mem_cons_self b bs)
    obtain ⟨ha, h16, h8, hr⟩ := hc
    subst ha
    have htb := (ht b (List.mem_cons_self b bs)).1
    have hsz : GET_SIZE m (HDRP b.addr) = b.size := by
      simp only [GET_SIZE, GET, HDRP, WSIZE, htb]
      exact tag_size b h8 (by omega)
    have hal : GET_ALLOC m (HDRP b.addr) = if b.alloc then 1 else 0 := by
      simp only [GET_ALLOC, GET, HDRP, WSIZE, htb]
      exact tag_alloc b h8
    have hnx : NEXT_BLKP m b.addr = b.addr + b.size := by
      simp only [HDRP] at hsz
      simp only [NEXT_BLKP, hsz]
    have hne : ¬ b.size = 0 := by omega
    simp only [heap_blocks, hsz, hal, hnx, if_neg hne, List.map_cons]
    rw [ih _ f hr (fun c hc => ht c (List.mem_cons_of_mem _ hc))
      (by simp only [List.length_cons] at hf; omega)]

/-- In a well-formed state the heap read block by block is the description. -/
theorem WF.heap_blocks_eq {s : State} {bl : List Blk} {fl : Nat → List Nat} (hW : WF s bl fl)
    {fuel : Nat} (hf : s.mem_max_addr ≤ fuel) :
    heap_blocks s.mem fuel (s.heap_listp + 8) =
      bl.map (fun b => (b.addr, b.size, if b.alloc then 1 else 0)) := by
  have hI := hW.inv
  have hlen := hI.chained.length
  have hle := hW.brk_le
  have e : s.heap_listp + 8 = s.seg_listp + 96 := by rw [hW.hp]
  rw [e]
  exact heap_walk hI.brk_lt hI.epi bl _ fuel hI.chained hI.tagged (by omega)

theorem no_adjacent_free_map : ∀ l : List Blk, NoAdj l →
    no_adjacent_free (l.map (fun b => (b.addr, b.size, if b.alloc then 1 else 0))) = true := by
  intro l
  induction l with
  | nil => intro _; rfl
  | cons b bs ih =>
    intro h
    cases bs with
    | nil => rfl
    | cons c cs =>
      have h2 : NoAdj (c :: cs) := (List.chain'_cons.1 h).2
      have h1 : b.alloc = true ∨ c.alloc = true := (List.chain'_cons.1 h).1
      have := ih h2
      simp only [List.map_cons] at this ⊢
      simp only [no_adjacent_free, this, Bool.and_true]
      rcases h1 with h1 | h1 <;> simp [h1]

theorem StepOK.live {c c1 : Config} {q : Nat} {op : Op} (h : StepOK c q c1 op) (hq : q ≠ 0) :
    q ∈ c1.live := by
  cases op with
  | malloc n => exact (h hq).1
  | free p => exact absurd h hq
  | realloc p n => exact (h hq).1
  | store p off v => exact absurd h hq

/-- A live pointer is the address of an allocated block: it is a multiple
of 8 and lies behind the list heads. -/
theorem Good.live_block {c : Config} (hG : Good c) {p : Nat} (hp : p ∈ c.live) :
    p % 8 = 0 ∧ c.st.seg_listp + 96 ≤ p := by
  obtain ⟨bl, fl, hW, hL⟩ := hG.no_live hp
  obtain ⟨b, hb, hbp, _⟩ := hL.block hp
  have := hW.inv.blk hb
  omega

/-- After `mm_init` on a fresh heap what holds between calls holds, with no
live pointer. -/
theorem boot_good {s : State} (hF : Fresh s) (fuel : Nat) (hf : 0 < fuel) :
    ∃ c0, boot fuel s = some c0 ∧ Good c0 ∧ c0.st.mem_max_addr = s.mem_max_addr ∧
      (s.mem_brk + 96 ≤ s.mem_max_addr → Alive c0) := by
  obtain ⟨r, s1, hi, hmax, hcase⟩ := mm_init_spec hF fuel hf
  have hlive : ∀ bl : List Blk, (∀ c ∈ bl, c.alloc = false) → LiveOK [] bl := by
    intro bl hfree
    refine ⟨List.nodup_nil, fun p => ⟨fun h => absurd h (List.not_mem_nil p), ?_⟩⟩
    rintro ⟨b, hb, _, hba⟩
    rw [hfree b hb] at hba
    cases hba
  refine ⟨⟨s1, []⟩, by simp only [boot, hi, Option.map_some'], ?_, hmax, ?_⟩
  · rcases hcase with ⟨_, hD⟩ | ⟨bl, fl, hW, hfree⟩
    · exact Or.inr ⟨hD, rfl⟩
    · exact Or.inl ⟨bl, fl, hW, hlive bl hfree⟩
  · intro hroom
    rcases hcase with ⟨h, _⟩ | ⟨bl, fl, hW, hfree⟩
    · omega
    · exact ⟨bl, fl, hW, hlive bl hfree⟩

/-- A sequence of steps that respects the caller contract, with request sizes
that do not wrap when rounded, runs to its end; what holds between calls holds
after it, and every pointer returned on the way is a multiple of 8. -/
theorem run_spec (fuel : Nat) (hf0 : 0 < fuel) : ∀ (ops : List Op) (c : Config), Good c →
    c.st.mem_max_addr ≤ fuel → respects fuel c ops = true → (∀ op ∈ ops, op.small) →
    ∃ rs c1, run fuel c ops = some (rs, c1) ∧ Good c1 ∧ (Alive c → Alive c1) ∧
      c1.st.mem_max_addr = c.st.mem_max_addr ∧ ∀ r ∈ rs, r ≠ 0 → r % 8 = 0 := by
  intro ops
  induction ops with
  | nil =>
    intro c hG _ _ _
    exact ⟨[], c, rfl, hG, fun h => h, rfl, fun r hr => by cases hr⟩
  | cons op ops ih =>
    intro c hG hf hr hs
    simp only [respects, Bool.and_eq_true] at hr
    obtain ⟨q, c1, hstep, hG1, hA1, hmax1, hq⟩ :=
      good_step hG fuel hf hf0 op hr.1 (hs op (List.mem_cons_self _ _))
    have hr2 := hr.2
    rw [hstep] at hr2
    simp only at hr2
    obtain ⟨rs, c2, hrun, hG2, hA2, hmax2, hal⟩ :=
      ih c1 hG1 (by rw [hmax1]; exact hf) hr2 (fun o ho => hs o (List.mem_cons_of_mem _ ho))
    refine ⟨q :: rs, c2, by simp only [run, hstep, hrun, Option.map_some'], hG2,
      fun h => hA2 (hA1 h), by rw [hmax2, hmax1], ?_⟩
    intro r hr0 hne
    rcases List.mem_cons.1 hr0 with h | h
    · subst h
      exact (hG1.live_block (hq.live hne)).1
    · exact hal r h hne

/-- The same from `mm_init` on a fresh heap. -/
theorem trace_spec {s : State} (hF : Fresh s) (fuel : Nat) (hf : s.mem_max_addr ≤ fuel)
    (ops : List Op) (hr : trace_ok fuel s ops = true) (hs : ∀ op ∈ ops, op.small) :
    ∃ rs c, trace fuel s ops = some (rs, c) ∧ Good c ∧
      (s.mem_brk + 96 ≤ s.mem_max_addr → Alive c) ∧ c.st.mem_max_addr ≤ fuel ∧ 0 < fuel ∧
      ∀ r ∈ rs, r ≠ 0 → r % 8 = 0 := by
  have hf0 : 0 < fuel := by
    have := hF.room
    have := hF.pos
    omega
  obtain ⟨c0, hb, hG0, hmax0, hA0⟩ := boot_good hF fuel hf0
  simp only [trace_ok, hb] at hr
  obtain ⟨rs, c, hrun, hG, hA, hmax, hal⟩ :=
    run_spec fuel hf0 ops c0 hG0 (by rw [hmax0]; exact hf) hr hs
  exact ⟨rs, c, by simp only [trace, hb, Option.some_bind, hrun], hG, fun h => hA (hA0 h),
    by rw [hmax, hmax0]; exact hf, hf0, hal⟩

end MM


namespace MM

/-! ## The claims -/

theorem heap0_fresh : Fresh heap0 := ⟨by decide, by decide, by decide, by decide⟩

theorem ops_plain_small : ∀ op ∈ ops_plain, op.small := by decide

/-- What `mm_malloc` returns in a state between calls. -/
theorem malloc_ok {c : Config} (hG : Good c) (fuel : Nat) (hf : c.st.mem_max_addr ≤ fuel)
    (hf0 : 0 < fuel) (n : Nat) (h2 : n + 16 ≤ U32) :
    ∃ q s1, mm_malloc fuel c.st n = some (q, s1) ∧
      (q ≠ 0 → GET_ALLOC s1.mem (HDRP q) = 1 ∧ n ≤ usable s1.mem q) := by
  obtain ⟨q, c1, hs, _, _, _, hq⟩ := step_malloc hG fuel hf hf0 n h2
  simp only [step, Option.map_eq_some'] at hs
  obtain ⟨r, hr, hrq⟩ := hs
  obtain ⟨h1, h2⟩ := Prod.mk.inj hrq
  subst h1 h2
  exact ⟨r.1, r.2, hr, fun h => (hq h).2⟩

/-- What `mm_realloc` returns in a state between calls. -/
theorem realloc_ok {c : Config} (hG : Good c) (fuel : Nat) (hf : c.st.mem_max_addr ≤ fuel)
    (hf0 : 0 < fuel) (p n : Nat) (hp : p = 0 ∨ p ∈ c.live) (h2 : n + 16 ≤ U32) :
    ∃ q s1, mm_realloc fuel c.st p n = some (q, s1) ∧
      (q ≠ 0 → GET_ALLOC s1.mem (HDRP q) = 1 ∧ n ≤ usable s1.mem q ∧
        (p ≠ 0 → ∀ i, i < usable c.st.mem p → i < n → s1.mem (q + i) = c.st.mem (p + i))) := by
  obtain ⟨q, c1, hs, _, _, _, hq⟩ := step_realloc hG fuel hf hf0 p n hp h2
  simp only [step, Option.map_eq_some'] at hs
  obtain ⟨r, hr, hrq⟩ := hs
  obtain ⟨h1, h2⟩ := Prod.mk.inj hrq
  subst h1 h2
  exact ⟨r.1, r.2, hr, fun h => (hq h).2⟩

/-- The fallback path of `mm_realloc`, taken when the block cannot grow in place. -/
theorem realloc_fallback (fuel : Nat) (s : State) (p n : Nat) {u : Nat} (hp : p ≠ 0)
    (hn : n ≠ 0) (hu : sub32 (GET_SIZE s.mem (HDRP p)) DSIZE = u) (h : u < ALIGN n)
    (hc : ¬ ((NEXT_BLKP s.mem p ≠ 0 ∧ GET_ALLOC s.mem (HDRP (NEXT_BLKP s.mem p)) = 0)
      ∧ ALIGN n ≤ add32 (GET_SIZE s.mem (HDRP (NEXT_BLKP s.mem p))) u)) :
    mm_realloc fuel s p n =
      (match mm_malloc fuel s n with
       | none => none
       | some (newptr, s1) =>
         if newptr = 0 then some (0, s1)
         else
           (mm_free fuel { s1 with mem := memcpy s1.mem newptr p u } p).map
             (fun s3 => (newptr, s3))) := by
  subst hu
  unfold mm_realloc
  rw [if_neg hp, if_neg hn]
  have hc1 : ¬ ((NEXT_BLKP s.mem p ≠ 0 ∧ ¬ (GET_ALLOC s.mem (HDRP (NEXT_BLKP s.mem p)) ≠ 0))
      ∧ add32 (GET_SIZE s.mem (HDRP (NEXT_BLKP s.mem p)))
          (sub32 (GET_SIZE s.mem (HDRP p)) DSIZE) ≥ ALIGN n) := by
    rintro ⟨⟨h1, h2⟩, h3⟩
    exact hc ⟨⟨h1, not_not.1 h2⟩, h3⟩
  simp only [if_neg (Nat.ne_of_gt h), if_neg (Nat.lt_asymm h), if_neg hc1] <;> rfl

/-! ### C1: returned pointers are multiples of 8 -/

/-- C1, as stated, fails: on a blank heap at the 8-aligned base 1000 the
sequence `ops_wrap_align` respects the caller contract, and its last call,
`mm_malloc(24)`, returns 1124, which is not a multiple of 8.  The request of
4294967288 bytes in the middle of the sequence wraps when `mm_malloc` rounds
it up. -/
theorem misaligned_after_wrap :
    heap0.mem_brk % 8 = 0 ∧ trace_ok fuel0 heap0 ops_wrap_align = true ∧
      (trace fuel0 heap0 ops_wrap_align).map (fun x => x.1) = some [1096, 0, 1112, 0, 1124] ∧
      1124 % 8 ≠ 0 := by
  decide!

/-- C1, amended: for every sequence of calls after `mm_init` on a fresh heap with
an 8-aligned base that respects the caller contract and whose request sizes are
at most 2^32 - 16, every call returns and every pointer returned that is not
null is a multiple of 8. -/
theorem aligned_pointers {s : State} (hF : Fresh s) (fuel : Nat) (hf : s.mem_max_addr ≤ fuel)
    (ops : List Op) (hr : trace_ok fuel s ops = true) (hs : ∀ op ∈ ops, op.small) :
    ∃ rs c, trace fuel s ops = some (rs, c) ∧ ∀ r ∈ rs, r ≠ 0 → r % 8 = 0 := by
  obtain ⟨rs, c, ht, _, _, _, _, hal⟩ := trace_spec hF fuel hf ops hr hs
  exact ⟨rs, c, ht, hal⟩

theorem aligned_pointers_witness :
    trace_ok fuel0 heap0 ops_plain = true ∧
      ∃ rs c, trace fuel0 heap0 ops_plain = some (rs, c) ∧ ∀ r ∈ rs, r ≠ 0 → r % 8 = 0 :=
  ⟨by decide!, aligned_pointers heap0_fresh fuel0 (by decide) ops_plain (by decide!)
    ops_plain_small⟩

/-! ### C2: the returned block is allocated and large enough -/

/-- C2, as stated, fails: on a blank heap `mm_malloc(4294967288)` returns the
pointer 1096 that is not null, and the header of the block at 1096 then holds
size 64 with allocation bit 0: the block is not marked allocated and its usable
size, 56, is less than the request. -/
theorem free_header_after_wrap :
    trace_ok fuel0 heap0 ops_wrap_once = true ∧
      (trace fuel0 heap0 ops_wrap_once).map
        (fun x => (x.1, GET_ALLOC x.2.st.mem (HDRP 1096), usable x.2.st.mem 1096))
        = some ([1096], 0, 56) := by
  decide!

/-- C2, amended: in every state reached from `mm_init` on a fresh heap by a
sequence of calls that respects the caller contract with request sizes of at most
2^32 - 16, for every request size `n` of at most 2^32 - 16 the calls
`mm_malloc(n)` and `mm_realloc(p, n)`, on `NULL` or a live pointer, return, and
when the pointer `q` they return is not null the block at `q` is marked allocated
and its usable size is at least `n`. -/
theorem allocated_large_enough {s : State} (hF : Fresh s) (fuel : Nat)
    (hf : s.mem_max_addr ≤ fuel) (ops : List Op) (hr : trace_ok fuel s ops = true)
    (hs : ∀ op ∈ ops, op.small) :
    ∃ rs c, trace fuel s ops = some (rs, c) ∧ ∀ n, n + 16 ≤ U32 →
      (∃ q s1, mm_malloc fuel c.st n = some (q, s1) ∧
        (q ≠ 0 → GET_ALLOC s1.mem (HDRP q) = 1 ∧ n ≤ usable s1.mem q)) ∧
      (∀ p, p = 0 ∨ p ∈ c.live → ∃ q s1, mm_realloc fuel c.st p n = some (q, s1) ∧
        (q ≠ 0 → GET_ALLOC s1.mem (HDRP q) = 1 ∧ n ≤ usable s1.mem q)) := by
  obtain ⟨rs, c, ht, hG, _, hmax, hf0, _⟩ := trace_spec hF fuel hf ops hr hs
  refine ⟨rs, c, ht, fun n hn => ⟨malloc_ok hG fuel hmax hf0 n hn, fun p hp => ?_⟩⟩
  obtain ⟨q, s1, h1, h2⟩ := realloc_ok hG fuel hmax hf0 p n hp hn
  exact ⟨q, s1, h1, fun hq => ⟨(h2 hq).1, (h2 hq).2.1⟩⟩

theorem allocated_large_enough_witness :
    trace_ok fuel0 heap0 ops_plain = true ∧
      ∃ rs c, trace fuel0 heap0 ops_plain = some (rs, c) ∧ ∀ n, n + 16 ≤ U32 →
        (∃ q s1, mm_malloc fuel0 c.st n = some (q, s1) ∧
          (q ≠ 0 → GET_ALLOC s1.mem (HDRP q) = 1 ∧ n ≤ usable s1.mem q)) ∧
        (∀ p, p = 0 ∨ p ∈ c.live → ∃ q s1, mm_realloc fuel0 c.st p n = some (q, s1) ∧
          (q ≠ 0 → GET_ALLOC s1.mem (HDRP q) = 1 ∧ n ≤ usable s1.mem q)) :=
  ⟨by decide!, allocated_large_enough heap0_fresh fuel0 (by decide) ops_plain (by decide!)
    ops_plain_small⟩

/-! ### C3: live regions do not overlap -/

/-- C3, as stated, fails: on a blank heap the sequence `mm_malloc(4294967288)`,
`mm_malloc(8)` respects the caller contract and both calls return 1096, so that
two live allocations occupy the same bytes. -/
theorem same_pointer_twice :
    trace_ok fuel0 heap0 ops_wrap_twice = true ∧
      (trace fuel0 heap0 ops_wrap_twice).map (fun x => (x.1, x.2.live))
        = some ([1096, 1096], [1096, 1096]) := by
  decide!

/-- C3, amended: in every state reached from `mm_init` on a fresh heap by a
sequence of calls that respects the caller contract with request sizes of at most
2^32 - 16, the live pointers are pairwise different, the usable regions of two
different live pointers are disjoint, every live pointer lies behind the twenty
list heads, and no usable region of a live pointer overlaps the two link
fields of a free block of the heap. -/
theorem live_regions_disjoint {s : State} (hF : Fresh s) (fuel : Nat)
    (hf : s.mem_max_addr ≤ fuel) (ops : List Op) (hr : trace_ok fuel s ops = true)
    (hs : ∀ op ∈ ops, op.small) :
    ∃ rs c, trace fuel s ops = some (rs, c) ∧ c.live.Nodup ∧
      (∀ p ∈ c.live, ∀ q ∈ c.live, p ≠ q →
        p + usable c.st.mem p ≤ q ∨ q + usable c.st.mem q ≤ p) ∧
      (∀ p ∈ c.live, c.st.seg_listp + 80 ≤ p) ∧
      (∀ p ∈ c.live, ∀ f ∈ heap_blocks c.st.mem fuel (c.st.heap_listp + 8), f.2.2 = 0 →
        f.1 + 8 ≤ p ∨ p + usable c.st.mem p ≤ f.1) := by
  obtain ⟨rs, c, ht, hG, _, hmax, hf0, _⟩ := trace_spec hF fuel hf ops hr hs
  refine ⟨rs, c, ht, ?_, ?_, ?_, ?_⟩
  · rcases hG with ⟨bl, fl, _, hL⟩ | ⟨_, hl⟩
    · exact hL.1
    · rw [hl]; exact List.nodup_nil
  · intro p hp q hq hne
    obtain ⟨bl, fl, hW, hL⟩ := hG.no_live hp
    obtain ⟨b, hb, hbp, hba⟩ := hL.block hp
    obtain ⟨d, hd, hdq, hda⟩ := hL.block hq
    rw [← hbp, ← hdq, (hW.alloc_read hb hba).2, (hW.alloc_read hd hda).2]
    have h1 := hW.inv.blk hb
    have h2 := hW.inv.blk hd
    rcases hW.inv.chained.apart hb hd with e | e | e
    · exact absurd (by rw [← hbp, ← hdq, e]) hne
    · left; omega
    · right; omega
  · intro p hp
    have := (hG.live_block hp).2
    omega
  · intro p hp f hf1 hf0
    obtain ⟨bl, fl, hW, hL⟩ := hG.no_live hp
    obtain ⟨b, hb, hbp, hba⟩ := hL.block hp
    rw [hW.heap_blocks_eq hmax, List.mem_map] at hf1
    obtain ⟨d, hd, hdf⟩ := hf1
    subst hdf
    rw [← hbp, (hW.alloc_read hb hba).2]
    have h1 := hW.inv.blk hb
    have h2 := hW.inv.blk hd
    simp only
    rcases hW.inv.chained.apart hb hd with e | e | e
    · subst e
      rw [hba] at hf0
      simp at hf0
    · right; omega
    · left; omega

theorem live_regions_disjoint_witness :
    trace_ok fuel0 heap0 ops_hole = true ∧
      (trace fuel0 heap0 ops_hole).map (fun x => x.2.live) = some [1144, 1096] ∧
      ∃ rs c, trace fuel0 heap0 ops_hole = some (rs, c) ∧ c.live.Nodup ∧
        (∀ p ∈ c.live, ∀ q ∈ c.live, p ≠ q →
          p + usable c.st.mem p ≤ q ∨ q + usable c.st.mem q ≤ p) ∧
        (∀ p ∈ c.live, c.st.seg_listp + 80 ≤ p) ∧
        (∀ p ∈ c.live, ∀ f ∈ heap_blocks c.st.mem fuel0 (c.st.heap_listp + 8), f.2.2 = 0 →
          f.1 + 8 ≤ p ∨ p + usable c.st.mem p ≤ f.1) :=
  ⟨by decide!, by decide!, live_regions_disjoint heap0_fresh fuel0 (by decide) ops_hole
    (by decide!) (by decide)⟩

/-! ### C4: no two neighbouring blocks are free -/

/-- C4, as stated, fails: on a blank heap the sequence `ops_wrap_adjacent`
respects the caller contract, and after its last call, an `mm_free`, the heap
read from the first block to the epilogue holds the neighbouring blocks at 1144
and at 1160 with allocation bit 0 both. -/
theorem free_neighbours_after_wrap :
    trace_ok fuel0 heap0 ops_wrap_adjacent = true ∧
      (trace fuel0 heap0 ops_wrap_adjacent).map
        (fun x => (heap_blocks x.2.st.mem fuel0 (x.2.st.heap_listp + 8),
          no_adjacent_free (heap_blocks x.2.st.mem fuel0 (x.2.st.heap_listp + 8))))
        = some ([(1096, 32, 0), (1128, 16, 1), (1144, 16, 0), (1160, 64, 0)], false) := by
  decide!

/-- C4, amended: after `mm_init` on a fresh heap with room for the prologue, and
after every call of a sequence that respects the caller contract with request
sizes of at most 2^32 - 16, no two neighbouring blocks between the prologue and
the epilogue both have allocation bit 0. -/
theorem no_free_neighbours {s : State} (hF : Fresh s) (fuel : Nat)
    (hf : s.mem_max_addr ≤ fuel) (hroom : s.mem_brk + 96 ≤ s.mem_max_addr) (ops : List Op)
    (hr : trace_ok fuel s ops = true) (hs : ∀ op ∈ ops, op.small) :
    ∃ rs c, trace fuel s ops = some (rs, c) ∧
      no_adjacent_free (heap_blocks c.st.mem fuel (c.st.heap_listp + 8)) = true := by
  obtain ⟨rs, c, ht, _, hA, hmax, _, _⟩ := trace_spec hF fuel hf ops hr hs
  obtain ⟨bl, fl, hW, _⟩ := hA hroom
  refine ⟨rs, c, ht, ?_⟩
  rw [hW.heap_blocks_eq hmax]
  exact no_adjacent_free_map bl hW.noadj

theorem no_free_neighbours_witness :
    trace_ok fuel0 heap0 ops_plain = true ∧
      ∃ rs c, trace fuel0 heap0 ops_plain = some (rs, c) ∧
        no_adjacent_free (heap_blocks c.st.mem fuel0 (c.st.heap_listp + 8)) = true :=
  ⟨by decide!, no_free_neighbours heap0_fresh fuel0 (by decide) (by decide) ops_plain
    (by decide!) ops_plain_small⟩

/-! ### C5 and C6: order of the lists and best fit -/

/-- C5: the code does not keep the order its header comment promises ("Each
list is sorted by size").  Starting from empty lists, `free_insert` of a block
of 16 bytes and then of a block of 24 bytes, both of class 4, leaves a list
that reads 24, 16 from its head; the same list arises from calls of
`mm_malloc` and `mm_free` alone. -/
theorem insert_unsorted :
    cls 16 = 4 ∧ cls 24 = 4 ∧ list_sizes two_free fuel0 1000 4 = [] ∧
      ((free_insert fuel0 two_free 1000 1096 16).bind
        (fun m => free_insert fuel0 m 1000 1128 24)).map (fun m => list_sizes m fuel0 1000 4)
        = some [24, 16] ∧
      trace_ok fuel0 heap0 ops_two_free = true ∧
      (trace fuel0 heap0 ops_two_free).map (fun x => list_sizes x.2.st.mem fuel0 1000 4)
        = some [24, 16] := by
  decide!

/-- C6: the code does not choose the best fit its header comment promises
("Allocator uses best-fit").  After the calls `ops_two_free` list 4 links the
free blocks at 1096, of 24 bytes, and at 1160, of 16 bytes, and `free_find(16)`
returns the block at 1096 although the block at 1160 fits and is smaller. -/
theorem find_not_best :
    trace_ok fuel0 heap0 ops_two_free = true ∧
      (trace fuel0 heap0 ops_two_free).map
        (fun x => (list_nodes x.2.st.mem fuel0 (GET_LIST x.2.st.mem 1000 4),
          list_sizes x.2.st.mem fuel0 1000 4, free_find fuel0 x.2.st.mem 1000 16))
        = some ([1096, 1160], [24, 16], some 1096) := by
  decide!

/-! ### C7: nothing changes when the heap cannot grow -/

/-- C7: when `free_find` finds no block for `mm_malloc(n)` and the heap has no
room for the extension, so that `mem_sbrk` fails, `mm_malloc` returns `NULL`
and leaves the state, with the heap bytes and the twenty list heads, as it
was; and when `mm_realloc(p, n)` has to fall back to a fresh allocation, which
fails in this way, it returns `NULL` and leaves the state as it was, the block
at `p` with its header, footer and payload included. -/
theorem exhaustion_changes_nothing (fuel : Nat) (s : State) (n : Nat)
    (hfind : free_find fuel s.mem s.seg_listp (malloc_size n) = some 0)
    (hfull : s.mem_max_addr < s.mem_brk + extend_size (MAX (malloc_size n) CHUNKSIZE / WSIZE)) :
    mm_malloc fuel s n = some (0, s) ∧
      ∀ p, p ≠ 0 → n ≠ 0 → sub32 (GET_SIZE s.mem (HDRP p)) DSIZE < ALIGN n →
        ¬ ((NEXT_BLKP s.mem p ≠ 0 ∧ GET_ALLOC s.mem (HDRP (NEXT_BLKP s.mem p)) = 0)
          ∧ ALIGN n ≤ add32 (GET_SIZE s.mem (HDRP (NEXT_BLKP s.mem p)))
              (sub32 (GET_SIZE s.mem (HDRP p)) DSIZE)) →
        mm_realloc fuel s p n = some (0, s) := by
  have hm : mm_malloc fuel s n = some (0, s) := by
    unfold mm_malloc
    by_cases hn : n = 0
    · rw [if_pos hn]
    · rw [if_neg hn]
      simp only [hfind, ne_eq, not_true_eq_false, if_false]
      rw [extend_heap_full fuel s _ hfull]
      simp
  refine ⟨hm, fun p hp hn h hc => ?_⟩
  rw [realloc_fallback fuel s p n hp hn rfl h hc, hm]
  simp

theorem exhaustion_changes_nothing_witness :
    free_find 200 heap_full.mem heap_full.seg_listp (malloc_size 100) = some 0 ∧
      heap_full.mem_max_addr
        < heap_full.mem_brk + extend_size (MAX (malloc_size 100) CHUNKSIZE / WSIZE) ∧
      mm_malloc 200 heap_full 100 = some (0, heap_full) ∧
      mm_realloc 200 heap_full 1096 100 = some (0, heap_full) :=
  ⟨by decide!, by decide!,
    (exhaustion_changes_nothing 200 heap_full 100 (by decide!) (by decide!)).1,
    (exhaustion_changes_nothing 200 heap_full 100 (by decide!) (by decide!)).2 1096
      (by decide) (by decide) (by decide!) (by decide!)⟩

/-! ### C8: a resize keeps the content -/

/-- C8, as stated, fails: on a blank heap, after `mm_malloc(24)` returned 1096
and the caller stored the word 7 at 1096, the usable size at 1096 is 24; the call
`mm_realloc(1096, 4294967295)` respects the caller contract and returns 1096, and
the word at 1096 is 9 afterwards. -/
theorem resize_loses_content :
    trace_ok fuel0 heap0 ops_wrap_resize = true ∧
      (trace fuel0 heap0 ops_stored).map
        (fun x => (x.2.live, usable x.2.st.mem 1096, x.2.st.mem 1096)) = some ([1096], 24, 7) ∧
      (trace fuel0 heap0 ops_wrap_resize).map (fun x => (x.1, x.2.st.mem 1096))
        = some ([1096, 0, 1096], 9) := by
  decide!

/-- C8, amended: in every state reached from `mm_init` on a fresh heap by a
sequence of calls that respects the caller contract with request sizes of at most
2^32 - 16, for every live pointer `p` with usable size `u` and every `n` of at
most 2^32 - 16, `mm_realloc(p, n)` returns, and when the pointer `q` it returns is
not null the first `min(u, n)` bytes at `q` after the call equal the first
`min(u, n)` bytes at `p` before the call, on every path. -/
theorem resize_keeps_content {s : State} (hF : Fresh s) (fuel : Nat)
    (hf : s.mem_max_addr ≤ fuel) (ops : List Op) (hr : trace_ok fuel s ops = true)
    (hs : ∀ op ∈ ops, op.small) :
    ∃ rs c, trace fuel s ops = some (rs, c) ∧ ∀ p ∈ c.live, ∀ n, n + 16 ≤ U32 →
      ∃ q s1, mm_realloc fuel c.st p n = some (q, s1) ∧
        (q ≠ 0 → ∀ i, i < usable c.st.mem p → i < n → s1.mem (q + i) = c.st.mem (p + i)) := by
  obtain ⟨rs, c, ht, hG, _, hmax, hf0, _⟩ := trace_spec hF fuel hf ops hr hs
  refine ⟨rs, c, ht, fun p hp n hn => ?_⟩
  obtain ⟨bl, fl, hW, hL⟩ := hG.no_live hp
  obtain ⟨q, s1, h1, h2⟩ := realloc_ok hG fuel hmax hf0 p n (Or.inr hp) hn
  exact ⟨q, s1, h1, fun hq => (h2 hq).2.2 (hL.pos hW hp)⟩

theorem resize_keeps_content_witness :
    trace_ok fuel0 heap0 ops_plain = true ∧
      ∃ rs c, trace fuel0 heap0 ops_plain = some (rs, c) ∧ ∀ p ∈ c.live, ∀ n, n + 16 ≤ U32 →
        ∃ q s1, mm_realloc fuel0 c.st p n = some (q, s1) ∧
          (q ≠ 0 → ∀ i, i < usable c.st.mem p → i < n →
            s1.mem (q + i) = c.st.mem (p + i)) :=
  ⟨by decide!, resize_keeps_content heap0_fresh fuel0 (by decide) ops_plain (by decide!)
    ops_plain_small⟩

/-! ### C9: the threshold of a shrinking resize -/

/-- A shrinking `mm_realloc` of a live pointer: it leaves the block as it is
when at most 16 bytes would be freed, and splits it when at least 24 would. -/
theorem shrink_on_live {s : State} {live : List Nat} {bl : List Blk} {fl : Nat → List Nat}
    (hW : WF s bl fl) (hL : LiveOK live bl) {p : Nat} (hp : p ∈ live) (n : Nat) (hn : n ≠ 0)
    (h8 : n + 8 ≤ U32) (hlt : ALIGN n < usable s.mem p) (fuel : Nat)
    (hf : s.mem_max_addr ≤ fuel) :
    (usable s.mem p - ALIGN n ≤ 16 → mm_realloc fuel s p n = some (p, s)) ∧
      (24 ≤ usable s.mem p - ALIGN n →
        ∃ s1, mm_realloc fuel s p n = some (p, s1) ∧
          GET_SIZE s1.mem (HDRP p) = ALIGN n + 8 ∧ GET_ALLOC s1.mem (HDRP p) = 1 ∧
          ∃ f ∈ heap_blocks s1.mem fuel (s1.heap_listp + 8),
            f.1 = p + (ALIGN n + 8) ∧ f.2.2 = 0 ∧ p + usable s.mem p + 8 ≤ f.1 + f.2.1) := by
  obtain ⟨b, hb, hbp, hba⟩ := hL.block hp
  subst hbp
  obtain ⟨hf0, _⟩ := hW.fuel_pos hf
  have hbb := hW.inv.blk hb
  have hU : FAIL_PTR < U32 := by decide
  obtain ⟨hZ8, hZn, _⟩ := ALIGN_spec n h8
  have hus := (hW.alloc_read hb hba).2
  have hsz := (hW.inv.hdr hb).1
  have hcopy : sub32 (GET_SIZE s.mem (HDRP b.addr)) DSIZE = b.size - 8 := by
    rw [hsz]; exact sub32_small _ _ (by simp only [DSIZE]; omega) (by omega)
  rw [hus] at hlt ⊢
  constructor
  · intro hle
    apply realloc_keep fuel s b.addr n (by omega) hn (by rw [hcopy]; exact hlt)
    rw [hcopy, sub32_small (b.size - 8) (ALIGN n) (by omega) (by omega)]
    simp only [DSIZE]
    rw [sub32_small _ _ (by omega) (by omega)]
    omega
  · intro hge
    obtain ⟨pre, post, rfl⟩ := List.append_of_mem hb
    obtain ⟨m1, bl1, fl1, hr, hW1, hA, ⟨c, hc, hca, hcf, hce⟩, _, _⟩ :=
      realloc_shrink_spec hW hba n hn (by omega) (by omega) fuel hf0
    have ha : (⟨b.addr, ALIGN n + 8, true⟩ : Blk) ∈ bl1 := (hA _ rfl).2 (by simp)
    have hh := hW1.inv.hdr ha
    refine ⟨_, hr, hh.1, by simpa using hh.2, (c.addr, c.size, 0), ?_, hca, rfl, ?_⟩
    · rw [hW1.heap_blocks_eq hf, List.mem_map]
      exact ⟨c, hc, by rw [hcf]; rfl⟩
    · show b.addr + (b.size - 8) + 8 ≤ c.addr + c.size
      omega

/-- C9, as stated, fails: on a blank heap, after `mm_malloc(32)` returned 1096
the usable size at 1096 is 32 and `ALIGN(16)` is 16, so that a resize to 16 bytes
would free 16 bytes, the minimum block size; `mm_realloc(1096, 16)` returns 1096
and leaves the block of 40 bytes as it is instead of splitting it. -/
theorem no_split_at_sixteen :
    (trace fuel0 heap0 ops_one32).map (fun x => (x.2.live, usable x.2.st.mem 1096))
        = some ([1096], 32) ∧
      ALIGN 16 = 16 ∧
      (trace fuel0 heap0 ops_shrink16).map
        (fun x => (x.1, GET_SIZE x.2.st.mem (HDRP 1096), GET_ALLOC x.2.st.mem (HDRP 1096)))
        = some ([1096, 1096], 40, 1) := by
  decide!

/-- C9, amended: in every state reached from `mm_init` on a fresh heap by a
sequence of calls that respects the caller contract with request sizes of at most
2^32 - 16, for every live pointer `p` with usable size `u` and every `n > 0`, at
most 2^32 - 8, with `ALIGN(n) < u`: if the freed remainder `u - ALIGN(n)` is at
least 24 bytes then `mm_realloc(p, n)` splits in place, it returns `p`, the block
at `p` gets size `ALIGN(n) + 8`, and the bytes after it become part of a free
block; if the remainder is 16 bytes or less the block is left unchanged. -/
theorem shrink_threshold {s : State} (hF : Fresh s) (fuel : Nat)
    (hf : s.mem_max_addr ≤ fuel) (ops : List Op) (hr : trace_ok fuel s ops = true)
    (hs : ∀ op ∈ ops, op.small) :
    ∃ rs c, trace fuel s ops = some (rs, c) ∧ ∀ p ∈ c.live, ∀ n, n ≠ 0 → n + 8 ≤ U32 →
      ALIGN n < usable c.st.mem p →
      (usable c.st.mem p - ALIGN n ≤ 16 → mm_realloc fuel c.st p n = some (p, c.st)) ∧
      (24 ≤ usable c.st.mem p - ALIGN n →
        ∃ s1, mm_realloc fuel c.st p n = some (p, s1) ∧
          GET_SIZE s1.mem (HDRP p) = ALIGN n + 8 ∧ GET_ALLOC s1.mem (HDRP p) = 1 ∧
          ∃ f ∈ heap_blocks s1.mem fuel (s1.heap_listp + 8),
            f.1 = p + (ALIGN n + 8) ∧ f.2.2 = 0 ∧
              p + usable c.st.mem p + 8 ≤ f.1 + f.2.1) := by
  obtain ⟨rs, c, ht, hG, _, hmax, _, _⟩ := trace_spec hF fuel hf ops hr hs
  refine ⟨rs, c, ht, fun p hp n hn h8 hlt => ?_⟩
  obtain ⟨bl, fl, hW, hL⟩ := hG.no_live hp
  exact shrink_on_live hW hL hp n hn h8 hlt fuel hmax

theorem shrink_threshold_witness :
    trace_ok fuel0 heap0 ops_plain = true ∧
      ∃ rs c, trace fuel0 heap0 ops_plain = some (rs, c) ∧ ∀ p ∈ c.live, ∀ n, n ≠ 0 →
        n + 8 ≤ U32 → ALIGN n < usable c.st.mem p →
        (usable c.st.mem p - ALIGN n ≤ 16 → mm_realloc fuel0 c.st p n = some (p, c.st)) ∧
        (24 ≤ usable c.st.mem p - ALIGN n →
          ∃ s1, mm_realloc fuel0 c.st p n = some (p, s1) ∧
            GET_SIZE s1.mem (HDRP p) = ALIGN n + 8 ∧ GET_ALLOC s1.mem (HDRP p) = 1 ∧
            ∃ f ∈ heap_blocks s1.mem fuel0 (s1.heap_listp + 8),
              f.1 = p + (ALIGN n + 8) ∧ f.2.2 = 0 ∧
                p + usable c.st.mem p + 8 ≤ f.1 + f.2.1) :=
  ⟨by decide!, shrink_threshold heap0_fresh fuel0 (by decide) ops_plain (by decide!)
    ops_plain_small⟩

/-! ### C10: where a growing resize puts the remainder -/

/-- A growing `mm_realloc` of a live pointer into the free block behind it, with a
remainder that is split off. -/
theorem grow_on_live {s : State} {live : List Nat} {bl : List Blk} {fl : Nat → List Nat}
    (hW : WF s bl fl) (hL : LiveOK live bl) {p : Nat} (hp : p ∈ live) (n : Nat) (hn : n ≠ 0)
    (hgrow : usable s.mem p < ALIGN n)
    (hfree : GET_ALLOC s.mem (HDRP (NEXT_BLKP s.mem p)) = 0)
    (hfit : ALIGN n ≤ GET_SIZE s.mem (HDRP (NEXT_BLKP s.mem p)) + usable s.mem p)
    (hrem : 8 < GET_SIZE s.mem (HDRP (NEXT_BLKP s.mem p)) + usable s.mem p - ALIGN n)
    (fuel : Nat) (hf : s.mem_max_addr ≤ fuel) :
    ∃ s1, mm_realloc fuel s p n = some (p, s1) ∧
      GET_SIZE s1.mem (HDRP p) = ALIGN n + 8 ∧ GET_ALLOC s1.mem (HDRP p) = 1 ∧
      GET_SIZE s1.mem (HDRP (p + (ALIGN n + 8)))
        = GET_SIZE s.mem (HDRP (NEXT_BLKP s.mem p)) + usable s.mem p - ALIGN n ∧
      GET_ALLOC s1.mem (HDRP (p + (ALIGN n + 8))) = 0 := by
  obtain ⟨b, hb, hbp, hba⟩ := hL.block hp
  subst hbp
  obtain ⟨hf0, _⟩ := hW.fuel_pos hf
  have hus := (hW.alloc_read hb hba).2
  obtain ⟨pre, post, rfl⟩ := List.append_of_mem hb
  rcases next_val hW.inv with ⟨_, N, post1, rfl, hNf⟩ | ⟨h1, _⟩
  · have hrn := read_next_cons hW.inv
    rw [hrn.2.2.1, hus] at hfit hrem ⊢
    rw [hus] at hgrow
    obtain ⟨m1, fl1, hr, hW1, _⟩ :=
      realloc_grow_split_spec hW hba hNf n hn hgrow hfit (by omega) fuel hf0
    have ha := hW1.inv.hdr (b := ⟨b.addr, ALIGN n + 8, true⟩) (by simp)
    have hd := hW1.inv.hdr
      (b := ⟨b.addr + (ALIGN n + 8), N.size + (b.size - 8) - ALIGN n, false⟩) (by simp)
    exact ⟨_, hr, ha.1, by simpa using ha.2, hd.1, by simpa using hd.2⟩
  · rw [h1] at hfree
    cases hfree

/-- C10, as stated, fails: on a blank heap, after the calls `ops_before_grow` the
block at 1096 has usable size 16 and is followed by a free block of 1048 bytes;
`mm_realloc(1096, 24)` grows into it and splits off a remainder of 1040 bytes,
which is more than 200, and yet the call returns 1096, not the tail, and the
remainder lies behind the allocated part, at 1128. -/
theorem grow_returns_head :
    (trace fuel0 heap0 ops_before_grow).map
        (fun x => (x.2.live, heap_blocks x.2.st.mem fuel0 (x.2.st.heap_listp + 8)))
        = some ([1096], [(1096, 24, 1), (1120, 1048, 0)]) ∧
      (trace fuel0 heap0 ops_grow).map
        (fun x => (x.1, heap_blocks x.2.st.mem fuel0 (x.2.st.heap_listp + 8)))
        = some ([1096, 1120, 0, 1096], [(1096, 32, 1), (1128, 1040, 0)]) := by
  decide!

/-- C10, amended: in every state reached from `mm_init` on a fresh heap by a
sequence of calls that respects the caller contract with request sizes of at most
2^32 - 16, when `mm_realloc(p, n)` grows a live pointer `p` into the free block
that follows it and a remainder is split off, the remainder lies after the
allocated part and the pointer returned is `p`, whatever the size of the
remainder: the block at `p` gets size `ALIGN(n) + 8` and the free remainder
starts right behind it. -/
theorem grow_keeps_pointer {s : State} (hF : Fresh s) (fuel : Nat)
    (hf : s.mem_max_addr ≤ fuel) (ops : List Op) (hr : trace_ok fuel s ops = true)
    (hs : ∀ op ∈ ops, op.small) :
    ∃ rs c, trace fuel s ops = some (rs, c) ∧ ∀ p ∈ c.live, ∀ n, n ≠ 0 →
      usable c.st.mem p < ALIGN n →
      GET_ALLOC c.st.mem (HDRP (NEXT_BLKP c.st.mem p)) = 0 →
      ALIGN n ≤ GET_SIZE c.st.mem (HDRP (NEXT_BLKP c.st.mem p)) + usable c.st.mem p →
      8 < GET_SIZE c.st.mem (HDRP (NEXT_BLKP c.st.mem p)) + usable c.st.mem p - ALIGN n →
      ∃ s1, mm_realloc fuel c.st p n = some (p, s1) ∧
        GET_SIZE s1.mem (HDRP p) = ALIGN n + 8 ∧ GET_ALLOC s1.mem (HDRP p) = 1 ∧
        GET_SIZE s1.mem (HDRP (p + (ALIGN n + 8)))
          = GET_SIZE c.st.mem (HDRP (NEXT_BLKP c.st.mem p)) + usable c.st.mem p - ALIGN n ∧
        GET_ALLOC s1.mem (HDRP (p + (ALIGN n + 8))) = 0 := by
  obtain ⟨rs, c, ht, hG, _, hmax, _, _⟩ := trace_spec hF fuel hf ops hr hs
  refine ⟨rs, c, ht, fun p hp n hn hgrow hfree hfit hrem => ?_⟩
  obtain ⟨bl, fl, hW, hL⟩ := hG.no_live hp
  exact grow_on_live hW hL hp n hn hgrow hfree hfit hrem fuel hmax

theorem grow_keeps_pointer_witness :
    trace_ok fuel0 heap0 ops_before_grow = true ∧
      ∃ rs c, trace fuel0 heap0 ops_before_grow = some (rs, c) ∧ ∀ p ∈ c.live, ∀ n, n ≠ 0 →
        usable c.st.mem p < ALIGN n →
        GET_ALLOC c.st.mem (HDRP (NEXT_BLKP c.st.mem p)) = 0 →
        ALIGN n ≤ GET_SIZE c.st.mem (HDRP (NEXT_BLKP c.st.mem p)) + usable c.st.mem p →
        8 < GET_SIZE c.st.mem (HDRP (NEXT_BLKP c.st.mem p)) + usable c.st.mem p - ALIGN n →
        ∃ s1, mm_realloc fuel0 c.st p n = some (p, s1) ∧
          GET_SIZE s1.mem (HDRP p) = ALIGN n + 8 ∧ GET_ALLOC s1.mem (HDRP p) = 1 ∧
          GET_SIZE s1.mem (HDRP (p + (ALIGN n + 8)))
            = GET_SIZE c.st.mem (HDRP (NEXT_BLKP c.st.mem p)) + usable c.st.mem p
              - ALIGN n ∧
          GET_ALLOC s1.mem (HDRP (p + (ALIGN n + 8))) = 0 :=
  ⟨by decide!, grow_keeps_pointer heap0_fresh fuel0 (by decide) ops_before_grow (by decide!)
    (by decide)⟩

end MM

namespace MM

/-! ## The class index -/

theorem shift_le_one_iff (size k : Nat) : size >>> k ≤ 1 ↔ Nat.log 2 size ≤ k := by
  rw [Nat.shiftRight_eq_div_pow]
  by_cases h0 : size = 0
  · subst h0; simp
  · have h1 : Nat.log 2 size < k + 1 ↔ size < 2 ^ (k + 1) :=
      (Nat.lt_pow_iff_log_lt (by omega) h0).symm
    have hp : 0 < 2 ^ k := Nat.pow_pos (by omega)
    have h2 : size / 2 ^ k < 2 ↔ size < 2 * 2 ^ k := Nat.div_lt_iff_lt_mul hp
    rw [pow_succ] at h1
    constructor
    · intro h
      have := h2.1 (by omega)
      have := h1.2 (by omega)
      omega
    · intro h
      have := h1.1 (by omega)
      have := h2.2 (by omega)
      omega

/-- The class loop computes `min(19, floor(log2(size)))`. -/
theorem cls_eq_log (size : Nat) : cls size = min 19 (Nat.log 2 size) := by
  obtain ⟨j, hj, he, h1, h2⟩ := class_loop_spec 19 0 size (by omega)
  simp only [cls, MAX_SEGLIST]
  rw [he]
  simp only [Nat.zero_add]
  by_cases hlt : j < 19
  · have hle := (shift_le_one_iff size j).1 (h1 hlt)
    have hge : j ≤ Nat.log 2 size := by
      by_contra hcon
      have hj0 : 0 < j := by omega
      have := h2 (j - 1) (by omega)
      have := (shift_le_one_iff size (j - 1)).2 (by omega)
      omega
    omega
  · have hj19 : j = 19 := by omega
    subst hj19
    have := h2 18 (by omega)
    have hn := (shift_le_one_iff size 18).not.1 (by omega)
    omega

theorem cls_mono {a b : Nat} (h : a ≤ b) : cls a ≤ cls b := by
  rw [cls_eq_log, cls_eq_log]
  have := Nat.log_mono_right (b := 2) h
  omega

/-- The guard of the list scan in `free_find`, with the running shift
`s = size >> list`, holds exactly from the class of `size` on. -/
theorem find_guard_iff (size k : Nat) (hk : k < 20) :
    (k = MAX_SEGLIST - 1 ∨ size >>> k ≤ 1) ↔ cls size ≤ k := by
  rw [cls_eq_log, shift_le_one_iff]
  simp only [MAX_SEGLIST]
  omega

/-- The outer loop of `free_find` passes over a list below the class of `size`. -/
theorem find_loop_skip (fuel : Nat) (m : Mem) (seg size n list lp : Nat)
    (h : list < cls size) :
    find_loop fuel m seg size (n + 1) list (size >>> list) lp =
      find_loop fuel m seg size n (list + 1) (size >>> (list + 1)) lp := by
  have h19 := cls_le size
  have hg := (find_guard_iff size list (by omega)).not.2 (by omega)
  have hc : ¬ (list = MAX_SEGLIST - 1 ∨ (size >>> list ≤ 1 ∧ GET_LIST m seg list ≠ 0)) := by
    rintro (h1 | ⟨h1, _⟩)
    · exact hg (Or.inl h1)
    · exact hg (Or.inr h1)
  have hl : list < MAX_SEGLIST := by simp only [MAX_SEGLIST]; omega
  rw [find_loop, if_pos hl, if_neg hc, ← Nat.shiftRight_add]

/-- The search of `free_find` starts at the list of the class of `size`. -/
theorem free_find_start (fuel : Nat) (m : Mem) (seg size : Nat) :
    free_find fuel m seg size =
      find_loop fuel m seg size (MAX_SEGLIST - cls size) (cls size) (size >>> cls size) 0 := by
  have h19 := cls_le size
  have key : ∀ j, j ≤ cls size →
      find_loop fuel m seg size MAX_SEGLIST 0 (size >>> 0) 0 =
        find_loop fuel m seg size (MAX_SEGLIST - j) j (size >>> j) 0 := by
    intro j
    induction j with
    | zero => intro _; rfl
    | succ j ih =>
      intro hj
      rw [ih (by omega)]
      have e : MAX_SEGLIST - j = (MAX_SEGLIST - (j + 1)) + 1 := by
        simp only [MAX_SEGLIST]; omega
      rw [e, find_loop_skip fuel m seg size _ j 0 (by omega)]
  have := key (cls size) (le_refl _)
  simp only [Nat.shiftRight_zero] at this
  exact this

end MM

namespace MM

/-! ## `free_find`, exactly -/

/-- Reading a list along the links `free_find` follows yields its nodes. -/
theorem list_walk (m : Mem) : ∀ (l : List Nat) (nxt fuel : Nat),
    Links m nxt l 0 → (∀ x ∈ l, x ≠ 0) → l.length < fuel →
    list_nodes m fuel (l.headD 0) = l := by
  intro l
  induction l with
  | nil =>
    intro nxt fuel _ _ hf
    obtain ⟨f, rfl⟩ : ∃ f, fuel = f + 1 := ⟨fuel - 1, by simp at hf; omega⟩
    simp [list_nodes]
  | cons p rest ih =>
    intro nxt fuel hL hnz hf
    obtain ⟨f, rfl⟩ : ∃ f, fuel = f + 1 := ⟨fuel - 1, by omega⟩
    obtain ⟨_, hp, hrest⟩ := hL
    have hp0 : p ≠ 0 := hnz p (by simp)
    simp only [List.headD_cons, list_nodes, if_neg hp0, PREV_BLK_SEG, GET, hp]
    rw [ih p f hrest (fun x hx => hnz x (List.mem_cons_of_mem _ hx))
      (by simp only [List.length_cons] at hf; omega)]

/-- In a memory that agrees with a description, list `k` read from its head is
`fl k`. -/
theorem Inv.list_nodes_eq {m : Mem} {seg brk : Nat} {bl : List Blk} {fl : Nat → List Nat}
    (hI : Inv m seg brk bl fl) {k : Nat} (hk : k < 20) {fuel : Nat} (hf : brk ≤ fuel) :
    list_nodes m fuel (GET_LIST m seg k) = fl k := by
  have hhead : GET_LIST m seg k = (fl k).headD 0 := by
    simp only [GET_LIST, GET, LISTP, WSIZE]
    exact hI.heads k hk
  rw [hhead]
  exact list_walk m (fl k) 0 fuel (hI.links k) (fun x hx => by have := hI.node hx; omega)
    (by have := hI.length_lt k; omega)

/-- From the class of `size` on, the outer loop of `free_find` returns the first
block that is large enough of the first list that has one, or `NULL` when no
list has one. -/
theorem find_loop_first {m : Mem} {seg brk : Nat} {bl : List Blk} {fl : Nat → List Nat}
    (hI : Inv m seg brk bl fl) (size fuel : Nat) (hf : brk ≤ fuel) :
    ∀ n list, list + n = 20 → cls size ≤ list →
    ∃ r, find_loop fuel m seg size n list (size >>> list) 0 = some r ∧
      ((r = 0 ∧ ∀ k, list ≤ k → k < 20 → ∀ x ∈ fl k, GET_SIZE m (HDRP x) < size) ∨
       (∃ k l1 l2, list ≤ k ∧ k < 20 ∧ fl k = l1 ++ r :: l2 ∧
          (∀ x ∈ l1, GET_SIZE m (HDRP x) < size) ∧ size ≤ GET_SIZE m (HDRP r) ∧
          ∀ j, list ≤ j → j < k → ∀ x ∈ fl j, GET_SIZE m (HDRP x) < size)) := by
  intro n
  induction n with
  | zero =>
    intro list hl _
    exact ⟨0, rfl, Or.inl ⟨rfl, fun k h1 h2 => by omega⟩⟩
  | succ n ih =>
    intro list hln hcl
    have hk : list < 20 := by omega
    have hl : list < MAX_SEGLIST := hk
    have hs : size >>> list ≤ 1 ∨ list = MAX_SEGLIST - 1 := by
      rcases (find_guard_iff size list hk).2 hcl with h | h
      · exact Or.inr h
      · exact Or.inl h
    have hhead : GET_LIST m seg list = (fl list).headD 0 := by
      simp only [GET_LIST, GET, LISTP, WSIZE]
      exact hI.heads list hk
    obtain ⟨r1, hr1, hrest⟩ := ih (list + 1) (by omega) (by omega)
    -- what a scan of this list that finds nothing, or no scan of an empty list, leads to
    have hnext : (∀ x ∈ fl list, GET_SIZE m (HDRP x) < size) →
        ∃ r, find_loop fuel m seg size n (list + 1) (size >>> (list + 1)) 0 = some r ∧
          ((r = 0 ∧ ∀ k, list ≤ k → k < 20 → ∀ x ∈ fl k, GET_SIZE m (HDRP x) < size) ∨
           (∃ k l1 l2, list ≤ k ∧ k < 20 ∧ fl k = l1 ++ r :: l2 ∧
              (∀ x ∈ l1, GET_SIZE m (HDRP x) < size) ∧ size ≤ GET_SIZE m (HDRP r) ∧
              ∀ j, list ≤ j → j < k → ∀ x ∈ fl j, GET_SIZE m (HDRP x) < size)) := by
      intro hall
      refine ⟨r1, hr1, ?_⟩
      rcases hrest with ⟨h0, h⟩ | ⟨k, l1, l2, h1, h2, h3, h4, h5, h6⟩
      · left
        refine ⟨h0, fun k hk1 hk2 => ?_⟩
        by_cases e : k = list
        · subst e; exact hall
        · exact h k (by omega) hk2
      · right
        refine ⟨k, l1, l2, by omega, h2, h3, h4, h5, fun j hj1 hj2 => ?_⟩
        by_cases e : j = list
        · subst e; exact hall
        · exact h6 j (by omega) hj2
    unfold find_loop
    rw [if_pos hl, ← Nat.shiftRight_add]
    by_cases hc : list = MAX_SEGLIST - 1 ∨ (size >>> list ≤ 1 ∧ GET_LIST m seg list ≠ 0)
    · rw [if_pos hc, hhead]
      obtain ⟨r, hr, hcase⟩ := find_walk_spec m size (fl list) 0 fuel (hI.links list)
        (fun x hx => by have := hI.node hx; omega)
        (by have := hI.length_lt list; omega)
      rw [hr]
      simp only
      rcases hcase with ⟨h0, hall⟩ | ⟨l1, l2, hsplit, hall, hge⟩
      · subst h0
        rw [if_neg (by simp)]
        exact hnext hall
      · have hr0 : r ≠ 0 := by
          have := hI.node (k := list) (p := r) (by rw [hsplit]; simp)
          omega
        rw [if_pos hr0]
        exact ⟨r, rfl, Or.inr ⟨list, l1, l2, le_refl _, hk, hsplit, hall, hge,
          fun j h1 h2 => by omega⟩⟩
    · rw [if_neg hc]
      have hempty : fl list = [] := by
        have h0 : GET_LIST m seg list = 0 := by
          by_contra h
          rcases hs with h1 | h1
          · exact hc (Or.inr ⟨h1, h⟩)
          · exact hc (Or.inl h1)
        rw [hhead] at h0
        cases hfl : fl list with
        | nil => rfl
        | cons p rest =>
          rw [hfl] at h0
          simp only [List.headD_cons] at h0
          have := hI.node (k := list) (p := p) (by rw [hfl]; simp)
          omega
      exact hnext (by rw [hempty]; intro x hx; cases hx)

/-- In a memory that agrees with a description, `free_find` returns the first
block that is large enough of the first list, from the class of the request
on, that has one; it returns `NULL` when no list has a block that is large
enough. -/
theorem free_find_first {m : Mem} {seg brk : Nat} {bl : List Blk} {fl : Nat → List Nat}
    (hI : Inv m seg brk bl fl) (size fuel : Nat) (hf : brk ≤ fuel) :
    ∃ r, free_find fuel m seg size = some r ∧
      ((r = 0 ∧ ∀ k, k < 20 → ∀ x ∈ fl k, GET_SIZE m (HDRP x) < size) ∨
       (∃ k l1 l2, k < 20 ∧ fl k = l1 ++ r :: l2 ∧
          (∀ x ∈ l1, GET_SIZE m (HDRP x) < size) ∧ size ≤ GET_SIZE m (HDRP r) ∧
          ∀ j, j < k → ∀ x ∈ fl j, GET_SIZE m (HDRP x) < size)) := by
  have h19 := cls_le size
  -- a block of a list below the class of the request is too small
  have hlow : ∀ j, j < cls size → ∀ x ∈ fl j, GET_SIZE m (HDRP x) < size := by
    intro j hj x hx
    obtain ⟨b, hb, hba, _, hbc⟩ := hI.nodes j x hx
    rw [← hba, (hI.hdr hb).1]
    by_contra hcon
    have := cls_mono (Nat.le_of_not_lt hcon)
    omega
  rw [free_find_start]
  obtain ⟨r, hr, hcase⟩ := find_loop_first hI size fuel hf (MAX_SEGLIST - cls size) (cls size)
    (by simp only [MAX_SEGLIST]; omega) (le_refl _)
  refine ⟨r, hr, ?_⟩
  rcases hcase with ⟨h0, h⟩ | ⟨k, l1, l2, h1, h2, h3, h4, h5, h6⟩
  · left
    refine ⟨h0, fun k hk => ?_⟩
    by_cases e : k < cls size
    · exact hlow k e
    · exact h k (by omega) hk
  · right
    refine ⟨k, l1, l2, h2, h3, h4, h5, fun j hj => ?_⟩
    by_cases e : j < cls size
    · exact hlow j e
    · exact h6 j (by omega) hj

end MM


namespace MM

/-! ## What holds of the heap and the lists between calls -/

theorem WF.blocks_of_eq {s : State} {bl : List Blk} {fl : Nat → List Nat} (hW : WF s bl fl)
    {fuel : Nat} (hf : s.mem_max_addr ≤ fuel) :
    blocks_of fuel s = bl.map (fun b => (b.addr, b.size, if b.alloc then 1 else 0)) :=
  hW.heap_blocks_eq hf

theorem WF.list_of_eq {s : State} {bl : List Blk} {fl : Nat → List Nat} (hW : WF s bl fl)
    {fuel : Nat} (hf : s.mem_max_addr ≤ fuel) {k : Nat} (hk : k < 20) :
    list_of fuel s k = fl k :=
  hW.inv.list_nodes_eq hk (hW.fuel_pos hf).2

theorem tiles_map : ∀ (l : List Blk) (a e : Nat), Chained a l e →
    tiles a (l.map (fun b => (b.addr, b.size, if b.alloc then 1 else 0))) e := by
  intro l
  induction l with
  | nil => intro a e h; exact h
  | cons b bs ih =>
    intro a e h
    obtain ⟨ha, _, _, hr⟩ := h
    exact ⟨ha, ih _ _ hr⟩

/-- In a chain of links the next-link of the node a prev-link points to leads
back. -/
theorem Links.inverse {m : Mem} : ∀ (l : List Nat) (nxt : Nat), Links m nxt l 0 →
    ∀ p ∈ l, m p ≠ 0 → m (m p + 4) = p := by
  intro l
  induction l with
  | nil => intro nxt _ p hp; cases hp
  | cons q rest ih =>
    intro nxt hL p hp hne
    obtain ⟨_, hq, hrest⟩ := hL
    rcases List.mem_cons.1 hp with rfl | hp
    · cases rest with
      | nil => simp only [List.headD_nil] at hq; exact absurd hq hne
      | cons r rs =>
        simp only [List.headD_cons] at hq
        rw [hq]
        exact hrest.1
    · exact ih q hrest p hp hne

/-- A block read from the heap of a well-formed state is a block of the
description. -/
theorem WF.block_read {s : State} {bl : List Blk} {fl : Nat → List Nat} (hW : WF s bl fl)
    {fuel : Nat} (hf : s.mem_max_addr ≤ fuel) {f : Nat × Nat × Nat} (hfb : f ∈ blocks_of fuel s) :
    ∃ b ∈ bl, f = (b.addr, b.size, if b.alloc then 1 else 0) := by
  rw [hW.blocks_of_eq hf, List.mem_map] at hfb
  obtain ⟨b, hb, he⟩ := hfb
  exact ⟨b, hb, he.symm⟩

end MM


namespace MM

/-! ### C13: what the checker detects -/

/-- The walk of `mm_check` over the heap does nothing when the header of the
block it starts at, the prologue, has allocation bit 1. -/
theorem check_heap_skips (fuel : Nat) (m : Mem) (seg f bp e : Nat)
    (h : GET_ALLOC m (HDRP bp) = 1) : check_heap fuel m seg (f + 1) bp e = some e := by
  unfold check_heap
  rw [if_neg (fun hc => hc.1 h)]

/-- C13: `mm_check` does not detect what its comments say it checks.  Its walk
over the heap runs `while(!(GET_ALLOC(HDRP(bp)) == 1) && !GET_SIZE(HDRP(bp)))` from
the prologue, whose header has allocation bit 1, so the body never runs: the
result is that of the first phase alone, for every state with an intact prologue
header.  In the heap the calls `ops_wrap_adjacent` leave, the neighbouring blocks
at 1144 and 1160 are both free, and `mm_check` returns 1; in the heap the calls
`ops_wrap_footer` leave, the block at 1096 has header 17 and footer 1, and
`mm_check` returns 1. -/
theorem check_misses_violations :
    (∀ fuel s, 0 < fuel → GET_ALLOC s.mem (HDRP s.heap_listp) = 1 →
      mm_check fuel s = check_lists fuel s.mem s.seg_listp MAX_SEGLIST 0 1) ∧
    trace_ok fuel0 heap0 ops_wrap_adjacent = true ∧
    blocks_of fuel0 (state_after fuel0 heap0 ops_wrap_adjacent)
      = [(1096, 32, 0), (1128, 16, 1), (1144, 16, 0), (1160, 64, 0)] ∧
    mm_check fuel0 (state_after fuel0 heap0 ops_wrap_adjacent) = some 1 ∧
    trace_ok fuel0 heap0 ops_wrap_footer = true ∧
    blocks_of fuel0 (state_after fuel0 heap0 ops_wrap_footer)
      = [(1096, 16, 1), (1112, 48, 0)] ∧
    GET (state_after fuel0 heap0 ops_wrap_footer).mem (HDRP 1096) = 17 ∧
    GET (state_after fuel0 heap0 ops_wrap_footer).mem
      (FTRP (state_after fuel0 heap0 ops_wrap_footer).mem 1096) = 1 ∧
    mm_check fuel0 (state_after fuel0 heap0 ops_wrap_footer) = some 1 := by
  refine ⟨?_, by decide!, by decide!, by decide!, by decide!, by decide!, by decide!,
    by decide!, by decide!⟩
  intro fuel s hf h
  obtain ⟨f, rfl⟩ : ∃ f, fuel = f + 1 := ⟨fuel - 1, by omega⟩
  unfold mm_check
  cases check_lists (f + 1) s.mem s.seg_listp MAX_SEGLIST 0 1 with
  | none => rfl
  | some e => exact check_heap_skips (f + 1) s.mem s.seg_listp f s.heap_listp e h

/-! ### C14: header and footer agree -/

/-- C14, as stated, fails: on a blank heap the calls `mm_malloc(8)`,
`mm_malloc(4294967288)` respect the caller contract, and afterwards the block at
1096, between the prologue and the epilogue, has the header word 17 and the
footer word 1. -/
theorem header_footer_differ :
    trace_ok fuel0 heap0 ops_wrap_footer = true ∧
      blocks_of fuel0 (state_after fuel0 heap0 ops_wrap_footer)
        = [(1096, 16, 1), (1112, 48, 0)] ∧
      GET (state_after fuel0 heap0 ops_wrap_footer).mem (HDRP 1096) = 17 ∧
      GET (state_after fuel0 heap0 ops_wrap_footer).mem
        (FTRP (state_after fuel0 heap0 ops_wrap_footer).mem 1096) = 1 := by
  decide!

/-- C14, amended: after `mm_init` on a fresh heap with room for the prologue, and
after every call of a sequence that respects the caller contract with request
sizes of at most 2^32 - 16, every block between the prologue and the epilogue
has a footer word equal to its header word. -/
theorem header_matches_footer {s : State} (hF : Fresh s) (fuel : Nat)
    (hf : s.mem_max_addr ≤ fuel) (hroom : s.mem_brk + 96 ≤ s.mem_max_addr) (ops : List Op)
    (hr : trace_ok fuel s ops = true) (hs : ∀ op ∈ ops, op.small) :
    ∃ rs c, trace fuel s ops = some (rs, c) ∧
      ∀ f ∈ blocks_of fuel c.st, GET c.st.mem (HDRP f.1) = GET c.st.mem (FTRP c.st.mem f.1) := by
  obtain ⟨rs, c, ht, _, hA, hmax, _, _⟩ := trace_spec hF fuel hf ops hr hs
  obtain ⟨bl, fl, hW, _⟩ := hA hroom
  refine ⟨rs, c, ht, fun f hfb => ?_⟩
  obtain ⟨b, hb, rfl⟩ := hW.block_read hmax hfb
  have ht := hW.inv.tagged b hb
  have hsz := (hW.inv.hdr hb).1
  have hsz2 : GET_SIZE c.st.mem (b.addr - 4) = b.size := hsz
  simp only [GET, FTRP, HDRP, WSIZE, DSIZE, hsz2]
  rw [ht.1, ht.2]

theorem header_matches_footer_witness :
    trace_ok fuel0 heap0 ops_hole = true ∧
      blocks_of fuel0 (state_after fuel0 heap0 ops_hole)
        = [(1096, 24, 1), (1120, 24, 0), (1144, 112, 1), (1256, 16, 0)] ∧
      ∃ rs c, trace fuel0 heap0 ops_hole = some (rs, c) ∧
        ∀ f ∈ blocks_of fuel0 c.st,
          GET c.st.mem (HDRP f.1) = GET c.st.mem (FTRP c.st.mem f.1) :=
  ⟨by decide!, by decide!, header_matches_footer heap0_fresh fuel0 (by decide) (by decide)
    ops_hole (by decide!) (by decide)⟩

/-! ### C15: the free blocks and the lists -/

/-- C15, as stated, fails: on a blank heap the calls `mm_malloc(4294967288)`,
`mm_free(1096)` respect the caller contract, and afterwards the free block at
1096 occurs in list 6 and in list 7. -/
theorem free_block_in_two_lists :
    trace_ok fuel0 heap0 ops_wrap_release = true ∧
      blocks_of fuel0 (state_after fuel0 heap0 ops_wrap_release) = [(1096, 128, 0)] ∧
      list_of fuel0 (state_after fuel0 heap0 ops_wrap_release) 6 = [1096] ∧
      list_of fuel0 (state_after fuel0 heap0 ops_wrap_release) 7 = [1096] := by
  decide!

/-- C15, amended: after `mm_init` on a fresh heap with room for the prologue, and
after every call of a sequence that respects the caller contract with request
sizes of at most 2^32 - 16, every free block of the heap occurs exactly once in
the 20 lists taken together, namely in the list of the class of its size; every
list is a doubly linked chain (the next-link of the head is null, the prev-link
of the last node is null, and the next-link of the node a prev-link points to
leads back); and no allocated block occurs in a list. -/
theorem free_blocks_listed_once {s : State} (hF : Fresh s) (fuel : Nat)
    (hf : s.mem_max_addr ≤ fuel) (hroom : s.mem_brk + 96 ≤ s.mem_max_addr) (ops : List Op)
    (hr : trace_ok fuel s ops = true) (hs : ∀ op ∈ ops, op.small) :
    ∃ rs c, trace fuel s ops = some (rs, c) ∧
      (∀ f ∈ blocks_of fuel c.st, f.2.2 = 0 → ∀ k < 20,
        (list_of fuel c.st k).count f.1 = if k = cls f.2.1 then 1 else 0) ∧
      (∀ k < 20, Links c.st.mem 0 (list_of fuel c.st k) 0) ∧
      (∀ k < 20, GET_LIST c.st.mem c.st.seg_listp k ≠ 0 →
        NEXT_BLK_SEG c.st.mem (GET_LIST c.st.mem c.st.seg_listp k) = 0) ∧
      (∀ k < 20, ∀ p ∈ list_of fuel c.st k, PREV_BLK_SEG c.st.mem p ≠ 0 →
        NEXT_BLK_SEG c.st.mem (PREV_BLK_SEG c.st.mem p) = p) ∧
      (∀ f ∈ blocks_of fuel c.st, f.2.2 ≠ 0 → ∀ k < 20, f.1 ∉ list_of fuel c.st k) := by
  obtain ⟨rs, c, ht, _, hA, hmax, _, _⟩ := trace_spec hF fuel hf ops hr hs
  obtain ⟨bl, fl, hW, _⟩ := hA hroom
  have hI := hW.inv
  refine ⟨rs, c, ht, ?_, ?_, ?_, ?_, ?_⟩
  · intro f hfb hf0 k hk
    obtain ⟨b, hb, rfl⟩ := hW.block_read hmax hfb
    have hbf : b.alloc = false := by
      cases hba : b.alloc with
      | false => rfl
      | true => rw [hba] at hf0; simp at hf0
    rw [hW.list_of_eq hmax hk]
    simp only
    by_cases e : k = cls b.size
    · rw [if_pos e, e]
      exact List.count_eq_one_of_mem (hI.nodup _) (hW.cov b hb hbf)
    · rw [if_neg e]
      exact List.count_eq_zero_of_not_mem (fun h => e (hI.node_blk hb h).2.symm)
  · intro k hk
    rw [hW.list_of_eq hmax hk]
    exact hI.links k
  · intro k hk hne
    have hh : GET_LIST c.st.mem c.st.seg_listp k = (fl k).headD 0 := by
      simp only [GET_LIST, GET, LISTP, WSIZE]
      exact hI.heads k hk
    rw [hh] at hne ⊢
    have hL := hI.links k
    cases hfl : fl k with
    | nil => rw [hfl] at hne; exact absurd rfl hne
    | cons p rest =>
      rw [hfl] at hL
      simp only [List.headD_cons, NEXT_BLK_SEG, NEXT_BLKP_SEG, GET, WSIZE]
      exact hL.1
  · intro k hk p hp hne
    rw [hW.list_of_eq hmax hk] at hp
    simp only [PREV_BLK_SEG, NEXT_BLK_SEG, NEXT_BLKP_SEG, GET, WSIZE] at hne ⊢
    exact Links.inverse (fl k) 0 (hI.links k) p hp hne
  · intro f hfb hf0 k hk hin
    obtain ⟨b, hb, rfl⟩ := hW.block_read hmax hfb
    rw [hW.list_of_eq hmax hk] at hin
    have := (hI.node_blk hb hin).1
    rw [this] at hf0
    simp at hf0

theorem free_blocks_listed_once_witness :
    trace_ok fuel0 heap0 ops_hole = true ∧
      list_of fuel0 (state_after fuel0 heap0 ops_hole) 4 = [1120, 1256] ∧
      ∃ rs c, trace fuel0 heap0 ops_hole = some (rs, c) ∧
        (∀ f ∈ blocks_of fuel0 c.st, f.2.2 = 0 → ∀ k < 20,
          (list_of fuel0 c.st k).count f.1 = if k = cls f.2.1 then 1 else 0) ∧
        (∀ k < 20, Links c.st.mem 0 (list_of fuel0 c.st k) 0) ∧
        (∀ k < 20, GET_LIST c.st.mem c.st.seg_listp k ≠ 0 →
          NEXT_BLK_SEG c.st.mem (GET_LIST c.st.mem c.st.seg_listp k) = 0) ∧
        (∀ k < 20, ∀ p ∈ list_of fuel0 c.st k, PREV_BLK_SEG c.st.mem p ≠ 0 →
          NEXT_BLK_SEG c.st.mem (PREV_BLK_SEG c.st.mem p) = p) ∧
        (∀ f ∈ blocks_of fuel0 c.st, f.2.2 ≠ 0 → ∀ k < 20, f.1 ∉ list_of fuel0 c.st k) :=
  ⟨by decide!, by decide!, free_blocks_listed_once heap0_fresh fuel0 (by decide) (by decide)
    ops_hole (by decide!) (by decide)⟩

/-! ### C16: the blocks tile the heap -/

/-- C16: after `mm_init` on a fresh heap with room for the prologue, and after
every call of a sequence that respects the caller contract with request sizes
that do not wrap when rounded, every block between the prologue and the
epilogue has a size that is a multiple of 8 and at least 16, and the blocks
lie one behind the other without gaps from the end of the prologue to the
epilogue, which closes the heap. -/
theorem blocks_tile_heap {s : State} (hF : Fresh s) (fuel : Nat)
    (hf : s.mem_max_addr ≤ fuel) (hroom : s.mem_brk + 96 ≤ s.mem_max_addr) (ops : List Op)
    (hr : trace_ok fuel s ops = true) (hs : ∀ op ∈ ops, op.small) :
    ∃ rs c, trace fuel s ops = some (rs, c) ∧
      (∀ f ∈ blocks_of fuel c.st, f.2.1 % 8 = 0 ∧ 16 ≤ f.2.1) ∧
      tiles (c.st.heap_listp + 8) (blocks_of fuel c.st) c.st.mem_brk ∧
      GET c.st.mem (HDRP c.st.heap_listp) = PACK DSIZE 1 ∧
      GET c.st.mem (HDRP c.st.mem_brk) = PACK 0 1 := by
  obtain ⟨rs, c, ht, _, hA, hmax, _, _⟩ := trace_spec hF fuel hf ops hr hs
  obtain ⟨bl, fl, hW, _⟩ := hA hroom
  have hI := hW.inv
  refine ⟨rs, c, ht, ?_, ?_, ?_, ?_⟩
  · intro f hfb
    obtain ⟨b, hb, rfl⟩ := hW.block_read hmax hfb
    have := hI.blk hb
    exact ⟨this.2.2.2.1, this.2.2.1⟩
  · rw [hW.blocks_of_eq hmax]
    have e : c.st.heap_listp + 8 = c.st.seg_listp + 96 := by rw [hW.hp]
    rw [e]
    exact tiles_map bl _ _ hI.chained
  · have e : HDRP c.st.heap_listp = c.st.seg_listp + 84 := by
      rw [hW.hp]; simp only [HDRP, WSIZE]; omega
    rw [e]
    exact hI.pro_h
  · exact hI.epi

theorem blocks_tile_heap_witness :
    trace_ok fuel0 heap0 ops_hole = true ∧
      ∃ rs c, trace fuel0 heap0 ops_hole = some (rs, c) ∧
        (∀ f ∈ blocks_of fuel0 c.st, f.2.1 % 8 = 0 ∧ 16 ≤ f.2.1) ∧
        tiles (c.st.heap_listp + 8) (blocks_of fuel0 c.st) c.st.mem_brk ∧
        GET c.st.mem (HDRP c.st.heap_listp) = PACK DSIZE 1 ∧
        GET c.st.mem (HDRP c.st.mem_brk) = PACK 0 1 :=
  ⟨by decide!, blocks_tile_heap heap0_fresh fuel0 (by decide) (by decide) ops_hole
    (by decide!) (by decide)⟩

end MM


namespace MM

/-! ### C17: when `free_find` returns `NULL` -/

/-- C17: in a memory that agrees with a description of the heap (each node of
list `k` is a free block of class `k`), `free_find(size)` returns; it returns
`NULL` if and only if every node of the 20 lists has a size below `size`; and a
block it returns is a node of one of the lists, is a free block of the heap, and
has a size of at least `size`.  `free_find` reads the memory and writes nothing:
it returns a pointer and no memory. -/
theorem find_null_iff_nothing_fits {m : Mem} {seg brk : Nat} {bl : List Blk}
    {fl : Nat → List Nat} (hI : Inv m seg brk bl fl) (size fuel : Nat) (hf : brk ≤ fuel) :
    ∃ r, free_find fuel m seg size = some r ∧
      (r = 0 ↔ ∀ k < 20, ∀ x ∈ list_nodes m fuel (GET_LIST m seg k),
        GET_SIZE m (HDRP x) < size) ∧
      (r ≠ 0 → (∃ k < 20, r ∈ list_nodes m fuel (GET_LIST m seg k)) ∧
        size ≤ GET_SIZE m (HDRP r) ∧ GET_ALLOC m (HDRP r) = 0 ∧
        ∃ b ∈ bl, b.addr = r ∧ b.alloc = false ∧ size ≤ b.size) := by
  obtain ⟨r, hr, hcase⟩ := free_find_first hI size fuel hf
  refine ⟨r, hr, ?_, ?_⟩
  · constructor
    · intro h0 k hk x hx
      rw [hI.list_nodes_eq hk hf] at hx
      rcases hcase with ⟨_, h⟩ | ⟨j, l1, l2, hj, hfl, _, _, _⟩
      · exact h k hk x hx
      · have hin : r ∈ fl j := by rw [hfl]; simp
        have := hI.node hin
        omega
    · intro hall
      rcases hcase with ⟨h0, _⟩ | ⟨j, l1, l2, hj, hfl, _, hge, _⟩
      · exact h0
      · have hin : r ∈ fl j := by rw [hfl]; simp
        have := hall j hj r (by rw [hI.list_nodes_eq hj hf]; exact hin)
        omega
  · intro hne
    rcases hcase with ⟨h0, _⟩ | ⟨j, l1, l2, hj, hfl, _, hge, _⟩
    · exact absurd h0 hne
    · have hin : r ∈ fl j := by rw [hfl]; simp
      obtain ⟨b, hb, hba, hbf, _⟩ := hI.nodes j r hin
      have hh := hI.hdr hb
      rw [hba, hbf] at hh
      refine ⟨⟨j, hj, by rw [hI.list_nodes_eq hj hf]; exact hin⟩, hge, ?_,
        b, hb, hba, hbf, by rw [← hh.1]; exact hge⟩
      simpa using hh.2

theorem find_null_iff_nothing_fits_witness :
    trace_ok fuel0 heap0 ops_hole = true ∧
      list_of fuel0 (state_after fuel0 heap0 ops_hole) 4 = [1120, 1256] ∧
      free_find fuel0 (state_after fuel0 heap0 ops_hole).mem
        (state_after fuel0 heap0 ops_hole).seg_listp 24 = some 1120 ∧
      free_find fuel0 (state_after fuel0 heap0 ops_hole).mem
        (state_after fuel0 heap0 ops_hole).seg_listp 32 = some 0 ∧
      ∀ size, ∃ r, free_find fuel0 (state_after fuel0 heap0 ops_hole).mem
          (state_after fuel0 heap0 ops_hole).seg_listp size = some r ∧
        (r = 0 ↔ ∀ k < 20, ∀ x ∈ list_nodes (state_after fuel0 heap0 ops_hole).mem fuel0
            (GET_LIST (state_after fuel0 heap0 ops_hole).mem
              (state_after fuel0 heap0 ops_hole).seg_listp k),
          GET_SIZE (state_after fuel0 heap0 ops_hole).mem (HDRP x) < size) ∧
        (r ≠ 0 → (∃ k < 20, r ∈ list_nodes (state_after fuel0 heap0 ops_hole).mem fuel0
            (GET_LIST (state_after fuel0 heap0 ops_hole).mem
              (state_after fuel0 heap0 ops_hole).seg_listp k)) ∧
          size ≤ GET_SIZE (state_after fuel0 heap0 ops_hole).mem (HDRP r) ∧
          GET_ALLOC (state_after fuel0 heap0 ops_hole).mem (HDRP r) = 0) := by
  refine ⟨by decide!, by decide!, by decide!, by decide!, fun size => ?_⟩
  obtain ⟨rs, c, ht, _, hA, hmax, _, _⟩ :=
    trace_spec heap0_fresh fuel0 (by decide) ops_hole (by decide!) (by decide)
  obtain ⟨bl, fl, hW, _⟩ := hA (by decide)
  have e : state_after fuel0 heap0 ops_hole = c.st := by simp only [state_after, ht]
  rw [e]
  obtain ⟨r, hr, h1, h2⟩ :=
    find_null_iff_nothing_fits hW.inv size fuel0 (le_trans hW.brk_le hmax)
  exact ⟨r, hr, h1, fun hne => ⟨(h2 hne).1, (h2 hne).2.1, (h2 hne).2.2.1⟩⟩

/-! ### C18: the class of a size -/

/-- C18: the class loop of `free_insert` and `free_remove` computes
`min(19, floor(log2 size))`, which is 0 for the sizes 0 and 1; the class is
monotone in the size; at list `k` the running shift of `free_find` lets the
list be looked at exactly when the class of the request is at most `k`, so
that `free_find` starts at the class of the request; and `free_insert` into an
empty list of that class makes the block the head of that list. -/
theorem class_is_capped_log :
    (∀ size, (class_loop (MAX_SEGLIST - 1) 0 size).1 = min 19 (Nat.log 2 size)) ∧
    (∀ size, cls size = min 19 (Nat.log 2 size)) ∧
    cls 0 = 0 ∧
    (∀ a b, a ≤ b → cls a ≤ cls b) ∧
    (∀ size k, k < 20 → ((k = MAX_SEGLIST - 1 ∨ size >>> k ≤ 1) ↔ cls size ≤ k)) ∧
    (∀ fuel m seg size, free_find fuel m seg size
      = find_loop fuel m seg size (MAX_SEGLIST - cls size) (cls size) (size >>> cls size) 0) ∧
    (∀ fuel m seg bp size, GET_LIST m seg (cls size) = 0 →
      ∃ m1, free_insert (fuel + 1) m seg bp size = some m1 ∧
        GET_LIST m1 seg (cls size) = bp) ∧
    (∀ m seg bp, NEXT_BLK_SEG m bp = 0 → PREV_BLK_SEG m bp = 0 →
      GET_LIST (free_remove m seg bp) seg (cls (GET_SIZE m (HDRP bp))) = 0) := by
  refine ⟨cls_eq_log, cls_eq_log, by decide, fun a b h => cls_mono h, find_guard_iff,
    free_find_start, ?_, ?_⟩
  · intro fuel m seg bp size h0
    have h0' : GET_LIST m seg (class_loop (MAX_SEGLIST - 1) 0 size).1 = 0 := h0
    refine ⟨SET_LIST (PUT_SEG (PUT_SEG m (PREV_BLKP_SEG bp) 0) (NEXT_BLKP_SEG bp) 0) seg
      (cls size) bp, ?_, ?_⟩
    · unfold free_insert
      simp only [h0', insert_walk, ne_eq, not_true_eq_false, false_and, if_false]
      rfl
    · simp only [GET_LIST, SET_LIST, GET, PUT, if_true]
  · intro m seg bp hn hp
    unfold free_remove
    simp only [hn, if_true, hp, cls, GET_LIST, SET_LIST, GET, PUT, ne_eq, not_true_eq_false,
      if_false]

end MM


namespace MM

/-! ## Descriptions are determined by their allocated blocks -/

/-- Two tilings of the same range without free neighbours that have the same
allocated blocks are equal. -/
theorem NoAdj.unique : ∀ (l1 l2 : List Blk) (a e : Nat), Chained a l1 e → Chained a l2 e →
    NoAdj l1 → NoAdj l2 → (∀ c : Blk, c.alloc = true → (c ∈ l1 ↔ c ∈ l2)) → l1 = l2 := by
  intro l1
  induction l1 with
  | nil =>
    intro l2 a e h1 h2 _ _ _
    cases l2 with
    | nil => rfl
    | cons c t2 =>
      have := h2.le
      simp only [Chained] at h1
      simp only [List.length_cons] at this
      omega
  | cons b t1 ih =>
    intro l2 a e h1 h2 n1 n2 hA
    cases l2 with
    | nil =>
      have := h1.le
      simp only [Chained] at h2
      simp only [List.length_cons] at this
      omega
    | cons c t2 =>
      obtain ⟨hb, hb16, hb8, hr1⟩ := h1
      obtain ⟨hc, hc16, hc8, hr2⟩ := h2
      have hbc : b = c := by
        by_cases hba : b.alloc = true
        · have hin : b ∈ c :: t2 := (hA b hba).1 (List.mem_cons_self _ _)
          rcases List.mem_cons.1 hin with h | h
          · exact h
          · have := hr2.mem h; omega
        · by_cases hca : c.alloc = true
          · have hin : c ∈ b :: t1 := (hA c hca).2 (List.mem_cons_self _ _)
            rcases List.mem_cons.1 hin with h | h
            · exact h.symm
            · have := hr1.mem h; omega
          · have hbf : b.alloc = false := by simpa using hba
            have hcf : c.alloc = false := by simpa using hca
            have hsz : b.size = c.size := by
              rcases Nat.lt_trichotomy b.size c.size with h | h | h
              · exfalso
                cases t1 with
                | nil =>
                  simp only [Chained] at hr1
                  have := hr2.le
                  omega
                | cons b2 t3 =>
                  have hb2a : b2.alloc = true := NoAdj.head_alloc n1 hbf b2 (by simp)
                  have hb2 : b2.addr = a + b.size := hr1.1
                  have hin : b2 ∈ c :: t2 := (hA b2 hb2a).1 (by simp)
                  rcases List.mem_cons.1 hin with h1 | h1
                  · rw [h1, hcf] at hb2a; cases hb2a
                  · have := hr2.mem h1; omega
              · exact h
              · exfalso
                cases t2 with
                | nil =>
                  simp only [Chained] at hr2
                  have := hr1.le
                  omega
                | cons c2 t3 =>
                  have hc2a : c2.alloc = true := NoAdj.head_alloc n2 hcf c2 (by simp)
                  have hc2 : c2.addr = a + c.size := hr2.1
                  have hin : c2 ∈ b :: t1 := (hA c2 hc2a).2 (by simp)
                  rcases List.mem_cons.1 hin with h1 | h1
                  · rw [h1, hbf] at hc2a; cases hc2a
                  · have := hr1.mem h1; omega
            have hae : b.addr = c.addr := by rw [hb, hc]
            have hle : b.alloc = c.alloc := by rw [hbf, hcf]
            cases b
            cases c
            simp only at hae hsz hle
            simp only [Blk.mk.injEq]
            exact ⟨hae, hsz, hle⟩
      subst hbc
      congr 1
      have hnb1 : b ∉ t1 := fun h => by have := hr1.mem h; omega
      have hnb2 : b ∉ t2 := fun h => by have := hr2.mem h; omega
      refine ih t2 (a + b.size) e hr1 hr2 n1.tail n2.tail ?_
      intro x hx
      constructor
      · intro h
        rcases List.mem_cons.1 ((hA x hx).1 (List.mem_cons_of_mem _ h)) with e1 | e1
        · subst e1; exact absurd h hnb1
        · exact e1
      · intro h
        rcases List.mem_cons.1 ((hA x hx).2 (List.mem_cons_of_mem _ h)) with e1 | e1
        · subst e1; exact absurd h hnb2
        · exact e1

/-! ## `free_find` on a described heap -/

/-- `free_find` returns the block that fits when no free block of a lower class
fits and no other free block of its class does. -/
theorem free_find_only {m : Mem} {seg brk : Nat} {bl : List Blk} {fl : Nat → List Nat}
    (hI : Inv m seg brk bl fl) (hcov : Covered bl fl) {b : Blk} (hb : b ∈ bl)
    (hbf : b.alloc = false) (size fuel : Nat) (hf : brk ≤ fuel) (hfit : size ≤ b.size)
    (honly : ∀ c ∈ bl, c.alloc = false → size ≤ c.size →
      cls b.size ≤ cls c.size ∧ (cls c.size = cls b.size → c = b)) :
    free_find fuel m seg size = some b.addr := by
  have hbin := hcov b hb hbf
  have hbs := (hI.hdr hb).1
  obtain ⟨r, hr, hcase⟩ := free_find_first hI size fuel hf
  rw [hr]
  rcases hcase with ⟨_, h⟩ | ⟨k, l1, l2, hk, hfl, _, hge, hlow⟩
  · have := h (cls b.size) (by have := cls_le b.size; omega) b.addr hbin
    omega
  · have hin : r ∈ fl k := by rw [hfl]; simp
    obtain ⟨c, hc, hca, hcf, hcc⟩ := hI.nodes k r hin
    have hcs := (hI.hdr hc).1
    rw [hca] at hcs
    have h1 := honly c hc hcf (by omega)
    have hk2 : cls b.size = k := by
      by_contra hne
      have := hlow (cls b.size) (by omega) b.addr hbin
      omega
    have : c = b := h1.2 (by omega)
    subst this
    rw [hca]

/-- `free_find` returns `NULL` when every free block is too small. -/
theorem free_find_none {m : Mem} {seg brk : Nat} {bl : List Blk} {fl : Nat → List Nat}
    (hI : Inv m seg brk bl fl) (size fuel : Nat) (hf : brk ≤ fuel)
    (hsmall : ∀ c ∈ bl, c.alloc = false → c.size < size) :
    free_find fuel m seg size = some 0 := by
  obtain ⟨r, hr, hcase⟩ := free_find_first hI size fuel hf
  rw [hr]
  rcases hcase with ⟨h0, _⟩ | ⟨k, l1, l2, hk, hfl, _, hge, _⟩
  · rw [h0]
  · have hin : r ∈ fl k := by rw [hfl]; simp
    obtain ⟨c, hc, hca, hcf, _⟩ := hI.nodes k r hin
    have hcs := (hI.hdr hc).1
    rw [hca] at hcs
    have := hsmall c hc hcf
    omega

/-! ## The paths of `mm_malloc` and `mm_free` -/

/-- When `free_find` returns a block, `mm_malloc` carves it and calls neither
`extend_heap` nor `mem_sbrk`. -/
theorem mm_malloc_of_find (fuel : Nat) (s : State) (n bp : Nat) (hn : n ≠ 0)
    (h : free_find fuel s.mem s.seg_listp (malloc_size n) = some bp) (hbp : bp ≠ 0) :
    mm_malloc fuel s n = (addblock fuel s.mem s.seg_listp bp (malloc_size n)).map
      (fun r => (r.1, { s with mem := r.2 })) := by
  unfold mm_malloc
  rw [if_neg hn]
  simp only [h, ne_eq, hbp, not_false_eq_true, if_true]

/-- When `free_find` returns `NULL` and `extend_heap` a block, `mm_malloc`
carves that block. -/
theorem mm_malloc_of_extend (fuel : Nat) (s : State) (n r : Nat) (s1 : State) (hn : n ≠ 0)
    (h : free_find fuel s.mem s.seg_listp (malloc_size n) = some 0)
    (he : extend_heap fuel s (MAX (malloc_size n) CHUNKSIZE / WSIZE) = some (r, s1))
    (hr : r ≠ 0) :
    mm_malloc fuel s n = (addblock fuel s1.mem s1.seg_listp r (malloc_size n)).map
      (fun x => (x.1, { s1 with mem := x.2 })) := by
  unfold mm_malloc
  rw [if_neg hn]
  simp only [h, ne_eq, not_true_eq_false, if_false, he, hr, not_false_eq_true]

/-- `mm_free` changes the memory only. -/
theorem mm_free_shape (fuel : Nat) (s s1 : State) (p : Nat) (h : mm_free fuel s p = some s1) :
    s1 = { s with mem := s1.mem } := by
  unfold mm_free at h
  simp only at h
  split at h
  · cases h
  · cases hc : coalesce fuel _ s.seg_listp p with
    | none => rw [hc] at h; cases h
    | some r =>
      rw [hc] at h
      simp only [Option.map_some', Option.some.injEq] at h
      rw [← h]

/-! ## Calls on a described heap, with the description of the result -/

/-- `mm_malloc` when `free_find` has one choice: the block `b` is carved, the
heap is not extended, and the description of the result is explicit. -/
theorem mm_malloc_hit {s : State} {pre post : List Blk} {b : Blk} {fl : Nat → List Nat}
    (hW : WF s (pre ++ b :: post) fl) (hbf : b.alloc = false) (n : Nat) (hn1 : 1 ≤ n)
    (hn2 : n + 16 ≤ U32) (fuel : Nat) (hf : s.mem_max_addr ≤ fuel)
    (hfit : malloc_size n ≤ b.size)
    (honly : ∀ c ∈ pre ++ b :: post, c.alloc = false → malloc_size n ≤ c.size →
      cls b.size ≤ cls c.size ∧ (cls c.size = cls b.size → c = b)) :
    ∃ q s1 mid1 fl1, free_find fuel s.mem s.seg_listp (malloc_size n) = some b.addr ∧
      mm_malloc fuel s n = some (q, s1) ∧ WF s1 (pre ++ mid1 ++ post) fl1 ∧
      s1.seg_listp = s.seg_listp ∧ s1.mem_max_addr = s.mem_max_addr ∧
      s1.mem_brk = s.mem_brk ∧
      ((b.size - malloc_size n < 16 ∧ q = b.addr ∧ mid1 = [⟨b.addr, b.size, true⟩]) ∨
       (200 ≤ b.size - malloc_size n ∧ q = b.addr + (b.size - malloc_size n) ∧
          mid1 = [⟨b.addr, b.size - malloc_size n, false⟩,
            ⟨b.addr + (b.size - malloc_size n), malloc_size n, true⟩]) ∨
       (16 ≤ b.size - malloc_size n ∧ b.size - malloc_size n < 200 ∧ q = b.addr ∧
          mid1 = [⟨b.addr, malloc_size n, true⟩,
            ⟨b.addr + malloc_size n, b.size - malloc_size n, false⟩])) := by
  have hI := hW.inv
  obtain ⟨hf0, hfb⟩ := hW.fuel_pos hf
  obtain ⟨hr8, hr16, _, _⟩ := malloc_size_spec n hn1 hn2
  have hb : b ∈ pre ++ b :: post := by simp
  have hbb := hI.blk hb
  have hfind := free_find_only hI hW.cov hb hbf (malloc_size n) fuel hfb hfit honly
  obtain ⟨q, m1, mid1, fl1, h0, h1, h2, h3, _, hcase⟩ :=
    addblock_spec hI hW.cov hW.noadj hbf (malloc_size n) hr8 hr16 hfit fuel hf0
  refine ⟨q, ⟨m1, s.mem_brk, s.mem_max_addr, s.seg_listp, s.heap_listp⟩, mid1, fl1, hfind, ?_,
    ⟨h1, hW.hp, hW.brk_le, hW.max_lt, h2, h3⟩, rfl, rfl, rfl, hcase⟩
  rw [mm_malloc_of_find fuel s n b.addr (by omega) hfind (by omega), h0]
  rfl

/-- `mm_free` of an allocated block, with the description of the result: the
tiling without free neighbours whose allocated blocks are the others. -/
theorem mm_free_exact {s : State} {bl : List Blk} {fl : Nat → List Nat} (hW : WF s bl fl)
    {b : Blk} (hb : b ∈ bl) (hba : b.alloc = true) (fuel : Nat) (hf : 0 < fuel)
    (W : List Blk) (hch : Chained (s.seg_listp + 96) W s.mem_brk) (hna : NoAdj W)
    (hal : ∀ c : Blk, c.alloc = true → (c ∈ W ↔ c ∈ bl ∧ c ≠ b)) :
    ∃ s1 fl1, mm_free fuel s b.addr = some s1 ∧ WF s1 W fl1 ∧
      s1.seg_listp = s.seg_listp ∧ s1.mem_max_addr = s.mem_max_addr ∧
      s1.mem_brk = s.mem_brk := by
  obtain ⟨s1, bl1, fl1, h0, hW1, hmax, hseg, _, hA⟩ := mm_free_spec hW hb hba fuel hf
  have hshape := mm_free_shape fuel s s1 b.addr h0
  have hbrk : s1.mem_brk = s.mem_brk := by rw [hshape]
  have hc1 := hW1.inv.chained
  rw [hseg, hbrk] at hc1
  have : bl1 = W := NoAdj.unique bl1 W _ _ hc1 hch hW1.noadj hna
    (fun c hc => by rw [hA c hc, hal c hc])
  subst this
  exact ⟨s1, fl1, h0, hW1, hseg, hmax, hbrk⟩

/-- `extend_heap` with room, with the description of the result. -/
theorem extend_heap_exact {s : State} {bl : List Blk} {fl : Nat → List Nat} (hW : WF s bl fl)
    (words size : Nat) (hsz : extend_size words = size) (h8 : size % 8 = 0) (h16 : 16 ≤ size)
    (fuel : Nat) (hf : 0 < fuel) (hroom : s.mem_brk + size ≤ s.mem_max_addr)
    (W : List Blk) (hch : Chained (s.seg_listp + 96) W (s.mem_brk + size)) (hna : NoAdj W)
    (hal : ∀ c : Blk, c.alloc = true → (c ∈ W ↔ c ∈ bl)) :
    ∃ r s1 fl1, extend_heap fuel s words = some (r, s1) ∧ WF s1 W fl1 ∧
      s1.seg_listp = s.seg_listp ∧ s1.mem_max_addr = s.mem_max_addr ∧
      s1.mem_brk = s.mem_brk + size ∧
      ∃ c ∈ W, c.addr = r ∧ c.alloc = false ∧ size ≤ c.size := by
  rcases extend_heap_spec hW words size hsz h8 h16 fuel hf with
    ⟨hno, _⟩ | ⟨_, r, m1, bl1, fl1, he, hW1, hA, _, hc⟩
  · omega
  · have hc1 := hW1.inv.chained
    have : bl1 = W := NoAdj.unique bl1 W _ _ hc1 hch hW1.noadj hna
      (fun c hc => by rw [hA c hc, hal c hc])
    subst this
    exact ⟨r, _, fl1, he, hW1, rfl, rfl, rfl, hc⟩

/-- `mm_init` on a fresh heap with room for the first chunk leaves one free
block of 64 bytes behind the prologue. -/
theorem mm_init_exact {s : State} (hF : Fresh s) (fuel : Nat) (hf : 0 < fuel)
    (hroom : s.mem_brk + 160 ≤ s.mem_max_addr) :
    ∃ s1 fl1, mm_init fuel s = some (0, s1) ∧ WF s1 [⟨s.mem_brk + 96, 64, false⟩] fl1 ∧
      s1.seg_listp = s.mem_brk ∧ s1.mem_max_addr = s.mem_max_addr ∧
      s1.mem_brk = s.mem_brk + 160 := by
  have h2 : s.mem_brk + 96 ≤ s.mem_max_addr := by omega
  have hW := init_state_wf hF h2
  have hsz : extend_size (CHUNKSIZE / WSIZE) = 64 := extend_size_eq 64 (by decide) (by decide)
  obtain ⟨r, s1, fl1, he, hW1, hseg, hmax, hbrk, c, hc, hcr, _, _⟩ :=
    extend_heap_exact hW (CHUNKSIZE / WSIZE) 64 hsz (by decide) (by decide) fuel hf
      (by show s.mem_brk + 96 + 64 ≤ s.mem_max_addr; omega)
      [⟨s.mem_brk + 96, 64, false⟩]
      (by show Chained (s.mem_brk + 96) _ (s.mem_brk + 96 + 64)
          exact ⟨rfl, by simp, by simp, rfl⟩)
      (by unfold NoAdj; simp)
      (by intro c hc; simp only [List.mem_singleton, List.not_mem_nil, iff_false]
          intro e; rw [e] at hc; cases hc)
  rw [mm_init_long fuel s hF.room h2 hF.max_le, he]
  simp only [List.mem_singleton] at hc
  have hr : r ≠ 0 := by rw [← hcr, hc]; simp only; omega
  refine ⟨s1, fl1, by simp [hr], hW1, hseg, hmax, ?_⟩
  rw [hbrk]
  show s.mem_brk + 96 + 64 = s.mem_brk + 160
  omega

end MM


namespace MM

/-! ## Reading a described heap -/

/-- Header and footer of a block of a described heap. -/
theorem Inv.block_words {m : Mem} {seg brk : Nat} {bl : List Blk} {fl : Nat → List Nat}
    (hI : Inv m seg brk bl fl) {c : Blk} (hc : c ∈ bl) :
    GET_SIZE m (HDRP c.addr) = c.size ∧
      GET_ALLOC m (HDRP c.addr) = (if c.alloc then 1 else 0) ∧
      GET m (FTRP m c.addr) = GET m (HDRP c.addr) := by
  have h := hI.hdr hc
  have ht := hI.tagged c hc
  refine ⟨h.1, h.2, ?_⟩
  have hsz : GET_SIZE m (c.addr - 4) = c.size := h.1
  simp only [GET, FTRP, HDRP, WSIZE, DSIZE, hsz]
  rw [ht.1, ht.2]

/-- The nodes of list `k` are the free blocks of class `k`. -/
theorem Inv.mem_node_iff {m : Mem} {seg brk : Nat} {bl : List Blk} {fl : Nat → List Nat}
    (hI : Inv m seg brk bl fl) (hcov : Covered bl fl) {k : Nat} (hk : k < 20) {fuel : Nat}
    (hf : brk ≤ fuel) (x : Nat) :
    x ∈ list_nodes m fuel (GET_LIST m seg k) ↔
      ∃ c ∈ bl, c.addr = x ∧ c.alloc = false ∧ cls c.size = k := by
  rw [hI.list_nodes_eq hk hf]
  constructor
  · exact hI.nodes k x
  · rintro ⟨c, hc, rfl, hcf, rfl⟩
    exact hcov c hc hcf

/-- A free block occurs once in the list of its class and in no other list. -/
theorem Inv.count_node {m : Mem} {seg brk : Nat} {bl : List Blk} {fl : Nat → List Nat}
    (hI : Inv m seg brk bl fl) (hcov : Covered bl fl) {c : Blk} (hc : c ∈ bl)
    (hcf : c.alloc = false) {k : Nat} (hk : k < 20) {fuel : Nat} (hf : brk ≤ fuel) :
    (list_nodes m fuel (GET_LIST m seg k)).count c.addr = if k = cls c.size then 1 else 0 := by
  rw [hI.list_nodes_eq hk hf]
  by_cases e : k = cls c.size
  · rw [if_pos e, e]
    exact List.count_eq_one_of_mem (hI.nodup _) (hcov c hc hcf)
  · rw [if_neg e]
    exact List.count_eq_zero_of_not_mem (fun h => e (hI.node_blk hc h).2.symm)

/-- An address that is not the address of a free block is in no list. -/
theorem Inv.not_node {m : Mem} {seg brk : Nat} {bl : List Blk} {fl : Nat → List Nat}
    (hI : Inv m seg brk bl fl) {x : Nat} (hx : ∀ c ∈ bl, c.alloc = false → c.addr ≠ x)
    {k : Nat} (hk : k < 20) {fuel : Nat} (hf : brk ≤ fuel) :
    x ∉ list_nodes m fuel (GET_LIST m seg k) := by
  rw [hI.list_nodes_eq hk hf]
  intro h
  obtain ⟨c, hc, hca, hcf, _⟩ := hI.nodes k x h
  exact hx c hc hcf hca

/-- The lists of two described heaps that differ in a range of blocks have the
same nodes outside that range. -/
theorem list_nodes_outside {m m1 : Mem} {seg brk A E : Nat} {pre M W post : List Blk}
    {fl fl1 : Nat → List Nat}
    (hI : Inv m seg brk (pre ++ M ++ post) fl) (hcov : Covered (pre ++ M ++ post) fl)
    (hI1 : Inv m1 seg brk (pre ++ W ++ post) fl1) (hcov1 : Covered (pre ++ W ++ post) fl1)
    (hM : ∀ d ∈ M, A ≤ d.addr ∧ d.addr < E) (hW : ∀ d ∈ W, A ≤ d.addr ∧ d.addr < E)
    {k : Nat} (hk : k < 20) {fuel : Nat} (hf : brk ≤ fuel) (x : Nat) (hx : x < A ∨ E ≤ x) :
    x ∈ list_nodes m1 fuel (GET_LIST m1 seg k) ↔ x ∈ list_nodes m fuel (GET_LIST m seg k) := by
  rw [hI.mem_node_iff hcov hk hf, hI1.mem_node_iff hcov1 hk hf]
  constructor
  · rintro ⟨c, hc, hca, hcf, hcc⟩
    refine ⟨c, ?_, hca, hcf, hcc⟩
    simp only [List.mem_append] at hc ⊢
    rcases hc with (h | h) | h
    · exact Or.inl (Or.inl h)
    · have := hW c h; omega
    · exact Or.inr h
  · rintro ⟨c, hc, hca, hcf, hcc⟩
    refine ⟨c, ?_, hca, hcf, hcc⟩
    simp only [List.mem_append] at hc ⊢
    rcases hc with (h | h) | h
    · exact Or.inl (Or.inl h)
    · have := hM c h; omega
    · exact Or.inr h

/-- The memory `mm_free` passes to `coalesce` is described by the heap with
the block marked free and linked. -/
theorem marked_free_inv {s : State} {pre post : List Blk} {b : Blk} {fl : Nat → List Nat}
    (hW : WF s (pre ++ b :: post) fl) (hba : b.alloc = true) (fuel : Nat) (hf : 0 < fuel) :
    ∃ fl3, Inv (marked_free fuel s b.addr) s.seg_listp s.mem_brk
        (pre ++ ⟨b.addr, b.size, false⟩ :: post) fl3 ∧
      Covered (pre ++ ⟨b.addr, b.size, false⟩ :: post) fl3 := by
  have hI := hW.inv
  have hb : b ∈ pre ++ b :: post := by simp
  have hbb := hI.blk hb
  have hbrk := hI.brk_lt
  unfold marked_free
  simp only
  rw [(hI.hdr hb).1, PACK_zero]
  have e1 : FTRP (PUT s.mem (HDRP b.addr) b.size) b.addr = b.addr + b.size - 8 := by
    simp only [FTRP, DSIZE]
    rw [GET_SIZE_PUT_same _ _ _ hbb.2.2.2.1 (by simp only [U32, FAIL_PTR] at *; omega)]
  rw [e1]
  simp only [HDRP, WSIZE]
  have hI2 := hI.mark_free hba
  have hbfm : (⟨b.addr, b.size, false⟩ : Blk) ∈ pre ++ ⟨b.addr, b.size, false⟩ :: post := by
    simp
  have hnot : ∀ k, (⟨b.addr, b.size, false⟩ : Blk).addr ∉ fl k :=
    fun k => hI.alloc_unlinked (b := b) hb hba k
  obtain ⟨m3, fl3, h0, hI3, hm3, _⟩ := free_insert_mem hI2 hbfm rfl hnot fuel hf
  simp only at h0
  rw [h0]
  refine ⟨fl3, hI3, ?_⟩
  intro c hc hcf
  rw [hm3]
  simp only [List.mem_append, List.mem_cons] at hc
  rcases hc with hc | hc | hc
  · left; exact hW.cov c (by simp [hc]) hcf
  · right; subst hc; exact ⟨rfl, rfl⟩
  · left; exact hW.cov c (by simp [hc]) hcf

/-! ### C19: what `coalesce` returns -/

/-- C19: for a free, linked block `b` of a described heap whose blocks before
`b` and behind `b` have no two free neighbours, `coalesce(b)` returns the address
of the physical predecessor when that one is free and `b` otherwise; the block
it returns is free, its header holds the size of `b` plus the sizes of those of
the two physical neighbours that were free, and its footer holds the same word;
it occurs once in the list of the class of that size and in no other list; the
blocks that were absorbed are in no list; and when both neighbours are allocated
the memory is unchanged. -/
theorem coalesce_merges_neighbours {m : Mem} {seg brk : Nat} {pre R : List Blk}
    {fl : Nat → List Nat} {b : Blk} (hI : Inv m seg brk (pre ++ b :: R) fl)
    (hcov : Covered (pre ++ b :: R) fl) (hfree : b.alloc = false) (hnpre : NoAdj pre)
    (hnpost : NoAdj R) (fuel : Nat) (hf : brk ≤ fuel) :
    ∃ r m1, coalesce fuel m seg b.addr = some (r, m1) ∧
      r = (if GET_ALLOC m (HDRP (PREV_BLKP m b.addr)) = 0 then PREV_BLKP m b.addr
        else b.addr) ∧
      GET_SIZE m1 (HDRP r) = merged_size m b.addr ∧
      GET_ALLOC m1 (HDRP r) = 0 ∧
      GET m1 (FTRP m1 r) = GET m1 (HDRP r) ∧
      (∀ k < 20, (list_nodes m1 fuel (GET_LIST m1 seg k)).count r
        = if k = cls (merged_size m b.addr) then 1 else 0) ∧
      (GET_ALLOC m (HDRP (PREV_BLKP m b.addr)) = 0 →
        ∀ k < 20, b.addr ∉ list_nodes m1 fuel (GET_LIST m1 seg k)) ∧
      (GET_ALLOC m (HDRP (NEXT_BLKP m b.addr)) = 0 →
        ∀ k < 20, NEXT_BLKP m b.addr ∉ list_nodes m1 fuel (GET_LIST m1 seg k)) ∧
      (GET_ALLOC m (HDRP (PREV_BLKP m b.addr)) ≠ 0 →
        GET_ALLOC m (HDRP (NEXT_BLKP m b.addr)) ≠ 0 → m1 = m) := by
  have hb : b ∈ pre ++ b :: R := by simp
  have hbs := (hI.hdr hb).1
  have hbb := hI.blk hb
  have hf0 : 0 < fuel := by omega
  obtain ⟨r, m1, bl1, fl1, h0, hI1, hcov1, _, _, _, c, hc, hcr, hcf, hle, _, hpa, hna, hr, hsz,
      hpp, hps, hns, hcase1⟩ :=
    coalesce_exact hI hcov hfree hnpre hnpost fuel hf0 rfl rfl rfl rfl rfl
  have hms : merged_size m b.addr = c.size := by unfold merged_size; rw [hbs, hsz]
  have hw := hI1.block_words hc
  rw [hcr, hcf] at hw
  have hinside : ∀ x, c.addr < x → x < c.addr + c.size → ∀ k < 20,
      x ∉ list_nodes m1 fuel (GET_LIST m1 seg k) := by
    intro x h1 h2 k hk
    apply hI1.not_node _ hk hf
    intro d hd _ hdx
    have hdb := hI1.blk hd
    rcases hI1.chained.apart hc hd with e | e | e
    · subst e; omega
    · omega
    · omega
  have hn : NEXT_BLKP m b.addr = b.addr + b.size := by
    have : GET_SIZE m (b.addr - WSIZE) = b.size := hbs
    simp only [NEXT_BLKP, this]
  refine ⟨r, m1, h0, hr, ?_, ?_, hw.2.2, ?_, ?_, ?_, ?_⟩
  · rw [hms]; exact hw.1
  · simpa using hw.2.1
  · intro k hk
    rw [hms, ← hcr]
    exact hI1.count_node hcov1 hc hcf hk hf
  · intro h k hk
    have h1 := hpp h
    have h2 := hps h
    rw [if_pos h] at hr hsz
    apply hinside b.addr (by omega) (by omega) k hk
  · intro h k hk
    have h2 := hns h
    rw [if_pos h] at hsz
    rw [hn]
    rcases hpa with p0 | p1
    · have h1 := hpp p0
      rw [if_pos p0] at hr hsz
      apply hinside _ (by omega) (by omega) k hk
    · rw [if_neg (by omega)] at hr hsz
      apply hinside _ (by omega) (by omega) k hk
  · intro h1 h2
    exact (hcase1 (by omega) (by omega)).1

theorem coalesce_merges_neighbours_witness :
    trace_ok fuel0 heap0 ops_hole = true ∧
    blocks_of fuel0 heap_hole = [(1096, 24, 1), (1120, 24, 0), (1144, 112, 1), (1256, 16, 0)] ∧
    PREV_BLKP (marked_free fuel0 heap_hole 1144) 1144 = 1120 ∧
    GET_ALLOC (marked_free fuel0 heap_hole 1144)
      (HDRP (PREV_BLKP (marked_free fuel0 heap_hole 1144) 1144)) = 0 ∧
    merged_size (marked_free fuel0 heap_hole 1144) 1144 = 152 ∧
    ∃ r m1, coalesce fuel0 (marked_free fuel0 heap_hole 1144) heap_hole.seg_listp 1144
        = some (r, m1) ∧
      r = (if GET_ALLOC (marked_free fuel0 heap_hole 1144)
            (HDRP (PREV_BLKP (marked_free fuel0 heap_hole 1144) 1144)) = 0
          then PREV_BLKP (marked_free fuel0 heap_hole 1144) 1144 else 1144) ∧
      GET_SIZE m1 (HDRP r) = merged_size (marked_free fuel0 heap_hole 1144) 1144 ∧
      GET_ALLOC m1 (HDRP r) = 0 ∧
      GET m1 (FTRP m1 r) = GET m1 (HDRP r) ∧
      (∀ k < 20, (list_nodes m1 fuel0 (GET_LIST m1 heap_hole.seg_listp k)).count r
        = if k = cls (merged_size (marked_free fuel0 heap_hole 1144) 1144) then 1 else 0) ∧
      (GET_ALLOC (marked_free fuel0 heap_hole 1144)
          (HDRP (PREV_BLKP (marked_free fuel0 heap_hole 1144) 1144)) = 0 →
        ∀ k < 20, 1144 ∉ list_nodes m1 fuel0 (GET_LIST m1 heap_hole.seg_listp k)) ∧
      (GET_ALLOC (marked_free fuel0 heap_hole 1144)
          (HDRP (NEXT_BLKP (marked_free fuel0 heap_hole 1144) 1144)) = 0 →
        ∀ k < 20, NEXT_BLKP (marked_free fuel0 heap_hole 1144) 1144
          ∉ list_nodes m1 fuel0 (GET_LIST m1 heap_hole.seg_listp k)) ∧
      (GET_ALLOC (marked_free fuel0 heap_hole 1144)
          (HDRP (PREV_BLKP (marked_free fuel0 heap_hole 1144) 1144)) ≠ 0 →
        GET_ALLOC (marked_free fuel0 heap_hole 1144)
          (HDRP (NEXT_BLKP (marked_free fuel0 heap_hole 1144) 1144)) ≠ 0 →
        m1 = marked_free fuel0 heap_hole 1144) := by
  refine ⟨by decide!, by decide!, by decide!, by decide!, by decide!, ?_⟩
  obtain ⟨rs, c, ht, _, hA, hmax, _, _⟩ :=
    trace_spec heap0_fresh fuel0 (by decide) ops_hole (by decide!) (by decide)
  obtain ⟨bl, fl, hW, _⟩ := hA (by decide)
  have e : heap_hole = c.st := by simp only [heap_hole, state_after, ht]
  have hin : (1144, 112, 1) ∈ blocks_of fuel0 heap_hole := by decide!
  rw [e] at hin ⊢
  obtain ⟨b, hb, hbe⟩ := hW.block_read hmax hin
  obtain ⟨ba, bs, bal⟩ := b
  simp only [Prod.mk.injEq] at hbe
  obtain ⟨h1, h2, h3⟩ := hbe
  subst h1 h2
  have hbl : bal = true := by
    cases bal with
    | true => rfl
    | false => simp at h3
  subst hbl
  obtain ⟨pre, post, hsplit⟩ := List.append_of_mem hb
  subst hsplit
  obtain ⟨fl3, hI3, hcov3⟩ := marked_free_inv hW rfl fuel0 (by decide)
  obtain ⟨hnpre, hnpost, _, _⟩ := NoAdj.mid.1 hW.noadj
  exact coalesce_merges_neighbours (b := ⟨1144, 112, false⟩) hI3 hcov3 rfl hnpre hnpost fuel0
    (le_trans hW.brk_le hmax)

/-! ### C20: what `addblock` carves -/

/-- C20: for a free, linked block `b` of size `S` of a described heap and a
block size `r` that is a multiple of 8 with `16 ≤ r ≤ S`, `addblock(b, r)`
returns; when `S - r < 16` the whole block is marked allocated with size `S`
and is in no list; otherwise the result is an allocated block of size `r` and a
free block of size `S - r` that together occupy the range of `b` (the allocated
part first when `S - r < 200`, the free part first otherwise), each with a footer
equal to its header, the free part occurs once in the list of the class of
`S - r` and in no other, and the allocated part is in no list; the nodes of the
lists outside the range of `b` are the same as before. -/
theorem addblock_carves {m : Mem} {seg brk : Nat} {pre post : List Blk} {fl : Nat → List Nat}
    {b : Blk} (hI : Inv m seg brk (pre ++ b :: post) fl) (hcov : Covered (pre ++ b :: post) fl)
    (hfree : b.alloc = false)
    (r : Nat) (hr8 : r % 8 = 0) (hr16 : 16 ≤ r) (hrb : r ≤ b.size)
    (fuel : Nat) (hf : brk ≤ fuel) :
    ∃ q m1, addblock fuel m seg b.addr r = some (q, m1) ∧
      (b.size - r < 16 →
        q = b.addr ∧ GET_SIZE m1 (HDRP q) = b.size ∧ GET_ALLOC m1 (HDRP q) = 1 ∧
        GET m1 (FTRP m1 q) = GET m1 (HDRP q) ∧
        ∀ k < 20, q ∉ list_nodes m1 fuel (GET_LIST m1 seg k)) ∧
      (16 ≤ b.size - r →
        ∃ f, (if b.size - r < 200 then q = b.addr ∧ f = b.addr + r
            else f = b.addr ∧ q = b.addr + (b.size - r)) ∧
          GET_SIZE m1 (HDRP q) = r ∧ GET_ALLOC m1 (HDRP q) = 1 ∧
          GET m1 (FTRP m1 q) = GET m1 (HDRP q) ∧
          GET_SIZE m1 (HDRP f) = b.size - r ∧ GET_ALLOC m1 (HDRP f) = 0 ∧
          GET m1 (FTRP m1 f) = GET m1 (HDRP f) ∧
          (∀ k < 20, (list_nodes m1 fuel (GET_LIST m1 seg k)).count f
            = if k = cls (b.size - r) then 1 else 0) ∧
          (∀ k < 20, q ∉ list_nodes m1 fuel (GET_LIST m1 seg k))) ∧
      (∀ k < 20, ∀ x, x < b.addr ∨ b.addr + b.size ≤ x →
        (x ∈ list_nodes m1 fuel (GET_LIST m1 seg k) ↔
          x ∈ list_nodes m fuel (GET_LIST m seg k))) := by
  have hb : b ∈ pre ++ b :: post := by simp
  have hbb := hI.blk hb
  have hf0 : 0 < fuel := by omega
  obtain ⟨q, m1, mid1, fl1, h0, hI1, hcov1, _, hcase⟩ :=
    addblock_core hI hcov hfree r hr8 hr16 hrb fuel hf0
  have hI' : Inv m seg brk (pre ++ [b] ++ post) fl := by simpa using hI
  have hcov' : Covered (pre ++ [b] ++ post) fl := by simpa using hcov
  have halloc : ∀ a ∈ pre ++ mid1 ++ post, a.alloc = true → ∀ k < 20,
      a.addr ∉ list_nodes m1 fuel (GET_LIST m1 seg k) := by
    intro a ha haa k hk
    apply hI1.not_node _ hk hf
    intro d hd hdf hda
    have := hI1.chained.addr_inj hd ha hda
    rw [this, haa] at hdf
    cases hdf
  have hout : (∀ d ∈ mid1, b.addr ≤ d.addr ∧ d.addr < b.addr + b.size) →
      ∀ k < 20, ∀ x, x < b.addr ∨ b.addr + b.size ≤ x →
        (x ∈ list_nodes m1 fuel (GET_LIST m1 seg k) ↔
          x ∈ list_nodes m fuel (GET_LIST m seg k)) := by
    intro hmid k hk x hx
    exact list_nodes_outside hI' hcov' hI1 hcov1
      (by intro d hd; simp only [List.mem_singleton] at hd; subst hd; omega) hmid hk hf x hx
  rcases hcase with ⟨hlt, hq, hm⟩ | ⟨hge, hq, hm⟩ | ⟨hge, hlt, hq, hm⟩
  · subst hm
    have ha : (⟨b.addr, b.size, true⟩ : Blk) ∈ pre ++ [⟨b.addr, b.size, true⟩] ++ post := by
      simp
    have hw := hI1.block_words ha
    simp only [if_true] at hw
    rw [← hq] at hw
    refine ⟨q, m1, h0, fun _ => ⟨hq, hw.1, hw.2.1, hw.2.2, fun k hk => ?_⟩,
      fun h => by omega, ?_⟩
    · rw [hq]; exact halloc _ ha rfl k hk
    · apply hout
      intro d hd
      simp only [List.mem_singleton] at hd
      subst hd
      simp only
      omega
  · subst hm
    have ha : (⟨b.addr + (b.size - r), r, true⟩ : Blk) ∈
        pre ++ [⟨b.addr, b.size - r, false⟩, ⟨b.addr + (b.size - r), r, true⟩] ++ post := by
      simp
    have hfm : (⟨b.addr, b.size - r, false⟩ : Blk) ∈
        pre ++ [⟨b.addr, b.size - r, false⟩, ⟨b.addr + (b.size - r), r, true⟩] ++ post := by
      simp
    have hw := hI1.block_words ha
    have hv := hI1.block_words hfm
    simp only [if_true] at hw
    simp only [Bool.false_eq_true, if_false] at hv
    rw [← hq] at hw
    refine ⟨q, m1, h0, fun h => by omega, fun _ => ⟨b.addr, ?_, hw.1, hw.2.1, hw.2.2, hv.1,
      hv.2.1, hv.2.2, fun k hk => ?_, fun k hk => ?_⟩, ?_⟩
    · rw [if_neg (by omega)]; exact ⟨rfl, hq⟩
    · exact hI1.count_node hcov1 hfm rfl hk hf
    · rw [hq]; exact halloc _ ha rfl k hk
    · apply hout
      intro d hd
      simp only [List.mem_cons, List.mem_singleton, List.not_mem_nil, or_false] at hd
      rcases hd with hd | hd <;> subst hd <;> simp only <;> omega
  · subst hm
    have ha : (⟨b.addr, r, true⟩ : Blk) ∈
        pre ++ [⟨b.addr, r, true⟩, ⟨b.addr + r, b.size - r, false⟩] ++ post := by
      simp
    have hfm : (⟨b.addr + r, b.size - r, false⟩ : Blk) ∈
        pre ++ [⟨b.addr, r, true⟩, ⟨b.addr + r, b.size - r, false⟩] ++ post := by
      simp
    have hw := hI1.block_words ha
    have hv := hI1.block_words hfm
    simp only [if_true] at hw
    simp only [Bool.false_eq_true, if_false] at hv
    rw [← hq] at hw
    refine ⟨q, m1, h0, fun h => by omega, fun _ => ⟨b.addr + r, ?_, hw.1, hw.2.1, hw.2.2, hv.1,
      hv.2.1, hv.2.2, fun k hk => ?_, fun k hk => ?_⟩, ?_⟩
    · rw [if_pos hlt]; exact ⟨hq, rfl⟩
    · exact hI1.count_node hcov1 hfm rfl hk hf
    · rw [hq]; exact halloc _ ha rfl k hk
    · apply hout
      intro d hd
      simp only [List.mem_cons, List.mem_singleton, List.not_mem_nil, or_false] at hd
      rcases hd with hd | hd <;> subst hd <;> simp only <;> omega

theorem addblock_carves_witness :
    trace_ok fuel0 heap0 ops_released_big = true ∧
    blocks_of fuel0 heap_released = [(1096, 1008, 0), (2104, 24, 1), (2128, 40, 0)] ∧
    ∃ q m1, addblock fuel0 heap_released.mem heap_released.seg_listp 1096 24 = some (q, m1) ∧
      (1008 - 24 < 16 →
        q = 1096 ∧ GET_SIZE m1 (HDRP q) = 1008 ∧ GET_ALLOC m1 (HDRP q) = 1 ∧
        GET m1 (FTRP m1 q) = GET m1 (HDRP q) ∧
        ∀ k < 20, q ∉ list_nodes m1 fuel0 (GET_LIST m1 heap_released.seg_listp k)) ∧
      (16 ≤ 1008 - 24 →
        ∃ f, (if 1008 - 24 < 200 then q = 1096 ∧ f = 1096 + 24
            else f = 1096 ∧ q = 1096 + (1008 - 24)) ∧
          GET_SIZE m1 (HDRP q) = 24 ∧ GET_ALLOC m1 (HDRP q) = 1 ∧
          GET m1 (FTRP m1 q) = GET m1 (HDRP q) ∧
          GET_SIZE m1 (HDRP f) = 1008 - 24 ∧ GET_ALLOC m1 (HDRP f) = 0 ∧
          GET m1 (FTRP m1 f) = GET m1 (HDRP f) ∧
          (∀ k < 20, (list_nodes m1 fuel0 (GET_LIST m1 heap_released.seg_listp k)).count f
            = if k = cls (1008 - 24) then 1 else 0) ∧
          (∀ k < 20, q ∉ list_nodes m1 fuel0 (GET_LIST m1 heap_released.seg_listp k))) ∧
      (∀ k < 20, ∀ x, x < 1096 ∨ 1096 + 1008 ≤ x →
        (x ∈ list_nodes m1 fuel0 (GET_LIST m1 heap_released.seg_listp k) ↔
          x ∈ list_nodes heap_released.mem fuel0
            (GET_LIST heap_released.mem heap_released.seg_listp k))) := by
  refine ⟨by decide!, by decide!, ?_⟩
  obtain ⟨rs, c, ht, _, hA, hmax, _, _⟩ :=
    trace_spec heap0_fresh fuel0 (by decide) ops_released_big (by decide!) (by decide)
  obtain ⟨bl, fl, hW, _⟩ := hA (by decide)
  have e : heap_released = c.st := by simp only [heap_released, state_after, ht]
  have hin : (1096, 1008, 0) ∈ blocks_of fuel0 heap_released := by decide!
  rw [e] at hin ⊢
  obtain ⟨b, hb, hbe⟩ := hW.block_read hmax hin
  obtain ⟨ba, bs, bal⟩ := b
  simp only [Prod.mk.injEq] at hbe
  obtain ⟨h1, h2, h3⟩ := hbe
  subst h1 h2
  have hbl : bal = false := by
    cases bal with
    | false => rfl
    | true => simp at h3
  subst hbl
  obtain ⟨pre, post, hsplit⟩ := List.append_of_mem hb
  subst hsplit
  exact addblock_carves (b := ⟨1096, 1008, false⟩) hW.inv hW.cov rfl 24 (by decide)
    (by decide) (by decide) fuel0 (le_trans hW.brk_le hmax)

end MM


namespace MM

/-! ## Sequences, one call at a time -/

theorem run_snoc (fuel : Nat) : ∀ (ops : List Op) (c : Config) (op : Op) (rs : List Nat)
    (c1 : Config) (r : Nat) (c2 : Config),
    run fuel c ops = some (rs, c1) → step fuel c1 op = some (r, c2) →
    run fuel c (ops ++ [op]) = some (rs ++ [r], c2) := by
  intro ops
  induction ops with
  | nil =>
    intro c op rs c1 r c2 h hs
    simp only [run, Option.some.injEq, Prod.mk.injEq] at h
    obtain ⟨rfl, rfl⟩ := h
    simp [run, hs]
  | cons o os ih =>
    intro c op rs c1 r c2 h hs
    rw [List.cons_append]
    unfold run at h ⊢
    cases hst : step fuel c o with
    | none => rw [hst] at h; cases h
    | some x =>
      obtain ⟨r0, c0⟩ := x
      rw [hst] at h
      simp only at h ⊢
      cases hrun : run fuel c0 os with
      | none => rw [hrun] at h; cases h
      | some y =>
        obtain ⟨rs0, cx⟩ := y
        rw [hrun] at h
        simp only [Option.map_some', Option.some.injEq, Prod.mk.injEq] at h
        obtain ⟨rfl, rfl⟩ := h
        rw [ih c0 op rs0 cx r c2 hrun hs]
        simp

theorem respects_snoc (fuel : Nat) : ∀ (ops : List Op) (c : Config) (op : Op) (rs : List Nat)
    (c1 : Config), run fuel c ops = some (rs, c1) → respects fuel c ops = true →
    op.ok c1 = true → respects fuel c (ops ++ [op]) = true := by
  intro ops
  induction ops with
  | nil =>
    intro c op rs c1 h _ hok
    simp only [run, Option.some.injEq, Prod.mk.injEq] at h
    obtain ⟨_, rfl⟩ := h
    simp only [List.nil_append, respects, hok, Bool.true_and]
    cases step fuel c op with
    | none => rfl
    | some x => rfl
  | cons o os ih =>
    intro c op rs c1 h hr hok
    rw [List.cons_append]
    unfold run at h
    unfold respects at hr ⊢
    simp only [Bool.and_eq_true] at hr ⊢
    refine ⟨hr.1, ?_⟩
    cases hst : step fuel c o with
    | none => rfl
    | some x =>
      obtain ⟨r0, c0⟩ := x
      rw [hst] at h hr
      simp only at h hr ⊢
      cases hrun : run fuel c0 os with
      | none => rw [hrun] at h; cases h
      | some y =>
        obtain ⟨rs0, cx⟩ := y
        rw [hrun] at h
        simp only [Option.map_some', Option.some.injEq, Prod.mk.injEq] at h
        obtain ⟨_, rfl⟩ := h
        exact ih c0 op rs0 cx hrun hr.2 hok

/-- A sequence of calls and one more call. -/
theorem trace_snoc {fuel : Nat} {s : State} {ops : List Op} {rs : List Nat} {c1 : Config}
    (h : trace fuel s ops = some (rs, c1)) (op : Op) {r : Nat} {c2 : Config}
    (hs : step fuel c1 op = some (r, c2)) :
    trace fuel s (ops ++ [op]) = some (rs ++ [r], c2) := by
  unfold trace at h ⊢
  cases hb : boot fuel s with
  | none => rw [hb] at h; cases h
  | some c0 =>
    rw [hb] at h
    exact run_snoc fuel ops c0 op rs c1 r c2 h hs

/-- A sequence that respects the caller contract and one more allowed call. -/
theorem trace_ok_snoc {fuel : Nat} {s : State} {ops : List Op} {rs : List Nat} {c1 : Config}
    (h : trace fuel s ops = some (rs, c1)) (hr : trace_ok fuel s ops = true) (op : Op)
    (hok : op.ok c1 = true) : trace_ok fuel s (ops ++ [op]) = true := by
  unfold trace at h
  unfold trace_ok at hr ⊢
  cases hb : boot fuel s with
  | none => rw [hb] at h; cases h
  | some c0 =>
    rw [hb] at h hr
    exact respects_snoc fuel ops c0 op rs c1 h hr hok

theorem Blk.ne_of_addr {a b : Blk} (h : a.addr ≠ b.addr) : a ≠ b :=
  fun e => h (by rw [e])

/-! ## `mm_malloc(16)` on a described heap -/

theorem malloc_size_16 : malloc_size 16 = 24 := by decide

/-- `mm_malloc(16)` when the one block `free_find` can take leaves a remainder
of 16 to 199 bytes: the front of the block is allocated. -/
theorem malloc16_split {s : State} {pre post : List Blk} {b : Blk} {fl : Nat → List Nat}
    (hW : WF s (pre ++ b :: post) fl) (hbf : b.alloc = false) (fuel : Nat)
    (hf : s.mem_max_addr ≤ fuel) (h1 : 40 ≤ b.size) (h2 : b.size < 224)
    (honly : ∀ c ∈ pre ++ b :: post, c.alloc = false → 24 ≤ c.size →
      cls b.size ≤ cls c.size ∧ (cls c.size = cls b.size → c = b))
    {A B S : Nat} (hA : b.addr = A) (hB : A + 24 = B) (hS : b.size - 24 = S) :
    ∃ s1 fl1, free_find fuel s.mem s.seg_listp (malloc_size 16) = some A ∧
      mm_malloc fuel s 16 = some (A, s1) ∧
      WF s1 (pre ++ [⟨A, 24, true⟩, ⟨B, S, false⟩] ++ post) fl1 ∧
      s1.seg_listp = s.seg_listp ∧ s1.mem_max_addr = s.mem_max_addr ∧
      s1.mem_brk = s.mem_brk := by
  obtain ⟨q, s1, mid1, fl1, hfind, hm, hW1, e1, e2, e3, hcase⟩ :=
    mm_malloc_hit hW hbf 16 (by decide) (by decide) fuel hf
      (by rw [malloc_size_16]; omega) (by rw [malloc_size_16]; exact honly)
  rw [malloc_size_16] at hcase
  rcases hcase with ⟨h, _⟩ | ⟨h, _⟩ | ⟨_, _, hq, hmid⟩
  · omega
  · omega
  · subst hq hmid hA hB hS
    exact ⟨s1, fl1, hfind, hm, hW1, e1, e2, e3⟩

/-- `mm_malloc(16)` when the one block `free_find` can take has 24 to 39 bytes:
the whole block is allocated. -/
theorem malloc16_whole {s : State} {pre post : List Blk} {b : Blk} {fl : Nat → List Nat}
    (hW : WF s (pre ++ b :: post) fl) (hbf : b.alloc = false) (fuel : Nat)
    (hf : s.mem_max_addr ≤ fuel) (h1 : 24 ≤ b.size) (h2 : b.size < 40)
    (honly : ∀ c ∈ pre ++ b :: post, c.alloc = false → 24 ≤ c.size →
      cls b.size ≤ cls c.size ∧ (cls c.size = cls b.size → c = b))
    {A S : Nat} (hA : b.addr = A) (hS : b.size = S) :
    ∃ s1 fl1, free_find fuel s.mem s.seg_listp (malloc_size 16) = some A ∧
      mm_malloc fuel s 16 = some (A, s1) ∧
      WF s1 (pre ++ [⟨A, S, true⟩] ++ post) fl1 ∧
      s1.seg_listp = s.seg_listp ∧ s1.mem_max_addr = s.mem_max_addr ∧
      s1.mem_brk = s.mem_brk := by
  obtain ⟨q, s1, mid1, fl1, hfind, hm, hW1, e1, e2, e3, hcase⟩ :=
    mm_malloc_hit hW hbf 16 (by decide) (by decide) fuel hf
      (by rw [malloc_size_16]; omega) (by rw [malloc_size_16]; exact honly)
  rw [malloc_size_16] at hcase
  rcases hcase with ⟨_, hq, hmid⟩ | ⟨h, _⟩ | ⟨h, _⟩
  · subst hq hmid hA hS
    exact ⟨s1, fl1, hfind, hm, hW1, e1, e2, e3⟩
  · omega
  · omega

/-- The start of a sequence: `mm_init` alone. -/
theorem trace_start {fuel : Nat} {s s0 : State} (hi : mm_init fuel s = some (0, s0)) :
    trace fuel s [] = some ([], ⟨s0, []⟩) ∧ trace_ok fuel s [] = true := by
  have hb0 : boot fuel s = some ⟨s0, []⟩ := by simp [boot, hi]
  exact ⟨by simp [trace, hb0, run], by simp [trace_ok, hb0, respects]⟩

/-! ### C11: scenario A -/

/-- C11: on a fresh heap with room for the first chunk, after `mm_init` the calls
`A = mm_malloc(16)` and `B = mm_malloc(16)` return the pointers `A` = base + 96
and `B` = base + 120, which are not null, differ, and whose 16-byte ranges do
not overlap; after `mm_free(A)` the next `mm_malloc(16)` returns `A`: `free_find`
finds the block at `A`, so `mm_malloc` takes the branch that calls `addblock`
and not `extend_heap`, the one caller of `mem_sbrk`, and the break is unchanged. -/
theorem exact_fit_reuse {s : State} (hF : Fresh s) (fuel : Nat) (hf : s.mem_max_addr ≤ fuel)
    (hroom : s.mem_brk + 160 ≤ s.mem_max_addr) :
    ∃ A B c3 c4, A = s.mem_brk + 96 ∧ B = s.mem_brk + 120 ∧
      trace fuel s [.malloc 16, .malloc 16, .free A] = some ([A, B, 0], c3) ∧
      trace_ok fuel s [.malloc 16, .malloc 16, .free A, .malloc 16] = true ∧
      A ≠ 0 ∧ B ≠ 0 ∧ B ≠ A ∧ (A + 16 ≤ B ∨ B + 16 ≤ A) ∧
      step fuel c3 (.malloc 16) = some (A, c4) ∧
      trace fuel s [.malloc 16, .malloc 16, .free A, .malloc 16] = some ([A, B, 0, A], c4) ∧
      free_find fuel c3.st.mem c3.st.seg_listp (malloc_size 16) = some A ∧
      mm_malloc fuel c3.st 16
        = (addblock fuel c3.st.mem c3.st.seg_listp A (malloc_size 16)).map
            (fun r => (r.1, { c3.st with mem := r.2 })) ∧
      c4.st.mem_brk = c3.st.mem_brk := by
  have hf0 : 0 < fuel := by have := hF.pos; omega
  obtain ⟨s0, fl0, hi, hW0, seg0, max0, brk0⟩ := mm_init_exact hF fuel hf0 hroom
  obtain ⟨t0, k0⟩ := trace_start hi
  have hA0 : s.mem_brk + 96 ≠ 0 := by omega
  have hB0 : s.mem_brk + 120 ≠ 0 := by omega
  have hBA : s.mem_brk + 120 ≠ s.mem_brk + 96 := by omega
  -- the first allocation
  have hW0' : WF s0 ([] ++ (⟨s.mem_brk + 96, 64, false⟩ : Blk) :: []) fl0 := hW0
  obtain ⟨s1, fl1, _, hm1, hW1, seg1, max1, brk1⟩ :=
    malloc16_split hW0' rfl fuel (by omega) (by simp) (by simp)
      (by
        intro c hc _ _
        simp only [List.nil_append, List.mem_singleton] at hc
        subst hc
        exact ⟨le_refl _, fun _ => rfl⟩)
      (A := s.mem_brk + 96) (B := s.mem_brk + 120) (S := 40) rfl (by omega) rfl
  -- the second allocation
  have hW1' : WF s1 ([(⟨s.mem_brk + 96, 24, true⟩ : Blk)]
      ++ (⟨s.mem_brk + 120, 40, false⟩ : Blk) :: []) fl1 := hW1
  obtain ⟨s2, fl2, _, hm2, hW2, seg2, max2, brk2⟩ :=
    malloc16_split hW1' rfl fuel (by omega) (by simp) (by simp)
      (by
        intro c hc hcf _
        simp only [List.mem_append, List.mem_cons, List.mem_singleton, List.not_mem_nil,
          or_false] at hc
        rcases hc with rfl | rfl
        · cases hcf
        · exact ⟨le_refl _, fun _ => rfl⟩)
      (A := s.mem_brk + 120) (B := s.mem_brk + 144) (S := 16) rfl (by omega) rfl
  -- the release of the first block
  have hW2' : WF s2 [(⟨s.mem_brk + 96, 24, true⟩ : Blk), ⟨s.mem_brk + 120, 24, true⟩,
      ⟨s.mem_brk + 144, 16, false⟩] fl2 := hW2
  obtain ⟨s3, fl3, hfr, hW3, seg3, max3, brk3⟩ :=
    mm_free_exact hW2' (b := ⟨s.mem_brk + 96, 24, true⟩) (by simp) rfl fuel hf0
      [⟨s.mem_brk + 96, 24, false⟩, ⟨s.mem_brk + 120, 24, true⟩, ⟨s.mem_brk + 144, 16, false⟩]
      (by
        rw [seg2, seg1, seg0, brk2, brk1, brk0]
        simp only [Chained]
        repeat' constructor
        all_goals omega)
      (by unfold NoAdj; simp)
      (by
        intro c hc
        simp only [List.mem_cons, List.mem_singleton, List.not_mem_nil, or_false]
        constructor
        · rintro (rfl | rfl | rfl)
          · cases hc
          · exact ⟨Or.inr (Or.inl rfl), Blk.ne_of_addr (by simp only; omega)⟩
          · cases hc
        · rintro ⟨rfl | rfl | rfl, hne⟩
          · exact absurd rfl hne
          · exact Or.inr (Or.inl rfl)
          · cases hc)
  -- the allocation that follows
  have hW3' : WF s3 ([] ++ (⟨s.mem_brk + 96, 24, false⟩ : Blk) ::
      [⟨s.mem_brk + 120, 24, true⟩, ⟨s.mem_brk + 144, 16, false⟩]) fl3 := hW3
  obtain ⟨s4, fl4, hfind4, hm4, hW4, seg4, max4, brk4⟩ :=
    malloc16_whole hW3' rfl fuel (by omega) (by simp) (by simp)
      (by
        intro c hc hcf hsz
        simp only [List.nil_append, List.mem_cons, List.mem_singleton, List.not_mem_nil,
          or_false] at hc
        rcases hc with rfl | rfl | rfl
        · exact ⟨le_refl _, fun _ => rfl⟩
        · cases hcf
        · simp only at hsz; omega)
      (A := s.mem_brk + 96) (S := 24) rfl rfl
  -- the calls as steps of a caller
  have st1 : step fuel ⟨s0, []⟩ (.malloc 16) = some (s.mem_brk + 96, ⟨s1, [s.mem_brk + 96]⟩) := by
    simp [step, hm1, live_add]
  have st2 : step fuel ⟨s1, [s.mem_brk + 96]⟩ (.malloc 16)
      = some (s.mem_brk + 120, ⟨s2, [s.mem_brk + 120, s.mem_brk + 96]⟩) := by
    simp [step, hm2, live_add]
  have st3 : step fuel ⟨s2, [s.mem_brk + 120, s.mem_brk + 96]⟩ (.free (s.mem_brk + 96))
      = some (0, ⟨s3, [s.mem_brk + 120]⟩) := by
    have : mm_free fuel s2 (s.mem_brk + 96) = some s3 := hfr
    simp [step, this]
  have st4 : step fuel ⟨s3, [s.mem_brk + 120]⟩ (.malloc 16)
      = some (s.mem_brk + 96, ⟨s4, [s.mem_brk + 96, s.mem_brk + 120]⟩) := by
    simp [step, hm4, live_add]
  have t1 := trace_snoc t0 (.malloc 16) st1
  have t2 := trace_snoc t1 (.malloc 16) st2
  have t3 := trace_snoc t2 (.free (s.mem_brk + 96)) st3
  have t4 := trace_snoc t3 (.malloc 16) st4
  have k1 := trace_ok_snoc t0 k0 (.malloc 16) (by simp [Op.ok, U32])
  have k2 := trace_ok_snoc t1 k1 (.malloc 16) (by simp [Op.ok, U32])
  have k3 := trace_ok_snoc t2 k2 (.free (s.mem_brk + 96)) (by simp [Op.ok])
  have k4 := trace_ok_snoc t3 k3 (.malloc 16) (by simp [Op.ok, U32])
  refine ⟨s.mem_brk + 96, s.mem_brk + 120, ⟨s3, [s.mem_brk + 120]⟩,
    ⟨s4, [s.mem_brk + 96, s.mem_brk + 120]⟩, rfl, rfl, t3, k4, hA0, hB0, hBA, Or.inl (by omega),
    st4, t4, hfind4, ?_, brk4⟩
  exact mm_malloc_of_find fuel s3 16 (s.mem_brk + 96) (by decide) hfind4 hA0

theorem exact_fit_reuse_witness :
    (trace fuel0 heap0 [.malloc 16, .malloc 16, .free 1096, .malloc 16]).map Prod.fst
      = some [1096, 1120, 0, 1096] ∧
    ∃ A B c3 c4, A = heap0.mem_brk + 96 ∧ B = heap0.mem_brk + 120 ∧
      trace fuel0 heap0 [.malloc 16, .malloc 16, .free A] = some ([A, B, 0], c3) ∧
      trace_ok fuel0 heap0 [.malloc 16, .malloc 16, .free A, .malloc 16] = true ∧
      A ≠ 0 ∧ B ≠ 0 ∧ B ≠ A ∧ (A + 16 ≤ B ∨ B + 16 ≤ A) ∧
      step fuel0 c3 (.malloc 16) = some (A, c4) ∧
      trace fuel0 heap0 [.malloc 16, .malloc 16, .free A, .malloc 16]
        = some ([A, B, 0, A], c4) ∧
      free_find fuel0 c3.st.mem c3.st.seg_listp (malloc_size 16) = some A ∧
      mm_malloc fuel0 c3.st 16
        = (addblock fuel0 c3.st.mem c3.st.seg_listp A (malloc_size 16)).map
            (fun r => (r.1, { c3.st with mem := r.2 })) ∧
      c4.st.mem_brk = c3.st.mem_brk :=
  ⟨by decide!, exact_fit_reuse heap0_fresh fuel0 (by decide) (by decide)⟩

end MM


namespace MM

/-! ### C12: scenario B -/

/-- `mm_malloc(1000)` right after `mm_init`: no free block fits, the heap is
extended by 1008 bytes, the new block is merged with the free first chunk, and
the front of the merged block is allocated. -/
theorem malloc1000_first {s0 : State} {fl0 : Nat → List Nat} {g : Nat}
    (hW0 : WF s0 [⟨g + 96, 64, false⟩] fl0) (seg0 : s0.seg_listp = g)
    (brk0 : s0.mem_brk = g + 160) (fuel : Nat) (hf : s0.mem_max_addr ≤ fuel)
    (hroom : g + 1168 ≤ s0.mem_max_addr) :
    ∃ s1 fl1, mm_malloc fuel s0 1000 = some (g + 96, s1) ∧
      WF s1 [⟨g + 96, 1008, true⟩, ⟨g + 1104, 64, false⟩] fl1 ∧
      s1.seg_listp = g ∧ s1.mem_max_addr = s0.mem_max_addr ∧ s1.mem_brk = g + 1168 := by
  obtain ⟨hf0, hfb⟩ := hW0.fuel_pos hf
  have hms : malloc_size 1000 = 1008 := by decide
  have hfind : free_find fuel s0.mem s0.seg_listp (malloc_size 1000) = some 0 := by
    apply free_find_none hW0.inv _ fuel hfb
    intro c hc _
    simp only [List.mem_singleton] at hc
    subst hc
    rw [hms]
    simp
  have hwords : MAX (malloc_size 1000) CHUNKSIZE / WSIZE = 252 := by decide
  have hsz : extend_size 252 = 1008 := by decide
  obtain ⟨r, s1, fl1, he, hW1, seg1, max1, brk1, c, hc, hcr, _, _⟩ :=
    extend_heap_exact hW0 252 1008 hsz (by decide) (by decide) fuel hf0 (by omega)
      [⟨g + 96, 1072, false⟩]
      (by
        rw [seg0, brk0]
        simp only [Chained]
        repeat' constructor
        all_goals omega)
      (by unfold NoAdj; simp)
      (by
        intro c hc
        simp only [List.mem_singleton]
        constructor <;> (intro e; rw [e] at hc; cases hc))
  simp only [List.mem_singleton] at hc
  subst hc
  simp only at hcr
  subst hcr
  have hr : g + 96 ≠ 0 := by omega
  have hmm := mm_malloc_of_extend fuel s0 1000 (g + 96) s1 (by decide) hfind
    (by rw [hwords]; exact he) hr
  have hI1 : Inv s1.mem s1.seg_listp s1.mem_brk ([] ++ (⟨g + 96, 1072, false⟩ : Blk) :: [])
      fl1 := hW1.inv
  obtain ⟨q, m1, mid1, fl2, h0, hI2, hcov2, hna2, _, hcase⟩ :=
    addblock_spec hI1 hW1.cov hW1.noadj rfl 1008 (by decide) (by decide) (by simp) fuel hf0
  rw [hms] at hmm
  have h0' : addblock fuel s1.mem s1.seg_listp (g + 96) 1008 = some (q, m1) := h0
  rw [h0'] at hmm
  have e1 : g + 96 + 1008 = g + 1104 := by omega
  rcases hcase with ⟨h, _⟩ | ⟨h, _⟩ | ⟨_, _, hq, hmid⟩
  · simp only at h; omega
  · simp only at h; omega
  · subst hmid
    simp only at hq
    subst hq
    simp only [List.nil_append, List.append_nil, e1, Nat.reduceSub] at hI2 hcov2 hna2
    refine ⟨⟨m1, s1.mem_brk, s1.mem_max_addr, s1.seg_listp, s1.heap_listp⟩, fl2, ?_,
      ⟨hI2, hW1.hp, hW1.brk_le, hW1.max_lt, hcov2, hna2⟩, ?_, max1, ?_⟩
    · rw [hmm]; rfl
    · show s1.seg_listp = g
      rw [seg1, seg0]
    · show s1.mem_brk = g + 1168
      rw [brk1, brk0]

/-- C12, as stated, fails: on a blank heap, after `mm_init`, `P = mm_malloc(1000)`
returns 1096, `Q = mm_malloc(16)` returns 2104, and after `mm_free(P)` the
following `mm_malloc(16)` returns 2128, which lies outside the range from 1096
to 2104 that the block of `P` occupied; the heap then holds the free block of
1008 bytes at 1096, unsplit. -/
theorem reuse_outside_released_block :
    trace_ok fuel0 heap0 ops_scenario_b = true ∧
    (trace fuel0 heap0 ops_scenario_b).map Prod.fst = some [1096, 2104, 0, 2128] ∧
    blocks_of fuel0 heap_released = [(1096, 1008, 0), (2104, 24, 1), (2128, 40, 0)] ∧
    blocks_of fuel0 (state_after fuel0 heap0 ops_scenario_b)
      = [(1096, 1008, 0), (2104, 24, 1), (2128, 24, 1), (2152, 16, 0)] ∧
    ¬ (1096 ≤ 2128 ∧ 2128 < 1096 + 1008) := by
  decide!

/-- C12, amended: on a fresh heap with room for 1168 bytes, after `mm_init`,
`P = mm_malloc(1000)`, `Q = mm_malloc(16)` and `mm_free(P)`, the following
`mm_malloc(16)` is satisfied without a call of `mem_sbrk` by splitting a free
block, which is not the released one: `free_find` returns the free block of 40
bytes behind the block of `Q`, at `R = Q + 24`, so `mm_malloc` takes the branch
that calls `addblock` and not `extend_heap`, and the break is unchanged; the
returned pointer is `R`, the block at `R` is split into an allocated block of 24
bytes and a free block of 16 bytes, and the range of the block of `P` stays one
free block of 1008 bytes. -/
theorem reuse_splits_remainder {s : State} (hF : Fresh s) (fuel : Nat)
    (hf : s.mem_max_addr ≤ fuel) (hroom : s.mem_brk + 1168 ≤ s.mem_max_addr) :
    ∃ P Q R c3 c4, P = s.mem_brk + 96 ∧ Q = P + 1008 ∧ R = Q + 24 ∧
      trace fuel s [.malloc 1000, .malloc 16, .free P] = some ([P, Q, 0], c3) ∧
      trace_ok fuel s [.malloc 1000, .malloc 16, .free P, .malloc 16] = true ∧
      step fuel c3 (.malloc 16) = some (R, c4) ∧
      trace fuel s [.malloc 1000, .malloc 16, .free P, .malloc 16] = some ([P, Q, 0, R], c4) ∧
      free_find fuel c3.st.mem c3.st.seg_listp (malloc_size 16) = some R ∧
      mm_malloc fuel c3.st 16
        = (addblock fuel c3.st.mem c3.st.seg_listp R (malloc_size 16)).map
            (fun r => (r.1, { c3.st with mem := r.2 })) ∧
      c4.st.mem_brk = c3.st.mem_brk ∧
      blocks_of fuel c3.st = [(P, 1008, 0), (Q, 24, 1), (R, 40, 0)] ∧
      blocks_of fuel c4.st = [(P, 1008, 0), (Q, 24, 1), (R, 24, 1), (R + 24, 16, 0)] ∧
      ¬ (P ≤ R ∧ R < P + 1008) := by
  have hf0 : 0 < fuel := by have := hF.pos; omega
  obtain ⟨s0, fl0, hi, hW0, seg0, max0, brk0⟩ := mm_init_exact hF fuel hf0 (by omega)
  obtain ⟨t0, k0⟩ := trace_start hi
  have hP0 : s.mem_brk + 96 ≠ 0 := by omega
  have hQ0 : s.mem_brk + 1104 ≠ 0 := by omega
  have hR0 : s.mem_brk + 1128 ≠ 0 := by omega
  -- the allocation of 1000 bytes
  obtain ⟨s1, fl1, hm1, hW1, seg1, max1, brk1⟩ :=
    malloc1000_first hW0 seg0 brk0 fuel (by omega) (by omega)
  -- the allocation of 16 bytes
  have hW1' : WF s1 ([(⟨s.mem_brk + 96, 1008, true⟩ : Blk)]
      ++ (⟨s.mem_brk + 1104, 64, false⟩ : Blk) :: []) fl1 := hW1
  obtain ⟨s2, fl2, _, hm2, hW2, seg2, max2, brk2⟩ :=
    malloc16_split hW1' rfl fuel (by omega) (by simp) (by simp)
      (by
        intro c hc hcf _
        simp only [List.mem_append, List.mem_cons, List.mem_singleton, List.not_mem_nil,
          or_false] at hc
        rcases hc with rfl | rfl
        · cases hcf
        · exact ⟨le_refl _, fun _ => rfl⟩)
      (A := s.mem_brk + 1104) (B := s.mem_brk + 1128) (S := 40) rfl (by omega) rfl
  -- the release of the large block
  have hW2' : WF s2 [(⟨s.mem_brk + 96, 1008, true⟩ : Blk), ⟨s.mem_brk + 1104, 24, true⟩,
      ⟨s.mem_brk + 1128, 40, false⟩] fl2 := hW2
  obtain ⟨s3, fl3, hfr, hW3, seg3, max3, brk3⟩ :=
    mm_free_exact hW2' (b := ⟨s.mem_brk + 96, 1008, true⟩) (by simp) rfl fuel hf0
      [⟨s.mem_brk + 96, 1008, false⟩, ⟨s.mem_brk + 1104, 24, true⟩,
        ⟨s.mem_brk + 1128, 40, false⟩]
      (by
        rw [seg2, seg1, brk2, brk1]
        simp only [Chained]
        repeat' constructor
        all_goals omega)
      (by unfold NoAdj; simp)
      (by
        intro c hc
        simp only [List.mem_cons, List.mem_singleton, List.not_mem_nil, or_false]
        constructor
        · rintro (rfl | rfl | rfl)
          · cases hc
          · exact ⟨Or.inr (Or.inl rfl), Blk.ne_of_addr (by simp only; omega)⟩
          · cases hc
        · rintro ⟨rfl | rfl | rfl, hne⟩
          · exact absurd rfl hne
          · exact Or.inr (Or.inl rfl)
          · cases hc)
  -- the allocation that follows
  have hc1 : cls 40 ≤ cls 1008 := by decide
  have hc2 : cls 1008 ≠ cls 40 := by decide
  have hW3' : WF s3 ([(⟨s.mem_brk + 96, 1008, false⟩ : Blk), ⟨s.mem_brk + 1104, 24, true⟩]
      ++ (⟨s.mem_brk + 1128, 40, false⟩ : Blk) :: []) fl3 := hW3
  obtain ⟨s4, fl4, hfind4, hm4, hW4, seg4, max4, brk4⟩ :=
    malloc16_split hW3' rfl fuel (by omega) (by simp) (by simp)
      (by
        intro c hc hcf hsz
        simp only [List.mem_append, List.mem_cons, List.mem_singleton, List.not_mem_nil,
          or_false] at hc
        rcases hc with (rfl | rfl) | rfl
        · exact ⟨hc1, fun e => absurd e hc2⟩
        · cases hcf
        · exact ⟨le_refl _, fun _ => rfl⟩)
      (A := s.mem_brk + 1128) (B := s.mem_brk + 1152) (S := 16) rfl (by omega) rfl
  -- the calls as steps of a caller
  have st1 : step fuel ⟨s0, []⟩ (.malloc 1000)
      = some (s.mem_brk + 96, ⟨s1, [s.mem_brk + 96]⟩) := by
    simp [step, hm1, live_add]
  have st2 : step fuel ⟨s1, [s.mem_brk + 96]⟩ (.malloc 16)
      = some (s.mem_brk + 1104, ⟨s2, [s.mem_brk + 1104, s.mem_brk + 96]⟩) := by
    simp [step, hm2, live_add]
  have st3 : step fuel ⟨s2, [s.mem_brk + 1104, s.mem_brk + 96]⟩ (.free (s.mem_brk + 96))
      = some (0, ⟨s3, [s.mem_brk + 1104]⟩) := by
    have : mm_free fuel s2 (s.mem_brk + 96) = some s3 := hfr
    simp [step, this]
  have st4 : step fuel ⟨s3, [s.mem_brk + 1104]⟩ (.malloc 16)
      = some (s.mem_brk + 1128, ⟨s4, [s.mem_brk + 1128, s.mem_brk + 1104]⟩) := by
    simp [step, hm4, live_add]
  have t1 := trace_snoc t0 (.malloc 1000) st1
  have t2 := trace_snoc t1 (.malloc 16) st2
  have t3 := trace_snoc t2 (.free (s.mem_brk + 96)) st3
  have t4 := trace_snoc t3 (.malloc 16) st4
  have k1 := trace_ok_snoc t0 k0 (.malloc 1000) (by simp [Op.ok, U32])
  have k2 := trace_ok_snoc t1 k1 (.malloc 16) (by simp [Op.ok, U32])
  have k3 := trace_ok_snoc t2 k2 (.free (s.mem_brk + 96)) (by simp [Op.ok])
  have k4 := trace_ok_snoc t3 k3 (.malloc 16) (by simp [Op.ok, U32])
  have hmax3 : s3.mem_max_addr ≤ fuel := by omega
  have hmax4 : s4.mem_max_addr ≤ fuel := by omega
  have b3 := hW3.blocks_of_eq hmax3
  have b4 := hW4.blocks_of_eq hmax4
  refine ⟨s.mem_brk + 96, s.mem_brk + 1104, s.mem_brk + 1128, ⟨s3, [s.mem_brk + 1104]⟩,
    ⟨s4, [s.mem_brk + 1128, s.mem_brk + 1104]⟩, rfl, by omega, by omega, t3, k4, st4, t4,
    hfind4, ?_, brk4, ?_, ?_, by omega⟩
  · exact mm_malloc_of_find fuel s3 16 (s.mem_brk + 1128) (by decide) hfind4 hR0
  · rw [b3]; rfl
  · have e : s.mem_brk + 1128 + 24 = s.mem_brk + 1152 := by omega
    show blocks_of fuel s4 = _
    rw [b4, e]
    rfl

theorem reuse_splits_remainder_witness :
    ∃ P Q R c3 c4, P = heap0.mem_brk + 96 ∧ Q = P + 1008 ∧ R = Q + 24 ∧
      trace fuel0 heap0 [.malloc 1000, .malloc 16, .free P] = some ([P, Q, 0], c3) ∧
      trace_ok fuel0 heap0 [.malloc 1000, .malloc 16, .free P, .malloc 16] = true ∧
      step fuel0 c3 (.malloc 16) = some (R, c4) ∧
      trace fuel0 heap0 [.malloc 1000, .malloc 16, .free P, .malloc 16]
        = some ([P, Q, 0, R], c4) ∧
      free_find fuel0 c3.st.mem c3.st.seg_listp (malloc_size 16) = some R ∧
      mm_malloc fuel0 c3.st 16
        = (addblock fuel0 c3.st.mem c3.st.seg_listp R (malloc_size 16)).map
            (fun r => (r.1, { c3.st with mem := r.2 })) ∧
      c4.st.mem_brk = c3.st.mem_brk ∧
      blocks_of fuel0 c3.st = [(P, 1008, 0), (Q, 24, 1), (R, 40, 0)] ∧
      blocks_of fuel0 c4.st = [(P, 1008, 0), (Q, 24, 1), (R, 24, 1), (R + 24, 16, 0)] ∧
      ¬ (P ≤ R ∧ R < P + 1008) :=
  reuse_splits_remainder heap0_fresh fuel0 (by decide) (by decide)

end MM


namespace MM

/-! ## The links of a described heap -/

/-- The head of a list has a null next-link. -/
theorem Inv.head_next {m : Mem} {seg brk : Nat} {bl : List Blk} {fl : Nat → List Nat}
    (hI : Inv m seg brk bl fl) {k : Nat} (hk : k < 20) (hne : GET_LIST m seg k ≠ 0) :
    NEXT_BLK_SEG m (GET_LIST m seg k) = 0 := by
  have hh : GET_LIST m seg k = (fl k).headD 0 := by
    simp only [GET_LIST, GET, LISTP, WSIZE]
    exact hI.heads k hk
  rw [hh] at hne ⊢
  have hL := hI.links k
  cases hfl : fl k with
  | nil => rw [hfl] at hne; exact absurd rfl hne
  | cons p rest =>
    rw [hfl] at hL
    simp only [List.headD_cons, NEXT_BLK_SEG, NEXT_BLKP_SEG, GET, WSIZE]
    exact hL.1

/-- The next-link of the node a prev-link points to leads back. -/
theorem Inv.prev_next {m : Mem} {seg brk : Nat} {bl : List Blk} {fl : Nat → List Nat}
    (hI : Inv m seg brk bl fl) {k p : Nat} (hp : p ∈ fl k) (hne : PREV_BLK_SEG m p ≠ 0) :
    NEXT_BLK_SEG m (PREV_BLK_SEG m p) = p := by
  simp only [PREV_BLK_SEG, NEXT_BLK_SEG, NEXT_BLKP_SEG, GET, WSIZE] at hne ⊢
  exact Links.inverse (fl k) 0 (hI.links k) p hp hne

/-! ### C21: where `addblock` places the allocation -/

/-- C21: for a free, linked block `b` of size `S` of a described heap and a
block size `r` (a multiple of 8 with `16 ≤ r ≤ S`), `addblock(b, r)` returns
`b + (S - r)`, the tail, with the free remainder of `S - r` bytes before it at
`b`, when `S - r ≥ 200`; it returns `b`, the head, with the free remainder
behind it at `b + r`, when `16 ≤ S - r < 200`; and it returns `b`, with the
whole block allocated, when `S - r < 16`. -/
theorem addblock_placement {m : Mem} {seg brk : Nat} {pre post : List Blk}
    {fl : Nat → List Nat} {b : Blk} (hI : Inv m seg brk (pre ++ b :: post) fl)
    (hcov : Covered (pre ++ b :: post) fl) (hfree : b.alloc = false)
    (r : Nat) (hr8 : r % 8 = 0) (hr16 : 16 ≤ r) (hrb : r ≤ b.size)
    (fuel : Nat) (hf : 0 < fuel) :
    ∃ q m1, addblock fuel m seg b.addr r = some (q, m1) ∧
      (200 ≤ b.size - r →
        q = b.addr + (b.size - r) ∧
        GET_SIZE m1 (HDRP b.addr) = b.size - r ∧ GET_ALLOC m1 (HDRP b.addr) = 0 ∧
        GET_SIZE m1 (HDRP q) = r ∧ GET_ALLOC m1 (HDRP q) = 1) ∧
      (16 ≤ b.size - r → b.size - r < 200 →
        q = b.addr ∧
        GET_SIZE m1 (HDRP q) = r ∧ GET_ALLOC m1 (HDRP q) = 1 ∧
        GET_SIZE m1 (HDRP (b.addr + r)) = b.size - r ∧
        GET_ALLOC m1 (HDRP (b.addr + r)) = 0) ∧
      (b.size - r < 16 →
        q = b.addr ∧ GET_SIZE m1 (HDRP q) = b.size ∧ GET_ALLOC m1 (HDRP q) = 1) := by
  obtain ⟨q, m1, mid1, fl1, h0, hI1, _, _, hcase⟩ :=
    addblock_core hI hcov hfree r hr8 hr16 hrb fuel hf
  refine ⟨q, m1, h0, ?_⟩
  rcases hcase with ⟨hlt, hq, hm⟩ | ⟨hge, hq, hm⟩ | ⟨hge, hlt, hq, hm⟩
  · subst hm
    have ha : (⟨b.addr, b.size, true⟩ : Blk) ∈ pre ++ [⟨b.addr, b.size, true⟩] ++ post := by
      simp
    have hw := hI1.hdr ha
    simp only [if_true] at hw
    rw [← hq] at hw
    exact ⟨fun h => by omega, fun h => by omega, fun _ => ⟨hq, hw.1, hw.2⟩⟩
  · subst hm
    have ha : (⟨b.addr + (b.size - r), r, true⟩ : Blk) ∈
        pre ++ [⟨b.addr, b.size - r, false⟩, ⟨b.addr + (b.size - r), r, true⟩] ++ post := by
      simp
    have hfm : (⟨b.addr, b.size - r, false⟩ : Blk) ∈
        pre ++ [⟨b.addr, b.size - r, false⟩, ⟨b.addr + (b.size - r), r, true⟩] ++ post := by
      simp
    have hw := hI1.hdr ha
    have hv := hI1.hdr hfm
    simp only [if_true] at hw
    simp only [Bool.false_eq_true, if_false] at hv
    rw [← hq] at hw
    exact ⟨fun _ => ⟨hq, hv.1, hv.2, hw.1, hw.2⟩, fun _ h => by omega, fun h => by omega⟩
  · subst hm
    have ha : (⟨b.addr, r, true⟩ : Blk) ∈
        pre ++ [⟨b.addr, r, true⟩, ⟨b.addr + r, b.size - r, false⟩] ++ post := by
      simp
    have hfm : (⟨b.addr + r, b.size - r, false⟩ : Blk) ∈
        pre ++ [⟨b.addr, r, true⟩, ⟨b.addr + r, b.size - r, false⟩] ++ post := by
      simp
    have hw := hI1.hdr ha
    have hv := hI1.hdr hfm
    simp only [if_true] at hw
    simp only [Bool.false_eq_true, if_false] at hv
    rw [← hq] at hw
    exact ⟨fun h => by omega, fun _ _ => ⟨hq, hw.1, hw.2, hv.1, hv.2⟩, fun h => by omega⟩

theorem addblock_placement_witness :
    trace_ok fuel0 heap0 ops_released_big = true ∧
    blocks_of fuel0 heap_released = [(1096, 1008, 0), (2104, 24, 1), (2128, 40, 0)] ∧
    (addblock fuel0 heap_released.mem heap_released.seg_listp 1096 24).map Prod.fst
      = some 2080 ∧
    (addblock fuel0 heap_released.mem heap_released.seg_listp 1096 904).map Prod.fst
      = some 1096 ∧
    (addblock fuel0 heap_released.mem heap_released.seg_listp 1096 1000).map Prod.fst
      = some 1096 ∧
    (∃ q m1, addblock fuel0 heap_released.mem heap_released.seg_listp 1096 24 = some (q, m1) ∧
        (200 ≤ 1008 - 24 →
          q = 1096 + (1008 - 24) ∧
          GET_SIZE m1 (HDRP 1096) = 1008 - 24 ∧ GET_ALLOC m1 (HDRP 1096) = 0 ∧
          GET_SIZE m1 (HDRP q) = 24 ∧ GET_ALLOC m1 (HDRP q) = 1) ∧
        (16 ≤ 1008 - 24 → 1008 - 24 < 200 →
          q = 1096 ∧
          GET_SIZE m1 (HDRP q) = 24 ∧ GET_ALLOC m1 (HDRP q) = 1 ∧
          GET_SIZE m1 (HDRP (1096 + 24)) = 1008 - 24 ∧
          GET_ALLOC m1 (HDRP (1096 + 24)) = 0) ∧
        (1008 - 24 < 16 →
          q = 1096 ∧ GET_SIZE m1 (HDRP q) = 1008 ∧ GET_ALLOC m1 (HDRP q) = 1)) ∧
    (∃ q m1, addblock fuel0 heap_released.mem heap_released.seg_listp 1096 904 = some (q, m1) ∧
        (200 ≤ 1008 - 904 →
          q = 1096 + (1008 - 904) ∧
          GET_SIZE m1 (HDRP 1096) = 1008 - 904 ∧ GET_ALLOC m1 (HDRP 1096) = 0 ∧
          GET_SIZE m1 (HDRP q) = 904 ∧ GET_ALLOC m1 (HDRP q) = 1) ∧
        (16 ≤ 1008 - 904 → 1008 - 904 < 200 →
          q = 1096 ∧
          GET_SIZE m1 (HDRP q) = 904 ∧ GET_ALLOC m1 (HDRP q) = 1 ∧
          GET_SIZE m1 (HDRP (1096 + 904)) = 1008 - 904 ∧
          GET_ALLOC m1 (HDRP (1096 + 904)) = 0) ∧
        (1008 - 904 < 16 →
          q = 1096 ∧ GET_SIZE m1 (HDRP q) = 1008 ∧ GET_ALLOC m1 (HDRP q) = 1)) ∧
    (∃ q m1, addblock fuel0 heap_released.mem heap_released.seg_listp 1096 1000 = some (q, m1) ∧
        (200 ≤ 1008 - 1000 →
          q = 1096 + (1008 - 1000) ∧
          GET_SIZE m1 (HDRP 1096) = 1008 - 1000 ∧ GET_ALLOC m1 (HDRP 1096) = 0 ∧
          GET_SIZE m1 (HDRP q) = 1000 ∧ GET_ALLOC m1 (HDRP q) = 1) ∧
        (16 ≤ 1008 - 1000 → 1008 - 1000 < 200 →
          q = 1096 ∧
          GET_SIZE m1 (HDRP q) = 1000 ∧ GET_ALLOC m1 (HDRP q) = 1 ∧
          GET_SIZE m1 (HDRP (1096 + 1000)) = 1008 - 1000 ∧
          GET_ALLOC m1 (HDRP (1096 + 1000)) = 0) ∧
        (1008 - 1000 < 16 →
          q = 1096 ∧ GET_SIZE m1 (HDRP q) = 1008 ∧ GET_ALLOC m1 (HDRP q) = 1)) := by
  obtain ⟨rs, c, ht, _, hA, hmax, _, _⟩ :=
    trace_spec heap0_fresh fuel0 (by decide) ops_released_big (by decide!) (by decide)
  obtain ⟨bl, fl, hW, _⟩ := hA (by decide)
  have e : heap_released = c.st := by simp only [heap_released, state_after, ht]
  have hin : (1096, 1008, 0) ∈ blocks_of fuel0 heap_released := by decide!
  refine ⟨by decide!, by decide!, by decide!, by decide!, by decide!, ?_⟩
  rw [e] at hin ⊢
  obtain ⟨b, hb, hbe⟩ := hW.block_read hmax hin
  obtain ⟨ba, bs, bal⟩ := b
  simp only [Prod.mk.injEq] at hbe
  obtain ⟨h1, h2, h3⟩ := hbe
  subst h1 h2
  have hbl : bal = false := by
    cases bal with
    | false => rfl
    | true => simp at h3
  subst hbl
  obtain ⟨pre, post, hsplit⟩ := List.append_of_mem hb
  subst hsplit
  exact ⟨addblock_placement (b := ⟨1096, 1008, false⟩) hW.inv hW.cov rfl 24 (by decide)
      (by decide) (by decide) fuel0 (by decide),
    addblock_placement (b := ⟨1096, 1008, false⟩) hW.inv hW.cov rfl 904 (by decide)
      (by decide) (by decide) fuel0 (by decide),
    addblock_placement (b := ⟨1096, 1008, false⟩) hW.inv hW.cov rfl 1000 (by decide)
      (by decide) (by decide) fuel0 (by decide)⟩

/-! ### C22: what `free_remove` unlinks -/

/-- C22: for a block `b` of a described heap that is linked in the list of
the class of its size, after `free_remove(b)` that list reads as before with
`b` erased, whether `b` was the head, the tail, the only node or a node in between,
and every other list reads as before; every list is a chain of links that
agree with each other, the next-link of every head is null, and `b` is in no
list. -/
theorem remove_erases_block {m : Mem} {seg brk : Nat} {bl : List Blk} {fl : Nat → List Nat}
    (hI : Inv m seg brk bl fl) {b : Blk} (hb : b ∈ bl) (fuel : Nat) (hf : brk ≤ fuel)
    (hin : b.addr ∈ list_nodes m fuel (GET_LIST m seg (cls b.size))) :
    (∀ k < 20,
      list_nodes (free_remove m seg b.addr) fuel (GET_LIST (free_remove m seg b.addr) seg k)
        = if k = cls b.size then (list_nodes m fuel (GET_LIST m seg k)).erase b.addr
          else list_nodes m fuel (GET_LIST m seg k)) ∧
    (∀ k < 20, Links (free_remove m seg b.addr) 0
      (list_nodes (free_remove m seg b.addr) fuel (GET_LIST (free_remove m seg b.addr) seg k))
      0) ∧
    (∀ k < 20, GET_LIST (free_remove m seg b.addr) seg k ≠ 0 →
      NEXT_BLK_SEG (free_remove m seg b.addr) (GET_LIST (free_remove m seg b.addr) seg k)
        = 0) ∧
    (∀ k < 20, ∀ p ∈ list_nodes (free_remove m seg b.addr) fuel
        (GET_LIST (free_remove m seg b.addr) seg k),
      PREV_BLK_SEG (free_remove m seg b.addr) p ≠ 0 →
      NEXT_BLK_SEG (free_remove m seg b.addr) (PREV_BLK_SEG (free_remove m seg b.addr) p)
        = p) ∧
    (∀ k < 20, b.addr ∉ list_nodes (free_remove m seg b.addr) fuel
      (GET_LIST (free_remove m seg b.addr) seg k)) := by
  have h19 := cls_le b.size
  have hin1 : b.addr ∈ fl (cls b.size) := by
    rw [hI.list_nodes_eq (by omega) hf] at hin
    exact hin
  obtain ⟨hI1, _⟩ := free_remove_spec hI hb hin1
  have hread : ∀ k < 20,
      list_nodes (free_remove m seg b.addr) fuel (GET_LIST (free_remove m seg b.addr) seg k)
        = if k = cls b.size then (fl k).erase b.addr else fl k := by
    intro k hk
    rw [hI1.list_nodes_eq hk hf]
    by_cases e : k = cls b.size
    · rw [if_pos e, e, Function.update_same]
    · rw [if_neg e, Function.update_noteq e]
  refine ⟨?_, ?_, ?_, ?_, ?_⟩
  · intro k hk
    rw [hread k hk, hI.list_nodes_eq hk hf]
  · intro k hk
    rw [hI1.list_nodes_eq hk hf]
    exact hI1.links k
  · intro k hk
    exact hI1.head_next hk
  · intro k hk p hp
    rw [hI1.list_nodes_eq hk hf] at hp
    exact hI1.prev_next hp
  · intro k hk hmem
    rw [hread k hk] at hmem
    by_cases e : k = cls b.size
    · rw [if_pos e] at hmem
      exact ((hI.nodup k).mem_erase_iff.1 hmem).1 rfl
    · rw [if_neg e] at hmem
      exact e (hI.node_blk hb hmem).2.symm

theorem remove_erases_block_witness :
    trace_ok fuel0 heap0 ops_three_free = true ∧
    list_nodes heap_three.mem fuel0 (GET_LIST heap_three.mem heap_three.seg_listp 4)
      = [1144, 1096, 1272] ∧
    list_nodes heap_three.mem fuel0 (GET_LIST heap_three.mem heap_three.seg_listp 5)
      = [1192] ∧
    list_nodes (free_remove heap_three.mem heap_three.seg_listp 1096) fuel0
      (GET_LIST (free_remove heap_three.mem heap_three.seg_listp 1096) heap_three.seg_listp 4)
      = [1144, 1272] ∧
    list_nodes (free_remove heap_three.mem heap_three.seg_listp 1144) fuel0
      (GET_LIST (free_remove heap_three.mem heap_three.seg_listp 1144) heap_three.seg_listp 4)
      = [1096, 1272] ∧
    list_nodes (free_remove heap_three.mem heap_three.seg_listp 1272) fuel0
      (GET_LIST (free_remove heap_three.mem heap_three.seg_listp 1272) heap_three.seg_listp 4)
      = [1144, 1096] ∧
    list_nodes (free_remove heap_three.mem heap_three.seg_listp 1192) fuel0
      (GET_LIST (free_remove heap_three.mem heap_three.seg_listp 1192) heap_three.seg_listp 5)
      = [] ∧
    ((∀ k < 20,
      list_nodes (free_remove heap_three.mem heap_three.seg_listp 1096) fuel0
          (GET_LIST (free_remove heap_three.mem heap_three.seg_listp 1096)
            heap_three.seg_listp k)
        = if k = cls 24 then (list_nodes heap_three.mem fuel0
            (GET_LIST heap_three.mem heap_three.seg_listp k)).erase 1096
          else list_nodes heap_three.mem fuel0
            (GET_LIST heap_three.mem heap_three.seg_listp k)) ∧
    (∀ k < 20, Links (free_remove heap_three.mem heap_three.seg_listp 1096) 0
      (list_nodes (free_remove heap_three.mem heap_three.seg_listp 1096) fuel0
        (GET_LIST (free_remove heap_three.mem heap_three.seg_listp 1096)
          heap_three.seg_listp k)) 0) ∧
    (∀ k < 20,
      GET_LIST (free_remove heap_three.mem heap_three.seg_listp 1096) heap_three.seg_listp k
        ≠ 0 →
      NEXT_BLK_SEG (free_remove heap_three.mem heap_three.seg_listp 1096)
        (GET_LIST (free_remove heap_three.mem heap_three.seg_listp 1096)
          heap_three.seg_listp k) = 0) ∧
    (∀ k < 20, ∀ p ∈ list_nodes (free_remove heap_three.mem heap_three.seg_listp 1096) fuel0
        (GET_LIST (free_remove heap_three.mem heap_three.seg_listp 1096)
          heap_three.seg_listp k),
      PREV_BLK_SEG (free_remove heap_three.mem heap_three.seg_listp 1096) p ≠ 0 →
      NEXT_BLK_SEG (free_remove heap_three.mem heap_three.seg_listp 1096)
        (PREV_BLK_SEG (free_remove heap_three.mem heap_three.seg_listp 1096) p) = p) ∧
    (∀ k < 20, 1096 ∉ list_nodes (free_remove heap_three.mem heap_three.seg_listp 1096) fuel0
      (GET_LIST (free_remove heap_three.mem heap_three.seg_listp 1096)
        heap_three.seg_listp k))) := by
  refine ⟨by decide!, by decide!, by decide!, by decide!, by decide!, by decide!, by decide!,
    ?_⟩
  obtain ⟨rs, c, ht, _, hA, hmax, _, _⟩ :=
    trace_spec heap0_fresh fuel0 (by decide) ops_three_free (by decide!) (by decide)
  obtain ⟨bl, fl, hW, _⟩ := hA (by decide)
  have e : heap_three = c.st := by simp only [heap_three, state_after, ht]
  have hin : (1096, 24, 0) ∈ blocks_of fuel0 heap_three := by decide!
  have hl : (1096 : Nat) ∈ list_nodes heap_three.mem fuel0
      (GET_LIST heap_three.mem heap_three.seg_listp (cls 24)) := by decide!
  rw [e] at hin hl ⊢
  obtain ⟨b, hb, hbe⟩ := hW.block_read hmax hin
  obtain ⟨ba, bs, bal⟩ := b
  simp only [Prod.mk.injEq] at hbe
  obtain ⟨h1, h2, _⟩ := hbe
  subst h1 h2
  exact remove_erases_block hW.inv hb fuel0 (le_trans hW.brk_le hmax) hl

/-! ### C23: where `free_insert` inserts -/

/-- `free_insert(bp, size)` on a described heap, for any size below 2^32 and
any 8-aligned address `bp` behind the list heads that no list links: the block
becomes the head of the list of the class of `size`, in front of the nodes the
list had, and the other lists keep their heads and links. -/
theorem free_insert_any {m : Mem} {seg brk : Nat} {bl : List Blk} {fl : Nat → List Nat}
    (hI : Inv m seg brk bl fl) (bp size : Nat) (hs : size < U32) (hal : bp % 8 = 0)
    (hlo : seg + 96 ≤ bp) (hnot : ∀ k, bp ∉ fl k) (fuel : Nat) (hf : 0 < fuel) :
    ∃ m1, free_insert fuel m seg bp size = some m1 ∧
      (∀ k < 20, m1 (seg + 4 * k)
        = ((Function.update fl (cls size) (bp :: fl (cls size))) k).headD 0) ∧
      (∀ k, Links m1 0 ((Function.update fl (cls size) (bp :: fl (cls size))) k) 0) := by
  have hk19 := cls_le size
  have hnode : ∀ x ∈ fl (cls size), seg + 96 ≤ x ∧ x + 16 ≤ brk ∧ x % 8 = 0 :=
    fun x hx => hI.node hx
  have hH := hI.heads (cls size) (by omega)
  have hL := hI.links (cls size)
  have hnot0 := hnot (cls size)
  have core : ∃ m1, free_insert fuel m seg bp size = some m1 ∧
      (∀ a, a ≠ seg + 4 * cls size → a ≠ bp → a ≠ bp + 4 →
        (∀ x ∈ fl (cls size), a ≠ x + 4) → m1 a = m a) ∧
      m1 (seg + 4 * cls size) = bp ∧
      Links m1 0 (bp :: fl (cls size)) 0 := by
    cases hl : fl (cls size) with
    | nil =>
      rw [hl] at hH
      refine ⟨_, free_insert_empty fuel m seg bp size _ hf rfl hH, ?_, ?_, ?_⟩
      · intro a h1 h2 h3 _
        rw [PUT_other _ _ _ _ h1, PUT_other _ _ _ _ h3, PUT_other _ _ _ _ h2]
      · simp
      · refine ⟨?_, ?_, trivial⟩
        · rw [PUT_other _ _ _ _ (by omega)]; simp
        · rw [PUT_other _ _ _ _ (by omega), PUT_other _ _ _ _ (by omega)]; simp
    | cons h r =>
      rw [hl] at hH hL hnode hnot0
      simp only [List.headD_cons] at hH
      have hh := hnode h (by simp)
      have h0 : h ≠ 0 := by omega
      have hhb : h ≠ bp := fun e => hnot0 (by simp [e])
      obtain ⟨c, hc, hca, hcf, hcc⟩ := hI.nodes (cls size) h (by rw [hl]; simp)
      have hcb := hI.blk hc
      have hsz : (class_loop (MAX_SEGLIST - 1) 0 size).2 ≤ GET_SIZE m (HDRP h) := by
        rw [← hca, (hI.hdr hc).1]
        exact class_loop_snd_le _ _ hs (by omega) hcc
      refine ⟨_, free_insert_front fuel m seg bp size _ h hf rfl hH h0 hsz, ?_, ?_, ?_⟩
      · intro a h1 h2 h3 hx
        have := hx h (by simp)
        rw [PUT_other _ _ _ _ h1, PUT_other _ _ _ _ h3, PUT_other _ _ _ _ this,
          PUT_other _ _ _ _ h2]
      · simp
      · obtain ⟨_, h2, h3⟩ := hL
        have hnd := hI.nodup (cls size)
        rw [hl] at hnd
        have hhr : h ∉ r := (List.nodup_cons.1 hnd).1
        refine ⟨?_, ?_, ?_, ?_, ?_⟩
        · rw [PUT_other _ _ _ _ (by omega)]; simp
        · rw [PUT_other _ _ _ _ (by omega), PUT_other _ _ _ _ (by omega),
            PUT_other _ _ _ _ (by omega)]
          simp
        · rw [PUT_other _ _ _ _ (by omega), PUT_other _ _ _ _ (by omega)]; simp
        · rw [PUT_other _ _ _ _ (by omega), PUT_other _ _ _ _ (by omega),
            PUT_other _ _ _ _ (by omega), PUT_other _ _ _ _ hhb]
          exact h2
        · apply h3.links_frame
          intro x hx
          have hxn := hnode x (by simp [hx])
          have hxh : x ≠ h := fun e => hhr (e ▸ hx)
          have hxb : x ≠ bp := fun e => hnot0 (by simp [← e, hx])
          constructor
          · rw [PUT_other _ _ _ _ (by omega), PUT_other _ _ _ _ (by omega),
              PUT_other _ _ _ _ (by omega), PUT_other _ _ _ _ hxb]
          · rw [PUT_other _ _ _ _ (by omega), PUT_other _ _ _ _ (by omega),
              PUT_other _ _ _ _ (by omega), PUT_other _ _ _ _ (by omega)]
  obtain ⟨m1, hm1, hcells, hhead, hlinks⟩ := core
  refine ⟨m1, hm1, ?_, ?_⟩
  · intro k hk
    by_cases hkk : k = cls size
    · subst hkk; simp [hhead]
    · rw [Function.update_noteq hkk]
      rw [hcells _ (by omega) (by omega) (by omega)]
      · exact hI.heads k hk
      · intro x hx
        have := hnode x hx
        omega
  · intro k
    by_cases hkk : k = cls size
    · subst hkk; simpa using hlinks
    · rw [Function.update_noteq hkk]
      apply (hI.links k).links_frame
      intro y hy
      have hyn := hI.node hy
      have hyb : y ≠ bp := fun e => hnot k (e ▸ hy)
      have hdiff : ∀ x ∈ fl (cls size), y ≠ x := by
        intro x hx h
        subst h
        exact hkk (hI.node_sep hy hx)
      constructor
      · apply hcells _ (by omega) hyb (by omega)
        intro x hx
        have := hnode x hx
        omega
      · apply hcells _ (by omega) (by omega) (by omega)
        intro x hx
        have := hnode x hx
        have := hdiff x hx
        omega

/-- C23: `free_insert` always inserts at the head of the list.  In a described
heap, in which every list links free blocks of its own class, for every size
below 2^32 and every 8-aligned address `bp` behind the list heads that no list
links, the ordering walk of `free_insert(bp, size)` makes no step: it returns the
head of the list of the class of `size` and a null insertion point;
`free_insert` returns, the list of the class of `size` reads as `bp` followed by
what it read before, and every other list reads as before. -/
theorem insert_at_head {m : Mem} {seg brk : Nat} {bl : List Blk} {fl : Nat → List Nat}
    (hI : Inv m seg brk bl fl) (bp size : Nat) (hs : size < U32) (hal : bp % 8 = 0)
    (hlo : seg + 96 ≤ bp) (fuel : Nat) (hf : brk ≤ fuel)
    (hnot : ∀ k < 20, bp ∉ list_nodes m fuel (GET_LIST m seg k)) :
    insert_walk m (class_loop (MAX_SEGLIST - 1) 0 size).2 fuel
        (GET_LIST m seg (cls size)) 0 = some (GET_LIST m seg (cls size), 0) ∧
    ∃ m1, free_insert fuel m seg bp size = some m1 ∧
      ∀ k < 20, list_nodes m1 fuel (GET_LIST m1 seg k)
        = if k = cls size then bp :: list_nodes m fuel (GET_LIST m seg k)
          else list_nodes m fuel (GET_LIST m seg k) := by
  have h19 := cls_le size
  have hbrk := hI.chained.le
  have hf0 : 0 < fuel := by omega
  have hnot1 : ∀ k, bp ∉ fl k := by
    intro k hk
    obtain ⟨c, _, _, _, hcc⟩ := hI.nodes k bp hk
    have hk20 : k < 20 := by have := cls_le c.size; omega
    have := hnot k hk20
    rw [hI.list_nodes_eq hk20 hf] at this
    exact this hk
  constructor
  · apply insert_walk_stop _ _ _ _ hf0
    intro hne
    have hh : GET_LIST m seg (cls size) = (fl (cls size)).headD 0 := by
      simp only [GET_LIST, GET, LISTP, WSIZE]
      exact hI.heads _ (by omega)
    rw [hh] at hne ⊢
    cases hl : fl (cls size) with
    | nil => rw [hl] at hne; exact absurd rfl hne
    | cons h r =>
      simp only [List.headD_cons]
      obtain ⟨c, hc, hca, _, hcc⟩ := hI.nodes (cls size) h (by rw [hl]; simp)
      have hcb := hI.blk hc
      rw [← hca, (hI.hdr hc).1]
      exact class_loop_snd_le _ _ hs (by omega) hcc
  · obtain ⟨m1, h0, hheads, hlinks⟩ := free_insert_any hI bp size hs hal hlo hnot1 fuel hf0
    refine ⟨m1, h0, fun k hk => ?_⟩
    have hhead : GET_LIST m1 seg k
        = ((Function.update fl (cls size) (bp :: fl (cls size))) k).headD 0 := by
      simp only [GET_LIST, GET, LISTP, WSIZE]
      exact hheads k hk
    have hlen : ∀ j, (fl j).length + 1 < fuel := by
      intro j
      have := nodup_length_le (fl j) (brk - 15) (hI.nodup j) (by
        intro x hx
        have := hI.node hx
        omega)
      omega
    rw [hhead, hI.list_nodes_eq hk hf]
    by_cases e : k = cls size
    · rw [if_pos e]
      have hw := list_walk m1 _ 0 fuel (hlinks k) (by
        intro x hx
        rw [e, Function.update_same] at hx
        rcases List.mem_cons.1 hx with h | h
        · omega
        · have := hI.node h; omega) (by
        rw [e, Function.update_same]
        have := hlen (cls size)
        simp only [List.length_cons]
        omega)
      rw [hw, e, Function.update_same]
    · rw [if_neg e]
      have hw := list_walk m1 _ 0 fuel (hlinks k) (by
        intro x hx
        rw [Function.update_noteq e] at hx
        have := hI.node hx; omega) (by
        rw [Function.update_noteq e]
        have := hlen k
        omega)
      rw [hw, Function.update_noteq e]

theorem insert_at_head_witness :
    trace_ok fuel0 heap0 ops_three_free = true ∧
    list_nodes (free_remove heap_three.mem heap_three.seg_listp 1096) fuel0
      (GET_LIST (free_remove heap_three.mem heap_three.seg_listp 1096) heap_three.seg_listp 4) = [1144, 1272] ∧
    (free_insert fuel0 (free_remove heap_three.mem heap_three.seg_listp 1096) heap_three.seg_listp 1096 24).map
      (fun m1 => (list_nodes m1 fuel0 (GET_LIST m1 heap_three.seg_listp 4),
        list_sizes m1 fuel0 heap_three.seg_listp 4)) = some ([1096, 1144, 1272], [24, 24, 16]) ∧
    insert_walk (free_remove heap_three.mem heap_three.seg_listp 1096)
        (class_loop (MAX_SEGLIST - 1) 0 24).2 fuel0
        (GET_LIST (free_remove heap_three.mem heap_three.seg_listp 1096) heap_three.seg_listp (cls 24)) 0
      = some (GET_LIST (free_remove heap_three.mem heap_three.seg_listp 1096) heap_three.seg_listp (cls 24), 0) ∧
    (∃ m1, free_insert fuel0 (free_remove heap_three.mem heap_three.seg_listp 1096) heap_three.seg_listp 1096 24 = some m1 ∧
      ∀ k < 20, list_nodes m1 fuel0 (GET_LIST m1 heap_three.seg_listp k)
        = if k = cls 24 then 1096 :: list_nodes (free_remove heap_three.mem heap_three.seg_listp 1096) fuel0
              (GET_LIST (free_remove heap_three.mem heap_three.seg_listp 1096) heap_three.seg_listp k)
          else list_nodes (free_remove heap_three.mem heap_three.seg_listp 1096) fuel0
              (GET_LIST (free_remove heap_three.mem heap_three.seg_listp 1096) heap_three.seg_listp k)) ∧
    cls 33554432 = 19 ∧
    insert_walk (free_remove heap_three.mem heap_three.seg_listp 1096)
        (class_loop (MAX_SEGLIST - 1) 0 33554432).2 fuel0
        (GET_LIST (free_remove heap_three.mem heap_three.seg_listp 1096) heap_three.seg_listp (cls 33554432)) 0
      = some (GET_LIST (free_remove heap_three.mem heap_three.seg_listp 1096) heap_three.seg_listp (cls 33554432), 0) ∧
    ∃ m1, free_insert fuel0 (free_remove heap_three.mem heap_three.seg_listp 1096) heap_three.seg_listp 1096 33554432 = some m1 ∧
      ∀ k < 20, list_nodes m1 fuel0 (GET_LIST m1 heap_three.seg_listp k)
        = if k = cls 33554432 then 1096 :: list_nodes (free_remove heap_three.mem heap_three.seg_listp 1096) fuel0
              (GET_LIST (free_remove heap_three.mem heap_three.seg_listp 1096) heap_three.seg_listp k)
          else list_nodes (free_remove heap_three.mem heap_three.seg_listp 1096) fuel0
              (GET_LIST (free_remove heap_three.mem heap_three.seg_listp 1096) heap_three.seg_listp k) := by
  refine ⟨by decide!, by decide!, by decide!, ?_⟩
  obtain ⟨rs, c, ht, _, hA, hmax, _, _⟩ :=
    trace_spec heap0_fresh fuel0 (by decide) ops_three_free (by decide!) (by decide)
  obtain ⟨bl, fl, hW, _⟩ := hA (by decide)
  have e : heap_three = c.st := by simp only [heap_three, state_after, ht]
  have hseg : heap_three.seg_listp + 96 ≤ 1096 := by decide!
  have hin : (1096, 24, 0) ∈ blocks_of fuel0 heap_three := by decide!
  have hl : (1096 : Nat) ∈ list_nodes heap_three.mem fuel0
      (GET_LIST heap_three.mem heap_three.seg_listp (cls 24)) := by decide!
  have hnot : ∀ k < 20, (1096 : Nat) ∉ list_nodes (free_remove heap_three.mem heap_three.seg_listp 1096) fuel0
      (GET_LIST (free_remove heap_three.mem heap_three.seg_listp 1096) heap_three.seg_listp k) := by decide!
  rw [e] at hin hl hnot hseg ⊢
  obtain ⟨b, hb, hbe⟩ := hW.block_read hmax hin
  obtain ⟨ba, bs, bal⟩ := b
  simp only [Prod.mk.injEq] at hbe
  obtain ⟨h1, h2, h3⟩ := hbe
  subst h1 h2
  have hl1 : (1096 : Nat) ∈ fl (cls 24) := by
    rw [hW.inv.list_nodes_eq (by decide) (le_trans hW.brk_le hmax)] at hl
    exact hl
  obtain ⟨hI1, _⟩ := free_remove_spec hW.inv hb hl1
  have k1 := insert_at_head hI1 1096 24 (by decide) (by decide) hseg fuel0
    (le_trans hW.brk_le hmax) hnot
  have k2 := insert_at_head hI1 1096 33554432 (by decide) (by decide) hseg fuel0
    (le_trans hW.brk_le hmax) hnot
  exact ⟨k1.1, k1.2, by decide, k2.1, k2.2⟩

/-! ### C24: the block size of a request -/

/-- C24: for a request of `n` bytes with `1 ≤ n ≤ 2^32 - 16` the block size
`mm_malloc` computes is a multiple of 8, at least 16 and at least `n + 8`; it
is 16 when `n ≤ 8` and `8 * ceil(n / 8) + 8` otherwise. -/
theorem request_rounding (n : Nat) (h1 : 1 ≤ n) (h2 : n + 16 ≤ U32) :
    malloc_size n % 8 = 0 ∧ 16 ≤ malloc_size n ∧ n + 8 ≤ malloc_size n ∧
      malloc_size n = (if n ≤ 8 then 16 else 8 * ((n + 7) / 8) + 8) ∧
      ((n + 7) / 8 = n / 8 + (if n % 8 = 0 then 0 else 1)) := by
  have hs := malloc_size_spec n h1 h2
  refine ⟨hs.1, hs.2.1, hs.2.2.1, ?_, ?_⟩
  · unfold malloc_size
    simp only [DSIZE, U32] at *
    split
    · rfl
    · rw [add32_small n 8 (by simp only [U32]; omega),
        add32_small (n + 8) _ (by simp only [U32]; omega)]
      unfold mul32
      simp only [U32]
      omega
  · split <;> omega

theorem request_rounding_witness :
    malloc_size 1 = 16 ∧ malloc_size 8 = 16 ∧ malloc_size 9 = 24 ∧ malloc_size 1000 = 1008 ∧
    malloc_size 4294967280 = 4294967288 ∧ malloc_size 4294967281 = 0 ∧
    (malloc_size 1000 % 8 = 0 ∧ 16 ≤ malloc_size 1000 ∧ 1000 + 8 ≤ malloc_size 1000 ∧
      malloc_size 1000 = (if 1000 ≤ 8 then 16 else 8 * ((1000 + 7) / 8) + 8) ∧
      ((1000 + 7) / 8 = 1000 / 8 + (if 1000 % 8 = 0 then 0 else 1))) :=
  ⟨by decide, by decide, by decide, by decide, by decide, by decide,
    request_rounding 1000 (by decide) (by decide)⟩

end MM
